import Mathlib

/-!
# jsmn: token arena, parser, builder and serializer

A shallow embedding of `src/jsmn.c` / `src/jsmn.h`.

Conventions of the embedding.

* A byte is a natural number (`0 .. 255`); a buffer `js` is a list of bytes and is
  passed together with its length `len`, as in the C signature.  A read `js[i]`
  is `js.getD i 0`.
* The token storage `toks` is `none` for a NULL pointer and `some l` otherwise,
  where `l` lists the allocated slots `toks[0] .. toks[toknext-1]`; `toknext` is
  the length of that list.  `jsmn_alloc_token` appends freshly reset slots.
* Every access `toks[i]` goes through `tokAt`; an index outside
  `0 .. toknext-1` makes the run end in `Run.bounds`.
* Loops are bounded recursions; a loop that uses up its bound ends in
  `Run.fuel`.  The entry points pass a bound that the loop cannot use up.
* Offsets and counters are unbounded integers: they agree with the C `int` and
  `unsigned int` values for buffers shorter than `2^31` bytes.
-/

namespace Jsmn

/-- JSON type of a token (`jsmntype_t`). -/
inductive jsmntype_t where
  | JSMN_UNDEFINED
  | JSMN_OBJECT
  | JSMN_ARRAY
  | JSMN_LABEL
  | JSMN_STRING
  | JSMN_PRIMITIVE
  deriving DecidableEq, Repr

open jsmntype_t

/-- Not enough tokens were provided. -/
abbrev JSMN_ERROR_NOMEM : Int := -1
/-- Invalid character inside JSON string. -/
abbrev JSMN_ERROR_INVAL : Int := -2
/-- The string is not a full JSON packet, more bytes expected. -/
abbrev JSMN_ERROR_PART : Int := -3
/-- Something went wrong while composing the JSON tokens. -/
abbrev JSMN_ERROR_FACTORY : Int := -4

/-- Value of the `data` pointer of a token: NULL, a pointer `js + off` into the
parsed buffer, or a pointer to a caller-owned C string. -/
inductive jsmn_data where
  | null
  | js (off : Int)
  | str (s : List Nat)
  deriving DecidableEq, Repr

/-- JSON token (`jsmn_Token`). -/
structure jsmn_Token where
  type : jsmntype_t
  data : jsmn_data
  length : Int
  start : Int
  end_ : Int
  size : Int
  parent : Int
  deriving DecidableEq, Repr

/-- JSON factory (`jsmn_Factory`): token storage, its capacity, and the
superior token. -/
structure jsmn_Factory where
  toks : Option (List jsmn_Token)
  tokslen : Nat
  toksuper : Int
  deriving DecidableEq, Repr

/-- Index of the next token to allocate. -/
def jsmn_Factory.toknext (factory : jsmn_Factory) : Nat :=
  match factory.toks with
  | none => 0
  | some l => l.length

/-- JSON parser (`jsmn_Parser`): a factory and the offset in the JSON string. -/
structure jsmn_Parser where
  factory : jsmn_Factory
  pos : Nat
  deriving DecidableEq, Repr

/-- Outcome of a run of the embedded code: a result, an access to the token
array outside the allocated slots, or an exhausted loop bound. -/
inductive Run (α : Type) where
  | ok (a : α)
  | bounds
  | fuel
  deriving DecidableEq, Repr

/-- The slot as `jsmn_alloc_token` resets it. -/
def fresh_token : jsmn_Token :=
  { type := JSMN_UNDEFINED, data := jsmn_data.null, length := -1, start := -1, end_ := -1,
    size := 0, parent := -1 }

/-- Read of `toks[i]`. -/
def tokAt (toks : List jsmn_Token) (i : Int) : Option jsmn_Token :=
  if 0 ≤ i then toks.get? i.toNat else none

/-- Write of `toks[i]`. -/
def tokSet (toks : List jsmn_Token) (i : Int) (t : jsmn_Token) : List jsmn_Token :=
  toks.set i.toNat t

/-- Allocates `len` fresh unused tokens from the token pool; `none` is the NULL
return, otherwise the index of the first new token and the token array with the
new slots.  (With NULL storage nothing can be allocated; the parser never asks
for it.) -/
def jsmn_alloc_token (factory : jsmn_Factory) (len : Nat) : Option (Nat × List jsmn_Token) :=
  if factory.toknext + (len - 1) ≥ factory.tokslen then none
  else
    match factory.toks with
    | none => none
    | some l => some (l.length, l ++ List.replicate len fresh_token)

/-- Fills token type and boundaries. -/
def jsmn_fill_token (token : jsmn_Token) (type : jsmntype_t) (start end_ : Int) : jsmn_Token :=
  { token with type := type, start := start, end_ := end_, size := 0 }

/-- Initialise a factory; `toks` tells whether the storage pointer is non-NULL. -/
def jsmn_factory_init (toks : Bool) (len : Nat) : jsmn_Factory :=
  { toks := if toks then some [] else none, tokslen := len, toksuper := -1 }

/-- Initialise a parser. -/
def jsmn_parser_init (toks : Bool) (len : Nat) : jsmn_Parser :=
  { factory := jsmn_factory_init toks len, pos := 0 }

/-- The bytes tab, CR, LF, space, `,`, `]`, `}` that end a primitive. -/
def isTerminator (c : Nat) : Bool :=
  c = 9 || c = 13 || c = 10 || c = 32 || c = 44 || c = 93 || c = 125

/-- The scanning loop of `jsmn_parse_primitive` from `pos`: the position of the
terminator found, or the error code. -/
def primitive_loop (js : List Nat) (len : Nat) : Nat → Nat → Run (Int ⊕ Nat)
  | 0, _ => Run.fuel
  | fuel + 1, pos =>
    if pos < len ∧ js.getD pos 0 ≠ 0 then
      if isTerminator (js.getD pos 0) then Run.ok (Sum.inr pos)
      else if js.getD pos 0 < 32 ∨ js.getD pos 0 ≥ 127 then Run.ok (Sum.inl JSMN_ERROR_INVAL)
      else primitive_loop js len fuel (pos + 1)
    else Run.ok (Sum.inl JSMN_ERROR_PART)

/-- Fills next available token with JSON primitive. -/
def jsmn_parse_primitive (parser : jsmn_Parser) (js : List Nat) (len : Nat) :
    Run (Int × jsmn_Parser) :=
  let start := parser.pos
  match primitive_loop js len (len - parser.pos + 1) parser.pos with
  | Run.fuel => Run.fuel
  | Run.bounds => Run.bounds
  | Run.ok (Sum.inl e) => Run.ok (e, { parser with pos := start })
  | Run.ok (Sum.inr pos) =>
    match parser.factory.toks with
    | none => Run.ok (0, { parser with pos := pos - 1 })
    | some _ =>
      match jsmn_alloc_token parser.factory 1 with
      | none => Run.ok (JSMN_ERROR_NOMEM, { parser with pos := start })
      | some (tok, l) =>
        let token := jsmn_fill_token fresh_token JSMN_PRIMITIVE start pos
        let token := { token with parent := parser.factory.toksuper }
        Run.ok (0, { factory := { parser.factory with toks := some (tokSet l tok token) },
                     pos := pos - 1 })

/-- Hex digit test of the `\u` escape. -/
def isHex (c : Nat) : Bool :=
  (48 ≤ c && c ≤ 57) || (65 ≤ c && c ≤ 70) || (97 ≤ c && c ≤ 102)

/-- The loop over the (up to four) digits of a `\u` escape, `n` digits still to
read: `none` on a non-hex byte, otherwise the position reached. -/
def hex_loop (js : List Nat) (len : Nat) : Nat → Nat → Option Nat
  | 0, pos => some pos
  | n + 1, pos =>
    if pos < len ∧ js.getD pos 0 ≠ 0 then
      if isHex (js.getD pos 0) then hex_loop js len n (pos + 1) else none
    else some pos

/-- The single bytes allowed after a backslash: `"` `/` `\` `b` `f` `r` `n` `t`. -/
def isEscaped (c : Nat) : Bool :=
  c = 34 || c = 47 || c = 92 || c = 98 || c = 102 || c = 114 || c = 110 || c = 116

/-- The scanning loop of `jsmn_parse_string` from `pos`: the position of the
closing quote found, or the error code. -/
def string_loop (js : List Nat) (len : Nat) : Nat → Nat → Run (Int ⊕ Nat)
  | 0, _ => Run.fuel
  | fuel + 1, pos =>
    if pos < len ∧ js.getD pos 0 ≠ 0 then
      if js.getD pos 0 = 34 then Run.ok (Sum.inr pos)
      else if js.getD pos 0 = 92 ∧ pos + 1 < len then
        if isEscaped (js.getD (pos + 1) 0) then string_loop js len fuel (pos + 1 + 1)
        else if js.getD (pos + 1) 0 = 117 then
          match hex_loop js len 4 (pos + 1 + 1) with
          | none => Run.ok (Sum.inl JSMN_ERROR_INVAL)
          | some p => string_loop js len fuel (p - 1 + 1)
        else Run.ok (Sum.inl JSMN_ERROR_INVAL)
      else string_loop js len fuel (pos + 1)
    else Run.ok (Sum.inl JSMN_ERROR_PART)

/-- Fills next token with JSON string. -/
def jsmn_parse_string (parser : jsmn_Parser) (js : List Nat) (len : Nat) :
    Run (Int × jsmn_Parser) :=
  let start := parser.pos
  match string_loop js len (len - parser.pos + 1) (parser.pos + 1) with
  | Run.fuel => Run.fuel
  | Run.bounds => Run.bounds
  | Run.ok (Sum.inl e) => Run.ok (e, { parser with pos := start })
  | Run.ok (Sum.inr pos) =>
    match parser.factory.toks with
    | none => Run.ok (0, { parser with pos := pos })
    | some _ =>
      match jsmn_alloc_token parser.factory 1 with
      | none => Run.ok (JSMN_ERROR_NOMEM, { parser with pos := start })
      | some (tok, l) =>
        match tokAt l parser.factory.toksuper with
        | none => Run.bounds
        | some sup =>
          let type := if sup.type = JSMN_OBJECT then JSMN_LABEL else JSMN_STRING
          let token := jsmn_fill_token fresh_token type (start + 1) pos
          let token := { token with parent := parser.factory.toksuper }
          Run.ok (0, { factory := { parser.factory with toks := some (tokSet l tok token) },
                       pos := pos })

/-- The `for (;;)` walk of a closing bracket from token `i` up the parent
chain: `none` is `return JSMN_ERROR_INVAL`, otherwise the tokens and superior
token at the `break`. -/
def close_walk (type : jsmntype_t) (pos : Nat) (toksuper : Int) :
    Nat → List jsmn_Token → Int → Run (Option (List jsmn_Token × Int))
  | 0, _, _ => Run.fuel
  | fuel + 1, toks, i =>
    match tokAt toks i with
    | none => Run.bounds
    | some token =>
      if token.start ≠ -1 ∧ token.end_ = -1 then
        if token.type ≠ type then Run.ok none
        else Run.ok (some (tokSet toks i { token with end_ := (pos : Int) + 1 }, token.parent))
      else if token.parent = -1 then
        if token.type ≠ type ∨ toksuper = -1 then Run.ok none
        else Run.ok (some (toks, toksuper))
      else close_walk type pos toksuper fuel toks token.parent

/-- The statement `tokens[i].size++`. -/
def size_incr (toks : List jsmn_Token) (i : Int) : Option (List jsmn_Token) :=
  match tokAt toks i with
  | none => none
  | some t => some (tokSet toks i { t with size := t.size + 1 })

/-- What one pass through the body of the main loop of `jsmn_parse` does: it
returns a value, or it reaches the end of the body with a new parser state and
count. -/
inductive Step where
  | ret (r : Int) (parser : jsmn_Parser)
  | next (parser : jsmn_Parser) (count : Int)
  deriving DecidableEq, Repr

/-- Bytes that start a primitive: `-`, `0`..`9`, `t`, `f`, `n`. -/
def isPrimitiveStart (c : Nat) : Bool :=
  c = 45 || (48 ≤ c && c ≤ 57) || c = 116 || c = 102 || c = 110

/-- The code after a successful string or primitive sub-scan: `count++` and,
inside a superior token, `tokens[toksuper].size++`. -/
def step_count (parser1 : jsmn_Parser) (count : Int) : Run Step :=
  match parser1.factory.toks with
  | none => Run.ok (Step.next parser1 (count + 1))
  | some l =>
    if parser1.factory.toksuper ≠ -1 then
      match size_incr l parser1.factory.toksuper with
      | none => Run.bounds
      | some l1 =>
        Run.ok (Step.next
          { parser1 with factory := { parser1.factory with toks := some l1 } } (count + 1))
    else Run.ok (Step.next parser1 (count + 1))

/-- The case of an opening bracket `c` in the main loop. -/
def step_open (c : Nat) (parser : jsmn_Parser) (count : Int) : Run Step :=
  match parser.factory.toks with
  | none => Run.ok (Step.next parser (count + 1))
  | some _ =>
    match jsmn_alloc_token parser.factory 1 with
    | none => Run.ok (Step.ret JSMN_ERROR_NOMEM parser)
    | some (tok, l) =>
      let type := if c = 123 then JSMN_OBJECT else JSMN_ARRAY
      if parser.factory.toksuper ≠ -1 then
        match size_incr l parser.factory.toksuper with
        | none => Run.bounds
        | some l1 =>
          let token := { fresh_token with parent := parser.factory.toksuper, type := type,
                                          start := parser.pos }
          Run.ok (Step.next
            { parser with factory :=
                { parser.factory with toks := some (tokSet l1 tok token),
                                      toksuper := ((l1.length : Nat) : Int) - 1 } }
            (count + 1))
      else
        let token := { fresh_token with type := type, start := parser.pos }
        Run.ok (Step.next
          { parser with factory :=
              { parser.factory with toks := some (tokSet l tok token),
                                    toksuper := ((l.length : Nat) : Int) - 1 } }
          (count + 1))

/-- The case of a closing bracket `c` in the main loop. -/
def step_close (c : Nat) (parser : jsmn_Parser) (count : Int) : Run Step :=
  match parser.factory.toks with
  | none => Run.ok (Step.next parser count)
  | some l =>
    let type := if c = 125 then JSMN_OBJECT else JSMN_ARRAY
    if l.length < 1 then Run.ok (Step.ret JSMN_ERROR_INVAL parser)
    else
      match close_walk type parser.pos parser.factory.toksuper l.length l
          ((l.length : Int) - 1) with
      | Run.fuel => Run.fuel
      | Run.bounds => Run.bounds
      | Run.ok none => Run.ok (Step.ret JSMN_ERROR_INVAL parser)
      | Run.ok (some (l1, toksuper)) =>
        Run.ok (Step.next
          { parser with factory := { parser.factory with toks := some l1, toksuper := toksuper } }
          count)

/-- The case of a double quote in the main loop. -/
def step_string (js : List Nat) (len : Nat) (parser : jsmn_Parser) (count : Int) : Run Step :=
  match jsmn_parse_string parser js len with
  | Run.fuel => Run.fuel
  | Run.bounds => Run.bounds
  | Run.ok (r, parser1) =>
    if r < 0 then Run.ok (Step.ret r parser1) else step_count parser1 count

/-- The case of a colon in the main loop. -/
def step_colon (parser : jsmn_Parser) (count : Int) : Run Step :=
  Run.ok (Step.next
    { parser with factory :=
        { parser.factory with toksuper := (parser.factory.toknext : Int) - 1 } } count)

/-- The case of a comma in the main loop. -/
def step_comma (parser : jsmn_Parser) (count : Int) : Run Step :=
  match parser.factory.toks with
  | none => Run.ok (Step.next parser count)
  | some l =>
    if parser.factory.toksuper ≠ -1 then
      match tokAt l parser.factory.toksuper with
      | none => Run.bounds
      | some t =>
        if t.type ≠ JSMN_ARRAY ∧ t.type ≠ JSMN_OBJECT then
          Run.ok (Step.next
            { parser with factory := { parser.factory with toksuper := t.parent } } count)
        else Run.ok (Step.next parser count)
    else Run.ok (Step.next parser count)

/-- The test "primitives must not be keys of the object" in the main loop. -/
def key_check (factory : jsmn_Factory) : Run Bool :=
  match factory.toks with
  | none => Run.ok false
  | some l =>
    if factory.toksuper ≠ -1 then
      match tokAt l factory.toksuper with
      | none => Run.bounds
      | some t => Run.ok (decide (t.type = JSMN_OBJECT ∨ (t.type = JSMN_STRING ∧ t.size ≠ 0)))
    else Run.ok false

/-- The case of a byte that starts a primitive in the main loop. -/
def step_primitive (js : List Nat) (len : Nat) (parser : jsmn_Parser) (count : Int) : Run Step :=
  match key_check parser.factory with
  | Run.fuel => Run.fuel
  | Run.bounds => Run.bounds
  | Run.ok true => Run.ok (Step.ret JSMN_ERROR_INVAL parser)
  | Run.ok false =>
    match jsmn_parse_primitive parser js len with
    | Run.fuel => Run.fuel
    | Run.bounds => Run.bounds
    | Run.ok (r, parser1) =>
      if r < 0 then Run.ok (Step.ret r parser1) else step_count parser1 count

/-- The `switch (c)` of the main loop of `jsmn_parse` at byte `js[parser.pos]`. -/
def parse_step (js : List Nat) (len : Nat) (parser : jsmn_Parser) (count : Int) : Run Step :=
  let c := js.getD parser.pos 0
  if c = 123 ∨ c = 91 then step_open c parser count
  else if c = 125 ∨ c = 93 then step_close c parser count
  else if c = 34 then step_string js len parser count
  else if c = 9 ∨ c = 13 ∨ c = 10 ∨ c = 32 then Run.ok (Step.next parser count)
  else if c = 58 then step_colon parser count
  else if c = 44 then step_comma parser count
  else if isPrimitiveStart c then step_primitive js len parser count
  else Run.ok (Step.ret JSMN_ERROR_INVAL parser)

/-- An opened object or array that was never closed. -/
def isOpen (t : jsmn_Token) : Bool :=
  decide (t.start ≠ -1) && decide (t.end_ = -1)

/-- The body of the data/length pass on one token. -/
def resolve_token (t : jsmn_Token) : jsmn_Token :=
  match t.type with
  | JSMN_LABEL => { t with data := jsmn_data.js t.start, length := t.end_ - t.start }
  | JSMN_STRING => { t with data := jsmn_data.js t.start, length := t.end_ - t.start }
  | JSMN_PRIMITIVE => { t with data := jsmn_data.js t.start, length := t.end_ - t.start }
  | _ => t

/-- The loop `for (i = 0; i < count; i++)` of the data/length pass, from index
`i` over the remaining slots. -/
def resolve_loop (count : Int) : Nat → List jsmn_Token → Option (List jsmn_Token)
  | i, [] => if (i : Int) < count then none else some []
  | i, t :: ts =>
    match resolve_loop count (i + 1) ts with
    | none => none
    | some ts1 => some ((if (i : Int) < count then resolve_token t else t) :: ts1)

/-- The code of `jsmn_parse` after the main loop. -/
def parse_final (parser : jsmn_Parser) (count : Int) : Run (Int × jsmn_Parser) :=
  match parser.factory.toks with
  | none => Run.ok (count, parser)
  | some l =>
    if l.any isOpen then Run.ok (JSMN_ERROR_PART, parser)
    else
      match resolve_loop count 0 l with
      | none => Run.bounds
      | some l1 =>
        Run.ok (count, { parser with factory := { parser.factory with toks := some l1 } })

/-- The main loop of `jsmn_parse`. -/
def parse_loop (js : List Nat) (len : Nat) : Nat → jsmn_Parser → Int → Run (Int × jsmn_Parser)
  | 0, _, _ => Run.fuel
  | fuel + 1, parser, count =>
    if parser.pos < len ∧ js.getD parser.pos 0 ≠ 0 then
      match parse_step js len parser count with
      | Run.fuel => Run.fuel
      | Run.bounds => Run.bounds
      | Run.ok (Step.ret r parser1) => Run.ok (r, parser1)
      | Run.ok (Step.next parser1 count1) =>
        parse_loop js len fuel { parser1 with pos := parser1.pos + 1 } count1
    else parse_final parser count

/-- Parse a JSON string to JSMN tokens: the return value and the parser
afterwards. -/
def jsmn_parse (parser : jsmn_Parser) (js : List Nat) (len : Nat) : Run (Int × jsmn_Parser) :=
  parse_loop js len (len - parser.pos + 1) parser parser.factory.toknext

end Jsmn

namespace Jsmn
open jsmntype_t

/-- A byte the primitive scan steps over: printable and not a terminator. -/
def isPlain (c : Nat) : Bool :=
  decide (32 ≤ c) && decide (c < 127) && !isTerminator c

/-- `StringBody js len i j`: the bytes from `i` up to `j` are a run of items
the string scan steps over: plain bytes (neither NUL nor a double quote; a
backslash only as the last byte of the buffer), a backslash with one of
`" / \ b f r n t`, or `\u` with its hex digits (four of them, or fewer when
the buffer or a NUL byte ends them). -/
inductive StringBody (js : List Nat) (len : Nat) : Nat → Nat → Prop where
  | nil (i : Nat) : StringBody js len i i
  | plain (i j : Nat) : i < len → js.getD i 0 ≠ 0 → js.getD i 0 ≠ 34 →
      ¬ (js.getD i 0 = 92 ∧ i + 1 < len) → StringBody js len (i + 1) j → StringBody js len i j
  | esc (i j : Nat) : js.getD i 0 = 92 → i + 1 < len → isEscaped (js.getD (i + 1) 0) = true →
      StringBody js len (i + 2) j → StringBody js len i j
  | uesc (i j k : Nat) : js.getD i 0 = 92 → i + 1 < len → js.getD (i + 1) 0 = 117 → k ≤ 4 →
      (∀ m, m < k → i + 2 + m < len ∧ isHex (js.getD (i + 2 + m) 0) = true) →
      (k = 4 ∨ len ≤ i + 2 + k ∨ js.getD (i + 2 + k) 0 = 0) →
      StringBody js len (i + 2 + k) j → StringBody js len i j

end Jsmn

namespace Jsmn
open jsmntype_t

/-- A token as the parser leaves it when it is created: no data yet, no
children. -/
def new_token (type : jsmntype_t) (start end_ parent : Int) : jsmn_Token :=
  { type := type, data := jsmn_data.null, length := -1, start := start, end_ := end_,
    size := 0, parent := parent }

/-- The parser state of a dry run at offset `pos`. -/
def dryP (cap : Nat) (pos : Nat) : jsmn_Parser :=
  { factory := { toks := none, tokslen := cap, toksuper := -1 }, pos := pos }

/-- The parser with another capacity of the token array. -/
def setCap (cap : Nat) (p : jsmn_Parser) : jsmn_Parser :=
  { p with factory := { p.factory with tokslen := cap } }

/-- The superior token is unset or an allocated token. -/
def SupOK (l : List jsmn_Token) (sup : Int) : Prop :=
  sup = -1 ∨ (0 ≤ sup ∧ sup < l.length)

/-- The token array after `tokens[sup].size++` when `sup` is an allocated
token, and unchanged otherwise. -/
def bump (l : List jsmn_Token) (sup : Int) : List jsmn_Token :=
  match size_incr l sup with
  | some l1 => l1
  | none => l

/-- The type of the token of a closing or opening bracket `c`. -/
def bracket_type (c : Nat) : jsmntype_t :=
  if c = 123 ∨ c = 125 then JSMN_OBJECT else JSMN_ARRAY

/-- The test "primitives must not be keys of the object" on the superior token
`sup` of the token array `l`. -/
def key_blocked (l : List jsmn_Token) (sup : Int) : Bool :=
  match tokAt l sup with
  | none => false
  | some t => decide (t.type = JSMN_OBJECT ∨ (t.type = JSMN_STRING ∧ t.size ≠ 0))

/-- The superior token after a comma. -/
def comma_sup (l : List jsmn_Token) (sup : Int) : Int :=
  match tokAt l sup with
  | none => sup
  | some t => if t.type ≠ JSMN_ARRAY ∧ t.type ≠ JSMN_OBJECT then t.parent else sup

/-- The type a string token gets under the superior token `sup`. -/
def string_type (l : List jsmn_Token) (sup : Int) : jsmntype_t :=
  match tokAt l sup with
  | none => JSMN_STRING
  | some t => if t.type = JSMN_OBJECT then JSMN_LABEL else JSMN_STRING

/-- Every allocated token's parent is unset or an earlier token. -/
def ParentsOK (l : List jsmn_Token) : Prop :=
  ∀ (i : Nat) (t : jsmn_Token), l.get? i = some t → t.parent = -1 ∨ (0 ≤ t.parent ∧ t.parent < i)

/-- `TokStep js len l sup pos l1 sup1 pos1 d`: one pass through the body of the
main loop in real mode at offset `pos`, which reaches the end of the body,
takes the token array `l` with superior token `sup` to `l1` with `sup1`, leaves
the offset at `pos1` and adds `d` to the count. -/
inductive TokStep (js : List Nat) (len : Nat) (l : List jsmn_Token) (sup : Int) (pos : Nat) :
    List jsmn_Token → Int → Nat → Int → Prop where
  | opened :
      (js.getD pos 0 = 123 ∨ js.getD pos 0 = 91) →
      TokStep js len l sup pos
        (bump l sup ++ [new_token (bracket_type (js.getD pos 0)) pos (-1) sup])
        (l.length : Int) pos 1
  | closed (l1 : List jsmn_Token) (sup1 : Int) :
      (js.getD pos 0 = 125 ∨ js.getD pos 0 = 93) → ¬ l.length < 1 →
      close_walk (bracket_type (js.getD pos 0)) pos sup l.length l ((l.length : Int) - 1)
        = Run.ok (some (l1, sup1)) →
      TokStep js len l sup pos l1 sup1 pos 0
  | string (q : Nat) :
      js.getD pos 0 = 34 → sup ≠ -1 →
      string_loop js len (len - pos + 1) (pos + 1) = Run.ok (Sum.inr q) →
      TokStep js len l sup pos
        (bump l sup ++ [new_token (string_type l sup) ((pos : Int) + 1) q sup]) sup q 1
  | primitive (q : Nat) :
      isPrimitiveStart (js.getD pos 0) = true → key_blocked l sup = false →
      primitive_loop js len (len - pos + 1) pos = Run.ok (Sum.inr q) →
      TokStep js len l sup pos (bump l sup ++ [new_token JSMN_PRIMITIVE pos q sup]) sup (q - 1) 1
  | space :
      (js.getD pos 0 = 9 ∨ js.getD pos 0 = 13 ∨ js.getD pos 0 = 10 ∨ js.getD pos 0 = 32) →
      TokStep js len l sup pos l sup pos 0
  | colon : js.getD pos 0 = 58 → TokStep js len l sup pos l ((l.length : Int) - 1) pos 0
  | comma : js.getD pos 0 = 44 → TokStep js len l sup pos l (comma_sup l sup) pos 0

/-- The opening bracket of a container type. -/
def opener (type : jsmntype_t) : Nat :=
  match type with
  | JSMN_OBJECT => 123
  | _ => 91

/-- The closing bracket of a container type. -/
def closer (type : jsmntype_t) : Nat :=
  match type with
  | JSMN_OBJECT => 125
  | _ => 93

/-- `SpanOK js pos t`: the offsets of token `t` fit the text `js` scanned up to
`pos`: a container starts on its opening bracket and, once closed, ends just
after the closing bracket of its type; a label or string lies between two
double quotes; a primitive is not empty. -/
def SpanOK (js : List Nat) (pos : Nat) (t : jsmn_Token) : Prop :=
  (t.type = JSMN_OBJECT ∨ t.type = JSMN_ARRAY →
    0 ≤ t.start ∧ t.start < pos ∧ js.getD t.start.toNat 0 = opener t.type ∧
    (t.end_ = -1 ∨
      (t.start < t.end_ ∧ t.end_ ≤ pos ∧ js.getD (t.end_ - 1).toNat 0 = closer t.type))) ∧
  (t.type = JSMN_LABEL ∨ t.type = JSMN_STRING →
    1 ≤ t.start ∧ t.start ≤ t.end_ ∧ t.end_ < pos ∧
    js.getD (t.start - 1).toNat 0 = 34 ∧ js.getD t.end_.toNat 0 = 34) ∧
  (t.type = JSMN_PRIMITIVE → 0 ≤ t.start ∧ t.start < t.end_ ∧ t.end_ ≤ pos)

/-- `Resolved X t`: token `t` of a finished parse of the text `X` is closed and
its offsets and data fit the text. -/
def Resolved (X : List Nat) (t : jsmn_Token) : Prop :=
  ¬ (t.start ≠ -1 ∧ t.end_ = -1) ∧
  (t.type = JSMN_OBJECT ∨ t.type = JSMN_ARRAY →
    0 ≤ t.start ∧ t.start < t.end_ ∧ t.end_ ≤ X.length ∧
    X.getD t.start.toNat 0 = opener t.type ∧
    X.getD (t.end_ - 1).toNat 0 = closer t.type) ∧
  (t.type = JSMN_LABEL ∨ t.type = JSMN_STRING ∨ t.type = JSMN_PRIMITIVE →
    t.data = jsmn_data.js t.start ∧ t.length = t.end_ - t.start ∧ 0 ≤ t.length ∧
    0 ≤ t.start ∧ t.end_ ≤ X.length) ∧
  (t.type = JSMN_LABEL ∨ t.type = JSMN_STRING →
    X.getD (t.start - 1).toNat 0 = 34 ∧ X.getD t.end_.toNat 0 = 34)

/-- The primitives `p1, ..., pn` separated by commas. -/
def prims_text : List (List Nat) → List Nat
  | [] => []
  | [p] => p
  | p :: q :: ps => p ++ 44 :: prims_text (q :: ps)

/-- The text `[p1,...,pn]`, without white space. -/
def array_text (ps : List (List Nat)) : List Nat :=
  91 :: prims_text ps ++ [93]

/-- A primitive as claim C7 takes it: not empty, its first byte one of
`-`, `0`..`9`, `t`, `f`, `n`, all its bytes in `33..126` and none of `,` `]` `}`. -/
def ValidPrim (p : List Nat) : Prop :=
  p ≠ [] ∧ isPrimitiveStart (p.headD 0) = true ∧
    ∀ b ∈ p, 33 ≤ b ∧ b ≤ 126 ∧ b ≠ 44 ∧ b ≠ 93 ∧ b ≠ 125

/-- The Primitive tokens, all children of token 0, of the primitives `ps` laid
out from offset `off` with one separating byte between them. -/
def prim_tokens (off : Nat) : List (List Nat) → List jsmn_Token
  | [] => []
  | p :: ps =>
    { type := JSMN_PRIMITIVE, data := jsmn_data.js off, length := p.length, start := off,
      end_ := ((off + p.length : Nat) : Int), size := 0, parent := 0 } ::
      prim_tokens (off + p.length + 1) ps

/-- The bytes a token's `data`/`length` pair denotes, `js` being the parsed
buffer. -/
def token_bytes (js : List Nat) (t : jsmn_Token) : List Nat :=
  match t.data with
  | jsmn_data.null => []
  | jsmn_data.js off => (js.drop off.toNat).take t.length.toNat
  | jsmn_data.str s => s.take t.length.toNat

/-- `PrimAt js len pos q`: a primitive starts at `pos` and its terminator is at
`q`. -/
def PrimAt (js : List Nat) (len : Nat) (pos q : Nat) : Prop :=
  pos < q ∧ q < len ∧ isPrimitiveStart (js.getD pos 0) = true ∧
    (∀ j, pos ≤ j → j < q → isPlain (js.getD j 0) = true) ∧
    isTerminator (js.getD q 0) = true

/-- The Primitive tokens of `prim_tokens` as the main loop leaves them, before
the data/length pass. -/
def raw_prims (off : Nat) : List (List Nat) → List jsmn_Token
  | [] => []
  | p :: ps =>
    new_token JSMN_PRIMITIVE off ((off + p.length : Nat) : Int) 0 ::
      raw_prims (off + p.length + 1) ps

/-- An Array token at offset 0 with no parent, with end offset `e` and `k`
children. -/
def root_array (k e : Int) : jsmn_Token :=
  { type := JSMN_ARRAY, data := jsmn_data.null, length := -1, start := 0, end_ := e,
    size := k, parent := -1 }

end Jsmn

namespace Jsmn
open jsmntype_t

/-! ## JSON texts and the tokens of their values -/

/-- White space of JSON: tab, CR, LF, space. -/
def isSpace (c : Nat) : Bool :=
  c = 9 || c = 13 || c = 10 || c = 32

/-- A run of white space. -/
def Ws (w : List Nat) : Prop :=
  ∀ c ∈ w, isSpace c = true

/-- The text `post` starts with a byte that ends a primitive. -/
def Term (post : List Nat) : Prop :=
  ∃ c rest, post = c :: rest ∧ isTerminator c = true

/-- A byte of a JSON string that stands for itself: not a control byte, not a
double quote, not a backslash. -/
def jsonPlain (c : Nat) : Bool :=
  decide (32 ≤ c) && decide (c ≠ 34) && decide (c ≠ 92)

/-- A byte the string scan steps over as it stands: not NUL, not a double
quote, not a backslash. -/
def scanPlain (c : Nat) : Bool :=
  decide (c ≠ 0) && decide (c ≠ 34) && decide (c ≠ 92)

/-- The body of a string (the bytes between the quotes): bytes that stand for
themselves (those with `plainOK`), a backslash with one of
`" / \ b f r n t`, or `\u` with four hex digits. -/
inductive StrItems (plainOK : Nat → Bool) : List Nat → Prop where
  | nil : StrItems plainOK []
  | plain (c : Nat) (rest : List Nat) : plainOK c = true → StrItems plainOK rest →
      StrItems plainOK (c :: rest)
  | esc (e : Nat) (rest : List Nat) : isEscaped e = true → StrItems plainOK rest →
      StrItems plainOK (92 :: e :: rest)
  | uesc (h1 h2 h3 h4 : Nat) (rest : List Nat) : isHex h1 = true → isHex h2 = true →
      isHex h3 = true → isHex h4 = true → StrItems plainOK rest →
      StrItems plainOK (92 :: 117 :: h1 :: h2 :: h3 :: h4 :: rest)

/-- The body of a JSON string (RFC 8259, on bytes). -/
def JsonStr (b : List Nat) : Prop :=
  StrItems jsonPlain b

/-- The string bodies the scan of `jsmn_parse_string` walks through up to the
closing quote. -/
def ScanStr (b : List Nat) : Prop :=
  StrItems scanPlain b

/-- A decimal digit. -/
def isDigit (c : Nat) : Bool :=
  decide (48 ≤ c) && decide (c ≤ 57)

/-- A run of decimal digits, at least one. -/
def Digits (d : List Nat) : Prop :=
  d ≠ [] ∧ ∀ c ∈ d, isDigit c = true

/-- The integer part of a JSON number: `0`, or digits without a leading zero. -/
def JsonInt (i : List Nat) : Prop :=
  i = [48] ∨ (Digits i ∧ i.headD 0 ≠ 48)

/-- The optional fraction part of a JSON number. -/
def JsonFrac (f : List Nat) : Prop :=
  f = [] ∨ ∃ d, Digits d ∧ f = 46 :: d

/-- The optional exponent part of a JSON number. -/
def JsonExp (e : List Nat) : Prop :=
  e = [] ∨ ∃ x sign d, (x = 69 ∨ x = 101) ∧ (sign = [] ∨ sign = [43] ∨ sign = [45]) ∧
    Digits d ∧ e = x :: (sign ++ d)

/-- A JSON number (RFC 8259). -/
def JsonNumber (p : List Nat) : Prop :=
  ∃ m i f e, (m = [] ∨ m = [45]) ∧ JsonInt i ∧ JsonFrac f ∧ JsonExp e ∧ p = m ++ i ++ f ++ e

/-- A JSON number or one of the literals `true`, `false`, `null`. -/
def JsonPrim (p : List Nat) : Prop :=
  JsonNumber p ∨ p = [116, 114, 117, 101] ∨ p = [102, 97, 108, 115, 101] ∨
    p = [110, 117, 108, 108]

/-- The syntactic classes of the grammar: a value; a value with white space
around it; a name, a colon and a value, with white space; the elements of an
array; the members of an object. -/
inductive Kind where
  | value
  | item
  | member
  | elems
  | members
  deriving DecidableEq, Repr

/-- A container token once it is closed. -/
def closed_token (type : jsmntype_t) (start end_ size parent : Int) : jsmn_Token :=
  { type := type, data := jsmn_data.null, length := -1, start := start, end_ := end_,
    size := size, parent := parent }

/-- A Label token once it has its value. -/
def label_token (start end_ parent : Int) : jsmn_Token :=
  { type := JSMN_LABEL, data := jsmn_data.null, length := -1, start := start, end_ := end_,
    size := 1, parent := parent }

/-- `Gram S P kind o n s text T k`: `text` is of the class `kind` of the JSON
grammar, with string bodies from `S` and primitives from `P`.  The other
arguments describe the tokens of `text` when it stands at offset `o` of the
buffer, its first token gets index `n` and its superior token is `s`: `T`
lists the tokens as the main loop of `jsmn_parse` leaves them (before the
data/length pass), `k` is the number of children `text` gives to `s`.  They are
outputs: they put no condition on `text`. -/
inductive Gram (S P : List Nat → Prop) :
    Kind → Nat → Nat → Int → List Nat → List jsmn_Token → Nat → Prop where
  | prim (o n : Nat) (s : Int) (p : List Nat) : P p →
      Gram S P Kind.value o n s p
        [new_token JSMN_PRIMITIVE (o : Int) ((o + p.length : Nat) : Int) s] 1
  | str (o n : Nat) (s : Int) (b : List Nat) : S b →
      Gram S P Kind.value o n s (34 :: b ++ [34])
        [new_token JSMN_STRING ((o : Int) + 1) ((o + 1 + b.length : Nat) : Int) s] 1
  | arr_empty (o n : Nat) (s : Int) (w : List Nat) : Ws w →
      Gram S P Kind.value o n s (91 :: w ++ [93])
        [closed_token JSMN_ARRAY (o : Int) ((o + w.length + 2 : Nat) : Int) 0 s] 1
  | arr (o n : Nat) (s : Int) (inner : List Nat) (T : List jsmn_Token) (k : Nat) :
      Gram S P Kind.elems (o + 1) (n + 1) (n : Int) inner T k →
      Gram S P Kind.value o n s (91 :: inner ++ [93])
        (closed_token JSMN_ARRAY (o : Int) ((o + inner.length + 2 : Nat) : Int) (k : Int) s
          :: T) 1
  | obj_empty (o n : Nat) (s : Int) (w : List Nat) : Ws w →
      Gram S P Kind.value o n s (123 :: w ++ [125])
        [closed_token JSMN_OBJECT (o : Int) ((o + w.length + 2 : Nat) : Int) 0 s] 1
  | obj (o n : Nat) (s : Int) (inner : List Nat) (T : List jsmn_Token) (k : Nat) :
      Gram S P Kind.members (o + 1) (n + 1) (n : Int) inner T k →
      Gram S P Kind.value o n s (123 :: inner ++ [125])
        (closed_token JSMN_OBJECT (o : Int) ((o + inner.length + 2 : Nat) : Int) (k : Int) s
          :: T) 1
  | item (o n : Nat) (s : Int) (w1 v w2 : List Nat) (T : List jsmn_Token) :
      Ws w1 → Ws w2 → Gram S P Kind.value (o + w1.length) n s v T 1 →
      Gram S P Kind.item o n s (w1 ++ v ++ w2) T 1
  | member (o n : Nat) (s : Int) (w1 b w2 v : List Nat) (T : List jsmn_Token) :
      Ws w1 → S b → Ws w2 →
      Gram S P Kind.item (o + w1.length + b.length + 2 + w2.length + 1) (n + 1) (n : Int) v T 1 →
      Gram S P Kind.member o n s (w1 ++ 34 :: b ++ 34 :: w2 ++ 58 :: v)
        (label_token ((o + w1.length : Nat) + 1 : Int)
          ((o + w1.length + 1 + b.length : Nat) : Int) s :: T) 1
  | elems_one (o n : Nat) (s : Int) (v : List Nat) (T : List jsmn_Token) :
      Gram S P Kind.item o n s v T 1 → Gram S P Kind.elems o n s v T 1
  | elems_cons (o n : Nat) (s : Int) (v rest : List Nat) (T T1 : List jsmn_Token) (k : Nat) :
      Gram S P Kind.item o n s v T 1 →
      Gram S P Kind.elems (o + v.length + 1) (n + T.length) s rest T1 k →
      Gram S P Kind.elems o n s (v ++ 44 :: rest) (T ++ T1) (k + 1)
  | members_one (o n : Nat) (s : Int) (v : List Nat) (T : List jsmn_Token) :
      Gram S P Kind.member o n s v T 1 → Gram S P Kind.members o n s v T 1
  | members_cons (o n : Nat) (s : Int) (v rest : List Nat) (T T1 : List jsmn_Token) (k : Nat) :
      Gram S P Kind.member o n s v T 1 →
      Gram S P Kind.members (o + v.length + 1) (n + T.length) s rest T1 k →
      Gram S P Kind.members o n s (v ++ 44 :: rest) (T ++ T1) (k + 1)

/-- The first token is an Object or an Array. -/
def IsCont (T : List jsmn_Token) : Prop :=
  ∃ t rest, T = t :: rest ∧ (t.type = JSMN_OBJECT ∨ t.type = JSMN_ARRAY)

/-- `JsonText X T`: `X` is a JSON text (RFC 8259): one value with optional
white space around it; `T` lists its tokens before the data/length pass. -/
def JsonText (X : List Nat) (T : List jsmn_Token) : Prop :=
  Gram JsonStr JsonPrim Kind.item 0 0 (-1) X T 1

/-- The token array after `k` times `tokens[sup].size++`. -/
def bumps : Nat → List jsmn_Token → Int → List jsmn_Token
  | 0, l, _ => l
  | k + 1, l, sup => bumps k (bump l sup) sup

/-- `Runs js len cap l sup pos l1 sup1 pos1`: the main loop of `jsmn_parse` in
real mode, entered with tokens `l`, superior token `sup` and offset `pos`,
comes back to its head with `l1`, `sup1` and `pos1` after `k ≤ pos1 - pos`
passes through its body. -/
def Runs (js : List Nat) (len cap : Nat) (l : List jsmn_Token) (sup : Int) (pos : Nat)
    (l1 : List jsmn_Token) (sup1 : Int) (pos1 : Nat) : Prop :=
  ∃ k, pos + k ≤ pos1 ∧ ∀ fuel,
    parse_loop js len (fuel + k) ⟨⟨some l, cap, sup⟩, pos⟩ (l.length : Int) =
      parse_loop js len fuel ⟨⟨some l1, cap, sup1⟩, pos1⟩ (l1.length : Int)

/-- `Yields js len cap l sup pos r`: the main loop of `jsmn_parse` in real
mode, entered with tokens `l`, superior token `sup` and offset `pos`, makes
`jsmn_parse` return `r`, within `len + 1 - pos` passes. -/
def Yields (js : List Nat) (len cap : Nat) (l : List jsmn_Token) (sup : Int) (pos : Nat)
    (r : Int × jsmn_Parser) : Prop :=
  ∃ k, pos + k ≤ len + 1 ∧ ∀ fuel,
    parse_loop js len (fuel + k) ⟨⟨some l, cap, sup⟩, pos⟩ (l.length : Int) = Run.ok r

/-- The tokens `T`, the first of them at index `n`, are closed, and each one's
parent is `s` or an earlier token of `T`. -/
def Sealed (n : Nat) (s : Int) (T : List jsmn_Token) : Prop :=
  ∀ (i : Nat) (t : jsmn_Token), T.get? i = some t →
    isOpen t = false ∧ (t.parent = s ∨ ((n : Int) ≤ t.parent ∧ t.parent < (n : Int) + i))

/-- What the superior token `s` must be for a text of the class `kind` with
tokens `T` to go under it: an Array or a Label for a value (or no token at all
when the value is an Object or Array), an Array for elements, an Object for
members. -/
def CtxOK (kind : Kind) (l : List jsmn_Token) (s : Int) (T : List jsmn_Token) : Prop :=
  match kind with
  | Kind.value => (∃ t, tokAt l s = some t ∧ (t.type = JSMN_ARRAY ∨ t.type = JSMN_LABEL)) ∨
      (s = -1 ∧ IsCont T)
  | Kind.item => (∃ t, tokAt l s = some t ∧ (t.type = JSMN_ARRAY ∨ t.type = JSMN_LABEL)) ∨
      (s = -1 ∧ IsCont T)
  | Kind.elems => ∃ t, tokAt l s = some t ∧ t.type = JSMN_ARRAY
  | Kind.member => ∃ t, tokAt l s = some t ∧ t.type = JSMN_OBJECT
  | Kind.members => ∃ t, tokAt l s = some t ∧ t.type = JSMN_OBJECT

/-- The superior token `sup1` the loop is left with after a text of the class
`kind` under `s`: `s` itself, or for members the last Label (a comma then goes
back to `s`). -/
def SupAfter (kind : Kind) (l1 : List jsmn_Token) (s sup1 : Int) : Prop :=
  match kind with
  | Kind.value => sup1 = s
  | Kind.item => sup1 = s
  | Kind.elems => sup1 = s
  | Kind.member => comma_sup l1 sup1 = s
  | Kind.members => comma_sup l1 sup1 = s

/-- What the main loop does on a text of the class `kind` with tokens `T`
standing at offset `o` of the buffer, when it enters it with `n` tokens and
superior token `s`: it comes back to its head just after the text with the
tokens `T` appended and `k` children more for `s`; or the buffer ends with the
text, the text does not end with a bracket, and the parse returns
`JSMN_ERROR_PART`. -/
def RunSpec (kind : Kind) (o n : Nat) (s : Int) (text : List Nat) (T : List jsmn_Token)
    (k : Nat) : Prop :=
  ∀ (js pre post : List Nat) (l : List jsmn_Token) (cap : Nat),
    js = pre ++ text ++ post → pre.length = o → l.length = n → CtxOK kind l s T →
    (post = [] ∨ Term post) → n + T.length ≤ cap →
    (∃ sup1, SupOK (bumps k l s ++ T) sup1 ∧ SupAfter kind (bumps k l s ++ T) s sup1 ∧
      Runs js js.length cap l s o (bumps k l s ++ T) sup1 (o + text.length)) ∨
    (post = [] ∧ (kind = Kind.value ∨ kind = Kind.item → ¬ IsCont T) ∧
      ∃ p, Yields js js.length cap l s o (JSMN_ERROR_PART, p))

end Jsmn

namespace Jsmn
open jsmntype_t

/-! ## The Builder and the serializer

A C string argument (`const char *`) is `none` for NULL and `some s` for a
pointer to the bytes `s`, which a NUL byte follows; `strlen` counts the bytes
before the first NUL.  A call `cb(data, length)` of the sink is recorded as the
bytes it is handed: the first `length` bytes at `data` (none for a NULL pointer
or a length below 1). -/

/-- The C library function `strlen` on the bytes of a C string. -/
def strlen (s : List Nat) : Nat :=
  (s.takeWhile (fun c => c != 0)).length

/-- The `data` pointer for a C string argument. -/
def data_of (value : Option (List Nat)) : jsmn_data :=
  match value with
  | none => jsmn_data.null
  | some v => jsmn_data.str v

/-- The test of `jsmn_prepare_append` whether the append is within an Object. -/
def prepare_in_object (factory : jsmn_Factory) : Run Bool :=
  if factory.toksuper ≠ -1 then
    match factory.toks with
    | none => Run.bounds
    | some l =>
      match tokAt l factory.toksuper with
      | none => Run.bounds
      | some t => Run.ok (decide (t.type = JSMN_OBJECT))
  else Run.ok false

/-- Allocates the token (or the Label and the token) of an append and links
them to the superior token; `none` is the NULL return, otherwise the index of
the token to fill and the factory afterwards. -/
def jsmn_prepare_append (factory : jsmn_Factory) (name : Option (List Nat)) :
    Run (Option (Nat × jsmn_Factory)) :=
  match prepare_in_object factory with
  | Run.fuel => Run.fuel
  | Run.bounds => Run.bounds
  | Run.ok in_object =>
    if in_object = true ∧ name = none then Run.ok none
    else
      let n_tokens := if in_object = true then 2 else 1
      match jsmn_alloc_token factory n_tokens with
      | none => Run.ok none
      | some (tok, l) =>
        match (if factory.toksuper ≠ -1 then size_incr l factory.toksuper else some l) with
        | none => Run.bounds
        | some l1 =>
          if n_tokens = 2 then
            match name, tokAt l1 (tok : Int), tokAt l1 ((tok : Int) + 1) with
            | some nm, some t0, some t1 =>
              let label := { t0 with type := JSMN_LABEL, data := jsmn_data.str nm,
                                     length := (strlen nm : Int), size := 1,
                                     parent := factory.toksuper }
              let value := { t1 with parent := (tok : Int) }
              Run.ok (some (tok + 1,
                { factory with
                  toks := some (tokSet (tokSet l1 (tok : Int) label) ((tok : Int) + 1) value) }))
            | _, _, _ => Run.bounds
          else
            match tokAt l1 (tok : Int) with
            | none => Run.bounds
            | some t0 =>
              let parent := if factory.toksuper ≠ -1 then factory.toksuper else -1
              Run.ok (some (tok,
                { factory with toks := some (tokSet l1 (tok : Int) { t0 with parent := parent }) }))

/-- Starts an Object or Array: the return value and the factory afterwards. -/
def jsmn_start_sequence (factory : jsmn_Factory) (type : jsmntype_t)
    (name : Option (List Nat)) : Run (Int × jsmn_Factory) :=
  match jsmn_prepare_append factory name with
  | Run.fuel => Run.fuel
  | Run.bounds => Run.bounds
  | Run.ok none => Run.ok (JSMN_ERROR_FACTORY, factory)
  | Run.ok (some (tok, factory1)) =>
    match factory1.toks with
    | none => Run.bounds
    | some l =>
      match tokAt l (tok : Int) with
      | none => Run.bounds
      | some t =>
        let factory2 : jsmn_Factory :=
          { factory1 with toks := some (tokSet l (tok : Int) { t with type := type }),
                          toksuper := (tok : Int) }
        Run.ok ((factory2.toknext : Int), factory2)

/-- Ends the open Object or Array: the return value and the factory
afterwards. -/
def jsmn_end_sequence (factory : jsmn_Factory) (type : jsmntype_t) : Run (Int × jsmn_Factory) :=
  if factory.toksuper = -1 then Run.ok (JSMN_ERROR_FACTORY, factory)
  else
    match factory.toks with
    | none => Run.bounds
    | some l =>
      match tokAt l factory.toksuper with
      | none => Run.bounds
      | some supertoken =>
        if supertoken.type ≠ type then Run.ok (JSMN_ERROR_FACTORY, factory)
        else if supertoken.parent ≠ -1 then
          match tokAt l supertoken.parent with
          | none => Run.bounds
          | some supertoken1 =>
            if supertoken1.type = JSMN_LABEL ∨ supertoken1.type = JSMN_ARRAY then
              Run.ok ((factory.toknext : Int), { factory with toksuper := supertoken1.parent })
            else Run.ok (JSMN_ERROR_FACTORY, factory)
        else Run.ok ((factory.toknext : Int), { factory with toksuper := -1 })

/-- Starts an Object. -/
def jsmn_start_object (factory : jsmn_Factory) (name : Option (List Nat)) :
    Run (Int × jsmn_Factory) :=
  jsmn_start_sequence factory JSMN_OBJECT name

/-- Ends an Object. -/
def jsmn_end_object (factory : jsmn_Factory) : Run (Int × jsmn_Factory) :=
  jsmn_end_sequence factory JSMN_OBJECT

/-- Starts an Array. -/
def jsmn_start_array (factory : jsmn_Factory) (name : Option (List Nat)) :
    Run (Int × jsmn_Factory) :=
  jsmn_start_sequence factory JSMN_ARRAY name

/-- Ends an Array. -/
def jsmn_end_array (factory : jsmn_Factory) : Run (Int × jsmn_Factory) :=
  jsmn_end_sequence factory JSMN_ARRAY

/-- Appends a String or Primitive token with the given value. -/
def jsmn_append_simple (factory : jsmn_Factory) (type : jsmntype_t)
    (name value : Option (List Nat)) : Run (Int × jsmn_Factory) :=
  match jsmn_prepare_append factory name with
  | Run.fuel => Run.fuel
  | Run.bounds => Run.bounds
  | Run.ok none => Run.ok (JSMN_ERROR_FACTORY, factory)
  | Run.ok (some (tok, factory1)) =>
    match factory1.toks with
    | none => Run.bounds
    | some l =>
      match tokAt l (tok : Int) with
      | none => Run.bounds
      | some t =>
        let t1 := { t with type := type, data := data_of value }
        let t2 :=
          match value with
          | none => t1
          | some v => { t1 with length := (strlen v : Int) }
        let factory2 : jsmn_Factory := { factory1 with toks := some (tokSet l (tok : Int) t2) }
        Run.ok ((factory2.toknext : Int), factory2)

/-- Appends a String token. -/
def jsmn_append_string (factory : jsmn_Factory) (name value : Option (List Nat)) :
    Run (Int × jsmn_Factory) :=
  jsmn_append_simple factory JSMN_STRING name value

/-- Appends a Primitive token. -/
def jsmn_append_primitive (factory : jsmn_Factory) (name value : Option (List Nat)) :
    Run (Int × jsmn_Factory) :=
  jsmn_append_simple factory JSMN_PRIMITIVE name value

/-- The loop of `jsmn_dump` over the `size` pairs of the Object at index `t`,
from pair `i` with `j` slots consumed, `n` pairs to go; `dump` is the
recursive call.  It gives the fragments handed to the sink and the final
`j`. -/
def dump_object_loop (dump : Int → Run (List (List Nat) × Int)) (t size : Int) :
    Nat → Int → Int → Run (List (List Nat) × Int)
  | 0, _, j => Run.ok ([], j)
  | n + 1, i, j =>
    match dump (t + 1 + j) with
    | Run.fuel => Run.fuel
    | Run.bounds => Run.bounds
    | Run.ok (out1, r1) =>
      match dump (t + 1 + (j + r1)) with
      | Run.fuel => Run.fuel
      | Run.bounds => Run.bounds
      | Run.ok (out2, r2) =>
        match dump_object_loop dump t size n (i + 1) (j + r1 + r2) with
        | Run.fuel => Run.fuel
        | Run.bounds => Run.bounds
        | Run.ok (out3, j3) =>
          Run.ok (out1 ++ out2 ++ (if i < size - 1 then [[44]] else []) ++ out3, j3)

/-- The loop of `jsmn_dump` over the `size` elements of the Array at index
`t`. -/
def dump_array_loop (dump : Int → Run (List (List Nat) × Int)) (t size : Int) :
    Nat → Int → Int → Run (List (List Nat) × Int)
  | 0, _, j => Run.ok ([], j)
  | n + 1, i, j =>
    match dump (t + 1 + j) with
    | Run.fuel => Run.fuel
    | Run.bounds => Run.bounds
    | Run.ok (out1, r1) =>
      match dump_array_loop dump t size n (i + 1) (j + r1) with
      | Run.fuel => Run.fuel
      | Run.bounds => Run.bounds
      | Run.ok (out3, j3) =>
        Run.ok (out1 ++ (if i < size - 1 then [[44]] else []) ++ out3, j3)

/-- Serializes the token at index `t` of the token array `toks` (`js` is the
parsed buffer, for tokens whose data points into it): the fragments handed to
the sink, in order, and the return value (the number of slots consumed). -/
def jsmn_dump (js : List Nat) (toks : List jsmn_Token) :
    Nat → Int → Run (List (List Nat) × Int)
  | 0, _ => Run.fuel
  | fuel + 1, t =>
    match tokAt toks t with
    | none => Run.bounds
    | some tok =>
      if tok.type = JSMN_PRIMITIVE then Run.ok ([token_bytes js tok], 1)
      else if tok.type = JSMN_LABEL ∨ tok.type = JSMN_STRING then
        Run.ok ([[34]] ++ (if tok.length > 0 then [token_bytes js tok] else []) ++
          [if tok.type = JSMN_LABEL then [34, 58] else [34]], 1)
      else if tok.type = JSMN_OBJECT then
        match dump_object_loop (fun u => jsmn_dump js toks fuel u) t tok.size
            tok.size.toNat 0 0 with
        | Run.fuel => Run.fuel
        | Run.bounds => Run.bounds
        | Run.ok (out, j) => Run.ok ([[123]] ++ out ++ [[125]], j + 1)
      else if tok.type = JSMN_ARRAY then
        match dump_array_loop (fun u => jsmn_dump js toks fuel u) t tok.size
            tok.size.toNat 0 0 with
        | Run.fuel => Run.fuel
        | Run.bounds => Run.bounds
        | Run.ok (out, j) => Run.ok ([[91]] ++ out ++ [[93]], j + 1)
      else Run.ok ([], 0)

/-- A call of the Builder interface. -/
inductive BuilderCall where
  | start_object (name : Option (List Nat))
  | end_object
  | start_array (name : Option (List Nat))
  | end_array
  | append_string (name value : Option (List Nat))
  | append_primitive (name value : Option (List Nat))
  deriving DecidableEq, Repr

/-- Runs one Builder call. -/
def run_call (factory : jsmn_Factory) : BuilderCall → Run (Int × jsmn_Factory)
  | BuilderCall.start_object name => jsmn_start_object factory name
  | BuilderCall.end_object => jsmn_end_object factory
  | BuilderCall.start_array name => jsmn_start_array factory name
  | BuilderCall.end_array => jsmn_end_array factory
  | BuilderCall.append_string name value => jsmn_append_string factory name value
  | BuilderCall.append_primitive name value => jsmn_append_primitive factory name value

/-- Runs a sequence of Builder calls as long as they succeed: the factory after
the last call, or `none` when a call returned an error code. -/
def run_calls : List BuilderCall → jsmn_Factory → Run (Option jsmn_Factory)
  | [], factory => Run.ok (some factory)
  | c :: cs, factory =>
    match run_call factory c with
    | Run.fuel => Run.fuel
    | Run.bounds => Run.bounds
    | Run.ok (r, factory1) => if r < 0 then Run.ok none else run_calls cs factory1

/-- The shape of a token: type, size and parent. -/
def shape (t : jsmn_Token) : jsmntype_t × Int × Int :=
  (t.type, t.size, t.parent)

end Jsmn

namespace Jsmn
open jsmntype_t

/-! ## Trees built with the Builder -/

/-- A string or primitive value, given by its bytes. -/
inductive Leaf where
  | str (v : List Nat)
  | prim (v : List Nat)
  deriving DecidableEq, Repr

/-- The members of an Object, in order: a name with a string or primitive, with
an Array of strings and primitives, or with an Object. -/
inductive Members where
  | nil
  | leaf (name : List Nat) (v : Leaf) (rest : Members)
  | arr (name : List Nat) (vs : List Leaf) (rest : Members)
  | obj (name : List Nat) (inner : Members) (rest : Members)
  deriving Repr

/-- A tree whose root is an Object or an Array of strings and primitives. -/
inductive Tree where
  | obj (ms : Members)
  | arr (vs : List Leaf)
  deriving Repr

/-- The Builder call that appends a leaf. -/
def leaf_call (name : Option (List Nat)) : Leaf → BuilderCall
  | Leaf.str v => BuilderCall.append_string name (some v)
  | Leaf.prim v => BuilderCall.append_primitive name (some v)

/-- The Builder calls that append the elements of an Array (no name). -/
def elems_calls (vs : List Leaf) : List BuilderCall :=
  vs.map (leaf_call none)

/-- The Builder calls that append the members of an Object. -/
def members_calls : Members → List BuilderCall
  | Members.nil => []
  | Members.leaf name v rest => leaf_call (some name) v :: members_calls rest
  | Members.arr name vs rest =>
    BuilderCall.start_array (some name) ::
      (elems_calls vs ++ BuilderCall.end_array :: members_calls rest)
  | Members.obj name inner rest =>
    BuilderCall.start_object (some name) ::
      (members_calls inner ++ BuilderCall.end_object :: members_calls rest)

/-- The Builder calls that build a tree: the root is started without a name
and every container is ended after its last child. -/
def tree_calls : Tree → List BuilderCall
  | Tree.obj ms => BuilderCall.start_object none :: (members_calls ms ++ [BuilderCall.end_object])
  | Tree.arr vs => BuilderCall.start_array none :: (elems_calls vs ++ [BuilderCall.end_array])

/-- The number of members. -/
def members_count : Members → Nat
  | Members.nil => 0
  | Members.leaf _ _ rest => members_count rest + 1
  | Members.arr _ _ rest => members_count rest + 1
  | Members.obj _ _ rest => members_count rest + 1

/-- The number of tokens of the members of an Object. -/
def members_size : Members → Nat
  | Members.nil => 0
  | Members.leaf _ _ rest => 2 + members_size rest
  | Members.arr _ vs rest => 2 + vs.length + members_size rest
  | Members.obj _ inner rest => 2 + members_size inner + members_size rest

/-- The number of tokens of a tree. -/
def tree_size : Tree → Nat
  | Tree.obj ms => 1 + members_size ms
  | Tree.arr vs => 1 + vs.length

/-- A leaf the parser reads back as it stands: a string body the string scan
walks through, or a primitive the primitive scan accepts. -/
def leaf_ok : Leaf → Prop
  | Leaf.str v => ScanStr v
  | Leaf.prim v => ValidPrim v

/-- The names are string bodies and the leaves are read back as they stand. -/
def members_ok : Members → Prop
  | Members.nil => True
  | Members.leaf name v rest => ScanStr name ∧ leaf_ok v ∧ members_ok rest
  | Members.arr name vs rest => ScanStr name ∧ (∀ v ∈ vs, leaf_ok v) ∧ members_ok rest
  | Members.obj name inner rest => ScanStr name ∧ members_ok inner ∧ members_ok rest

/-- The names are string bodies and the leaves are read back as they stand. -/
def tree_ok : Tree → Prop
  | Tree.obj ms => members_ok ms
  | Tree.arr vs => ∀ v ∈ vs, leaf_ok v

/-- The token the Builder makes of a leaf under the token `parent`. -/
def built_leaf (parent : Int) : Leaf → jsmn_Token
  | Leaf.str v =>
    { type := JSMN_STRING, data := jsmn_data.str v, length := (strlen v : Int), start := -1,
      end_ := -1, size := 0, parent := parent }
  | Leaf.prim v =>
    { type := JSMN_PRIMITIVE, data := jsmn_data.str v, length := (strlen v : Int), start := -1,
      end_ := -1, size := 0, parent := parent }

/-- The Label token the Builder makes of a name under the Object `parent`. -/
def built_label (name : List Nat) (parent : Int) : jsmn_Token :=
  { type := JSMN_LABEL, data := jsmn_data.str name, length := (strlen name : Int), start := -1,
    end_ := -1, size := 1, parent := parent }

/-- A container token of the Builder with `size` children. -/
def built_cont (type : jsmntype_t) (size parent : Int) : jsmn_Token :=
  { type := type, data := jsmn_data.null, length := -1, start := -1, end_ := -1,
    size := size, parent := parent }

/-- The tokens the Builder makes of the members of the Object at index `s`,
the first of them at index `n`. -/
def built_members (n : Nat) (s : Int) : Members → List jsmn_Token
  | Members.nil => []
  | Members.leaf name v rest =>
    built_label name s :: built_leaf (n : Int) v :: built_members (n + 2) s rest
  | Members.arr name vs rest =>
    built_label name s :: built_cont JSMN_ARRAY (vs.length : Int) (n : Int) ::
      (vs.map (built_leaf ((n + 1 : Nat) : Int)) ++ built_members (n + 2 + vs.length) s rest)
  | Members.obj name inner rest =>
    built_label name s :: built_cont JSMN_OBJECT (members_count inner : Int) (n : Int) ::
      (built_members (n + 2) ((n + 1 : Nat) : Int) inner ++
        built_members (n + 2 + members_size inner) s rest)

/-- The tokens the Builder makes of a tree on a fresh arena. -/
def built_tree : Tree → List jsmn_Token
  | Tree.obj ms =>
    built_cont JSMN_OBJECT (members_count ms : Int) (-1) :: built_members 1 ((0 : Nat) : Int) ms
  | Tree.arr vs =>
    built_cont JSMN_ARRAY (vs.length : Int) (-1) :: vs.map (built_leaf ((0 : Nat) : Int))

/-- The text of a leaf. -/
def leaf_text : Leaf → List Nat
  | Leaf.str v => 34 :: v ++ [34]
  | Leaf.prim v => v

/-- The texts of the elements of an Array, with commas between them. -/
def elems_text : List Leaf → List Nat
  | [] => []
  | [v] => leaf_text v
  | v :: w :: vs => leaf_text v ++ 44 :: elems_text (w :: vs)

/-- The comma before further members. -/
def members_sep : Members → List Nat
  | Members.nil => []
  | _ => [44]

/-- The text of the members of an Object, with commas between them. -/
def members_text : Members → List Nat
  | Members.nil => []
  | Members.leaf name v rest =>
    34 :: name ++ 34 :: 58 :: leaf_text v ++ (members_sep rest ++ members_text rest)
  | Members.arr name vs rest =>
    34 :: name ++ 34 :: 58 :: 91 :: elems_text vs ++ 93 :: (members_sep rest ++ members_text rest)
  | Members.obj name inner rest =>
    34 :: name ++ 34 :: 58 :: 123 :: members_text inner ++
      125 :: (members_sep rest ++ members_text rest)

/-- The text of a tree, without white space. -/
def tree_text : Tree → List Nat
  | Tree.obj ms => 123 :: members_text ms ++ [125]
  | Tree.arr vs => 91 :: elems_text vs ++ [93]

/-- The tokens `X` stand in the token array `B` from index `i` on. -/
def Seg (B : List jsmn_Token) (i : Nat) (X : List jsmn_Token) : Prop :=
  ∃ L R, B = L ++ X ++ R ∧ L.length = i

end Jsmn

namespace Jsmn
open jsmntype_t

/-! ## Sequences of Builder calls and the state of the arena -/

/-- Runs a sequence of Builder calls one after the other, whatever they
return: the return values in order and the factory after the last call. -/
def run_all : List BuilderCall → jsmn_Factory → Run (List Int × jsmn_Factory)
  | [], factory => Run.ok ([], factory)
  | c :: cs, factory =>
    match run_call factory c with
    | Run.fuel => Run.fuel
    | Run.bounds => Run.bounds
    | Run.ok (r, factory1) =>
      match run_all cs factory1 with
      | Run.fuel => Run.fuel
      | Run.bounds => Run.bounds
      | Run.ok (rs, factory2) => Run.ok (r :: rs, factory2)

/-- The bytes of the C string at a pointer to the bytes `s`: the bytes before
the first NUL. -/
def c_string (s : List Nat) : List Nat :=
  s.take (strlen s)

/-- The Builder calls of a flat object: `jsmn_start_object(NULL)`, one
`jsmn_append_string(name, value)` for each pair, `jsmn_end_object()`. -/
def flat_calls (kvs : List (List Nat × List Nat)) : List BuilderCall :=
  BuilderCall.start_object none ::
    (kvs.map (fun kv => BuilderCall.append_string (some kv.1) (some kv.2)) ++
      [BuilderCall.end_object])

/-- The text `"name":"value"` of one pair. -/
def flat_member (kv : List Nat × List Nat) : List Nat :=
  34 :: c_string kv.1 ++ 34 :: 58 :: 34 :: c_string kv.2 ++ [34]

/-- The texts of the pairs with commas between them. -/
def flat_members : List (List Nat × List Nat) → List Nat
  | [] => []
  | [kv] => flat_member kv
  | kv :: kv2 :: rest => flat_member kv ++ 44 :: flat_members (kv2 :: rest)

/-- The text `{"n1":"v1",...,"nk":"vk"}` of a flat object, without white
space. -/
def flat_text (kvs : List (List Nat × List Nat)) : List Nat :=
  123 :: flat_members kvs ++ [125]

/-- A String or Primitive token of the Builder with the given value pointer. -/
def simple_token (type : jsmntype_t) (value : Option (List Nat)) (parent : Int) : jsmn_Token :=
  { type := type, data := data_of value,
    length := (match value with
      | none => -1
      | some v => (strlen v : Int)),
    start := -1, end_ := -1, size := 0, parent := parent }

/-- The Label and String tokens of the pairs of a flat object whose Object is
token 0, the first Label at index `n`. -/
def flat_tokens (n : Nat) : List (List Nat × List Nat) → List jsmn_Token
  | [] => []
  | kv :: rest =>
    built_label kv.1 0 :: simple_token JSMN_STRING (some kv.2) (n : Int) ::
      flat_tokens (n + 2) rest

/-- The superior token `c` of the token array `l` is an Object. -/
def in_object (l : List jsmn_Token) (c : Int) : Bool :=
  match tokAt l c with
  | some t => decide (t.type = JSMN_OBJECT)
  | none => false

/-- The number of slots a start or append call needs: two inside an Object
(a Label and the token), one otherwise. -/
def slots_needed (l : List jsmn_Token) (c : Int) : Nat :=
  if in_object l c = true then 2 else 1

/-- The type and name of a start call. -/
def call_start : BuilderCall → Option (jsmntype_t × Option (List Nat))
  | BuilderCall.start_object name => some (JSMN_OBJECT, name)
  | BuilderCall.start_array name => some (JSMN_ARRAY, name)
  | _ => none

/-- The type, name and value of an append call. -/
def call_simple : BuilderCall → Option (jsmntype_t × Option (List Nat) × Option (List Nat))
  | BuilderCall.append_string name value => some (JSMN_STRING, name, value)
  | BuilderCall.append_primitive name value => some (JSMN_PRIMITIVE, name, value)
  | _ => none

/-- The type of an end call. -/
def call_end : BuilderCall → Option jsmntype_t
  | BuilderCall.end_object => some JSMN_OBJECT
  | BuilderCall.end_array => some JSMN_ARRAY
  | _ => none

/-- The name argument of a start or append call. -/
def call_name : BuilderCall → Option (List Nat)
  | BuilderCall.start_object name => name
  | BuilderCall.start_array name => name
  | BuilderCall.append_string name _ => name
  | BuilderCall.append_primitive name _ => name
  | _ => none

/-- The start and append calls. -/
def is_producer : BuilderCall → Bool
  | BuilderCall.end_object => false
  | BuilderCall.end_array => false
  | _ => true

/-- `BuildStep l cap c call r l1 c1`: what a Builder call does on the token
array `l` with capacity `cap` and superior token `c`: it returns `r` and
leaves the token array `l1` with superior token `c1`. -/
inductive BuildStep (l : List jsmn_Token) (cap : Nat) (c : Int) :
    BuilderCall → Int → List jsmn_Token → Int → Prop where
  | failed (call : BuilderCall) : BuildStep l cap c call JSMN_ERROR_FACTORY l c
  | append (call : BuilderCall) (ty : jsmntype_t) (name value : Option (List Nat)) :
      call_simple call = some (ty, name, value) → in_object l c = false →
      BuildStep l cap c call ((l.length + 1 : Nat) : Int)
        (bump l c ++ [simple_token ty value c]) c
  | append_named (call : BuilderCall) (ty : jsmntype_t) (nm : List Nat)
      (value : Option (List Nat)) :
      call_simple call = some (ty, some nm, value) → in_object l c = true →
      BuildStep l cap c call ((l.length + 2 : Nat) : Int)
        (bump l c ++ [built_label nm c, simple_token ty value (l.length : Int)]) c
  | start (call : BuilderCall) (ty : jsmntype_t) (name : Option (List Nat)) :
      call_start call = some (ty, name) → in_object l c = false →
      BuildStep l cap c call ((l.length + 1 : Nat) : Int)
        (bump l c ++ [built_cont ty 0 c]) (l.length : Int)
  | start_named (call : BuilderCall) (ty : jsmntype_t) (nm : List Nat) :
      call_start call = some (ty, some nm) → in_object l c = true →
      BuildStep l cap c call ((l.length + 2 : Nat) : Int)
        (bump l c ++ [built_label nm c, built_cont ty 0 (l.length : Int)])
        ((l.length + 1 : Nat) : Int)
  | end_root (call : BuilderCall) (ty : jsmntype_t) (tc : jsmn_Token) :
      call_end call = some ty → tokAt l c = some tc → tc.type = ty → tc.parent = -1 →
      BuildStep l cap c call (l.length : Int) l (-1)
  | end_up (call : BuilderCall) (ty : jsmntype_t) (tc tp : jsmn_Token) :
      call_end call = some ty → tokAt l c = some tc → tc.type = ty →
      tokAt l tc.parent = some tp → (tp.type = JSMN_LABEL ∨ tp.type = JSMN_ARRAY) →
      BuildStep l cap c call (l.length : Int) l tp.parent

/-- The number of allocated tokens whose parent field is `i`. -/
def children (l : List jsmn_Token) (i : Int) : Nat :=
  l.countP (fun t => decide (t.parent = i))

/-- The size field of every allocated token is the number of allocated tokens
whose parent field is its index. -/
def SizesOK (l : List jsmn_Token) : Prop :=
  ∀ (i : Nat) (t : jsmn_Token), l.get? i = some t → t.size = (children l (i : Int) : Int)

/-- Every Label token has size 1. -/
def LabelSizes (l : List jsmn_Token) : Prop :=
  ∀ (i : Nat) (t : jsmn_Token), l.get? i = some t → t.type = JSMN_LABEL → t.size = 1

/-- The tokens on the parent chain from token `i` up to the token without
parent (at most `fuel` of them). -/
def parent_chain (l : List jsmn_Token) : Nat → Int → List jsmn_Token
  | 0, _ => []
  | fuel + 1, i =>
    match tokAt l i with
    | none => []
    | some t => if t.parent = -1 then [t] else t :: parent_chain l fuel t.parent

/-- `Reaches js len cap l sup pos`: the main loop of a real `jsmn_parse` of
`js` from offset 0 on a fresh arena of capacity `cap` comes to its condition
with the token array `l`, the superior token `sup` and the offset `pos`. -/
inductive Reaches (js : List Nat) (len cap : Nat) : List jsmn_Token → Int → Nat → Prop where
  | start : Reaches js len cap [] (-1) 0
  | step (l : List jsmn_Token) (sup : Int) (pos : Nat) (l1 : List jsmn_Token) (sup1 : Int)
      (pos1 : Nat) (count1 : Int) :
      Reaches js len cap l sup pos → pos < len → js.getD pos 0 ≠ 0 →
      parse_step js len ⟨⟨some l, cap, sup⟩, pos⟩ (l.length : Int) =
        Run.ok (Step.next ⟨⟨some l1, cap, sup1⟩, pos1⟩ count1) →
      Reaches js len cap l1 sup1 (pos1 + 1)

end Jsmn

namespace Jsmn
open jsmntype_t

/-! ## The value at the root -/

/-- The first token is a String. -/
def IsStr (T : List jsmn_Token) : Prop :=
  ∃ t rest, T = t :: rest ∧ t.type = JSMN_STRING

/-! ## The layout of a token tree of the Builder -/

/-- A leaf token the parser reads back as it stands: the bytes of a Primitive
(its C string, up to the NUL) are a primitive the scan accepts, the bytes of a
String or Label (nothing for a NULL pointer) are a string body the scan walks
through. -/
def LeafOK (t : jsmn_Token) : Prop :=
  (t.type = JSMN_PRIMITIVE → ValidPrim (token_bytes [] t)) ∧
  (t.type = JSMN_STRING ∨ t.type = JSMN_LABEL → ScanStr (token_bytes [] t))

/-- `Layout kind n s V X k`: the tokens `V`, the first of them at index `n`,
are the tokens of a text of the class `kind` under the token `s`, in document
order, with the sizes and parents of a tree; `X` is the text without white
space that `jsmn_dump` writes for them and `k` the number of children they
give to `s`. -/
inductive Layout : Kind → Nat → Int → List jsmn_Token → List Nat → Nat → Prop where
  | prim (n : Nat) (s : Int) (t : jsmn_Token) :
      t.type = JSMN_PRIMITIVE → t.size = 0 → t.parent = s →
      Layout Kind.value n s [t] (token_bytes [] t) 1
  | str (n : Nat) (s : Int) (t : jsmn_Token) :
      t.type = JSMN_STRING → t.size = 0 → t.parent = s →
      Layout Kind.value n s [t] (34 :: token_bytes [] t ++ [34]) 1
  | arr_empty (n : Nat) (s : Int) (t : jsmn_Token) :
      t.type = JSMN_ARRAY → t.size = 0 → t.parent = s →
      Layout Kind.value n s [t] [91, 93] 1
  | arr (n : Nat) (s : Int) (t : jsmn_Token) (V : List jsmn_Token) (X : List Nat) (k : Nat) :
      t.type = JSMN_ARRAY → t.size = (k : Int) → t.parent = s →
      Layout Kind.elems (n + 1) (n : Int) V X k →
      Layout Kind.value n s (t :: V) (91 :: X ++ [93]) 1
  | obj_empty (n : Nat) (s : Int) (t : jsmn_Token) :
      t.type = JSMN_OBJECT → t.size = 0 → t.parent = s →
      Layout Kind.value n s [t] [123, 125] 1
  | obj (n : Nat) (s : Int) (t : jsmn_Token) (V : List jsmn_Token) (X : List Nat) (k : Nat) :
      t.type = JSMN_OBJECT → t.size = (k : Int) → t.parent = s →
      Layout Kind.members (n + 1) (n : Int) V X k →
      Layout Kind.value n s (t :: V) (123 :: X ++ [125]) 1
  | member (n : Nat) (s : Int) (lab : jsmn_Token) (V : List jsmn_Token) (X : List Nat) :
      lab.type = JSMN_LABEL → lab.size = 1 → lab.parent = s →
      Layout Kind.value (n + 1) (n : Int) V X 1 →
      Layout Kind.member n s (lab :: V) (34 :: token_bytes [] lab ++ 34 :: 58 :: X) 1
  | elems_one (n : Nat) (s : Int) (V : List jsmn_Token) (X : List Nat) :
      Layout Kind.value n s V X 1 → Layout Kind.elems n s V X 1
  | elems_cons (n : Nat) (s : Int) (V : List jsmn_Token) (X : List Nat)
      (V1 : List jsmn_Token) (X1 : List Nat) (k : Nat) :
      Layout Kind.value n s V X 1 → Layout Kind.elems (n + V.length) s V1 X1 k →
      Layout Kind.elems n s (V ++ V1) (X ++ 44 :: X1) (k + 1)
  | members_one (n : Nat) (s : Int) (V : List jsmn_Token) (X : List Nat) :
      Layout Kind.member n s V X 1 → Layout Kind.members n s V X 1
  | members_cons (n : Nat) (s : Int) (V : List jsmn_Token) (X : List Nat)
      (V1 : List jsmn_Token) (X1 : List Nat) (k : Nat) :
      Layout Kind.member n s V X 1 → Layout Kind.members (n + V.length) s V1 X1 k →
      Layout Kind.members n s (V ++ V1) (X ++ 44 :: X1) (k + 1)

/-- The `k` children `K` of a container, laid out from index `n` on: none, or
the elements of an Array or the members of an Object. -/
def Kids (kind : Kind) (n : Nat) (s : Int) (K : List jsmn_Token) (k : Nat) : Prop :=
  (K = [] ∧ k = 0) ∨ ∃ X, Layout kind n s K X k

/-- `Frames pre s`: the tokens `pre` are the containers that enclose the next
token, each with the children it has so far (and, in an Object, the Label of
the next token); the next token is a value under the token `s` and is counted
in the size of its container. -/
inductive Frames : List jsmn_Token → Int → Prop where
  | root : Frames [] (-1)
  | arr (pre : List jsmn_Token) (t : jsmn_Token) (K : List jsmn_Token) (k : Nat) :
      Frames pre t.parent → t.type = JSMN_ARRAY → t.size = ((k + 1 : Nat) : Int) →
      Kids Kind.elems (pre.length + 1) (pre.length : Int) K k →
      Frames (pre ++ t :: K) (pre.length : Int)
  | obj (pre : List jsmn_Token) (t : jsmn_Token) (K : List jsmn_Token) (k : Nat)
      (lab : jsmn_Token) :
      Frames pre t.parent → t.type = JSMN_OBJECT → t.size = ((k + 1 : Nat) : Int) →
      Kids Kind.members (pre.length + 1) (pre.length : Int) K k →
      lab.type = JSMN_LABEL → lab.size = 1 → lab.parent = (pre.length : Int) →
      Frames (pre ++ t :: (K ++ [lab])) ((pre.length + 1 + K.length : Nat) : Int)

/-- The superior token `c` is a container that takes further children: the
last token of the frames, with the children `K` it has so far. -/
def OpenAt (l : List jsmn_Token) (c : Int) : Prop :=
  ∃ (pre : List jsmn_Token) (tc : jsmn_Token) (K : List jsmn_Token) (k : Nat),
    l = pre ++ tc :: K ∧ c = (pre.length : Int) ∧ Frames pre tc.parent ∧ tc.size = (k : Int) ∧
    ((tc.type = JSMN_ARRAY ∧ Kids Kind.elems (pre.length + 1) (pre.length : Int) K k) ∨
      (tc.type = JSMN_OBJECT ∧ Kids Kind.members (pre.length + 1) (pre.length : Int) K k))

/-- The value under the superior token `c` is complete and `c` takes no
further child: `c` is unset (the root is complete) or a Label. -/
def FilledAt (l : List jsmn_Token) (c : Int) : Prop :=
  ∃ (pre V : List jsmn_Token) (X : List Nat),
    l = pre ++ V ∧ Frames pre c ∧ Layout Kind.value pre.length c V X 1 ∧
    (c = -1 ∨ ∃ lab, tokAt l c = some lab ∧ lab.type = JSMN_LABEL ∧ 1 ≤ lab.size)

/-- The tokens are not one tree under an Object or Array at index 0: token 0
is no container, or there is a second token without parent, or a Label has two
children. -/
def Broken (l : List jsmn_Token) : Prop :=
  (l ≠ [] ∧ ¬ IsCont l) ∨ 2 ≤ children l (-1) ∨
    ∃ t, t ∈ l ∧ t.type = JSMN_LABEL ∧ 2 ≤ t.size

/-- What the arena of a Builder looks like after successful calls. -/
def Built (l : List jsmn_Token) (c : Int) : Prop :=
  (l = [] ∧ c = -1) ∨ OpenAt l c ∨ FilledAt l c ∨ Broken l

/-- What `jsmn_dump` does on the tokens `V` of a layout of the class `kind`
that stand in the token array `B` from index `n` on: on a value it writes the
text and returns the number of tokens; on a member it does so in two calls, for
the Label and for the value; on the elements of an Array and the members of an
Object its loops do so. -/
def DumpSpec (kind : Kind) (n : Nat) (V : List jsmn_Token) (X : List Nat) (k : Nat) : Prop :=
  ∀ (B : List jsmn_Token) (fuel : Nat), Seg B n V → V.length < fuel →
    match kind with
    | Kind.value =>
      ∃ out, jsmn_dump [] B fuel (n : Int) = Run.ok (out, (V.length : Int)) ∧ out.flatten = X
    | Kind.item => True
    | Kind.member =>
      ∃ out1 out2 r2, jsmn_dump [] B fuel (n : Int) = Run.ok (out1, 1) ∧
        jsmn_dump [] B fuel ((n : Int) + 1) = Run.ok (out2, r2) ∧
        1 + r2 = (V.length : Int) ∧ (out1 ++ out2).flatten = X
    | Kind.elems =>
      ∀ (t size i j : Int), t + 1 + j = (n : Int) → size - i = (k : Int) →
        ∃ out, dump_array_loop (fun u => jsmn_dump [] B fuel u) t size k i j =
          Run.ok (out, j + (V.length : Int)) ∧ out.flatten = X
    | Kind.members =>
      ∀ (t size i j : Int), t + 1 + j = (n : Int) → size - i = (k : Int) →
        ∃ out, dump_object_loop (fun u => jsmn_dump [] B fuel u) t size k i j =
          Run.ok (out, j + (V.length : Int)) ∧ out.flatten = X

end Jsmn

namespace Jsmn
open jsmntype_t

theorem isPlain_ne_zero {c : Nat} (h : isPlain c = true) : c ≠ 0 := by
  intro h0; subst h0; simp [isPlain] at h

theorem primitive_loop_skip (js : List Nat) (len : Nat) :
    ∀ (fuel pos i : Nat), pos ≤ i → i - pos < fuel →
      (∀ j, pos ≤ j → j < i → j < len ∧ isPlain (js.getD j 0) = true) →
      primitive_loop js len fuel pos = primitive_loop js len (fuel - (i - pos)) i := by
  intro fuel
  induction fuel with
  | zero => intro pos i _ h _; omega
  | succ n ih =>
    intro pos i hle hlt hpl
    rcases Nat.eq_or_lt_of_le hle with heq | hlt2
    · subst heq; simp
    · obtain ⟨h1, h2⟩ := hpl pos (le_refl _) hlt2
      have h0 := isPlain_ne_zero h2
      simp only [isPlain, Bool.and_eq_true, decide_eq_true_eq, Bool.not_eq_true'] at h2
      rw [primitive_loop]
      have hc : pos < len ∧ js.getD pos 0 ≠ 0 := ⟨h1, h0⟩
      rw [if_pos hc]
      simp only [h2.2, Bool.false_eq_true, if_false]
      have hn : ¬ (js.getD pos 0 < 32 ∨ js.getD pos 0 ≥ 127) := by omega
      rw [if_neg hn, ih (pos + 1) i (by omega) (by omega) (fun j hj hji => hpl j (by omega) hji)]
      congr 1
      omega

theorem primitive_loop_at (js : List Nat) (len : Nat) (parser : jsmn_Parser) (i : Nat)
    (hs : parser.pos ≤ i)
    (hplain : ∀ j, parser.pos ≤ j → j < i → j < len ∧ isPlain (js.getD j 0) = true) :
    ∃ k, primitive_loop js len (len - parser.pos + 1) parser.pos
      = primitive_loop js len (k + 1) i := by
  have hi : i - parser.pos < len - parser.pos + 1 := by
    rcases Nat.eq_or_lt_of_le hs with heq | hlt
    · omega
    · have := (hplain (i - 1) (by omega) (by omega)).1
      omega
  refine ⟨len - parser.pos + 1 - (i - parser.pos) - 1, ?_⟩
  rw [primitive_loop_skip js len _ _ i hs hi hplain]
  congr 1
  omega

/-- C10. Outcome of the primitive sub-scan started at `s = parser.pos` in real
mode with a free slot, where `i` is the first index at or after `s` whose byte
is not a printable non-terminator byte (or `i = len`):
(a) a byte outside `32..126` other than NUL at `i` gives `JSMN_ERROR_INVAL`;
(b) the end of the buffer or a NUL byte at `i` gives `JSMN_ERROR_PART`; in both
cases the parser (position and tokens) is as before the call;
(c) a terminator at `i` allocates exactly one Primitive token with
`start = s`, `end = i`, `parent = toksuper` and leaves `pos = i - 1`. -/
theorem jsmn_parse_primitive_outcome (parser : jsmn_Parser) (js : List Nat) (len : Nat)
    (l : List jsmn_Token) (i : Nat)
    (hreal : parser.factory.toks = some l) (hfree : l.length < parser.factory.tokslen)
    (hs : parser.pos ≤ i)
    (hplain : ∀ j, parser.pos ≤ j → j < i → j < len ∧ isPlain (js.getD j 0) = true) :
    (i < len → js.getD i 0 ≠ 0 → isTerminator (js.getD i 0) = false →
        (js.getD i 0 < 32 ∨ 127 ≤ js.getD i 0) →
        jsmn_parse_primitive parser js len = Run.ok (JSMN_ERROR_INVAL, parser)) ∧
    ((len ≤ i ∨ js.getD i 0 = 0) →
        jsmn_parse_primitive parser js len = Run.ok (JSMN_ERROR_PART, parser)) ∧
    (i < len → isTerminator (js.getD i 0) = true → 0 < i →
        jsmn_parse_primitive parser js len =
          Run.ok (0,
            { factory :=
                { parser.factory with
                  toks := some (l ++ [{ type := JSMN_PRIMITIVE, data := jsmn_data.null,
                                        length := -1, start := parser.pos, end_ := i,
                                        size := 0, parent := parser.factory.toksuper }]) },
              pos := i - 1 })) := by
  obtain ⟨k, hk⟩ := primitive_loop_at js len parser i hs hplain
  refine ⟨?_, ?_, ?_⟩
  · intro hi h0 hterm hbad
    have hc : i < len ∧ js.getD i 0 ≠ 0 := ⟨hi, h0⟩
    have hbad2 : js.getD i 0 < 32 ∨ js.getD i 0 ≥ 127 := hbad
    have hv : primitive_loop js len (k + 1) i = Run.ok (Sum.inl JSMN_ERROR_INVAL) := by
      rw [primitive_loop, if_pos hc, hterm, if_neg (by simp), if_pos hbad2]
    rw [jsmn_parse_primitive, hk, hv]
  · intro hend
    have hc : ¬ (i < len ∧ js.getD i 0 ≠ 0) := by
      rcases hend with h | h
      · omega
      · intro hh; exact hh.2 h
    have hv : primitive_loop js len (k + 1) i = Run.ok (Sum.inl JSMN_ERROR_PART) := by
      rw [primitive_loop, if_neg hc]
    rw [jsmn_parse_primitive, hk, hv]
  · intro hi hterm _
    have h0 : js.getD i 0 ≠ 0 := by
      intro h; rw [h] at hterm; simp [isTerminator] at hterm
    have hc : i < len ∧ js.getD i 0 ≠ 0 := ⟨hi, h0⟩
    have hfree2 : ¬ (parser.factory.tokslen ≤ l.length) := by omega
    have hv : primitive_loop js len (k + 1) i = Run.ok (Sum.inr i) := by
      rw [primitive_loop, if_pos hc, hterm, if_pos rfl]
    rw [jsmn_parse_primitive, hk, hv]
    simp [hreal, jsmn_alloc_token, jsmn_Factory.toknext, hfree2, tokSet, jsmn_fill_token,
      fresh_token]

/-- Witness of C10: the primitive `12` followed by a comma, scanned from 0. -/
theorem jsmn_parse_primitive_outcome_witness :
    jsmn_parse_primitive ⟨⟨some [], 4, -1⟩, 0⟩ [49, 50, 44] 3 =
      Run.ok (0,
        { factory :=
            { toks := some ([] ++ [{ type := JSMN_PRIMITIVE, data := jsmn_data.null,
                                     length := -1, start := ((0 : Nat) : Int),
                                     end_ := ((2 : Nat) : Int),
                                     size := 0, parent := -1 }]),
              tokslen := 4, toksuper := -1 },
          pos := 2 - 1 }) :=
  (jsmn_parse_primitive_outcome ⟨⟨some [], 4, -1⟩, 0⟩ [49, 50, 44] 3 [] 2 rfl (by decide)
    (by decide)
    (by
      intro j _ hj
      have hj2 : j = 0 ∨ j = 1 := by omega
      rcases hj2 with rfl | rfl <;> decide)).2.2 (by decide) (by decide) (by decide)

end Jsmn

namespace Jsmn
open jsmntype_t

theorem isHex_ne_zero {c : Nat} (h : isHex c = true) : c ≠ 0 := by
  intro h0; subst h0; simp [isHex] at h

theorem hex_loop_some (js : List Nat) (len : Nat) :
    ∀ (n p k : Nat), k ≤ n →
      (∀ m, m < k → p + m < len ∧ isHex (js.getD (p + m) 0) = true) →
      (k = n ∨ len ≤ p + k ∨ js.getD (p + k) 0 = 0) →
      hex_loop js len n p = some (p + k) := by
  intro n
  induction n with
  | zero =>
    intro p k hk _ _
    have : k = 0 := by omega
    subst this; simp [hex_loop]
  | succ n ih =>
    intro p k hk hh hend
    cases k with
    | zero =>
      rcases hend with h | h | h
      · omega
      · rw [hex_loop, if_neg (by omega)]; rfl
      · rw [hex_loop, if_neg (by intro hc; exact hc.2 (by simpa using h))]; rfl
    | succ k =>
      have h0 := hh 0 (by omega)
      simp only [Nat.add_zero] at h0
      rw [hex_loop, if_pos ⟨h0.1, isHex_ne_zero h0.2⟩, if_pos h0.2,
        ih (p + 1) k (by omega)
          (fun m hm => by have := hh (m + 1) (by omega); rwa [show p + 1 + m = p + (m + 1) by omega])
          (by rcases hend with h | h | h
              · left; omega
              · right; left; omega
              · right; right; rwa [show p + 1 + k = p + (k + 1) by omega])]
      congr 1; omega

theorem hex_loop_none (js : List Nat) (len : Nat) :
    ∀ (n p k : Nat), k < n →
      (∀ m, m < k → p + m < len ∧ isHex (js.getD (p + m) 0) = true) →
      p + k < len → js.getD (p + k) 0 ≠ 0 → isHex (js.getD (p + k) 0) = false →
      hex_loop js len n p = none := by
  intro n
  induction n with
  | zero => intro p k hk; omega
  | succ n ih =>
    intro p k hk hh hlt h0 hnh
    cases k with
    | zero =>
      simp only [Nat.add_zero] at hlt h0 hnh
      rw [hex_loop, if_pos ⟨hlt, h0⟩, hnh, if_neg (by simp)]
    | succ k =>
      have h1 := hh 0 (by omega)
      simp only [Nat.add_zero] at h1
      rw [hex_loop, if_pos ⟨h1.1, isHex_ne_zero h1.2⟩, if_pos h1.2]
      exact ih (p + 1) k (by omega)
        (fun m hm => by have := hh (m + 1) (by omega); rwa [show p + 1 + m = p + (m + 1) by omega])
        (by omega) (by rwa [show p + 1 + k = p + (k + 1) by omega])
        (by rwa [show p + 1 + k = p + (k + 1) by omega])

theorem string_loop_body (js : List Nat) (len : Nat)
    {pos i : Nat} (hb : StringBody js len pos i) :
    ∀ fuel, len - pos < fuel →
      ∃ k, string_loop js len fuel pos = string_loop js len (k + 1) i := by
  induction hb with
  | nil i =>
    intro fuel hf
    exact ⟨fuel - 1, by rw [show fuel - 1 + 1 = fuel by omega]⟩
  | plain i j hlt h0 hq hbs _ ih =>
    intro fuel hf
    obtain ⟨f, rfl⟩ : ∃ f, fuel = f + 1 := ⟨fuel - 1, by omega⟩
    obtain ⟨k, hk⟩ := ih f (by omega)
    refine ⟨k, ?_⟩
    rw [string_loop, if_pos ⟨hlt, h0⟩, if_neg hq, if_neg hbs, hk]
  | esc i j hbs hlt hesc _ ih =>
    intro fuel hf
    obtain ⟨f, rfl⟩ : ∃ f, fuel = f + 1 := ⟨fuel - 1, by omega⟩
    obtain ⟨k, hk⟩ := ih f (by omega)
    refine ⟨k, ?_⟩
    rw [string_loop, if_pos ⟨by omega, by omega⟩, if_neg (by omega), if_pos ⟨hbs, hlt⟩,
      if_pos hesc, hk]
  | uesc i j k hbs hlt hu hk4 hhex hend _ ih =>
    intro fuel hf
    obtain ⟨f, rfl⟩ : ∃ f, fuel = f + 1 := ⟨fuel - 1, by omega⟩
    obtain ⟨k', hk'⟩ := ih f (by omega)
    refine ⟨k', ?_⟩
    have hne : isEscaped (js.getD (i + 1) 0) = false := by rw [hu]; decide
    rw [string_loop, if_pos ⟨by omega, by omega⟩, if_neg (by omega), if_pos ⟨hbs, hlt⟩,
      hne, if_neg (by simp), if_pos hu, hex_loop_some js len 4 (i + 1 + 1) k hk4
        (fun m hm => by have := hhex m hm; rwa [show i + 1 + 1 + m = i + 2 + m by omega])
        (by rwa [show i + 1 + 1 + k = i + 2 + k by omega])]
    simp only
    rw [show i + 1 + 1 + k - 1 + 1 = i + 2 + k by omega, hk']

theorem jsmn_parse_string_fail (parser : jsmn_Parser) (js : List Nat) (len : Nat)
    (r : Int) (p : jsmn_Parser)
    (h : jsmn_parse_string parser js len = Run.ok (r, p)) (hr : r < 0) : p = parser := by
  unfold jsmn_parse_string at h
  split at h
  · simp at h
  · simp at h
  · simp only [Run.ok.injEq, Prod.mk.injEq] at h; exact h.2.symm
  · split at h
    · simp only [Run.ok.injEq, Prod.mk.injEq] at h; omega
    · split at h
      · simp only [Run.ok.injEq, Prod.mk.injEq] at h; exact h.2.symm
      · split at h
        · simp at h
        · simp only [Run.ok.injEq, Prod.mk.injEq] at h; omega

/-- C9. Failures of the string sub-scan started at the opening quote
`s = parser.pos`, where the bytes from `s + 1` up to `i` are a run of items
the scan steps over (so the event at `i` is the first one in scan order):
(a) a backslash at `i` that is not the last byte of the buffer, followed by a
byte other than `" / \ b f r n t u`, or followed by `u` and, after fewer than
four hex digits, a byte (not NUL) that is no hex digit, gives
`JSMN_ERROR_INVAL`; (b) the end of the buffer or a NUL byte at `i` gives
`JSMN_ERROR_PART`; and whenever the sub-scan returns an error, the parser
(position `s` and token array) is as before the call. -/
theorem jsmn_parse_string_failures (parser : jsmn_Parser) (js : List Nat) (len : Nat) (i : Nat)
    (hbody : StringBody js len (parser.pos + 1) i) :
    (js.getD i 0 = 92 → i + 1 < len → isEscaped (js.getD (i + 1) 0) = false →
        js.getD (i + 1) 0 ≠ 117 →
        jsmn_parse_string parser js len = Run.ok (JSMN_ERROR_INVAL, parser)) ∧
    (js.getD i 0 = 92 → i + 1 < len → js.getD (i + 1) 0 = 117 →
        ∀ k, k < 4 → (∀ m, m < k → i + 2 + m < len ∧ isHex (js.getD (i + 2 + m) 0) = true) →
          i + 2 + k < len → js.getD (i + 2 + k) 0 ≠ 0 → isHex (js.getD (i + 2 + k) 0) = false →
          jsmn_parse_string parser js len = Run.ok (JSMN_ERROR_INVAL, parser)) ∧
    ((len ≤ i ∨ js.getD i 0 = 0) →
        jsmn_parse_string parser js len = Run.ok (JSMN_ERROR_PART, parser)) ∧
    (∀ r p, jsmn_parse_string parser js len = Run.ok (r, p) → r < 0 → p = parser) := by
  obtain ⟨f, hf⟩ := string_loop_body js len hbody (len - parser.pos + 1) (by omega)
  refine ⟨?_, ?_, ?_, ?_⟩
  · intro hbs hlt hesc hu
    have hv : string_loop js len (f + 1) i = Run.ok (Sum.inl JSMN_ERROR_INVAL) := by
      rw [string_loop, if_pos ⟨by omega, by omega⟩, if_neg (by omega),
        if_pos ⟨hbs, hlt⟩, hesc, if_neg (by simp), if_neg hu]
    rw [jsmn_parse_string, hf, hv]
  · intro hbs hlt hu k hk hhex hin h0 hnh
    have hne : isEscaped (js.getD (i + 1) 0) = false := by rw [hu]; decide
    have hv : string_loop js len (f + 1) i = Run.ok (Sum.inl JSMN_ERROR_INVAL) := by
      rw [string_loop, if_pos ⟨by omega, by omega⟩, if_neg (by omega),
        if_pos ⟨hbs, hlt⟩, hne, if_neg (by simp), if_pos hu,
        hex_loop_none js len 4 (i + 1 + 1) k hk
          (fun m hm => by have := hhex m hm; rwa [show i + 1 + 1 + m = i + 2 + m by omega])
          (by omega) (by rwa [show i + 1 + 1 + k = i + 2 + k by omega])
          (by rwa [show i + 1 + 1 + k = i + 2 + k by omega])]
    rw [jsmn_parse_string, hf, hv]
  · intro hend
    have hc : ¬ (i < len ∧ js.getD i 0 ≠ 0) := by
      rcases hend with h | h
      · omega
      · intro hh; exact hh.2 h
    have hv : string_loop js len (f + 1) i = Run.ok (Sum.inl JSMN_ERROR_PART) := by
      rw [string_loop, if_neg hc]
    rw [jsmn_parse_string, hf, hv]
  · intro r p h hr
    exact jsmn_parse_string_fail parser js len r p h hr

/-- Witness of C9: in the text `"a\x` the escape `\x` is invalid. -/
theorem jsmn_parse_string_failures_witness :
    jsmn_parse_string ⟨⟨some [], 4, -1⟩, 0⟩ [34, 97, 92, 120] 4 =
      Run.ok (JSMN_ERROR_INVAL, ⟨⟨some [], 4, -1⟩, 0⟩) :=
  (jsmn_parse_string_failures ⟨⟨some [], 4, -1⟩, 0⟩ [34, 97, 92, 120] 4 2
    (StringBody.plain 1 2 (by decide) (by decide) (by decide) (by decide)
      (StringBody.nil 2))).1 (by decide) (by decide) (by decide) (by decide)

end Jsmn

namespace Jsmn
open jsmntype_t

/-! ## Token array accesses -/

theorem tokAt_eq_some {l : List jsmn_Token} {i : Int} {t : jsmn_Token} :
    tokAt l i = some t ↔ 0 ≤ i ∧ l.get? i.toNat = some t := by
  unfold tokAt
  split <;> simp [*]

theorem tokAt_lt {l : List jsmn_Token} {i : Int} {t : jsmn_Token} (h : tokAt l i = some t) :
    0 ≤ i ∧ i < l.length := by
  rw [tokAt_eq_some] at h
  obtain ⟨h0, h1⟩ := h
  have := List.get?_eq_some.1 h1
  obtain ⟨hlt, _⟩ := this
  exact ⟨h0, by omega⟩

theorem tokAt_isSome {l : List jsmn_Token} {i : Int} (h0 : 0 ≤ i) (h1 : i < l.length) :
    ∃ t, tokAt l i = some t := by
  have hlt : i.toNat < l.length := by omega
  exact ⟨l.get ⟨i.toNat, hlt⟩, by rw [tokAt_eq_some]; exact ⟨h0, List.get?_eq_get hlt⟩⟩

theorem tokAt_neg {l : List jsmn_Token} {i : Int} (h : i < 0) : tokAt l i = none := by
  unfold tokAt; rw [if_neg (by omega)]

theorem tokAt_nat (l : List jsmn_Token) (n : Nat) : tokAt l (n : Int) = l.get? n := by
  unfold tokAt; simp

theorem tokAt_append_left {l : List jsmn_Token} {i : Int} (x : List jsmn_Token)
    (h : i < l.length) : tokAt (l ++ x) i = tokAt l i := by
  unfold tokAt
  split
  · simp only [List.get?_eq_getElem?]
    rw [List.getElem?_append_left (by omega)]
  · rfl

theorem tokAt_append_length (l : List jsmn_Token) (t : jsmn_Token) :
    tokAt (l ++ [t]) (l.length : Int) = some t := by
  rw [tokAt_nat]; simp

theorem tokSet_length (l : List jsmn_Token) (i : Int) (t : jsmn_Token) :
    (tokSet l i t).length = l.length := by
  simp [tokSet]

theorem tokSet_append_length (l : List jsmn_Token) (x t : jsmn_Token) :
    tokSet (l ++ [x]) (l.length : Int) t = l ++ [t] := by
  simp [tokSet]

theorem tokSet_append_left {l : List jsmn_Token} {i : Int} (x : List jsmn_Token)
    (t : jsmn_Token) (h0 : 0 ≤ i) (h : i < l.length) :
    tokSet (l ++ x) i t = tokSet l i t ++ x := by
  unfold tokSet
  rw [List.set_append_left _ _ (by omega)]

theorem tokAt_tokSet_self {l : List jsmn_Token} {i : Int} (t : jsmn_Token)
    (h0 : 0 ≤ i) (h : i < l.length) : tokAt (tokSet l i t) i = some t := by
  rw [tokAt_eq_some]
  refine ⟨h0, ?_⟩
  unfold tokSet
  simp only [List.get?_eq_getElem?]
  rw [List.getElem?_set_self (by omega)]

theorem tokAt_tokSet_ne {l : List jsmn_Token} {i j : Int} (t : jsmn_Token)
    (h0 : 0 ≤ i) (hj : 0 ≤ j) (h : i ≠ j) : tokAt (tokSet l i t) j = tokAt l j := by
  unfold tokAt tokSet
  rw [if_pos hj, if_pos hj]
  simp only [List.get?_eq_getElem?]
  rw [List.getElem?_set_ne (by omega)]

theorem size_incr_eq_some {l l1 : List jsmn_Token} {i : Int} (h : size_incr l i = some l1) :
    ∃ t, tokAt l i = some t ∧ l1 = tokSet l i { t with size := t.size + 1 } := by
  unfold size_incr at h
  split at h
  · simp at h
  · rename_i t ht
    exact ⟨t, ht, by simpa using h.symm⟩

theorem size_incr_of_tokAt {l : List jsmn_Token} {i : Int} {t : jsmn_Token}
    (h : tokAt l i = some t) :
    size_incr l i = some (tokSet l i { t with size := t.size + 1 }) := by
  unfold size_incr; rw [h]

theorem size_incr_append {l : List jsmn_Token} {i : Int} (x : List jsmn_Token)
    (h : i < l.length) : size_incr (l ++ x) i = (size_incr l i).map (· ++ x) := by
  unfold size_incr
  rw [tokAt_append_left x h]
  cases ht : tokAt l i with
  | none => rfl
  | some t =>
    have := tokAt_lt ht
    simp only [Option.map_some']
    rw [tokSet_append_left x _ this.1 this.2]

/-! ## The sub-scans in real and in dry mode -/

theorem jsmn_alloc_token_one {factory : jsmn_Factory} {l : List jsmn_Token}
    (hl : factory.toks = some l) :
    jsmn_alloc_token factory 1 =
      if factory.tokslen ≤ l.length then none else some (l.length, l ++ [fresh_token]) := by
  unfold jsmn_alloc_token jsmn_Factory.toknext
  simp [hl]

theorem jsmn_parse_primitive_real {p : jsmn_Parser} {l : List jsmn_Token}
    (hl : p.factory.toks = some l) (js : List Nat) (len : Nat) :
    jsmn_parse_primitive p js len =
      match primitive_loop js len (len - p.pos + 1) p.pos with
      | Run.fuel => Run.fuel
      | Run.bounds => Run.bounds
      | Run.ok (Sum.inl e) => Run.ok (e, p)
      | Run.ok (Sum.inr q) =>
        if p.factory.tokslen ≤ l.length then Run.ok (JSMN_ERROR_NOMEM, p)
        else Run.ok (0,
          { factory := { p.factory with
              toks := some (l ++ [new_token JSMN_PRIMITIVE p.pos q p.factory.toksuper]) },
            pos := q - 1 }) := by
  unfold jsmn_parse_primitive
  split <;> simp only [*]
  simp only [jsmn_alloc_token_one hl]
  by_cases hcap : p.factory.tokslen ≤ l.length
  · simp only [if_pos hcap]
  · simp only [if_neg hcap, tokSet_append_length, jsmn_fill_token, fresh_token, new_token]

theorem jsmn_parse_primitive_dry (cap pos : Nat) (js : List Nat) (len : Nat) :
    jsmn_parse_primitive (dryP cap pos) js len =
      match primitive_loop js len (len - pos + 1) pos with
      | Run.fuel => Run.fuel
      | Run.bounds => Run.bounds
      | Run.ok (Sum.inl e) => Run.ok (e, dryP cap pos)
      | Run.ok (Sum.inr q) => Run.ok (0, dryP cap (q - 1)) := by
  unfold jsmn_parse_primitive
  simp only [dryP]

theorem jsmn_parse_string_real {p : jsmn_Parser} {l : List jsmn_Token}
    (hl : p.factory.toks = some l) (js : List Nat) (len : Nat) :
    jsmn_parse_string p js len =
      match string_loop js len (len - p.pos + 1) (p.pos + 1) with
      | Run.fuel => Run.fuel
      | Run.bounds => Run.bounds
      | Run.ok (Sum.inl e) => Run.ok (e, p)
      | Run.ok (Sum.inr q) =>
        if p.factory.tokslen ≤ l.length then Run.ok (JSMN_ERROR_NOMEM, p)
        else
          match tokAt (l ++ [fresh_token]) p.factory.toksuper with
          | none => Run.bounds
          | some sup =>
            Run.ok (0,
              { factory := { p.factory with
                  toks := some (l ++ [new_token
                    (if sup.type = JSMN_OBJECT then JSMN_LABEL else JSMN_STRING)
                    ((p.pos : Int) + 1) q p.factory.toksuper]) },
                pos := q }) := by
  unfold jsmn_parse_string
  split <;> simp only [*]
  simp only [jsmn_alloc_token_one hl]
  by_cases hcap : p.factory.tokslen ≤ l.length
  · simp only [if_pos hcap]
  · simp only [if_neg hcap]
    cases tokAt (l ++ [fresh_token]) p.factory.toksuper with
    | none => rfl
    | some sup => simp only [tokSet_append_length, jsmn_fill_token, fresh_token, new_token]

theorem jsmn_parse_string_dry (cap pos : Nat) (js : List Nat) (len : Nat) :
    jsmn_parse_string (dryP cap pos) js len =
      match string_loop js len (len - pos + 1) (pos + 1) with
      | Run.fuel => Run.fuel
      | Run.bounds => Run.bounds
      | Run.ok (Sum.inl e) => Run.ok (e, dryP cap pos)
      | Run.ok (Sum.inr q) => Run.ok (0, dryP cap q) := by
  unfold jsmn_parse_string
  simp only [dryP]

theorem step_count_dry (cap pos : Nat) (count : Int) :
    step_count (dryP cap pos) count = Run.ok (Step.next (dryP cap pos) (count + 1)) := rfl


/-! ## The cases of the main loop in real mode -/

theorem bump_neg_one (l : List jsmn_Token) : bump l (-1) = l := by
  unfold bump size_incr
  rw [tokAt_neg (by omega)]

theorem bump_length (l : List jsmn_Token) (sup : Int) : (bump l sup).length = l.length := by
  unfold bump
  cases h : size_incr l sup with
  | none => rfl
  | some l1 =>
    obtain ⟨t, _, rfl⟩ := size_incr_eq_some h
    simp [tokSet_length]

theorem size_incr_supOK {l : List jsmn_Token} {sup : Int} (h : SupOK l sup) (hne : sup ≠ -1) :
    size_incr l sup = some (bump l sup) := by
  rcases h with h | ⟨h0, h1⟩
  · exact absurd h hne
  · obtain ⟨t, ht⟩ := tokAt_isSome h0 h1
    unfold bump
    rw [size_incr_of_tokAt ht]

theorem step_open_real {p : jsmn_Parser} {l : List jsmn_Token} (hl : p.factory.toks = some l)
    (hsup : SupOK l p.factory.toksuper) {c : Nat} (hc : c = 123 ∨ c = 91) (count : Int) :
    step_open c p count =
      if p.factory.tokslen ≤ l.length then Run.ok (Step.ret JSMN_ERROR_NOMEM p)
      else Run.ok (Step.next
        { p with factory := { p.factory with
            toks := some (bump l p.factory.toksuper ++
              [new_token (bracket_type c) p.pos (-1) p.factory.toksuper]),
            toksuper := (l.length : Int) } }
        (count + 1)) := by
  have hty : (if c = 123 then JSMN_OBJECT else JSMN_ARRAY) = bracket_type c := by
    unfold bracket_type
    rcases hc with h | h <;> simp [h]
  unfold step_open
  simp only [hl, jsmn_alloc_token_one hl, hty]
  by_cases hcap : p.factory.tokslen ≤ l.length
  · simp only [if_pos hcap]
  · simp only [if_neg hcap]
    by_cases hs : p.factory.toksuper = -1
    · simp [hs, bump_neg_one, tokSet_append_length, fresh_token, new_token]
    · have hlt : p.factory.toksuper < l.length := by
        rcases hsup with h | h
        · exact absurd h hs
        · exact h.2
      simp only [ne_eq, hs, not_false_eq_true, if_true, size_incr_append _ hlt,
        size_incr_supOK hsup hs, Option.map_some']
      have hlen : (bump l p.factory.toksuper).length = l.length := bump_length _ _
      rw [← hlen, tokSet_append_length]
      simp [fresh_token, new_token, hlen]

theorem step_count_real {p : jsmn_Parser} {l : List jsmn_Token} (hl : p.factory.toks = some l)
    (hsup : SupOK l p.factory.toksuper) (count : Int) :
    step_count p count =
      Run.ok (Step.next
        { p with factory := { p.factory with toks := some (bump l p.factory.toksuper) } }
        (count + 1)) := by
  obtain ⟨⟨toks, tokslen, toksuper⟩, pos⟩ := p
  simp only at hl hsup
  subst hl
  unfold step_count
  by_cases hs : toksuper = -1
  · simp [hs, bump_neg_one]
  · simp [hs, size_incr_supOK hsup hs]

theorem bump_append {l : List jsmn_Token} {sup : Int} (x : List jsmn_Token)
    (h : sup < l.length) : bump (l ++ x) sup = bump l sup ++ x := by
  unfold bump
  rw [size_incr_append x h]
  cases size_incr l sup <;> rfl

theorem supOK_append {l : List jsmn_Token} {sup : Int} (x : List jsmn_Token)
    (h : SupOK l sup) : SupOK (l ++ x) sup := by
  rcases h with h | ⟨h0, h1⟩
  · exact Or.inl h
  · exact Or.inr ⟨h0, by simp; omega⟩

theorem supOK_lt {l : List jsmn_Token} {sup : Int} (h : SupOK l sup) : sup < l.length := by
  rcases h with h | ⟨_, h1⟩
  · omega
  · exact h1

theorem step_string_real {p : jsmn_Parser} {l : List jsmn_Token} (hl : p.factory.toks = some l)
    (hsup : SupOK l p.factory.toksuper) (js : List Nat) (len : Nat) (count : Int) :
    step_string js len p count =
      match string_loop js len (len - p.pos + 1) (p.pos + 1) with
      | Run.fuel => Run.fuel
      | Run.bounds => Run.bounds
      | Run.ok (Sum.inl e) => if e < 0 then Run.ok (Step.ret e p) else step_count p count
      | Run.ok (Sum.inr q) =>
        if p.factory.tokslen ≤ l.length then Run.ok (Step.ret JSMN_ERROR_NOMEM p)
        else if p.factory.toksuper = -1 then Run.bounds
        else
          Run.ok (Step.next
            { factory := { p.factory with
                toks := some (bump l p.factory.toksuper ++ [new_token
                  (string_type l p.factory.toksuper)
                  ((p.pos : Int) + 1) q p.factory.toksuper]) },
              pos := q }
            (count + 1)) := by
  obtain ⟨⟨toks, tokslen, toksuper⟩, pos⟩ := p
  simp only at hl hsup
  subst hl
  unfold step_string
  rw [jsmn_parse_string_real rfl]
  cases string_loop js len (len - pos + 1) (pos + 1) with
  | fuel => rfl
  | bounds => rfl
  | ok a =>
    cases a with
    | inl e => rfl
    | inr q =>
      simp only
      by_cases hcap : tokslen ≤ l.length
      · simp [if_pos hcap]
      · simp only [if_neg hcap]
        rw [tokAt_append_left _ (supOK_lt hsup)]
        by_cases hs : toksuper = -1
        · subst hs; simp [tokAt_neg]
        · rcases hsup with h | ⟨h0, h1⟩
          · exact absurd h hs
          · obtain ⟨t, ht⟩ := tokAt_isSome h0 h1
            simp only [ht, lt_self_iff_false, if_false, if_neg hs, string_type]
            rw [step_count_real (p := ⟨⟨some _, tokslen, toksuper⟩, q⟩) rfl
              (supOK_append _ (Or.inr ⟨h0, h1⟩))]
            simp only [bump_append _ h1]

theorem key_check_real {f : jsmn_Factory} {l : List jsmn_Token} (hl : f.toks = some l)
    (hsup : SupOK l f.toksuper) :
    key_check f = Run.ok (key_blocked l f.toksuper) := by
  unfold key_check key_blocked
  simp only [hl]
  by_cases hs : f.toksuper = -1
  · simp [hs, tokAt_neg]
  · rcases hsup with h | ⟨h0, h1⟩
    · exact absurd h hs
    · obtain ⟨t, ht⟩ := tokAt_isSome h0 h1
      simp [hs, ht]

theorem step_primitive_real {p : jsmn_Parser} {l : List jsmn_Token}
    (hl : p.factory.toks = some l)
    (hsup : SupOK l p.factory.toksuper) (js : List Nat) (len : Nat) (count : Int) :
    step_primitive js len p count =
      if key_blocked l p.factory.toksuper = true then Run.ok (Step.ret JSMN_ERROR_INVAL p)
      else
        match primitive_loop js len (len - p.pos + 1) p.pos with
        | Run.fuel => Run.fuel
        | Run.bounds => Run.bounds
        | Run.ok (Sum.inl e) => if e < 0 then Run.ok (Step.ret e p) else step_count p count
        | Run.ok (Sum.inr q) =>
          if p.factory.tokslen ≤ l.length then Run.ok (Step.ret JSMN_ERROR_NOMEM p)
          else
            Run.ok (Step.next
              { factory := { p.factory with
                  toks := some (bump l p.factory.toksuper ++
                    [new_token JSMN_PRIMITIVE p.pos q p.factory.toksuper]) },
                pos := q - 1 }
              (count + 1)) := by
  obtain ⟨⟨toks, tokslen, toksuper⟩, pos⟩ := p
  simp only at hl hsup
  subst hl
  unfold step_primitive
  rw [key_check_real rfl hsup, jsmn_parse_primitive_real rfl]
  cases hk : key_blocked l toksuper with
  | true => simp
  | false =>
    simp only [Bool.false_eq_true, if_false]
    cases primitive_loop js len (len - pos + 1) pos with
    | fuel => rfl
    | bounds => rfl
    | ok a =>
      cases a with
      | inl e => rfl
      | inr q =>
        simp only
        by_cases hcap : tokslen ≤ l.length
        · simp [if_pos hcap]
        · simp only [if_neg hcap, lt_self_iff_false, if_false]
          rw [step_count_real (p := ⟨⟨some _, tokslen, toksuper⟩, q - 1⟩) rfl
            (supOK_append _ hsup)]
          simp only [bump_append _ (supOK_lt hsup)]

theorem step_comma_real {p : jsmn_Parser} {l : List jsmn_Token} (hl : p.factory.toks = some l)
    (hsup : SupOK l p.factory.toksuper) (count : Int) :
    step_comma p count =
      Run.ok (Step.next
        { p with factory := { p.factory with toksuper := comma_sup l p.factory.toksuper } }
        count) := by
  obtain ⟨⟨toks, tokslen, toksuper⟩, pos⟩ := p
  simp only at hl hsup
  subst hl
  unfold step_comma comma_sup
  by_cases hs : toksuper = -1
  · simp [hs, tokAt_neg]
  · rcases hsup with h | ⟨h0, h1⟩
    · exact absurd h hs
    · obtain ⟨t, ht⟩ := tokAt_isSome h0 h1
      simp only [ne_eq, hs, not_false_eq_true, if_true, ht]
      split <;> rfl

theorem step_colon_real {p : jsmn_Parser} {l : List jsmn_Token} (hl : p.factory.toks = some l)
    (count : Int) :
    step_colon p count =
      Run.ok (Step.next
        { p with factory := { p.factory with toksuper := (l.length : Int) - 1 } } count) := by
  unfold step_colon jsmn_Factory.toknext
  simp only [hl]


/-! ## What the scanning loops return -/

theorem primitive_loop_inl (js : List Nat) (len : Nat) :
    ∀ (fuel pos : Nat) (e : Int), primitive_loop js len fuel pos = Run.ok (Sum.inl e) →
      e = JSMN_ERROR_INVAL ∨ e = JSMN_ERROR_PART := by
  intro fuel
  induction fuel with
  | zero => intro pos e h; simp [primitive_loop] at h
  | succ n ih =>
    intro pos e h
    rw [primitive_loop] at h
    split_ifs at h
    · simp at h
    · simp only [Run.ok.injEq, Sum.inl.injEq] at h; exact Or.inl h.symm
    · exact ih _ _ h
    · simp only [Run.ok.injEq, Sum.inl.injEq] at h; exact Or.inr h.symm

theorem primitive_loop_inr (js : List Nat) (len : Nat) :
    ∀ (fuel pos q : Nat), primitive_loop js len fuel pos = Run.ok (Sum.inr q) →
      pos ≤ q ∧ q < len ∧ isTerminator (js.getD q 0) = true ∧
      ∀ j, pos ≤ j → j < q → isPlain (js.getD j 0) = true := by
  intro fuel
  induction fuel with
  | zero => intro pos q h; simp [primitive_loop] at h
  | succ n ih =>
    intro pos q h
    rw [primitive_loop] at h
    split_ifs at h with h1 h2 h3
    · simp only [Run.ok.injEq, Sum.inr.injEq] at h
      subst h
      exact ⟨le_refl _, h1.1, h2, fun j hj hjq => by omega⟩
    · simp at h
    · obtain ⟨ha, hb, hc, hd⟩ := ih _ _ h
      refine ⟨by omega, hb, hc, fun j hj hjq => ?_⟩
      rcases Nat.eq_or_lt_of_le hj with heq | hlt
      · subst heq
        simp only [isPlain, Bool.and_eq_true, decide_eq_true_eq, Bool.not_eq_true']
        simp only [Bool.not_eq_true] at h2
        exact ⟨⟨by omega, by omega⟩, h2⟩
      · exact hd j (by omega) hjq
    · simp at h

theorem primitive_loop_ne_fuel (js : List Nat) (len : Nat) :
    ∀ (fuel pos : Nat), len - pos < fuel → primitive_loop js len fuel pos ≠ Run.fuel := by
  intro fuel
  induction fuel with
  | zero => intro pos h; omega
  | succ n ih =>
    intro pos h
    rw [primitive_loop]
    split_ifs with h1 h2 h3
    · simp
    · simp
    · exact ih _ (by omega)
    · simp

theorem primitive_loop_ne_bounds (js : List Nat) (len : Nat) :
    ∀ (fuel pos : Nat), primitive_loop js len fuel pos ≠ Run.bounds := by
  intro fuel
  induction fuel with
  | zero => intro pos; simp [primitive_loop]
  | succ n ih =>
    intro pos
    rw [primitive_loop]
    split_ifs with h1 h2 h3
    · simp
    · simp
    · exact ih _
    · simp

theorem hex_loop_ge (js : List Nat) (len : Nat) :
    ∀ (n pos p : Nat), hex_loop js len n pos = some p → pos ≤ p := by
  intro n
  induction n with
  | zero => intro pos p h; simp [hex_loop] at h; omega
  | succ n ih =>
    intro pos p h
    rw [hex_loop] at h
    split_ifs at h
    · have := ih _ _ h; omega
    · simp at h; omega

theorem string_loop_inl (js : List Nat) (len : Nat) :
    ∀ (fuel pos : Nat) (e : Int), string_loop js len fuel pos = Run.ok (Sum.inl e) →
      e = JSMN_ERROR_INVAL ∨ e = JSMN_ERROR_PART := by
  intro fuel
  induction fuel with
  | zero => intro pos e h; simp [string_loop] at h
  | succ n ih =>
    intro pos e h
    rw [string_loop] at h
    split_ifs at h
    · simp at h
    · exact ih _ _ h
    · split at h
      · simp only [Run.ok.injEq, Sum.inl.injEq] at h; exact Or.inl h.symm
      · exact ih _ _ h
    · simp only [Run.ok.injEq, Sum.inl.injEq] at h; exact Or.inl h.symm
    · exact ih _ _ h
    · simp only [Run.ok.injEq, Sum.inl.injEq] at h; exact Or.inr h.symm

theorem string_loop_inr (js : List Nat) (len : Nat) :
    ∀ (fuel pos q : Nat), string_loop js len fuel pos = Run.ok (Sum.inr q) →
      pos ≤ q ∧ q < len ∧ js.getD q 0 = 34 := by
  intro fuel
  induction fuel with
  | zero => intro pos q h; simp [string_loop] at h
  | succ n ih =>
    intro pos q h
    rw [string_loop] at h
    split_ifs at h with h1 h2 h3 h4 h5
    · simp only [Run.ok.injEq, Sum.inr.injEq] at h
      subst h
      exact ⟨le_refl _, h1.1, h2⟩
    · have := ih _ _ h; omega
    · split at h
      · simp at h
      · rename_i p hp
        have := ih _ _ h
        have := hex_loop_ge js len _ _ _ hp
        omega
    · simp at h
    · have := ih _ _ h; omega
    · simp at h

theorem string_loop_ne_fuel (js : List Nat) (len : Nat) :
    ∀ (fuel pos : Nat), len - pos < fuel → string_loop js len fuel pos ≠ Run.fuel := by
  intro fuel
  induction fuel with
  | zero => intro pos h; omega
  | succ n ih =>
    intro pos h
    rw [string_loop]
    split_ifs with h1 h2 h3 h4 h5
    · simp
    · exact ih _ (by omega)
    · split
      · simp
      · rename_i p hp
        have := hex_loop_ge js len _ _ _ hp
        exact ih _ (by omega)
    · simp
    · exact ih _ (by omega)
    · simp

theorem string_loop_ne_bounds (js : List Nat) (len : Nat) :
    ∀ (fuel pos : Nat), string_loop js len fuel pos ≠ Run.bounds := by
  intro fuel
  induction fuel with
  | zero => intro pos; simp [string_loop]
  | succ n ih =>
    intro pos
    rw [string_loop]
    split_ifs with h1 h2 h3 h4 h5
    · simp
    · exact ih _
    · split
      · simp
      · exact ih _
    · simp
    · exact ih _
    · simp


/-! ## The walk of a closing bracket -/

theorem close_walk_ok (ty : jsmntype_t) (pos : Nat) (sup : Int) (l : List jsmn_Token)
    (hp : ParentsOK l) :
    ∀ (fuel : Nat) (i : Int), 0 ≤ i → i < l.length → i < fuel →
      ∃ r, close_walk ty pos sup fuel l i = Run.ok r := by
  intro fuel
  induction fuel with
  | zero => intro i h0 _ h; omega
  | succ n ih =>
    intro i h0 h1 h2
    obtain ⟨t, ht⟩ := tokAt_isSome h0 h1
    rw [close_walk, ht]
    simp only
    split_ifs with h3 h4 h5 h6
    · exact ⟨_, rfl⟩
    · exact ⟨_, rfl⟩
    · exact ⟨_, rfl⟩
    · exact ⟨_, rfl⟩
    · have hpar := hp i.toNat t ((tokAt_eq_some.1 ht).2)
      rcases hpar with h | ⟨ha, hb⟩
      · exact absurd h h5
      · exact ih t.parent ha (by omega) (by omega)

theorem close_walk_some (ty : jsmntype_t) (pos : Nat) (sup : Int) :
    ∀ (fuel : Nat) (l : List jsmn_Token) (i : Int) (l1 : List jsmn_Token) (sup1 : Int),
      close_walk ty pos sup fuel l i = Run.ok (some (l1, sup1)) →
      (l1 = l ∧ sup1 = sup ∧ sup ≠ -1) ∨
      ∃ (j : Nat) (t : jsmn_Token), l.get? j = some t ∧ t.start ≠ -1 ∧ t.end_ = -1 ∧
        t.type = ty ∧ l1 = l.set j { t with end_ := (pos : Int) + 1 } ∧ sup1 = t.parent := by
  intro fuel
  induction fuel with
  | zero => intro l i l1 sup1 h; simp [close_walk] at h
  | succ n ih =>
    intro l i l1 sup1 h
    rw [close_walk] at h
    split at h
    · simp at h
    · rename_i t ht
      split_ifs at h with h3 h4 h5 h6
      · simp at h
      · simp only [Run.ok.injEq, Option.some.injEq, Prod.mk.injEq] at h
        right
        refine ⟨i.toNat, t, (tokAt_eq_some.1 ht).2, h3.1, h3.2, by simpa using h4, ?_, h.2.symm⟩
        rw [← h.1]; rfl
      · simp at h
      · simp only [Run.ok.injEq, Option.some.injEq, Prod.mk.injEq] at h
        left
        exact ⟨h.1.symm, h.2.symm, by push_neg at h6; exact h6.2⟩
      · exact ih _ _ _ _ h

theorem step_close_real {p : jsmn_Parser} {l : List jsmn_Token} (hl : p.factory.toks = some l)
    {c : Nat} (hc : c = 125 ∨ c = 93) (count : Int) :
    step_close c p count =
      if l.length < 1 then Run.ok (Step.ret JSMN_ERROR_INVAL p)
      else
        match close_walk (bracket_type c) p.pos p.factory.toksuper
            l.length l ((l.length : Int) - 1) with
        | Run.fuel => Run.fuel
        | Run.bounds => Run.bounds
        | Run.ok none => Run.ok (Step.ret JSMN_ERROR_INVAL p)
        | Run.ok (some (l1, toksuper)) =>
          Run.ok (Step.next
            { p with factory := { p.factory with toks := some l1, toksuper := toksuper } }
            count) := by
  have hty : (if c = 125 then JSMN_OBJECT else JSMN_ARRAY) = bracket_type c := by
    unfold bracket_type
    rcases hc with h | h <;> simp [h]
  unfold step_close
  simp only [hl, hty]
  try rfl

/-! ## One pass through the main loop in real mode -/

theorem isPrimitiveStart_not_terminator {c : Nat} (h : isPrimitiveStart c = true) :
    isTerminator c = false := by
  simp only [isPrimitiveStart, Bool.or_eq_true, decide_eq_true_eq, Bool.and_eq_true] at h
  simp only [isTerminator, Bool.or_eq_false_iff, decide_eq_false_iff_not]
  omega

theorem bracket_type_cases {c : Nat} {ty : jsmntype_t} (hc : c = 123 ∨ c = 91)
    (h : bracket_type c = ty) : c = 123 ∧ ty = JSMN_OBJECT ∨ c = 91 ∧ ty = JSMN_ARRAY := by
  unfold bracket_type at h
  rcases hc with hc | hc <;> subst hc <;> simp at h <;> simp [h]

theorem bracket_type_cases_close {c : Nat} {ty : jsmntype_t} (hc : c = 125 ∨ c = 93)
    (h : bracket_type c = ty) : c = 125 ∧ ty = JSMN_OBJECT ∨ c = 93 ∧ ty = JSMN_ARRAY := by
  unfold bracket_type at h
  rcases hc with hc | hc <;> subst hc <;> simp at h <;> simp [h]

theorem parse_step_next_real (js : List Nat) (len : Nat) {p p1 : jsmn_Parser}
    {l : List jsmn_Token} {count c1 : Int}
    (hl : p.factory.toks = some l) (hsup : SupOK l p.factory.toksuper)
    (h : parse_step js len p count = Run.ok (Step.next p1 c1)) :
    ∃ l1 sup1, p1.factory = { toks := some l1, tokslen := p.factory.tokslen, toksuper := sup1 } ∧
      TokStep js len l p.factory.toksuper p.pos l1 sup1 p1.pos (c1 - count) := by
  obtain ⟨⟨toks, tokslen, toksuper⟩, pos⟩ := p
  simp only at hl hsup
  subst hl
  unfold parse_step at h
  simp only at h ⊢
  by_cases h1 : js.getD pos 0 = 123 ∨ js.getD pos 0 = 91
  · -- opening bracket
    rw [if_pos h1, step_open_real rfl hsup h1] at h
    simp only at h
    by_cases hcap : tokslen ≤ l.length
    · rw [if_pos hcap] at h; simp at h
    · rw [if_neg hcap] at h
      simp only [Run.ok.injEq, Step.next.injEq] at h
      obtain ⟨hp, hc⟩ := h
      subst hp hc
      refine ⟨_, _, rfl, ?_⟩
      rw [show count + 1 - count = 1 by omega]
      exact TokStep.opened h1
  rw [if_neg h1] at h
  by_cases h2 : js.getD pos 0 = 125 ∨ js.getD pos 0 = 93
  · -- closing bracket
    rw [if_pos h2, step_close_real rfl h2] at h
    simp only at h
    by_cases hlen : l.length < 1
    · rw [if_pos hlen] at h; simp at h
    · rw [if_neg hlen] at h
      cases hw : close_walk (bracket_type (js.getD pos 0)) pos toksuper l.length l
          ((l.length : Int) - 1) with
      | fuel => rw [hw] at h; simp at h
      | bounds => rw [hw] at h; simp at h
      | ok r =>
        rw [hw] at h
        cases r with
        | none => simp at h
        | some r =>
          obtain ⟨l1, sup1⟩ := r
          simp only [Run.ok.injEq, Step.next.injEq] at h
          obtain ⟨hp, hc⟩ := h
          subst hp hc
          refine ⟨_, _, rfl, ?_⟩
          rw [show count - count = 0 by omega]
          exact TokStep.closed l1 sup1 h2 hlen hw
  rw [if_neg h2] at h
  by_cases h3 : js.getD pos 0 = 34
  · -- string
    rw [if_pos h3, step_string_real rfl hsup] at h
    simp only at h
    cases hq : string_loop js len (len - pos + 1) (pos + 1) with
    | fuel => rw [hq] at h; simp at h
    | bounds => rw [hq] at h; simp at h
    | ok r =>
      rw [hq] at h
      cases r with
      | inl e =>
        rcases string_loop_inl _ _ _ _ _ hq with rfl | rfl <;> simp at h
      | inr q =>
        simp only at h
        by_cases hcap : tokslen ≤ l.length
        · rw [if_pos hcap] at h; simp at h
        · rw [if_neg hcap] at h
          by_cases hs : toksuper = -1
          · rw [if_pos hs] at h; simp at h
          · rw [if_neg hs] at h
            simp only [Run.ok.injEq, Step.next.injEq] at h
            obtain ⟨hp, hc⟩ := h
            subst hp hc
            refine ⟨_, _, rfl, ?_⟩
            rw [show count + 1 - count = 1 by omega]
            exact TokStep.string q h3 hs hq
  rw [if_neg h3] at h
  by_cases h4 : js.getD pos 0 = 9 ∨ js.getD pos 0 = 13 ∨ js.getD pos 0 = 10 ∨ js.getD pos 0 = 32
  · -- white space
    rw [if_pos h4] at h
    simp only [Run.ok.injEq, Step.next.injEq] at h
    obtain ⟨hp, hc⟩ := h
    subst hp hc
    refine ⟨_, _, rfl, ?_⟩
    rw [show count - count = 0 by omega]
    exact TokStep.space h4
  rw [if_neg h4] at h
  by_cases h5 : js.getD pos 0 = 58
  · -- colon
    rw [if_pos h5, step_colon_real rfl] at h
    simp only [Run.ok.injEq, Step.next.injEq] at h
    obtain ⟨hp, hc⟩ := h
    subst hp hc
    refine ⟨_, _, rfl, ?_⟩
    rw [show count - count = 0 by omega]
    exact TokStep.colon h5
  rw [if_neg h5] at h
  by_cases h6 : js.getD pos 0 = 44
  · -- comma
    rw [if_pos h6, step_comma_real rfl hsup] at h
    simp only [Run.ok.injEq, Step.next.injEq] at h
    obtain ⟨hp, hc⟩ := h
    subst hp hc
    refine ⟨_, _, rfl, ?_⟩
    rw [show count - count = 0 by omega]
    exact TokStep.comma h6
  rw [if_neg h6] at h
  by_cases h7 : isPrimitiveStart (js.getD pos 0) = true
  · -- primitive
    rw [if_pos h7, step_primitive_real rfl hsup] at h
    simp only at h
    by_cases hk : key_blocked l toksuper = true
    · rw [if_pos hk] at h; simp at h
    · rw [if_neg hk] at h
      cases hq : primitive_loop js len (len - pos + 1) pos with
      | fuel => rw [hq] at h; simp at h
      | bounds => rw [hq] at h; simp at h
      | ok r =>
        rw [hq] at h
        cases r with
        | inl e =>
          rcases primitive_loop_inl _ _ _ _ _ hq with rfl | rfl <;> simp at h
        | inr q =>
          simp only at h
          by_cases hcap : tokslen ≤ l.length
          · rw [if_pos hcap] at h; simp at h
          · rw [if_neg hcap] at h
            simp only [Run.ok.injEq, Step.next.injEq] at h
            obtain ⟨hp, hc⟩ := h
            subst hp hc
            refine ⟨_, _, rfl, ?_⟩
            rw [show count + 1 - count = 1 by omega]
            exact TokStep.primitive q h7 (by simpa using hk) hq
  · rw [if_neg h7] at h; simp at h


theorem primitiveStart_class {c : Nat} (h : isPrimitiveStart c = true) :
    ¬ (c = 123 ∨ c = 91) ∧ ¬ (c = 125 ∨ c = 93) ∧ ¬ c = 34 ∧
    ¬ (c = 9 ∨ c = 13 ∨ c = 10 ∨ c = 32) ∧ ¬ c = 58 ∧ ¬ c = 44 := by
  simp only [isPrimitiveStart, Bool.or_eq_true, decide_eq_true_eq, Bool.and_eq_true] at h
  omega

theorem parse_step_of_tokStep {js : List Nat} {len : Nat} {l l1 : List jsmn_Token}
    {sup sup1 : Int} {pos pos1 : Nat} {d : Int}
    (h : TokStep js len l sup pos l1 sup1 pos1 d) (hsup : SupOK l sup) (cap : Nat)
    (count : Int) :
    parse_step js len ⟨⟨some l, cap, sup⟩, pos⟩ count =
      if d = 1 ∧ cap ≤ l.length then Run.ok (Step.ret JSMN_ERROR_NOMEM ⟨⟨some l, cap, sup⟩, pos⟩)
      else Run.ok (Step.next ⟨⟨some l1, cap, sup1⟩, pos1⟩ (count + d)) := by
  unfold parse_step
  simp only
  cases h with
  | opened h1 =>
    rw [if_pos h1, step_open_real rfl hsup h1]
    simp only [true_and]
  | closed l1 sup1 h2 hlen hw =>
    have h1 : ¬ (js.getD pos 0 = 123 ∨ js.getD pos 0 = 91) := by omega
    rw [if_neg h1, if_pos h2, step_close_real rfl h2]
    simp only [if_neg hlen, hw]
    simp
  | string q h3 hs hq =>
    have h1 : ¬ (js.getD pos 0 = 123 ∨ js.getD pos 0 = 91) := by omega
    have h2 : ¬ (js.getD pos 0 = 125 ∨ js.getD pos 0 = 93) := by omega
    rw [if_neg h1, if_neg h2, if_pos h3, step_string_real rfl hsup]
    simp only [hq, if_neg hs, true_and]
  | primitive q h7 hk hq =>
    obtain ⟨h1, h2, h3, h4, h5, h6⟩ := primitiveStart_class h7
    rw [if_neg h1, if_neg h2, if_neg h3, if_neg h4, if_neg h5, if_neg h6, if_pos h7,
      step_primitive_real rfl hsup]
    simp only [hk, hq, Bool.false_eq_true, if_false, true_and]
  | space h4 =>
    have h1 : ¬ (js.getD pos 0 = 123 ∨ js.getD pos 0 = 91) := by omega
    have h2 : ¬ (js.getD pos 0 = 125 ∨ js.getD pos 0 = 93) := by omega
    have h3 : ¬ js.getD pos 0 = 34 := by omega
    rw [if_neg h1, if_neg h2, if_neg h3, if_pos h4]
    simp
  | colon h5 =>
    have h1 : ¬ (js.getD pos 0 = 123 ∨ js.getD pos 0 = 91) := by omega
    have h2 : ¬ (js.getD pos 0 = 125 ∨ js.getD pos 0 = 93) := by omega
    have h3 : ¬ js.getD pos 0 = 34 := by omega
    have h4 : ¬ (js.getD pos 0 = 9 ∨ js.getD pos 0 = 13 ∨ js.getD pos 0 = 10 ∨
      js.getD pos 0 = 32) := by omega
    rw [if_neg h1, if_neg h2, if_neg h3, if_neg h4, if_pos h5, step_colon_real rfl]
    simp
  | comma h6 =>
    have h1 : ¬ (js.getD pos 0 = 123 ∨ js.getD pos 0 = 91) := by omega
    have h2 : ¬ (js.getD pos 0 = 125 ∨ js.getD pos 0 = 93) := by omega
    have h3 : ¬ js.getD pos 0 = 34 := by omega
    have h4 : ¬ (js.getD pos 0 = 9 ∨ js.getD pos 0 = 13 ∨ js.getD pos 0 = 10 ∨
      js.getD pos 0 = 32) := by omega
    have h5 : ¬ js.getD pos 0 = 58 := by omega
    rw [if_neg h1, if_neg h2, if_neg h3, if_neg h4, if_neg h5, if_pos h6,
      step_comma_real rfl hsup]
    simp


/-! ## Invariants of the token array along the main loop -/

theorem bump_get? (l : List jsmn_Token) (sup : Int) (i : Nat) :
    (bump l sup).get? i =
      (l.get? i).map (fun t => if (i : Int) = sup then { t with size := t.size + 1 } else t) := by
  unfold bump size_incr
  cases ht : tokAt l sup with
  | none =>
    simp only
    cases hi : l.get? i with
    | none => rfl
    | some t =>
      simp only [Option.map_some', Option.some.injEq]
      rw [if_neg]
      intro h
      rw [← h, tokAt_nat, hi] at ht
      simp at ht
  | some t =>
    simp only
    obtain ⟨h0, h1⟩ := tokAt_lt ht
    unfold tokSet
    simp only [List.get?_eq_getElem?]
    rw [List.getElem?_set]
    by_cases h : sup.toNat = i
    · have hlt : i < l.length := by omega
      have hi : (i : Int) = sup := by omega
      rw [tokAt_eq_some] at ht
      simp only [List.get?_eq_getElem?, h] at ht
      simp [h, hlt, hi, ht.2]
    · rw [if_neg h]
      cases hi : l[i]? with
      | none => rfl
      | some t' =>
        simp only [Option.map_some', Option.some.injEq]
        rw [if_neg]
        omega

theorem get?_append_single {l : List jsmn_Token} {x t : jsmn_Token} {i : Nat}
    (h : (l ++ [x]).get? i = some t) : l.get? i = some t ∨ (i = l.length ∧ t = x) := by
  simp only [List.get?_eq_getElem?] at h ⊢
  by_cases hi : i < l.length
  · rw [List.getElem?_append_left hi] at h
    exact Or.inl h
  · rw [List.getElem?_append_right (by omega)] at h
    right
    have : i - l.length = 0 := by
      by_contra hne
      rw [List.getElem?_eq_none (by simp; omega)] at h
      simp at h
    rw [this] at h
    simp at h
    exact ⟨by omega, h.symm⟩

theorem parentsOK_bump_append {l : List jsmn_Token} {sup : Int} {x : jsmn_Token}
    (hp : ParentsOK l) (hx : x.parent = sup) (hsup : SupOK l sup) :
    ParentsOK (bump l sup ++ [x]) := by
  intro i t h
  rcases get?_append_single h with h | ⟨hi, ht⟩
  · rw [bump_get?] at h
    cases hl : l.get? i with
    | none => rw [hl] at h; simp at h
    | some t0 =>
      rw [hl] at h
      simp only [Option.map_some', Option.some.injEq] at h
      have := hp i t0 hl
      rw [← h]
      split <;> exact this
  · subst ht
    rw [hx, hi, bump_length]
    rcases hsup with h | ⟨h0, h1⟩
    · exact Or.inl h
    · exact Or.inr ⟨h0, h1⟩

theorem parentsOK_set {l : List jsmn_Token} {j : Nat} {t x : jsmn_Token}
    (hp : ParentsOK l) (hj : l.get? j = some t) (hx : x.parent = t.parent) :
    ParentsOK (l.set j x) := by
  intro i t' h
  simp only [List.get?_eq_getElem?] at h hj
  rw [List.getElem?_set] at h
  by_cases hji : j = i
  · subst hji
    rw [if_pos rfl] at h
    split at h
    · simp only [Option.some.injEq] at h
      rw [← h, hx]
      exact hp j t (by simpa using hj)
    · simp at h
  · rw [if_neg hji] at h
    exact hp i t' (by simpa using h)

theorem supOK_parent {l : List jsmn_Token} {i : Nat} {t : jsmn_Token}
    (hp : ParentsOK l) (h : l.get? i = some t) : SupOK l t.parent := by
  have hlt := (List.get?_eq_some.1 h).1
  rcases hp i t h with h1 | ⟨h0, h1⟩
  · exact Or.inl h1
  · exact Or.inr ⟨h0, by omega⟩

theorem comma_sup_ok {l : List jsmn_Token} {sup : Int} (hp : ParentsOK l) (hs : SupOK l sup) :
    SupOK l (comma_sup l sup) := by
  unfold comma_sup
  cases ht : tokAt l sup with
  | none => exact hs
  | some t =>
    simp only
    split
    · exact supOK_parent hp (tokAt_eq_some.1 ht).2
    · exact hs

theorem tokStep_inv {js : List Nat} {len : Nat} {l l1 : List jsmn_Token}
    {sup sup1 : Int} {pos pos1 : Nat} {d : Int}
    (h : TokStep js len l sup pos l1 sup1 pos1 d) (hsup : SupOK l sup) (hp : ParentsOK l) :
    SupOK l1 sup1 ∧ ParentsOK l1 ∧ (d = 0 ∨ d = 1) ∧ (l1.length : Int) = l.length + d ∧
      pos ≤ pos1 := by
  cases h with
  | opened h1 =>
    refine ⟨Or.inr ⟨by omega, by simp [bump_length]⟩, parentsOK_bump_append hp rfl hsup,
      Or.inr rfl, by simp [bump_length], le_refl _⟩
  | closed l1 sup1 h2 hlen hw =>
    rcases close_walk_some _ _ _ _ _ _ _ _ hw with
      ⟨ha, hb, hc⟩ | ⟨j, t, hj, hs, he, hty, hl1, hs1⟩
    · subst ha hb
      exact ⟨hsup, hp, Or.inl rfl, by simp, le_refl _⟩
    · subst hl1 hs1
      have := supOK_parent hp hj
      refine ⟨?_, parentsOK_set hp hj rfl, Or.inl rfl, by simp, le_refl _⟩
      rcases this with h | ⟨h0, h1⟩
      · exact Or.inl h
      · exact Or.inr ⟨h0, by simpa using h1⟩
  | string q h3 hs hq =>
    obtain ⟨hq1, _, _⟩ := string_loop_inr _ _ _ _ _ hq
    refine ⟨?_, parentsOK_bump_append hp rfl hsup, Or.inr rfl, by simp [bump_length],
      by omega⟩
    rcases hsup with h | ⟨h0, h1⟩
    · exact Or.inl h
    · exact Or.inr ⟨h0, by simp [bump_length]; omega⟩
  | primitive q h7 hk hq =>
    obtain ⟨hq1, _, hq3, _⟩ := primitive_loop_inr _ _ _ _ _ hq
    have hne : pos ≠ q := by
      intro he; subst he
      rw [isPrimitiveStart_not_terminator h7] at hq3
      simp at hq3
    refine ⟨?_, parentsOK_bump_append hp rfl hsup, Or.inr rfl, by simp [bump_length],
      by omega⟩
    rcases hsup with h | ⟨h0, h1⟩
    · exact Or.inl h
    · exact Or.inr ⟨h0, by simp [bump_length]; omega⟩
  | space h4 => exact ⟨hsup, hp, Or.inl rfl, by simp, le_refl _⟩
  | colon h5 =>
    refine ⟨?_, hp, Or.inl rfl, by simp, le_refl _⟩
    by_cases hl : l.length = 0
    · left; omega
    · right; omega
  | comma h6 => exact ⟨comma_sup_ok hp hsup, hp, Or.inl rfl, by simp, le_refl _⟩


/-! ## One pass through the main loop in a dry run -/

theorem parse_step_dry (js : List Nat) (len cap pos : Nat) (count : Int) :
    parse_step js len (dryP cap pos) count =
      if js.getD pos 0 = 123 ∨ js.getD pos 0 = 91 then
        Run.ok (Step.next (dryP cap pos) (count + 1))
      else if js.getD pos 0 = 125 ∨ js.getD pos 0 = 93 then
        Run.ok (Step.next (dryP cap pos) count)
      else if js.getD pos 0 = 34 then
        match string_loop js len (len - pos + 1) (pos + 1) with
        | Run.fuel => Run.fuel
        | Run.bounds => Run.bounds
        | Run.ok (Sum.inl e) =>
          if e < 0 then Run.ok (Step.ret e (dryP cap pos))
          else Run.ok (Step.next (dryP cap pos) (count + 1))
        | Run.ok (Sum.inr q) => Run.ok (Step.next (dryP cap q) (count + 1))
      else if js.getD pos 0 = 9 ∨ js.getD pos 0 = 13 ∨ js.getD pos 0 = 10 ∨ js.getD pos 0 = 32 then
        Run.ok (Step.next (dryP cap pos) count)
      else if js.getD pos 0 = 58 then Run.ok (Step.next (dryP cap pos) count)
      else if js.getD pos 0 = 44 then Run.ok (Step.next (dryP cap pos) count)
      else if isPrimitiveStart (js.getD pos 0) = true then
        match primitive_loop js len (len - pos + 1) pos with
        | Run.fuel => Run.fuel
        | Run.bounds => Run.bounds
        | Run.ok (Sum.inl e) =>
          if e < 0 then Run.ok (Step.ret e (dryP cap pos))
          else Run.ok (Step.next (dryP cap pos) (count + 1))
        | Run.ok (Sum.inr q) => Run.ok (Step.next (dryP cap (q - 1)) (count + 1))
      else Run.ok (Step.ret JSMN_ERROR_INVAL (dryP cap pos)) := by
  unfold parse_step
  simp only
  have hpos : (dryP cap pos).pos = pos := rfl
  rw [hpos]
  by_cases h1 : js.getD pos 0 = 123 ∨ js.getD pos 0 = 91
  · rw [if_pos h1, if_pos h1]; rfl
  rw [if_neg h1, if_neg h1]
  by_cases h2 : js.getD pos 0 = 125 ∨ js.getD pos 0 = 93
  · rw [if_pos h2, if_pos h2]; rfl
  rw [if_neg h2, if_neg h2]
  by_cases h3 : js.getD pos 0 = 34
  · rw [if_pos h3, if_pos h3]
    unfold step_string
    rw [jsmn_parse_string_dry]
    cases string_loop js len (len - pos + 1) (pos + 1) with
    | fuel => rfl
    | bounds => rfl
    | ok r =>
      cases r with
      | inl e => simp only; split <;> rfl
      | inr q => rfl
  rw [if_neg h3, if_neg h3]
  by_cases h4 : js.getD pos 0 = 9 ∨ js.getD pos 0 = 13 ∨ js.getD pos 0 = 10 ∨ js.getD pos 0 = 32
  · rw [if_pos h4, if_pos h4]
  rw [if_neg h4, if_neg h4]
  by_cases h5 : js.getD pos 0 = 58
  · rw [if_pos h5, if_pos h5]; rfl
  rw [if_neg h5, if_neg h5]
  by_cases h6 : js.getD pos 0 = 44
  · rw [if_pos h6, if_pos h6]; rfl
  rw [if_neg h6, if_neg h6]
  by_cases h7 : isPrimitiveStart (js.getD pos 0) = true
  · rw [if_pos h7, if_pos h7]
    unfold step_primitive
    have hk : key_check (dryP cap pos).factory = Run.ok false := rfl
    rw [hk, jsmn_parse_primitive_dry]
    simp only
    cases primitive_loop js len (len - pos + 1) pos with
    | fuel => rfl
    | bounds => rfl
    | ok r =>
      cases r with
      | inl e => simp only; split <;> rfl
      | inr q => rfl
  · rw [if_neg h7, if_neg h7]

theorem dry_step_of_tokStep {js : List Nat} {len : Nat} {l l1 : List jsmn_Token}
    {sup sup1 : Int} {pos pos1 : Nat} {d : Int}
    (h : TokStep js len l sup pos l1 sup1 pos1 d) (cap : Nat) (count : Int) :
    parse_step js len (dryP cap pos) count = Run.ok (Step.next (dryP cap pos1) (count + d)) := by
  rw [parse_step_dry]
  cases h with
  | opened h1 => rw [if_pos h1]
  | closed l1 sup1 h2 hlen hw =>
    have h1 : ¬ (js.getD pos 0 = 123 ∨ js.getD pos 0 = 91) := by omega
    rw [if_neg h1, if_pos h2]; simp
  | string q h3 hs hq =>
    have h1 : ¬ (js.getD pos 0 = 123 ∨ js.getD pos 0 = 91) := by omega
    have h2 : ¬ (js.getD pos 0 = 125 ∨ js.getD pos 0 = 93) := by omega
    rw [if_neg h1, if_neg h2, if_pos h3, hq]
  | primitive q h7 hk hq =>
    obtain ⟨h1, h2, h3, h4, h5, h6⟩ := primitiveStart_class h7
    rw [if_neg h1, if_neg h2, if_neg h3, if_neg h4, if_neg h5, if_neg h6, if_pos h7, hq]
  | space h4 =>
    have h1 : ¬ (js.getD pos 0 = 123 ∨ js.getD pos 0 = 91) := by omega
    have h2 : ¬ (js.getD pos 0 = 125 ∨ js.getD pos 0 = 93) := by omega
    have h3 : ¬ js.getD pos 0 = 34 := by omega
    rw [if_neg h1, if_neg h2, if_neg h3, if_pos h4]; simp
  | colon h5 =>
    have h1 : ¬ (js.getD pos 0 = 123 ∨ js.getD pos 0 = 91) := by omega
    have h2 : ¬ (js.getD pos 0 = 125 ∨ js.getD pos 0 = 93) := by omega
    have h3 : ¬ js.getD pos 0 = 34 := by omega
    have h4 : ¬ (js.getD pos 0 = 9 ∨ js.getD pos 0 = 13 ∨ js.getD pos 0 = 10 ∨
      js.getD pos 0 = 32) := by omega
    rw [if_neg h1, if_neg h2, if_neg h3, if_neg h4, if_pos h5]; simp
  | comma h6 =>
    have h1 : ¬ (js.getD pos 0 = 123 ∨ js.getD pos 0 = 91) := by omega
    have h2 : ¬ (js.getD pos 0 = 125 ∨ js.getD pos 0 = 93) := by omega
    have h3 : ¬ js.getD pos 0 = 34 := by omega
    have h4 : ¬ (js.getD pos 0 = 9 ∨ js.getD pos 0 = 13 ∨ js.getD pos 0 = 10 ∨
      js.getD pos 0 = 32) := by omega
    have h5 : ¬ js.getD pos 0 = 58 := by omega
    rw [if_neg h1, if_neg h2, if_neg h3, if_neg h4, if_neg h5, if_pos h6]; simp

/-- In a dry run a pass through the loop body either returns an error with
the parser unchanged or goes on with the count unchanged or one higher and the
offset not lower. -/
theorem parse_step_dry_cases (js : List Nat) (len cap pos : Nat) (count : Int) :
    (∃ e, e < 0 ∧ parse_step js len (dryP cap pos) count = Run.ok (Step.ret e (dryP cap pos))) ∨
    (∃ pos1 d, pos ≤ pos1 ∧ (d = 0 ∨ d = 1) ∧
      parse_step js len (dryP cap pos) count = Run.ok (Step.next (dryP cap pos1) (count + d))) := by
  rw [parse_step_dry]
  by_cases h1 : js.getD pos 0 = 123 ∨ js.getD pos 0 = 91
  · rw [if_pos h1]; exact Or.inr ⟨pos, 1, le_refl _, Or.inr rfl, rfl⟩
  rw [if_neg h1]
  by_cases h2 : js.getD pos 0 = 125 ∨ js.getD pos 0 = 93
  · rw [if_pos h2]; exact Or.inr ⟨pos, 0, le_refl _, Or.inl rfl, by simp⟩
  rw [if_neg h2]
  by_cases h3 : js.getD pos 0 = 34
  · rw [if_pos h3]
    cases hq : string_loop js len (len - pos + 1) (pos + 1) with
    | fuel => exact absurd hq (string_loop_ne_fuel js len _ _ (by omega))
    | bounds => exact absurd hq (string_loop_ne_bounds js len _ _)
    | ok r =>
      cases r with
      | inl e =>
        left
        rcases string_loop_inl _ _ _ _ _ hq with rfl | rfl
        · exact ⟨JSMN_ERROR_INVAL, by decide, by simp⟩
        · exact ⟨JSMN_ERROR_PART, by decide, by simp⟩
      | inr q =>
        obtain ⟨hq1, _, _⟩ := string_loop_inr _ _ _ _ _ hq
        exact Or.inr ⟨q, 1, by omega, Or.inr rfl, rfl⟩
  rw [if_neg h3]
  by_cases h4 : js.getD pos 0 = 9 ∨ js.getD pos 0 = 13 ∨ js.getD pos 0 = 10 ∨ js.getD pos 0 = 32
  · rw [if_pos h4]; exact Or.inr ⟨pos, 0, le_refl _, Or.inl rfl, by simp⟩
  rw [if_neg h4]
  by_cases h5 : js.getD pos 0 = 58
  · rw [if_pos h5]; exact Or.inr ⟨pos, 0, le_refl _, Or.inl rfl, by simp⟩
  rw [if_neg h5]
  by_cases h6 : js.getD pos 0 = 44
  · rw [if_pos h6]; exact Or.inr ⟨pos, 0, le_refl _, Or.inl rfl, by simp⟩
  rw [if_neg h6]
  by_cases h7 : isPrimitiveStart (js.getD pos 0) = true
  · rw [if_pos h7]
    cases hq : primitive_loop js len (len - pos + 1) pos with
    | fuel => exact absurd hq (primitive_loop_ne_fuel js len _ _ (by omega))
    | bounds => exact absurd hq (primitive_loop_ne_bounds js len _ _)
    | ok r =>
      cases r with
      | inl e =>
        left
        rcases primitive_loop_inl _ _ _ _ _ hq with rfl | rfl
        · exact ⟨JSMN_ERROR_INVAL, by decide, by simp⟩
        · exact ⟨JSMN_ERROR_PART, by decide, by simp⟩
      | inr q =>
        obtain ⟨hq1, _, hq3, _⟩ := primitive_loop_inr _ _ _ _ _ hq
        have hne : pos ≠ q := by
          intro he; subst he
          rw [isPrimitiveStart_not_terminator h7] at hq3
          simp at hq3
        exact Or.inr ⟨q - 1, 1, by omega, Or.inr rfl, rfl⟩
  · rw [if_neg h7]; exact Or.inl ⟨JSMN_ERROR_INVAL, by decide, rfl⟩


/-! ## Every outcome of a pass through the main loop in real mode -/

theorem parse_step_string_root {js : List Nat} {len : Nat} {l : List jsmn_Token}
    {pos q : Nat} (h3 : js.getD pos 0 = 34)
    (hq : string_loop js len (len - pos + 1) (pos + 1) = Run.ok (Sum.inr q))
    (cap : Nat) (count : Int) :
    parse_step js len ⟨⟨some l, cap, -1⟩, pos⟩ count =
      if cap ≤ l.length then Run.ok (Step.ret JSMN_ERROR_NOMEM ⟨⟨some l, cap, -1⟩, pos⟩)
      else Run.bounds := by
  unfold parse_step
  simp only
  have h1 : ¬ (js.getD pos 0 = 123 ∨ js.getD pos 0 = 91) := by omega
  have h2 : ¬ (js.getD pos 0 = 125 ∨ js.getD pos 0 = 93) := by omega
  rw [if_neg h1, if_neg h2, if_pos h3, step_string_real rfl (Or.inl rfl)]
  simp only [hq, if_true]

theorem parse_step_dry_string {js : List Nat} {len : Nat}
    {pos q : Nat} (h3 : js.getD pos 0 = 34)
    (hq : string_loop js len (len - pos + 1) (pos + 1) = Run.ok (Sum.inr q))
    (cap : Nat) (count : Int) :
    parse_step js len (dryP cap pos) count = Run.ok (Step.next (dryP cap q) (count + 1)) := by
  rw [parse_step_dry]
  have h1 : ¬ (js.getD pos 0 = 123 ∨ js.getD pos 0 = 91) := by omega
  have h2 : ¬ (js.getD pos 0 = 125 ∨ js.getD pos 0 = 93) := by omega
  rw [if_neg h1, if_neg h2, if_pos h3, hq]

theorem parse_step_real_cases (js : List Nat) (len : Nat) {l : List jsmn_Token}
    (cap : Nat) {sup : Int} (pos : Nat) (count : Int)
    (hsup : SupOK l sup) (hp : ParentsOK l) :
    (∃ l1 sup1 pos1 d, TokStep js len l sup pos l1 sup1 pos1 d) ∨
    parse_step js len ⟨⟨some l, cap, sup⟩, pos⟩ count =
      Run.ok (Step.ret JSMN_ERROR_INVAL ⟨⟨some l, cap, sup⟩, pos⟩) ∨
    (parse_step js len ⟨⟨some l, cap, sup⟩, pos⟩ count =
        Run.ok (Step.ret JSMN_ERROR_PART ⟨⟨some l, cap, sup⟩, pos⟩) ∧
      ∀ cap1, parse_step js len (dryP cap1 pos) count =
        Run.ok (Step.ret JSMN_ERROR_PART (dryP cap1 pos))) ∨
    (js.getD pos 0 = 34 ∧ sup = -1 ∧
      ∃ q, string_loop js len (len - pos + 1) (pos + 1) = Run.ok (Sum.inr q)) := by
  by_cases h1 : js.getD pos 0 = 123 ∨ js.getD pos 0 = 91
  · exact Or.inl ⟨_, _, _, _, TokStep.opened h1⟩
  by_cases h2 : js.getD pos 0 = 125 ∨ js.getD pos 0 = 93
  · by_cases hlen : l.length < 1
    · right; left
      unfold parse_step
      simp only
      rw [if_neg h1, if_pos h2, step_close_real rfl h2, if_pos hlen]
    · obtain ⟨r, hr⟩ := close_walk_ok (bracket_type (js.getD pos 0)) pos sup l hp l.length
        ((l.length : Int) - 1) (by omega) (by omega) (by omega)
      cases r with
      | none =>
        right; left
        unfold parse_step
        simp only
        rw [if_neg h1, if_pos h2, step_close_real rfl h2, if_neg hlen]
        simp only [hr]
      | some r =>
        obtain ⟨l1, sup1⟩ := r
        exact Or.inl ⟨_, _, _, _, TokStep.closed l1 sup1 h2 hlen hr⟩
  by_cases h3 : js.getD pos 0 = 34
  · cases hq : string_loop js len (len - pos + 1) (pos + 1) with
    | fuel => exact absurd hq (string_loop_ne_fuel js len _ _ (by omega))
    | bounds => exact absurd hq (string_loop_ne_bounds js len _ _)
    | ok r =>
      cases r with
      | inl e =>
        have hreal : parse_step js len ⟨⟨some l, cap, sup⟩, pos⟩ count =
            if e < 0 then Run.ok (Step.ret e ⟨⟨some l, cap, sup⟩, pos⟩)
            else step_count ⟨⟨some l, cap, sup⟩, pos⟩ count := by
          unfold parse_step
          simp only
          rw [if_neg h1, if_neg h2, if_pos h3, step_string_real rfl hsup]
          simp only [hq]
        have hdry : ∀ cap1, parse_step js len (dryP cap1 pos) count =
            if e < 0 then Run.ok (Step.ret e (dryP cap1 pos))
            else Run.ok (Step.next (dryP cap1 pos) (count + 1)) := by
          intro cap1
          rw [parse_step_dry, if_neg h1, if_neg h2, if_pos h3, hq]
        rcases string_loop_inl _ _ _ _ _ hq with rfl | rfl
        · right; left; rw [hreal]; simp
        · right; right; left
          refine ⟨by rw [hreal]; simp, fun cap1 => by rw [hdry]; simp⟩
      | inr q =>
        by_cases hs : sup = -1
        · exact Or.inr (Or.inr (Or.inr ⟨h3, hs, q, rfl⟩))
        · exact Or.inl ⟨_, _, _, _, TokStep.string q h3 hs hq⟩
  by_cases h4 : js.getD pos 0 = 9 ∨ js.getD pos 0 = 13 ∨ js.getD pos 0 = 10 ∨ js.getD pos 0 = 32
  · exact Or.inl ⟨_, _, _, _, TokStep.space h4⟩
  by_cases h5 : js.getD pos 0 = 58
  · exact Or.inl ⟨_, _, _, _, TokStep.colon h5⟩
  by_cases h6 : js.getD pos 0 = 44
  · exact Or.inl ⟨_, _, _, _, TokStep.comma h6⟩
  by_cases h7 : isPrimitiveStart (js.getD pos 0) = true
  · have hreal : parse_step js len ⟨⟨some l, cap, sup⟩, pos⟩ count =
        step_primitive js len ⟨⟨some l, cap, sup⟩, pos⟩ count := by
      unfold parse_step
      simp only
      rw [if_neg h1, if_neg h2, if_neg h3, if_neg h4, if_neg h5, if_neg h6, if_pos h7]
    by_cases hk : key_blocked l sup = true
    · right; left
      rw [hreal, step_primitive_real rfl hsup]
      simp only [hk, if_true]
    · cases hq : primitive_loop js len (len - pos + 1) pos with
      | fuel => exact absurd hq (primitive_loop_ne_fuel js len _ _ (by omega))
      | bounds => exact absurd hq (primitive_loop_ne_bounds js len _ _)
      | ok r =>
        cases r with
        | inl e =>
          have hreal2 : parse_step js len ⟨⟨some l, cap, sup⟩, pos⟩ count =
              if e < 0 then Run.ok (Step.ret e ⟨⟨some l, cap, sup⟩, pos⟩)
              else step_count ⟨⟨some l, cap, sup⟩, pos⟩ count := by
            rw [hreal, step_primitive_real rfl hsup]
            simp only [hk, hq, Bool.false_eq_true, if_false]
          have hdry : ∀ cap1, parse_step js len (dryP cap1 pos) count =
              if e < 0 then Run.ok (Step.ret e (dryP cap1 pos))
              else Run.ok (Step.next (dryP cap1 pos) (count + 1)) := by
            intro cap1
            rw [parse_step_dry, if_neg h1, if_neg h2, if_neg h3, if_neg h4, if_neg h5,
              if_neg h6, if_pos h7, hq]
          rcases primitive_loop_inl _ _ _ _ _ hq with rfl | rfl
          · right; left; rw [hreal2]; simp
          · right; right; left
            refine ⟨by rw [hreal2]; simp, fun cap1 => by rw [hdry]; simp⟩
        | inr q =>
          exact Or.inl ⟨_, _, _, _, TokStep.primitive q h7 (by simpa using hk) hq⟩
  · right; left
    unfold parse_step
    simp only
    rw [if_neg h1, if_neg h2, if_neg h3, if_neg h4, if_neg h5, if_neg h6, if_neg h7]


theorem err_neg {r : Int}
    (h : r = JSMN_ERROR_NOMEM ∨ r = JSMN_ERROR_INVAL ∨ r = JSMN_ERROR_PART) : r < 0 := by
  unfold JSMN_ERROR_NOMEM JSMN_ERROR_INVAL JSMN_ERROR_PART at h
  omega

theorem parse_step_real_ret {js : List Nat} {len : Nat} {l : List jsmn_Token}
    {cap : Nat} {sup : Int} {pos : Nat} {count : Int} {r : Int} {p1 : jsmn_Parser}
    (hsup : SupOK l sup) (hp : ParentsOK l)
    (h : parse_step js len ⟨⟨some l, cap, sup⟩, pos⟩ count = Run.ok (Step.ret r p1)) :
    p1 = ⟨⟨some l, cap, sup⟩, pos⟩ ∧
      (r = JSMN_ERROR_NOMEM ∨ r = JSMN_ERROR_INVAL ∨ r = JSMN_ERROR_PART) := by
  rcases parse_step_real_cases js len cap pos count hsup hp with
    ⟨l1, sup1, pos1, d, ht⟩ | hi | ⟨hpt, _⟩ | ⟨h3, hs, q, hq⟩
  · rw [parse_step_of_tokStep ht hsup cap count] at h
    split_ifs at h
    · simp only [Run.ok.injEq, Step.ret.injEq] at h
      exact ⟨h.2.symm, Or.inl h.1.symm⟩
    · simp at h
  · rw [hi] at h
    simp only [Run.ok.injEq, Step.ret.injEq] at h
    exact ⟨h.2.symm, Or.inr (Or.inl h.1.symm)⟩
  · rw [hpt] at h
    simp only [Run.ok.injEq, Step.ret.injEq] at h
    exact ⟨h.2.symm, Or.inr (Or.inr h.1.symm)⟩
  · subst hs
    rw [parse_step_string_root h3 hq] at h
    split_ifs at h
    · simp only [Run.ok.injEq, Step.ret.injEq] at h
      exact ⟨h.2.symm, Or.inl h.1.symm⟩

theorem parse_step_real_ne_fuel {js : List Nat} {len : Nat} {l : List jsmn_Token}
    {cap : Nat} {sup : Int} {pos : Nat} {count : Int}
    (hsup : SupOK l sup) (hp : ParentsOK l) :
    parse_step js len ⟨⟨some l, cap, sup⟩, pos⟩ count ≠ Run.fuel := by
  rcases parse_step_real_cases js len cap pos count hsup hp with
    ⟨l1, sup1, pos1, d, ht⟩ | hi | ⟨hpt, _⟩ | ⟨h3, hs, q, hq⟩
  · rw [parse_step_of_tokStep ht hsup cap count]
    split_ifs <;> simp
  · rw [hi]; simp
  · rw [hpt]; simp
  · subst hs
    rw [parse_step_string_root h3 hq]
    split_ifs <;> simp

/-! ## The code after the main loop -/

theorem parse_final_dry (cap pos : Nat) (count : Int) :
    parse_final (dryP cap pos) count = Run.ok (count, dryP cap pos) := rfl

theorem resolve_loop_all (count : Int) :
    ∀ (l : List jsmn_Token) (i : Nat), (i : Int) + l.length = count →
      resolve_loop count i l = some (l.map resolve_token) := by
  intro l
  induction l with
  | nil =>
    intro i h
    simp only [List.length_nil, Nat.cast_zero, add_zero] at h
    rw [resolve_loop, if_neg (by omega)]
    rfl
  | cons t ts ih =>
    intro i h
    simp only [List.length_cons, Nat.cast_add, Nat.cast_one] at h
    rw [resolve_loop, ih (i + 1) (by push_cast; omega)]
    simp only [List.map_cons]
    rw [if_pos (by omega)]

theorem parse_final_real (l : List jsmn_Token) (cap : Nat) (sup : Int) (pos : Nat) :
    parse_final ⟨⟨some l, cap, sup⟩, pos⟩ (l.length : Int) =
      if l.any isOpen = true then Run.ok (JSMN_ERROR_PART, ⟨⟨some l, cap, sup⟩, pos⟩)
      else Run.ok ((l.length : Int), ⟨⟨some (l.map resolve_token), cap, sup⟩, pos⟩) := by
  unfold parse_final
  simp only
  rw [resolve_loop_all _ l 0 (by simp)]

/-! ## Dry run and real parse -/

theorem parse_loop_dry_of_real (js : List Nat) (len cap1 : Nat) :
    ∀ (fuel : Nat) (l : List jsmn_Token) (cap : Nat) (sup : Int) (pos : Nat) (count N : Int)
      (p1 : jsmn_Parser), SupOK l sup → ParentsOK l →
      parse_loop js len fuel ⟨⟨some l, cap, sup⟩, pos⟩ count = Run.ok (N, p1) → 0 ≤ N →
      parse_loop js len fuel (dryP cap1 pos) count = Run.ok (N, dryP cap1 p1.pos) := by
  intro fuel
  induction fuel with
  | zero => intro l cap sup pos count N p1 _ _ h; simp [parse_loop] at h
  | succ n ih =>
    intro l cap sup pos count N p1 hsup hp h hN
    rw [parse_loop] at h ⊢
    have hpos : (dryP cap1 pos).pos = pos := rfl
    simp only [hpos] at h ⊢
    by_cases hg : pos < len ∧ js.getD pos 0 ≠ 0
    · rw [if_pos hg] at h ⊢
      cases hstep : parse_step js len ⟨⟨some l, cap, sup⟩, pos⟩ count with
      | fuel => rw [hstep] at h; simp at h
      | bounds => rw [hstep] at h; simp at h
      | ok s =>
        rw [hstep] at h
        cases s with
        | ret r p2 =>
          simp only [Run.ok.injEq, Prod.mk.injEq] at h
          have := err_neg (parse_step_real_ret hsup hp hstep).2
          omega
        | next p2 c2 =>
          obtain ⟨l2, sup2, hf, ht⟩ := parse_step_next_real js len rfl hsup hstep
          obtain ⟨hsup2, hp2, _, _, _⟩ := tokStep_inv ht hsup hp
          rw [dry_step_of_tokStep ht cap1 count]
          simp only at h ⊢
          obtain ⟨f2, pos2⟩ := p2
          simp only at hf
          subst hf
          rw [show count + (c2 - count) = c2 by omega]
          exact ih _ _ _ _ _ _ _ hsup2 hp2 h hN
    · rw [if_neg hg] at h ⊢
      rw [parse_final_dry]
      unfold parse_final at h
      simp only at h
      split_ifs at h
      · simp only [Run.ok.injEq, Prod.mk.injEq] at h
        unfold JSMN_ERROR_PART at h; omega
      · split at h
        · simp at h
        · simp only [Run.ok.injEq, Prod.mk.injEq] at h
          rw [← h.1, ← h.2]


theorem parse_loop_dry_mono (js : List Nat) (len cap1 : Nat) :
    ∀ (fuel pos : Nat) (count N : Int) (d1 : jsmn_Parser),
      parse_loop js len fuel (dryP cap1 pos) count = Run.ok (N, d1) → 0 ≤ N → count ≤ N := by
  intro fuel
  induction fuel with
  | zero => intro pos count N d1 h; simp [parse_loop] at h
  | succ n ih =>
    intro pos count N d1 h hN
    rw [parse_loop] at h
    have hpos : (dryP cap1 pos).pos = pos := rfl
    simp only [hpos] at h
    by_cases hg : pos < len ∧ js.getD pos 0 ≠ 0
    · rw [if_pos hg] at h
      rcases parse_step_dry_cases js len cap1 pos count with ⟨e, he, hs⟩ | ⟨pos1, d, _, hd, hs⟩
      · rw [hs] at h
        simp only [Run.ok.injEq, Prod.mk.injEq] at h
        omega
      · rw [hs] at h
        have := ih _ _ _ _ h hN
        omega
    · rw [if_neg hg, parse_final_dry] at h
      simp only [Run.ok.injEq, Prod.mk.injEq] at h
      omega

/-! ## The capacity of the token array -/

theorem parse_loop_cap (js : List Nat) (len : Nat) :
    ∀ (fuel : Nat) (l : List jsmn_Token) (cap : Nat) (sup : Int) (pos : Nat) (N : Int)
      (p1 : jsmn_Parser), SupOK l sup → ParentsOK l →
      parse_loop js len fuel ⟨⟨some l, cap, sup⟩, pos⟩ (l.length : Int) = Run.ok (N, p1) →
      0 ≤ N →
      (l.length : Int) ≤ N ∧ (p1.factory.toknext : Int) = N ∧
      (∀ cap1 : Nat, N ≤ cap1 →
        parse_loop js len fuel ⟨⟨some l, cap1, sup⟩, pos⟩ (l.length : Int)
          = Run.ok (N, setCap cap1 p1)) ∧
      (∀ cap1 : Nat, (cap1 : Int) < N → l.length ≤ cap1 →
        ∃ p2, parse_loop js len fuel ⟨⟨some l, cap1, sup⟩, pos⟩ (l.length : Int)
          = Run.ok (JSMN_ERROR_NOMEM, p2)) := by
  intro fuel
  induction fuel with
  | zero => intro l cap sup pos N p1 _ _ h; simp [parse_loop] at h
  | succ n ih =>
    intro l cap sup pos N p1 hsup hp h hN
    rw [parse_loop] at h
    simp only at h
    by_cases hg : pos < len ∧ js.getD pos 0 ≠ 0
    · rw [if_pos hg] at h
      cases hstep : parse_step js len ⟨⟨some l, cap, sup⟩, pos⟩ (l.length : Int) with
      | fuel => rw [hstep] at h; simp at h
      | bounds => rw [hstep] at h; simp at h
      | ok s =>
        rw [hstep] at h
        cases s with
        | ret r p2 =>
          simp only [Run.ok.injEq, Prod.mk.injEq] at h
          have := err_neg (parse_step_real_ret hsup hp hstep).2
          omega
        | next p2 c2 =>
          obtain ⟨l2, sup2, hf, ht⟩ := parse_step_next_real js len rfl hsup hstep
          obtain ⟨hsup2, hp2, hd, hlen2, _⟩ := tokStep_inv ht hsup hp
          obtain ⟨f2, pos2⟩ := p2
          simp only at hf ht h
          subst hf
          have hc2 : c2 = (l2.length : Int) := by omega
          subst hc2
          obtain ⟨ih1, ih2, ih3, ih4⟩ := ih _ _ _ _ _ _ hsup2 hp2 h hN
          refine ⟨by omega, ih2, ?_, ?_⟩
          · intro cap1 hcap1
            rw [parse_loop]
            simp only
            rw [if_pos hg, parse_step_of_tokStep ht hsup cap1, if_neg (by omega)]
            simp only
            rw [show (l.length : Int) + ((l2.length : Int) - l.length) = l2.length by omega]
            exact ih3 cap1 hcap1
          · intro cap1 hcap1 hle
            rw [parse_loop]
            simp only
            rw [if_pos hg, parse_step_of_tokStep ht hsup cap1]
            by_cases hnm : (l2.length : Int) - l.length = 1 ∧ cap1 ≤ l.length
            · rw [if_pos hnm]
              exact ⟨_, rfl⟩
            · rw [if_neg hnm]
              simp only
              rw [show (l.length : Int) + ((l2.length : Int) - l.length) = l2.length by omega]
              exact ih4 cap1 hcap1 (by omega)
    · rw [if_neg hg, parse_final_real] at h
      split_ifs at h with hopen
      · simp only [Run.ok.injEq, Prod.mk.injEq] at h
        unfold JSMN_ERROR_PART at h; omega
      · simp only [Run.ok.injEq, Prod.mk.injEq] at h
        obtain ⟨hN1, hp1⟩ := h
        subst hp1
        refine ⟨by omega, by simp [jsmn_Factory.toknext]; omega, ?_, ?_⟩
        · intro cap1 _
          rw [parse_loop]
          simp only
          rw [if_neg hg, parse_final_real, if_neg hopen, hN1]
          rfl
        · intro cap1 h1 h2
          omega

/-! ## A real parse into the capacity a dry run returned -/

theorem parse_loop_real_of_dry (js : List Nat) (len cap1 : Nat) :
    ∀ (fuel : Nat) (l : List jsmn_Token) (cap : Nat) (sup : Int) (pos : Nat) (N : Int)
      (d1 : jsmn_Parser), SupOK l sup → ParentsOK l →
      parse_loop js len fuel (dryP cap1 pos) (l.length : Int) = Run.ok (N, d1) →
      0 ≤ N → N ≤ cap →
      (∃ p1, parse_loop js len fuel ⟨⟨some l, cap, sup⟩, pos⟩ (l.length : Int) = Run.ok (N, p1) ∧
        (p1.factory.toknext : Int) = N) ∨
      (∃ p1, parse_loop js len fuel ⟨⟨some l, cap, sup⟩, pos⟩ (l.length : Int)
        = Run.ok (JSMN_ERROR_INVAL, p1)) ∨
      (∃ p1, parse_loop js len fuel ⟨⟨some l, cap, sup⟩, pos⟩ (l.length : Int)
        = Run.ok (JSMN_ERROR_PART, p1)) ∨
      parse_loop js len fuel ⟨⟨some l, cap, sup⟩, pos⟩ (l.length : Int) = Run.bounds := by
  intro fuel
  induction fuel with
  | zero => intro l cap sup pos N d1 _ _ h; simp [parse_loop] at h
  | succ n ih =>
    intro l cap sup pos N d1 hsup hp h hN hcap
    rw [parse_loop] at h
    have hpos : (dryP cap1 pos).pos = pos := rfl
    simp only [hpos] at h
    rw [parse_loop]
    simp only
    by_cases hg : pos < len ∧ js.getD pos 0 ≠ 0
    · rw [if_pos hg] at h ⊢
      rcases parse_step_real_cases js len cap pos (l.length : Int) hsup hp with
        ⟨l2, sup2, pos2, d, ht⟩ | hi | ⟨_, hpt⟩ | ⟨h3, hs, q, hq⟩
      · obtain ⟨hsup2, hp2, hd, hlen2, _⟩ := tokStep_inv ht hsup hp
        rw [dry_step_of_tokStep ht cap1] at h
        simp only at h
        have hmono := parse_loop_dry_mono js len cap1 _ _ _ _ _ h hN
        rw [parse_step_of_tokStep ht hsup cap, if_neg (by omega)]
        simp only
        rw [← hlen2] at h ⊢
        exact ih _ _ _ _ _ _ hsup2 hp2 h hN hcap
      · rw [hi]
        exact Or.inr (Or.inl ⟨_, rfl⟩)
      · rw [hpt] at h
        simp only [Run.ok.injEq, Prod.mk.injEq] at h
        unfold JSMN_ERROR_PART at h; omega
      · subst hs
        rw [parse_step_dry_string h3 hq] at h
        simp only at h
        have hmono := parse_loop_dry_mono js len cap1 _ _ _ _ _ h hN
        rw [parse_step_string_root h3 hq, if_neg (by omega)]
        exact Or.inr (Or.inr (Or.inr rfl))
    · rw [if_neg hg] at h ⊢
      rw [parse_final_dry] at h
      simp only [Run.ok.injEq, Prod.mk.injEq] at h
      rw [parse_final_real]
      split_ifs
      · exact Or.inr (Or.inr (Or.inl ⟨_, rfl⟩))
      · left
        refine ⟨_, by rw [h.1], ?_⟩
        simp [jsmn_Factory.toknext]
        omega


/-! ## States reached by a real parse -/

/-- What holds of the token array before every pass of the main loop holds of
it when `jsmn_parse` returns: on an error of the token array as the loop left
it, on success of the token array before the data/length pass. -/
theorem parse_loop_real_reach (js : List Nat) (len : Nat)
    (I : List jsmn_Token → Int → Nat → Prop)
    (hstep : ∀ l sup pos l1 sup1 pos1 d, pos < len → js.getD pos 0 ≠ 0 →
      SupOK l sup → ParentsOK l → I l sup pos →
      TokStep js len l sup pos l1 sup1 pos1 d → I l1 sup1 (pos1 + 1)) :
    ∀ (fuel : Nat) (l : List jsmn_Token) (cap : Nat) (sup : Int) (pos : Nat) (r : Int)
      (p1 : jsmn_Parser), SupOK l sup → ParentsOK l → I l sup pos →
      parse_loop js len fuel ⟨⟨some l, cap, sup⟩, pos⟩ (l.length : Int) = Run.ok (r, p1) →
      ∃ l1 sup1 pos1, SupOK l1 sup1 ∧ ParentsOK l1 ∧ I l1 sup1 pos1 ∧
        ((r < 0 ∧ p1 = ⟨⟨some l1, cap, sup1⟩, pos1⟩) ∨
         (r = (l1.length : Int) ∧ l1.any isOpen = false ∧
          ¬ (pos1 < len ∧ js.getD pos1 0 ≠ 0) ∧
          p1 = ⟨⟨some (l1.map resolve_token), cap, sup1⟩, pos1⟩)) := by
  intro fuel
  induction fuel with
  | zero => intro l cap sup pos r p1 _ _ _ h; simp [parse_loop] at h
  | succ n ih =>
    intro l cap sup pos r p1 hsup hp hI h
    rw [parse_loop] at h
    simp only at h
    by_cases hg : pos < len ∧ js.getD pos 0 ≠ 0
    · rw [if_pos hg] at h
      cases hs : parse_step js len ⟨⟨some l, cap, sup⟩, pos⟩ (l.length : Int) with
      | fuel => rw [hs] at h; simp at h
      | bounds => rw [hs] at h; simp at h
      | ok s =>
        rw [hs] at h
        cases s with
        | ret r2 p2 =>
          simp only [Run.ok.injEq, Prod.mk.injEq] at h
          obtain ⟨hp2, hr2⟩ := parse_step_real_ret hsup hp hs
          refine ⟨l, sup, pos, hsup, hp, hI, Or.inl ⟨?_, ?_⟩⟩
          · rw [← h.1]; exact err_neg hr2
          · rw [← h.2, hp2]
        | next p2 c2 =>
          obtain ⟨l2, sup2, hf, ht⟩ := parse_step_next_real js len rfl hsup hs
          obtain ⟨hsup2, hp2, hd, hlen2, _⟩ := tokStep_inv ht hsup hp
          obtain ⟨f2, pos2⟩ := p2
          simp only at hf ht h
          subst hf
          have hc2 : c2 = (l2.length : Int) := by omega
          subst hc2
          exact ih _ _ _ _ _ _ hsup2 hp2 (hstep _ _ _ _ _ _ _ hg.1 hg.2 hsup hp hI ht) h
    · rw [if_neg hg, parse_final_real] at h
      refine ⟨l, sup, pos, hsup, hp, hI, ?_⟩
      split_ifs at h with hopen
      · simp only [Run.ok.injEq, Prod.mk.injEq] at h
        left
        refine ⟨?_, h.2.symm⟩
        rw [← h.1]; decide
      · simp only [Run.ok.injEq, Prod.mk.injEq] at h
        right
        exact ⟨h.1.symm, by simpa using hopen, hg, h.2.symm⟩

theorem parentsOK_nil : ParentsOK [] := by
  intro i t h; simp at h

theorem jsmn_parse_init (cap : Nat) (js : List Nat) (len : Nat) :
    jsmn_parse (jsmn_parser_init true cap) js len =
      parse_loop js len (len + 1) ⟨⟨some [], cap, -1⟩, 0⟩
        ((([] : List jsmn_Token).length : Nat) : Int) := rfl

theorem jsmn_parse_init_dry (cap : Nat) (js : List Nat) (len : Nat) :
    jsmn_parse (jsmn_parser_init false cap) js len =
      parse_loop js len (len + 1) (dryP cap 0) ((([] : List jsmn_Token).length : Nat) : Int) :=
  rfl

end Jsmn

namespace Jsmn
open jsmntype_t

/-! ## Running the main loop forward -/

theorem tokStep_length {js : List Nat} {len : Nat} {l l1 : List jsmn_Token}
    {sup sup1 : Int} {pos pos1 : Nat} {d : Int}
    (h : TokStep js len l sup pos l1 sup1 pos1 d) : (l1.length : Int) = l.length + d := by
  cases h with
  | opened h1 => simp [bump_length]
  | closed l1 sup1 h2 hlen hw =>
    rcases close_walk_some _ _ _ _ _ _ _ _ hw with
      ⟨ha, _, _⟩ | ⟨j, t, _, _, _, _, hl1, _⟩
    · subst ha; simp
    · subst hl1; simp
  | string q h3 hs hq => simp [bump_length]
  | primitive q h7 hk hq => simp [bump_length]
  | space h4 => simp
  | colon h5 => simp
  | comma h6 => simp

theorem parse_loop_step {js : List Nat} {len : Nat} {l l1 : List jsmn_Token}
    {sup sup1 : Int} {pos pos1 : Nat} {d : Int}
    (ht : TokStep js len l sup pos l1 sup1 pos1 d) (hsup : SupOK l sup)
    (hg : pos < len ∧ js.getD pos 0 ≠ 0) (cap : Nat) (hcap : ¬ (d = 1 ∧ cap ≤ l.length))
    (fuel : Nat) :
    parse_loop js len (fuel + 1) ⟨⟨some l, cap, sup⟩, pos⟩ (l.length : Int) =
      parse_loop js len fuel ⟨⟨some l1, cap, sup1⟩, pos1 + 1⟩ (l1.length : Int) := by
  rw [parse_loop]
  simp only
  rw [if_pos hg, parse_step_of_tokStep ht hsup cap, if_neg hcap]
  simp only
  rw [tokStep_length ht]

theorem parse_loop_end {js : List Nat} {len : Nat} (l : List jsmn_Token) (cap : Nat)
    (sup : Int) {pos : Nat} (hg : ¬ (pos < len ∧ js.getD pos 0 ≠ 0)) (fuel : Nat) :
    parse_loop js len (fuel + 1) ⟨⟨some l, cap, sup⟩, pos⟩ (l.length : Int) =
      if l.any isOpen = true then Run.ok (JSMN_ERROR_PART, ⟨⟨some l, cap, sup⟩, pos⟩)
      else Run.ok ((l.length : Int), ⟨⟨some (l.map resolve_token), cap, sup⟩, pos⟩) := by
  rw [parse_loop]
  simp only
  rw [if_neg hg, parse_final_real]

theorem primitive_loop_found {js : List Nat} {len pos q : Nat} (h : PrimAt js len pos q) :
    primitive_loop js len (len - pos + 1) pos = Run.ok (Sum.inr q) := by
  obtain ⟨h1, h2, _, h4, h5⟩ := h
  rw [primitive_loop_skip js len _ pos q (by omega) (by omega)
    (fun j hj hjq => ⟨by omega, h4 j hj hjq⟩)]
  obtain ⟨f, hf⟩ : ∃ f, len - pos + 1 - (q - pos) = f + 1 := ⟨len - q, by omega⟩
  have h0 : js.getD q 0 ≠ 0 := by
    intro h; rw [h] at h5; simp [isTerminator] at h5
  rw [hf, primitive_loop, if_pos ⟨h2, h0⟩, if_pos h5]

theorem tokStep_primAt {js : List Nat} {len pos q : Nat} (h : PrimAt js len pos q)
    (l : List jsmn_Token) (sup : Int) (hk : key_blocked l sup = false) :
    TokStep js len l sup pos (bump l sup ++ [new_token JSMN_PRIMITIVE pos q sup]) sup (q - 1) 1 :=
  TokStep.primitive q h.2.2.1 hk (primitive_loop_found h)

theorem primAt_guard {js : List Nat} {len pos q : Nat} (h : PrimAt js len pos q) :
    pos < len ∧ js.getD pos 0 ≠ 0 := by
  obtain ⟨h1, h2, h3, _, _⟩ := h
  refine ⟨by omega, ?_⟩
  intro h0; rw [h0] at h3; simp [isPrimitiveStart] at h3

/-! ## Reading a text given as a concatenation -/

theorem getD_append_mid (pre mid post : List Nat) (j : Nat) (hj : j < mid.length) :
    (pre ++ mid ++ post).getD (pre.length + j) 0 = mid.getD j 0 := by
  rw [List.append_assoc, List.getD_append_right _ _ _ _ (by omega)]
  rw [show pre.length + j - pre.length = j by omega, List.getD_append _ _ _ _ hj]

theorem getD_append_at (pre post : List Nat) (c : Nat) :
    (pre ++ c :: post).getD pre.length 0 = c := by
  rw [List.getD_append_right _ _ _ _ (le_refl _)]
  simp

theorem validPrim_plain {p : List Nat} (h : ValidPrim p) (j : Nat) (hj : j < p.length) :
    isPlain (p.getD j 0) = true := by
  obtain ⟨_, _, h3⟩ := h
  have hm : p.getD j 0 ∈ p := by
    rw [List.getD_eq_getElem _ _ hj]
    exact List.getElem_mem hj
  obtain ⟨a, b, c, d, e⟩ := h3 _ hm
  simp only [isPlain, isTerminator, Bool.and_eq_true, decide_eq_true_eq, Bool.not_eq_true',
    Bool.or_eq_false_iff, decide_eq_false_iff_not]
  omega

theorem validPrim_start {p : List Nat} (h : ValidPrim p) :
    0 < p.length ∧ isPrimitiveStart (p.getD 0 0) = true := by
  obtain ⟨h1, h2, _⟩ := h
  cases p with
  | nil => exact absurd rfl h1
  | cons a t => exact ⟨by simp, by simpa using h2⟩

/-- A valid primitive `p` that follows the prefix `pre` and is followed by the
terminator `c` is scanned from `|pre|` to `|pre| + |p|`. -/
theorem primAt_of_append (pre p post : List Nat) (c : Nat) (hp : ValidPrim p)
    (hc : isTerminator c = true) :
    PrimAt (pre ++ p ++ c :: post) (pre ++ p ++ c :: post).length pre.length
      (pre.length + p.length) := by
  obtain ⟨hlen, hstart⟩ := validPrim_start hp
  refine ⟨by omega, by simp, ?_, ?_, ?_⟩
  · have := getD_append_mid pre p (c :: post) 0 hlen
    rw [Nat.add_zero] at this
    rw [this]; exact hstart
  · intro j hj hjq
    have := getD_append_mid pre p (c :: post) (j - pre.length) (by omega)
    rw [show pre.length + (j - pre.length) = j by omega] at this
    rw [this]
    exact validPrim_plain hp _ (by omega)
  · have := getD_append_at (pre ++ p) post c
    rw [List.length_append] at this
    rw [this]; exact hc

end Jsmn

namespace Jsmn
open jsmntype_t

/-! ## Sizing: dry run, real parse and capacity (C1, C2, C3) -/

/-- C1 (as stated) fails: on the one-byte text `{` the dry run returns 1, and
the real parse into a fresh arena of capacity 1 fails with `JSMN_ERROR_PART`. -/
theorem sizing_accuracy_counterexample :
    jsmn_parse (jsmn_parser_init false 0) [123] 1 = Run.ok (1, dryP 0 1) ∧
    jsmn_parse (jsmn_parser_init true 1) [123] 1 =
      Run.ok (JSMN_ERROR_PART,
        ⟨⟨some [new_token JSMN_OBJECT 0 (-1) (-1)], 1, 0⟩, 1⟩) := by
  constructor <;> rfl

/-- C1 (amended). If the dry run of a text `X` returns `N ≥ 0`, the real parse
of `X` from `pos = 0` into a fresh arena of capacity exactly `N` never fails
with `JSMN_ERROR_NOMEM`: it succeeds, returns `N` and leaves `toknext = N`, or
it fails with `JSMN_ERROR_INVAL` or `JSMN_ERROR_PART`, or it reads
`toks[toksuper]` with `toksuper = -1` (a string outside every container). -/
theorem sizing_accuracy_amended (X : List Nat) (cap1 N : Nat) (d : jsmn_Parser)
    (h : jsmn_parse (jsmn_parser_init false cap1) X X.length = Run.ok ((N : Int), d)) :
    (∃ p, jsmn_parse (jsmn_parser_init true N) X X.length = Run.ok ((N : Int), p) ∧
      p.factory.toknext = N) ∨
    (∃ p, jsmn_parse (jsmn_parser_init true N) X X.length = Run.ok (JSMN_ERROR_INVAL, p)) ∨
    (∃ p, jsmn_parse (jsmn_parser_init true N) X X.length = Run.ok (JSMN_ERROR_PART, p)) ∨
    jsmn_parse (jsmn_parser_init true N) X X.length = Run.bounds := by
  rw [jsmn_parse_init_dry] at h
  rw [jsmn_parse_init]
  rcases parse_loop_real_of_dry X X.length cap1 _ [] N (-1) 0 N d (Or.inl rfl) parentsOK_nil h
      (by omega) (le_refl _) with ⟨p, hp, hn⟩ | h2 | h2 | h2
  · exact Or.inl ⟨p, hp, by exact_mod_cast hn⟩
  · exact Or.inr (Or.inl h2)
  · exact Or.inr (Or.inr (Or.inl h2))
  · exact Or.inr (Or.inr (Or.inr h2))

/-- Witness of C1 (amended): the text `[1,2,3]`, whose dry run returns 4. -/
theorem sizing_accuracy_amended_witness :
    (∃ p, jsmn_parse (jsmn_parser_init true 4) [91, 49, 44, 50, 44, 51, 93] 7
        = Run.ok ((4 : Int), p) ∧ p.factory.toknext = 4) ∨
    (∃ p, jsmn_parse (jsmn_parser_init true 4) [91, 49, 44, 50, 44, 51, 93] 7
        = Run.ok (JSMN_ERROR_INVAL, p)) ∨
    (∃ p, jsmn_parse (jsmn_parser_init true 4) [91, 49, 44, 50, 44, 51, 93] 7
        = Run.ok (JSMN_ERROR_PART, p)) ∨
    jsmn_parse (jsmn_parser_init true 4) [91, 49, 44, 50, 44, 51, 93] 7 = Run.bounds :=
  sizing_accuracy_amended [91, 49, 44, 50, 44, 51, 93] 0 4 (dryP 0 7) rfl

/-- C2. If a real parse of a text `X` from `pos = 0` into a fresh arena (of any
capacity) succeeds and returns `N`, the dry run of `X` (NULL token storage,
`pos = 0`) returns `N` too. -/
theorem dry_run_count_eq_real (X : List Nat) (cap cap1 : Nat) (N : Int) (p : jsmn_Parser)
    (h : jsmn_parse (jsmn_parser_init true cap) X X.length = Run.ok (N, p)) (hN : 0 ≤ N) :
    jsmn_parse (jsmn_parser_init false cap1) X X.length = Run.ok (N, dryP cap1 p.pos) := by
  rw [jsmn_parse_init] at h
  rw [jsmn_parse_init_dry]
  exact parse_loop_dry_of_real X X.length cap1 _ [] cap (-1) 0 _ N p (Or.inl rfl)
    parentsOK_nil h hN

/-- Witness of C2: the text `{"a":[1,2]}` parsed into capacity 8 returns 5. -/
theorem dry_run_count_eq_real_witness :
    jsmn_parse (jsmn_parser_init false 0)
      [123, 34, 97, 34, 58, 91, 49, 44, 50, 93, 125] 11 = Run.ok (5, dryP 0 11) :=
  dry_run_count_eq_real [123, 34, 97, 34, 58, 91, 49, 44, 50, 93, 125] 8 0 5
    ⟨⟨some [{ type := JSMN_OBJECT, data := jsmn_data.null, length := -1, start := 0,
              end_ := 11, size := 1, parent := -1 },
            { type := JSMN_LABEL, data := jsmn_data.js 2, length := 1, start := 2,
              end_ := 3, size := 1, parent := 0 },
            { type := JSMN_ARRAY, data := jsmn_data.null, length := -1, start := 5,
              end_ := 10, size := 2, parent := 1 },
            { type := JSMN_PRIMITIVE, data := jsmn_data.js 6, length := 1, start := 6,
              end_ := 7, size := 0, parent := 2 },
            { type := JSMN_PRIMITIVE, data := jsmn_data.js 8, length := 1, start := 8,
              end_ := 9, size := 0, parent := 2 }], 8, -1⟩, 11⟩
    rfl (by decide)

/-- C3. If a real parse of a text `X` from `pos = 0` into a fresh arena of some
capacity succeeds with result `N ≥ 1`, then the parse into a fresh arena of
capacity `N` succeeds with result `N` (and the same tokens), and the parse
into a fresh arena of capacity `N - 1` fails with `JSMN_ERROR_NOMEM`. -/
theorem capacity_boundary (X : List Nat) (cap N : Nat) (p : jsmn_Parser) (hN : 1 ≤ N)
    (h : jsmn_parse (jsmn_parser_init true cap) X X.length = Run.ok ((N : Int), p)) :
    jsmn_parse (jsmn_parser_init true N) X X.length = Run.ok ((N : Int), setCap N p) ∧
    ∃ p2, jsmn_parse (jsmn_parser_init true (N - 1)) X X.length
      = Run.ok (JSMN_ERROR_NOMEM, p2) := by
  rw [jsmn_parse_init] at h
  obtain ⟨_, _, h3, h4⟩ := parse_loop_cap X X.length _ [] cap (-1) 0 N p (Or.inl rfl)
    parentsOK_nil h (by omega)
  exact ⟨by rw [jsmn_parse_init]; exact h3 N (le_refl _),
    by rw [jsmn_parse_init]; exact h4 (N - 1) (by omega) (by simp)⟩

/-- Witness of C3: the text `[1,2,3]` parsed into capacity 10 returns 4. -/
theorem capacity_boundary_witness :
    jsmn_parse (jsmn_parser_init true 4) [91, 49, 44, 50, 44, 51, 93] 7 =
      Run.ok ((4 : Int), setCap 4
        ⟨⟨some [{ type := JSMN_ARRAY, data := jsmn_data.null, length := -1, start := 0,
                  end_ := 7, size := 3, parent := -1 },
                { type := JSMN_PRIMITIVE, data := jsmn_data.js 1, length := 1, start := 1,
                  end_ := 2, size := 0, parent := 0 },
                { type := JSMN_PRIMITIVE, data := jsmn_data.js 3, length := 1, start := 3,
                  end_ := 4, size := 0, parent := 0 },
                { type := JSMN_PRIMITIVE, data := jsmn_data.js 5, length := 1, start := 5,
                  end_ := 6, size := 0, parent := 0 }], 10, -1⟩, 7⟩) ∧
    ∃ p2, jsmn_parse (jsmn_parser_init true (4 - 1)) [91, 49, 44, 50, 44, 51, 93] 7
      = Run.ok (JSMN_ERROR_NOMEM, p2) :=
  capacity_boundary [91, 49, 44, 50, 44, 51, 93] 10 4 _ (by decide) rfl

end Jsmn

namespace Jsmn
open jsmntype_t

/-! ## Resolved spans (C8) -/

theorem mem_bump {l : List jsmn_Token} {sup : Int} {t : jsmn_Token} (h : t ∈ bump l sup) :
    ∃ t0, t0 ∈ l ∧ (t = t0 ∨ t = { t0 with size := t0.size + 1 }) := by
  obtain ⟨i, hi⟩ := List.mem_iff_get?.1 h
  rw [bump_get?] at hi
  cases hl : l.get? i with
  | none => rw [hl] at hi; simp at hi
  | some t0 =>
    rw [hl] at hi
    simp only [Option.map_some', Option.some.injEq] at hi
    refine ⟨t0, List.mem_iff_get?.2 ⟨i, hl⟩, ?_⟩
    split at hi
    · exact Or.inr hi.symm
    · exact Or.inl hi.symm

theorem spanOK_mono {js : List Nat} {pos pos1 : Nat} {t : jsmn_Token} (h : SpanOK js pos t)
    (hle : pos ≤ pos1) : SpanOK js pos1 t := by
  obtain ⟨h1, h2, h3⟩ := h
  refine ⟨fun ht => ?_, fun ht => ?_, fun ht => ?_⟩
  · obtain ⟨a, b, c, d⟩ := h1 ht
    refine ⟨a, by omega, c, ?_⟩
    rcases d with d | ⟨d1, d2, d3⟩
    · exact Or.inl d
    · exact Or.inr ⟨d1, by omega, d3⟩
  · obtain ⟨a, b, c, d, e⟩ := h2 ht
    exact ⟨a, b, by omega, d, e⟩
  · obtain ⟨a, b, c⟩ := h3 ht
    exact ⟨a, b, by omega⟩

theorem spanOK_size {js : List Nat} {pos : Nat} {t : jsmn_Token} (h : SpanOK js pos t)
    (n : Int) : SpanOK js pos { t with size := n } := h

theorem spanOK_bump_append {js : List Nat} {pos pos1 : Nat} {l : List jsmn_Token} {sup : Int}
    {x : jsmn_Token} (h : ∀ t ∈ l, SpanOK js pos t) (hle : pos ≤ pos1)
    (hx : SpanOK js pos1 x) : ∀ t ∈ bump l sup ++ [x], SpanOK js pos1 t := by
  intro t ht
  rcases List.mem_append.1 ht with ht | ht
  · obtain ⟨t0, h0, h1 | h1⟩ := mem_bump ht
    · subst h1; exact spanOK_mono (h _ h0) hle
    · subst h1; exact spanOK_mono (spanOK_size (h _ h0) _) hle
  · simp only [List.mem_singleton] at ht
    subst ht; exact hx

theorem bracket_type_container (c : Nat) :
    bracket_type c = JSMN_OBJECT ∨ bracket_type c = JSMN_ARRAY := by
  unfold bracket_type; split <;> simp

theorem string_type_cases (l : List jsmn_Token) (sup : Int) :
    string_type l sup = JSMN_LABEL ∨ string_type l sup = JSMN_STRING := by
  unfold string_type
  split
  · exact Or.inr rfl
  · split
    · exact Or.inl rfl
    · exact Or.inr rfl

theorem resolve_token_type (t : jsmn_Token) : (resolve_token t).type = t.type := by
  unfold resolve_token; split <;> rfl

theorem resolve_token_start (t : jsmn_Token) : (resolve_token t).start = t.start := by
  unfold resolve_token; split <;> rfl

theorem resolve_token_end (t : jsmn_Token) : (resolve_token t).end_ = t.end_ := by
  unfold resolve_token; split <;> rfl

theorem resolve_token_size (t : jsmn_Token) : (resolve_token t).size = t.size := by
  unfold resolve_token; split <;> rfl

theorem resolve_token_parent (t : jsmn_Token) : (resolve_token t).parent = t.parent := by
  unfold resolve_token; split <;> rfl

theorem resolve_token_leaf {t : jsmn_Token}
    (h : t.type = JSMN_LABEL ∨ t.type = JSMN_STRING ∨ t.type = JSMN_PRIMITIVE) :
    (resolve_token t).data = jsmn_data.js t.start ∧
      (resolve_token t).length = t.end_ - t.start := by
  unfold resolve_token
  rcases h with h | h | h <;> rw [h] <;> exact ⟨rfl, rfl⟩

theorem tokStep_spanOK {js : List Nat} {len : Nat} {l l1 : List jsmn_Token}
    {sup sup1 : Int} {pos pos1 : Nat} {d : Int} (hlt : pos < len)
    (hI : pos ≤ len ∧ ∀ t ∈ l, SpanOK js pos t)
    (h : TokStep js len l sup pos l1 sup1 pos1 d) :
    pos1 + 1 ≤ len ∧ ∀ t ∈ l1, SpanOK js (pos1 + 1) t := by
  obtain ⟨_, hI⟩ := hI
  cases h with
  | opened h1 =>
    refine ⟨by omega, spanOK_bump_append hI (by omega) ?_⟩
    have hc := bracket_type_container (js.getD pos 0)
    refine ⟨fun _ => ?_, fun ht => ?_, fun ht => ?_⟩
    · refine ⟨by simp [new_token], by simp [new_token], ?_, Or.inl rfl⟩
      simp only [new_token, Int.toNat_ofNat]
      rcases h1 with h1 | h1 <;> rw [h1] <;> rfl
    · have ht2 : bracket_type (js.getD pos 0) = JSMN_LABEL ∨
          bracket_type (js.getD pos 0) = JSMN_STRING := ht
      rcases hc with hc | hc <;> rw [hc] at ht2 <;> simp at ht2
    · have ht2 : bracket_type (js.getD pos 0) = JSMN_PRIMITIVE := ht
      rcases hc with hc | hc <;> rw [hc] at ht2 <;> simp at ht2
  | closed l1 sup1 h2 hlen hw =>
    refine ⟨by omega, ?_⟩
    rcases close_walk_some _ _ _ _ _ _ _ _ hw with
      ⟨ha, hb, hc⟩ | ⟨j, t, hj, hs, he, hty, hl1, hs1⟩
    · subst ha
      exact fun t ht => spanOK_mono (hI t ht) (by omega)
    · subst hl1
      intro t' ht'
      rcases List.mem_or_eq_of_mem_set ht' with ht' | ht'
      · exact spanOK_mono (hI t' ht') (by omega)
      · subst ht'
        have htm : t ∈ l := List.mem_iff_get?.2 ⟨j, hj⟩
        obtain ⟨k1, _, _⟩ := hI t htm
        have hcont := bracket_type_container (js.getD pos 0)
        rw [← hty] at hcont
        obtain ⟨a, b, c, _⟩ := k1 hcont
        refine ⟨fun _ => ⟨a, ?_, c, Or.inr ⟨?_, ?_, ?_⟩⟩, fun ht => ?_, fun ht => ?_⟩
        · show t.start < ((pos + 1 : Nat) : Int); omega
        · show t.start < (pos : Int) + 1; omega
        · show (pos : Int) + 1 ≤ ((pos + 1 : Nat) : Int); omega
        · show js.getD ((pos : Int) + 1 - 1).toNat 0 = closer t.type
          simp only [add_sub_cancel_right, Int.toNat_ofNat]
          rw [hty]
          unfold bracket_type closer
          rcases h2 with h2 | h2 <;> rw [h2] <;> rfl
        · have ht2 : t.type = JSMN_LABEL ∨ t.type = JSMN_STRING := ht
          rcases hcont with hc | hc <;> rw [hc] at ht2 <;> simp at ht2
        · have ht2 : t.type = JSMN_PRIMITIVE := ht
          rcases hcont with hc | hc <;> rw [hc] at ht2 <;> simp at ht2
  | string q h3 hs hq =>
    obtain ⟨hq1, hq2, hq3⟩ := string_loop_inr _ _ _ _ _ hq
    have hc := string_type_cases l sup
    refine ⟨by omega, spanOK_bump_append hI (by omega) ?_⟩
    refine ⟨fun ht => ?_, fun _ => ?_, fun ht => ?_⟩
    · have ht2 : string_type l sup = JSMN_OBJECT ∨ string_type l sup = JSMN_ARRAY := ht
      rcases hc with hc | hc <;> rw [hc] at ht2 <;> simp at ht2
    · refine ⟨?_, ?_, ?_, ?_, ?_⟩
      · show (1 : Int) ≤ (pos : Int) + 1; omega
      · show (pos : Int) + 1 ≤ (pos1 : Int); omega
      · show (pos1 : Int) < ((pos1 + 1 : Nat) : Int); omega
      · show js.getD ((pos : Int) + 1 - 1).toNat 0 = 34
        simp only [add_sub_cancel_right, Int.toNat_ofNat]; exact h3
      · show js.getD (pos1 : Int).toNat 0 = 34
        simp only [Int.toNat_ofNat]; exact hq3
    · have ht2 : string_type l sup = JSMN_PRIMITIVE := ht
      rcases hc with hc | hc <;> rw [hc] at ht2 <;> simp at ht2
  | primitive q h7 hk hq =>
    obtain ⟨hq1, hq2, hq3, _⟩ := primitive_loop_inr _ _ _ _ _ hq
    have hne : pos ≠ q := by
      intro he; subst he
      rw [isPrimitiveStart_not_terminator h7] at hq3
      simp at hq3
    refine ⟨by omega, spanOK_bump_append hI (by omega) ?_⟩
    refine ⟨fun ht => ?_, fun ht => ?_, fun _ => ⟨?_, ?_, ?_⟩⟩
    · have ht2 : JSMN_PRIMITIVE = JSMN_OBJECT ∨ JSMN_PRIMITIVE = JSMN_ARRAY := ht
      simp at ht2
    · have ht2 : JSMN_PRIMITIVE = JSMN_LABEL ∨ JSMN_PRIMITIVE = JSMN_STRING := ht
      simp at ht2
    · show (0 : Int) ≤ (pos : Int); omega
    · show (pos : Int) < (q : Int); omega
    · show (q : Int) ≤ ((q - 1 + 1 : Nat) : Int); omega
  | space h4 => exact ⟨by omega, fun t ht => spanOK_mono (hI t ht) (by omega)⟩
  | colon h5 => exact ⟨by omega, fun t ht => spanOK_mono (hI t ht) (by omega)⟩
  | comma h6 => exact ⟨by omega, fun t ht => spanOK_mono (hI t ht) (by omega)⟩

/-- C8. After a successful real parse of a text `X` from `pos = 0` into a
fresh arena, every token is resolved (`Resolved`): no token is left open
(start set and `end = -1`); every Object/Array token has
`0 ≤ start < end ≤ len(X)`, with `X[start]` the opening and `X[end-1]` the
closing bracket of its type; every Label/String/Primitive token has
`data = X + start` and `length = end - start ≥ 0` with `0 ≤ start` and
`end ≤ len(X)`; and for Label/String `X[start-1]` and `X[end]` are double
quotes. -/
theorem resolved_spans (X : List Nat) (cap : Nat) (N : Int) (p : jsmn_Parser)
    (l : List jsmn_Token)
    (h : jsmn_parse (jsmn_parser_init true cap) X X.length = Run.ok (N, p)) (hN : 0 ≤ N)
    (hl : p.factory.toks = some l) :
    ∀ t ∈ l, Resolved X t := by
  rw [jsmn_parse_init] at h
  obtain ⟨l1, sup1, pos1, _, _, ⟨hle, hI⟩, hr⟩ :=
    parse_loop_real_reach X X.length (fun l _ pos => pos ≤ X.length ∧ ∀ t ∈ l, SpanOK X pos t)
      (fun l sup pos l1 sup1 pos1 d hlt _ _ _ hI ht => tokStep_spanOK hlt hI ht)
      _ [] cap (-1) 0 N p (Or.inl rfl) parentsOK_nil ⟨by omega, by simp⟩ h
  rcases hr with ⟨hneg, _⟩ | ⟨_, hopen, _, hp⟩
  · omega
  · subst hp
    simp only [Option.some.injEq] at hl
    subst hl
    intro t ht
    obtain ⟨t0, ht0, rfl⟩ := List.mem_map.1 ht
    obtain ⟨k1, k2, k3⟩ := hI t0 ht0
    unfold Resolved
    have hno : ¬ (t0.start ≠ -1 ∧ t0.end_ = -1) := by
      have := (List.any_eq_false.1 hopen) t0 ht0
      simpa [isOpen] using this
    rw [resolve_token_type, resolve_token_start, resolve_token_end]
    refine ⟨hno, fun hty => ?_, fun hty => ?_, fun hty => ?_⟩
    · obtain ⟨a, b, c, d⟩ := k1 hty
      rcases d with d | ⟨d1, d2, d3⟩
      · exact absurd ⟨by omega, d⟩ hno
      · exact ⟨a, d1, by omega, c, d3⟩
    · obtain ⟨e1, e2⟩ := resolve_token_leaf hty
      rw [e1, e2]
      rcases hty with hty | hty | hty
      · obtain ⟨a, b, c, _, _⟩ := k2 (Or.inl hty)
        exact ⟨rfl, rfl, by omega, by omega, by omega⟩
      · obtain ⟨a, b, c, _, _⟩ := k2 (Or.inr hty)
        exact ⟨rfl, rfl, by omega, by omega, by omega⟩
      · obtain ⟨a, b, c⟩ := k3 hty
        exact ⟨rfl, rfl, by omega, by omega, by omega⟩
    · obtain ⟨_, _, _, d, e⟩ := k2 hty
      exact ⟨d, e⟩

/-- Witness of C8: the Array token of the text `{"a":[1,2]}`. -/
theorem resolved_spans_witness :
    Resolved [123, 34, 97, 34, 58, 91, 49, 44, 50, 93, 125]
      { type := JSMN_ARRAY, data := jsmn_data.null, length := -1, start := 5,
        end_ := 10, size := 2, parent := 1 } :=
  resolved_spans [123, 34, 97, 34, 58, 91, 49, 44, 50, 93, 125] 8 5
    ⟨⟨some [{ type := JSMN_OBJECT, data := jsmn_data.null, length := -1, start := 0,
              end_ := 11, size := 1, parent := -1 },
            { type := JSMN_LABEL, data := jsmn_data.js 2, length := 1, start := 2,
              end_ := 3, size := 1, parent := 0 },
            { type := JSMN_ARRAY, data := jsmn_data.null, length := -1, start := 5,
              end_ := 10, size := 2, parent := 1 },
            { type := JSMN_PRIMITIVE, data := jsmn_data.js 6, length := 1, start := 6,
              end_ := 7, size := 0, parent := 2 },
            { type := JSMN_PRIMITIVE, data := jsmn_data.js 8, length := 1, start := 8,
              end_ := 9, size := 0, parent := 2 }], 8, -1⟩, 11⟩
    _ rfl (by decide) rfl _ (by simp)

end Jsmn

namespace Jsmn
open jsmntype_t

/-! ## A key without a value (C6) -/

/-- C6 (as stated) fails: the real parse of the 6-byte text `{"a":}` into a
fresh arena of capacity 2 does not return `JSMN_ERROR_INVAL`; it returns 2. -/
theorem empty_value_counterexample :
    ¬ ∃ p, jsmn_parse (jsmn_parser_init true 2) [123, 34, 97, 34, 58, 125] 6
      = Run.ok (JSMN_ERROR_INVAL, p) := by
  have h : jsmn_parse (jsmn_parser_init true 2) [123, 34, 97, 34, 58, 125] 6 =
      Run.ok (2,
        ⟨⟨some [{ type := JSMN_OBJECT, data := jsmn_data.null, length := -1, start := 0,
                  end_ := 6, size := 1, parent := -1 },
                { type := JSMN_LABEL, data := jsmn_data.js 2, length := 1, start := 2,
                  end_ := 3, size := 0, parent := 0 }], 2, -1⟩, 6⟩) := rfl
  rw [h]
  simp [JSMN_ERROR_INVAL]

/-- C6 (amended). A real parse of the 6-byte text `{"a":}` from `pos = 0` into
a fresh arena of capacity at least 2 succeeds and returns 2: the Object token
(size 1, span `[0, 6)`) and the Label token `a` (size 0: no value token). -/
theorem empty_value_accepted (cap : Nat) (hcap : 2 ≤ cap) :
    jsmn_parse (jsmn_parser_init true cap) [123, 34, 97, 34, 58, 125] 6 =
      Run.ok (2,
        ⟨⟨some [{ type := JSMN_OBJECT, data := jsmn_data.null, length := -1, start := 0,
                  end_ := 6, size := 1, parent := -1 },
                { type := JSMN_LABEL, data := jsmn_data.js 2, length := 1, start := 2,
                  end_ := 3, size := 0, parent := 0 }], cap, -1⟩, 6⟩) := by
  have h : parse_loop [123, 34, 97, 34, 58, 125] 6 7 ⟨⟨some [], 2, -1⟩, 0⟩
      ((([] : List jsmn_Token).length : Nat) : Int) =
      Run.ok (2,
        ⟨⟨some [{ type := JSMN_OBJECT, data := jsmn_data.null, length := -1, start := 0,
                  end_ := 6, size := 1, parent := -1 },
                { type := JSMN_LABEL, data := jsmn_data.js 2, length := 1, start := 2,
                  end_ := 3, size := 0, parent := 0 }], 2, -1⟩, 6⟩) := rfl
  obtain ⟨_, _, h3, _⟩ := parse_loop_cap _ _ _ [] 2 (-1) 0 2 _ (Or.inl rfl) parentsOK_nil h
    (by omega)
  rw [jsmn_parse_init]
  exact h3 cap (by exact_mod_cast hcap)

/-- Witness of C6 (amended): capacity 2. -/
theorem empty_value_accepted_witness :
    jsmn_parse (jsmn_parser_init true 2) [123, 34, 97, 34, 58, 125] 6 =
      Run.ok (2,
        ⟨⟨some [{ type := JSMN_OBJECT, data := jsmn_data.null, length := -1, start := 0,
                  end_ := 6, size := 1, parent := -1 },
                { type := JSMN_LABEL, data := jsmn_data.js 2, length := 1, start := 2,
                  end_ := 3, size := 0, parent := 0 }], 2, -1⟩, 6⟩) :=
  empty_value_accepted 2 (by decide)


/-! ## An array of primitives (C7) -/

theorem bump_cons_zero (a : jsmn_Token) (T : List jsmn_Token) :
    bump (a :: T) 0 = { a with size := a.size + 1 } :: T := by
  unfold bump size_incr tokAt tokSet
  simp

theorem key_blocked_array (k e : Int) (T : List jsmn_Token) :
    key_blocked (root_array k e :: T) 0 = false := by
  unfold key_blocked tokAt
  simp [root_array]

theorem comma_sup_array (k e : Int) (T : List jsmn_Token) :
    comma_sup (root_array k e :: T) 0 = 0 := by
  unfold comma_sup tokAt
  simp [root_array]

theorem close_walk_array (k : Int) (T : List jsmn_Token) (tok : jsmn_Token) (pos : Nat)
    (h1 : isOpen tok = false) (h2 : tok.parent = 0) :
    close_walk JSMN_ARRAY pos 0 (root_array k (-1) :: T ++ [tok]).length
        (root_array k (-1) :: T ++ [tok])
        (((root_array k (-1) :: T ++ [tok]).length : Int) - 1) =
      Run.ok (some (root_array k ((pos : Int) + 1) :: T ++ [tok], -1)) := by
  have hlen : (root_array k (-1) :: T ++ [tok]).length = T.length + 1 + 1 := by simp
  have hidx : (((root_array k (-1) :: T ++ [tok]).length : Int) - 1)
      = (((root_array k (-1) :: T).length : Nat) : Int) := by
    simp
  have hlast : tokAt (root_array k (-1) :: T ++ [tok])
      (((root_array k (-1) :: T).length : Nat) : Int) = some tok := by
    have := tokAt_append_length (root_array k (-1) :: T) tok
    simpa using this
  have hopen : ¬ (tok.start ≠ -1 ∧ tok.end_ = -1) := by
    simpa [isOpen] using h1
  rw [hidx, hlen, close_walk, hlast]
  simp only
  rw [if_neg hopen, if_neg (by rw [h2]; decide), h2, close_walk]
  have h0 : tokAt (root_array k (-1) :: T ++ [tok]) 0 = some (root_array k (-1)) := by
    unfold tokAt; simp
  rw [h0]
  simp [root_array, tokSet]

theorem raw_prims_resolve (off : Nat) (ps : List (List Nat)) :
    (raw_prims off ps).map resolve_token = prim_tokens off ps := by
  induction ps generalizing off with
  | nil => rfl
  | cons p ps ih =>
    simp only [raw_prims, prim_tokens, List.map_cons, ih]
    congr 1
    simp [resolve_token, new_token]

theorem new_token_not_open (ty : jsmntype_t) (s p : Int) (e : Nat) :
    isOpen (new_token ty s (e : Int) p) = false := by
  simp only [isOpen, new_token, Bool.and_eq_false_imp, decide_eq_true_eq,
    decide_eq_false_iff_not]
  intro _; omega

theorem raw_prims_not_open (off : Nat) (ps : List (List Nat)) :
    ∀ t ∈ raw_prims off ps, isOpen t = false := by
  induction ps generalizing off with
  | nil => intro t h; simp [raw_prims] at h
  | cons p ps ih =>
    intro t h
    simp only [raw_prims, List.mem_cons] at h
    rcases h with h | h
    · subst h; exact new_token_not_open _ _ _ _
    · exact ih _ t h

theorem prims_text_cons (p q : List Nat) (ps : List (List Nat)) :
    prims_text (p :: q :: ps) = p ++ 44 :: prims_text (q :: ps) := rfl

theorem run_ok_congr {a b : Int} {l m : List jsmn_Token} {cap : Nat} {sup : Int}
    {pos qos : Nat} (ha : a = b) (hl : l = m) (hp : pos = qos) :
    (Run.ok (a, ⟨⟨some (l.map resolve_token), cap, sup⟩, pos⟩) : Run (Int × jsmn_Parser)) =
      Run.ok (b, ⟨⟨some (m.map resolve_token), cap, sup⟩, qos⟩) := by
  subst ha hl hp; rfl

theorem prims_loop : ∀ (ps : List (List Nat)) (p pre : List Nat) (T : List jsmn_Token)
    (k : Int) (fuel cap : Nat),
    (∀ x ∈ p :: ps, ValidPrim x) → (∀ t ∈ T, isOpen t = false) →
    T.length + ps.length + 2 ≤ cap → (prims_text (p :: ps)).length + 2 ≤ fuel →
    parse_loop (pre ++ prims_text (p :: ps) ++ [93])
        (pre ++ prims_text (p :: ps) ++ [93]).length fuel
        ⟨⟨some (root_array k (-1) :: T), cap, 0⟩, pre.length⟩
        (((root_array k (-1) :: T).length : Nat) : Int) =
      Run.ok (((T.length + ps.length + 2 : Nat) : Int),
        ⟨⟨some ((root_array (k + ps.length + 1)
              ((pre ++ prims_text (p :: ps) ++ [93]).length : Nat) ::
            (T ++ raw_prims pre.length (p :: ps))).map resolve_token), cap, -1⟩,
          (pre ++ prims_text (p :: ps) ++ [93]).length⟩) := by
  intro ps
  induction ps with
  | nil =>
    intro p pre T k fuel cap hv hT hcap hfuel
    have hvp := hv p (List.mem_cons_self _ _)
    have hplen := (validPrim_start hvp).1
    simp only [prims_text] at hfuel ⊢
    obtain ⟨f, rfl⟩ : ∃ f, fuel = f + 1 + 1 + 1 := ⟨fuel - 3, by omega⟩
    have hXlen : (pre ++ p ++ [93]).length = pre.length + p.length + 1 := by
      simp only [List.length_append, List.length_cons, List.length_nil]
    have hpa := primAt_of_append pre p [] 93 hvp (by decide)
    rw [parse_loop_step (tokStep_primAt hpa _ 0 (key_blocked_array k (-1) T))
      (Or.inr ⟨le_refl _, by simp only [List.length_cons, List.length_append, List.length_nil]; omega⟩) (primAt_guard hpa) cap
      (by intro h; have := h.2; simp only [List.length_cons] at this; omega)]
    rw [show pre.length + p.length - 1 + 1 = pre.length + p.length by omega,
      bump_cons_zero]
    have hc93 : (pre ++ p ++ [93]).getD (pre.length + p.length) 0 = 93 := by
      have := getD_append_at (pre ++ p) [] 93
      rwa [List.length_append] at this
    have e1 : ({ root_array k (-1) with size := (root_array k (-1)).size + 1 } : jsmn_Token)
        = root_array (k + 1) (-1) := rfl
    rw [e1]
    have hstep2 : TokStep (pre ++ p ++ [93]) (pre ++ p ++ [93]).length
        (root_array (k + 1) (-1) :: T ++
          [new_token JSMN_PRIMITIVE pre.length ((pre.length + p.length : Nat) : Int) 0])
        0 (pre.length + p.length)
        (root_array (k + 1) (((pre.length + p.length : Nat) : Int) + 1) :: T ++
          [new_token JSMN_PRIMITIVE pre.length ((pre.length + p.length : Nat) : Int) 0])
        (-1) (pre.length + p.length) 0 := by
      apply TokStep.closed _ _ (Or.inr hc93) (by simp)
      rw [hc93]
      exact close_walk_array (k + 1) T _ _ (new_token_not_open _ _ _ _) rfl
    have hg2 : pre.length + p.length < (pre ++ p ++ [93]).length ∧
        (pre ++ p ++ [93]).getD (pre.length + p.length) 0 ≠ 0 := by
      rw [hc93]; exact ⟨by omega, by decide⟩
    rw [parse_loop_step hstep2 (Or.inr ⟨le_refl _, by simp only [List.length_cons, List.length_append, List.length_nil]; omega⟩) hg2 cap (by simp)]
    have hg3 : ¬ (pre.length + p.length + 1 < (pre ++ p ++ [93]).length ∧
        (pre ++ p ++ [93]).getD (pre.length + p.length + 1) 0 ≠ 0) := by
      intro h; have := h.1; omega
    rw [parse_loop_end _ cap (-1) hg3]
    have hno : (root_array (k + 1) (((pre.length + p.length : Nat) : Int) + 1) :: T ++
          [new_token JSMN_PRIMITIVE pre.length ((pre.length + p.length : Nat) : Int)
            0]).any isOpen = false := by
      rw [List.any_eq_false]
      intro t ht
      rw [List.cons_append, List.mem_cons, List.mem_append, List.mem_singleton] at ht
      rcases ht with ht | ht | ht
      · subst ht
        simp only [isOpen, root_array, Bool.and_eq_true, decide_eq_true_eq, not_and]
        intro _; omega
      · simp [hT t ht]
      · subst ht
        rw [new_token_not_open]; decide
    rw [hno, if_neg (by simp)]
    refine run_ok_congr (by simp; omega) ?_ (by omega)
    rw [hXlen]
    simp only [raw_prims, List.length_nil, Nat.cast_zero, add_zero, List.cons_append,
      Nat.cast_add, Nat.cast_one]
  | cons q ps ih =>
    intro p pre T k fuel cap hv hT hcap hfuel
    have hvp := hv p (List.mem_cons_self _ _)
    have hplen := (validPrim_start hvp).1
    rw [prims_text_cons] at hfuel ⊢
    obtain ⟨f, rfl⟩ : ∃ f, fuel = f + 1 + 1 := ⟨fuel - 2, by omega⟩
    have hX : pre ++ (p ++ 44 :: prims_text (q :: ps)) ++ [93] =
        pre ++ p ++ 44 :: (prims_text (q :: ps) ++ [93]) := by simp
    have hX2 : pre ++ (p ++ 44 :: prims_text (q :: ps)) ++ [93] =
        (pre ++ p ++ [44]) ++ prims_text (q :: ps) ++ [93] := by simp
    have hXlen : (pre ++ (p ++ 44 :: prims_text (q :: ps)) ++ [93]).length =
        pre.length + p.length + 1 + (prims_text (q :: ps)).length + 1 := by
      simp only [List.length_append, List.length_cons, List.length_nil]; omega
    have hpa := primAt_of_append pre p (prims_text (q :: ps) ++ [93]) 44 hvp (by decide)
    rw [← hX] at hpa
    rw [parse_loop_step (tokStep_primAt hpa _ 0 (key_blocked_array k (-1) T))
      (Or.inr ⟨le_refl _, by simp only [List.length_cons, List.length_append, List.length_nil]; omega⟩) (primAt_guard hpa) cap
      (by intro h; have := h.2; simp only [List.length_cons] at this; omega)]
    rw [show pre.length + p.length - 1 + 1 = pre.length + p.length by omega,
      bump_cons_zero]
    have e1 : ({ root_array k (-1) with size := (root_array k (-1)).size + 1 } : jsmn_Token)
        = root_array (k + 1) (-1) := rfl
    rw [e1]
    have hc44 : (pre ++ (p ++ 44 :: prims_text (q :: ps)) ++ [93]).getD
        (pre.length + p.length) 0 = 44 := by
      rw [hX]
      have := getD_append_at (pre ++ p) (prims_text (q :: ps) ++ [93]) 44
      rwa [List.length_append] at this
    have hg2 : pre.length + p.length <
          (pre ++ (p ++ 44 :: prims_text (q :: ps)) ++ [93]).length ∧
        (pre ++ (p ++ 44 :: prims_text (q :: ps)) ++ [93]).getD
          (pre.length + p.length) 0 ≠ 0 := by
      rw [hc44]; exact ⟨by omega, by decide⟩
    have hstep2 : TokStep (pre ++ (p ++ 44 :: prims_text (q :: ps)) ++ [93])
        (pre ++ (p ++ 44 :: prims_text (q :: ps)) ++ [93]).length
        (root_array (k + 1) (-1) :: T ++
          [new_token JSMN_PRIMITIVE pre.length ((pre.length + p.length : Nat) : Int) 0])
        0 (pre.length + p.length)
        (root_array (k + 1) (-1) :: T ++
          [new_token JSMN_PRIMITIVE pre.length ((pre.length + p.length : Nat) : Int) 0])
        (comma_sup (root_array (k + 1) (-1) :: T ++
          [new_token JSMN_PRIMITIVE pre.length ((pre.length + p.length : Nat) : Int) 0]) 0)
        (pre.length + p.length) 0 := TokStep.comma hc44
    rw [parse_loop_step hstep2 (Or.inr ⟨le_refl _, by simp only [List.length_cons, List.length_append, List.length_nil]; omega⟩) hg2 cap (by simp)]
    rw [List.cons_append, comma_sup_array]
    have hih := ih q (pre ++ p ++ [44])
      (T ++ [new_token JSMN_PRIMITIVE pre.length ((pre.length + p.length : Nat) : Int) 0])
      (k + 1) f cap (fun x hx => hv x (List.mem_cons_of_mem _ hx))
      (by
        intro t ht
        rcases List.mem_append.1 ht with ht | ht
        · exact hT t ht
        · rw [List.mem_singleton] at ht
          subst ht
          exact new_token_not_open _ _ _ _)
      (by simp only [List.length_append, List.length_cons, List.length_nil] at hcap ⊢; omega)
      (by simp only [List.length_append, List.length_cons, List.length_nil] at hfuel ⊢; omega)
    rw [← hX2] at hih
    have hpl : (pre ++ p ++ [44]).length = pre.length + p.length + 1 := by
      simp only [List.length_append, List.length_cons, List.length_nil]
    rw [hpl] at hih
    rw [hih]
    refine run_ok_congr (by simp; omega) ?_ rfl
    simp only [raw_prims, List.length_cons, Nat.cast_add, Nat.cast_one, List.append_assoc,
      List.singleton_append]
    congr 2
    omega

theorem prim_tokens_bytes : ∀ (ps : List (List Nat)) (pre post : List Nat),
    (prim_tokens pre.length ps).map (token_bytes (pre ++ prims_text ps ++ post)) = ps := by
  intro ps
  induction ps with
  | nil => intro pre post; rfl
  | cons p ps ih =>
    intro pre post
    have hhead : ∀ rest : List Nat,
        token_bytes (pre ++ (p ++ rest))
          { type := JSMN_PRIMITIVE, data := jsmn_data.js pre.length, length := p.length,
            start := pre.length, end_ := ((pre.length + p.length : Nat) : Int), size := 0,
            parent := 0 } = p := by
      intro rest
      simp [token_bytes]
    cases ps with
    | nil =>
      simp only [prim_tokens, prims_text, List.map_cons, List.map_nil]
      have := hhead post
      rw [List.append_assoc, this]
    | cons q ps =>
      simp only [prim_tokens, List.map_cons, prims_text_cons]
      have h1 := hhead (44 :: prims_text (q :: ps) ++ post)
      have e1 : pre ++ (p ++ 44 :: prims_text (q :: ps)) ++ post =
          pre ++ (p ++ (44 :: prims_text (q :: ps) ++ post)) := by simp
      have e2 : pre ++ (p ++ 44 :: prims_text (q :: ps)) ++ post =
          (pre ++ p ++ [44]) ++ prims_text (q :: ps) ++ post := by simp
      have e3 : pre.length + p.length + 1 = (pre ++ p ++ [44]).length := by
        simp only [List.length_append, List.length_cons, List.length_nil]
      congr 1
      · rw [e1]; exact h1
      · have := ih (pre ++ p ++ [44]) post
        rw [← e2, ← e3] at this
        simpa [prim_tokens] using this

theorem resolve_root_array (k e : Int) : resolve_token (root_array k e) = root_array k e := rfl

/-- C7. For every `n ≥ 1` and primitives `p1..pn` (each not empty, its first
byte one of `-` `0`..`9` `t` `f` `n`, its bytes in `33..126` and none of `,`
`]` `}`), a real parse of the text `[p1,...,pn]` from `pos = 0` into a fresh
arena of capacity at least `n + 1` returns `n + 1`; token 0 is an Array with
size `n`, parent `-1`, start 0 and end the text length; tokens `1..n` are
Primitives with size 0 and parent 0 whose data/length pairs denote exactly
the bytes of `p1..pn`. -/
theorem array_of_primitives (ps : List (List Nat)) (cap : Nat) (hne : ps ≠ [])
    (hv : ∀ p ∈ ps, ValidPrim p) (hcap : ps.length + 1 ≤ cap) :
    jsmn_parse (jsmn_parser_init true cap) (array_text ps) (array_text ps).length =
      Run.ok (((ps.length + 1 : Nat) : Int),
        ⟨⟨some ({ type := JSMN_ARRAY, data := jsmn_data.null, length := -1, start := 0,
                  end_ := ((array_text ps).length : Nat), size := (ps.length : Nat),
                  parent := -1 } :: prim_tokens 1 ps), cap, -1⟩,
          (array_text ps).length⟩) ∧
    (prim_tokens 1 ps).map (token_bytes (array_text ps)) = ps ∧
    (prim_tokens 1 ps).length = ps.length := by
  refine ⟨?_, ?_, ?_⟩
  · cases ps with
    | nil => exact absurd rfl hne
    | cons p ps =>
      have hX : array_text (p :: ps) = [91] ++ prims_text (p :: ps) ++ [93] := rfl
      rw [jsmn_parse_init, hX]
      have h91 : ([91] ++ prims_text (p :: ps) ++ [93]).getD 0 0 = 91 := rfl
      have hstep : TokStep ([91] ++ prims_text (p :: ps) ++ [93])
          ([91] ++ prims_text (p :: ps) ++ [93]).length [] (-1) 0
          (bump [] (-1) ++ [new_token (bracket_type
            (([91] ++ prims_text (p :: ps) ++ [93]).getD 0 0)) ((0 : Nat) : Int) (-1) (-1)])
          ((([] : List jsmn_Token).length : Nat) : Int) 0 1 :=
        TokStep.opened (Or.inr h91)
      rw [parse_loop_step hstep (Or.inl rfl) ⟨by simp, by rw [h91]; decide⟩ cap
        (by intro h; have := h.2; simp only [List.length_nil] at this; omega)]
      rw [h91]
      have e0 : bump [] (-1) ++ [new_token (bracket_type 91) ((0 : Nat) : Int) (-1) (-1)] =
          root_array 0 (-1) :: [] := rfl
      rw [e0]
      have := prims_loop ps p [91] [] 0 ([91] ++ prims_text (p :: ps) ++ [93]).length cap hv
        (by simp) (by simp only [List.length_nil, List.length_cons] at hcap ⊢; omega)
        (by simp only [List.length_append, List.length_cons, List.length_nil]; omega)
      simp only [List.length_nil, Nat.cast_zero, List.length_cons, zero_add,
        Nat.cast_ofNat, List.nil_append] at this ⊢
      rw [this]
      simp only [List.map_cons, resolve_root_array, raw_prims_resolve]
      rfl
  · have := prim_tokens_bytes ps [91] [93]
    exact this
  · clear hne hv hcap
    generalize 1 = off
    induction ps generalizing off with
    | nil => rfl
    | cons p ps ih => simp [prim_tokens, ih]

/-- Witness of C7: the text `[1,2,3]` gives 4 tokens. -/
theorem array_of_primitives_witness :
    jsmn_parse (jsmn_parser_init true 4) (array_text [[49], [50], [51]])
        (array_text [[49], [50], [51]]).length =
      Run.ok ((([[49], [50], [51]].length + 1 : Nat) : Int),
        ⟨⟨some ({ type := JSMN_ARRAY, data := jsmn_data.null, length := -1, start := 0,
                  end_ := ((array_text [[49], [50], [51]]).length : Nat),
                  size := ([[49], [50], [51]].length : Nat),
                  parent := -1 } :: prim_tokens 1 [[49], [50], [51]]), 4, -1⟩,
          (array_text [[49], [50], [51]]).length⟩) ∧
    (prim_tokens 1 [[49], [50], [51]]).map (token_bytes (array_text [[49], [50], [51]]))
      = [[49], [50], [51]] ∧
    (prim_tokens 1 [[49], [50], [51]]).length = [[49], [50], [51]].length :=
  array_of_primitives [[49], [50], [51]] 4 (by decide)
    (by
      intro p hp
      simp only [List.mem_cons, List.mem_singleton, List.not_mem_nil, or_false] at hp
      rcases hp with rfl | rfl | rfl <;>
        exact ⟨by decide, by decide, by intro b hb; simp at hb; subst hb; decide⟩)
    (by decide)

end Jsmn

namespace Jsmn
open jsmntype_t

/-! ## Runs of the main loop -/

theorem runs_refl (js : List Nat) (len cap : Nat) (l : List jsmn_Token) (sup : Int)
    (pos : Nat) : Runs js len cap l sup pos l sup pos :=
  ⟨0, by omega, fun _ => rfl⟩

theorem runs_trans {js : List Nat} {len cap : Nat} {l l1 l2 : List jsmn_Token}
    {sup sup1 sup2 : Int} {pos pos1 pos2 : Nat}
    (h1 : Runs js len cap l sup pos l1 sup1 pos1)
    (h2 : Runs js len cap l1 sup1 pos1 l2 sup2 pos2) :
    Runs js len cap l sup pos l2 sup2 pos2 := by
  obtain ⟨k1, hk1, h1⟩ := h1
  obtain ⟨k2, hk2, h2⟩ := h2
  refine ⟨k2 + k1, by omega, fun fuel => ?_⟩
  rw [← Nat.add_assoc, h1, h2]

theorem runs_yields {js : List Nat} {len cap : Nat} {l l1 : List jsmn_Token}
    {sup sup1 : Int} {pos pos1 : Nat} {r : Int × jsmn_Parser}
    (h1 : Runs js len cap l sup pos l1 sup1 pos1)
    (h2 : Yields js len cap l1 sup1 pos1 r) :
    Yields js len cap l sup pos r := by
  obtain ⟨k1, hk1, h1⟩ := h1
  obtain ⟨k2, hk2, h2⟩ := h2
  refine ⟨k2 + k1, by omega, fun fuel => ?_⟩
  rw [← Nat.add_assoc, h1, h2]

theorem runs_step {js : List Nat} {len cap : Nat} {l l1 : List jsmn_Token}
    {sup sup1 : Int} {pos pos1 : Nat} {d : Int}
    (ht : TokStep js len l sup pos l1 sup1 pos1 d) (hsup : SupOK l sup)
    (hg : pos < len ∧ js.getD pos 0 ≠ 0) (hcap : l1.length ≤ cap) (hpos : pos ≤ pos1) :
    Runs js len cap l sup pos l1 sup1 (pos1 + 1) := by
  refine ⟨1, by omega, fun fuel => ?_⟩
  have hlen := tokStep_length ht
  exact parse_loop_step ht hsup hg cap (by intro h; omega) fuel

theorem yields_end {js : List Nat} {len : Nat} (l : List jsmn_Token) (cap : Nat)
    (sup : Int) {pos : Nat} (hg : ¬ (pos < len ∧ js.getD pos 0 ≠ 0)) (hpos : pos ≤ len) :
    Yields js len cap l sup pos
      (if l.any isOpen = true then (JSMN_ERROR_PART, ⟨⟨some l, cap, sup⟩, pos⟩)
        else ((l.length : Int), ⟨⟨some (l.map resolve_token), cap, sup⟩, pos⟩)) := by
  refine ⟨1, by omega, fun fuel => ?_⟩
  rw [parse_loop_end l cap sup hg fuel]
  split <;> rfl

theorem yields_ret {js : List Nat} {len : Nat} {l : List jsmn_Token} {cap : Nat}
    {sup : Int} {pos : Nat} {r : Int} {p : jsmn_Parser}
    (hg : pos < len ∧ js.getD pos 0 ≠ 0)
    (h : parse_step js len ⟨⟨some l, cap, sup⟩, pos⟩ (l.length : Int) = Run.ok (Step.ret r p)) :
    Yields js len cap l sup pos (r, p) := by
  refine ⟨1, by omega, fun fuel => ?_⟩
  rw [parse_loop]
  simp only
  rw [if_pos hg, h]

/-- A primitive that runs to the end of the buffer. -/
theorem yields_prim_part {js : List Nat} {len : Nat} {l : List jsmn_Token} {cap : Nat}
    {sup : Int} {pos : Nat} (hsup : SupOK l sup) (hlt : pos < len)
    (hstart : isPrimitiveStart (js.getD pos 0) = true)
    (hplain : ∀ j, pos ≤ j → j < len → isPlain (js.getD j 0) = true)
    (hk : key_blocked l sup = false) :
    Yields js len cap l sup pos (JSMN_ERROR_PART, ⟨⟨some l, cap, sup⟩, pos⟩) := by
  have h0 : js.getD pos 0 ≠ 0 := by
    intro h0; rw [h0] at hstart; simp [isPrimitiveStart] at hstart
  apply yields_ret ⟨hlt, h0⟩
  obtain ⟨h1, h2, h3, h4, h5, h6⟩ := primitiveStart_class hstart
  have hloop : primitive_loop js len (len - pos + 1) pos = Run.ok (Sum.inl JSMN_ERROR_PART) := by
    rw [primitive_loop_skip js len _ pos len (by omega) (by omega)
      (fun j hj hjq => ⟨hjq, hplain j hj hjq⟩)]
    rw [show len - pos + 1 - (len - pos) = 0 + 1 by omega, primitive_loop,
      if_neg (by intro h; omega)]
  unfold parse_step
  simp only
  rw [if_neg h1, if_neg h2, if_neg h3, if_neg h4, if_neg h5, if_neg h6, if_pos hstart,
    step_primitive_real rfl hsup]
  simp only [hk, hloop, Bool.false_eq_true, if_false]
  rw [if_pos (by decide)]

/-! ## Bytes of a text given in pieces -/

theorem getD_at {js pre post : List Nat} {c : Nat} (h : js = pre ++ c :: post) :
    js.getD pre.length 0 = c := by
  rw [h]; exact getD_append_at pre post c

theorem getD_mid {js pre mid post : List Nat} (h : js = pre ++ mid ++ post) (j : Nat)
    (hj : j < mid.length) : js.getD (pre.length + j) 0 = mid.getD j 0 := by
  rw [h]; exact getD_append_mid pre mid post j hj

theorem length_at {js pre post : List Nat} {c : Nat} (h : js = pre ++ c :: post) :
    pre.length < js.length := by
  rw [h]; simp

theorem isSpace_cases {c : Nat} (h : isSpace c = true) : c = 9 ∨ c = 13 ∨ c = 10 ∨ c = 32 := by
  simp only [isSpace, Bool.or_eq_true, decide_eq_true_eq] at h
  omega

theorem isSpace_term {c : Nat} (h : isSpace c = true) : isTerminator c = true := by
  rcases isSpace_cases h with h | h | h | h <;> subst h <;> decide

/-- White space is skipped. -/
theorem runs_ws {js : List Nat} {cap : Nat} {l : List jsmn_Token} {sup : Int}
    (hsup : SupOK l sup) (hcap : l.length ≤ cap) :
    ∀ (w pre post : List Nat), Ws w → js = pre ++ w ++ post →
      Runs js js.length cap l sup pre.length l sup (pre.length + w.length) := by
  intro w
  induction w with
  | nil => intro pre post _ _; exact runs_refl _ _ _ _ _ _
  | cons c w ih =>
    intro pre post hw hjs
    have hc : isSpace c = true := hw c (List.mem_cons_self _ _)
    have hjs1 : js = pre ++ c :: (w ++ post) := by rw [hjs]; simp
    have hb := getD_at hjs1
    have hstep : TokStep js js.length l sup pre.length l sup pre.length 0 :=
      TokStep.space (by rw [hb]; exact isSpace_cases hc)
    have h1 := runs_step hstep hsup
      ⟨length_at hjs1, by rw [hb]; rcases isSpace_cases hc with h | h | h | h <;> omega⟩
      hcap (le_refl _)
    have h2 := ih (pre ++ [c]) post (fun x hx => hw x (List.mem_cons_of_mem _ hx))
      (by rw [hjs]; simp)
    rw [List.length_append, List.length_singleton] at h2
    rw [List.length_cons, show pre.length + (w.length + 1) = pre.length + 1 + w.length by omega]
    exact runs_trans h1 h2

/-! ## The leaves: a primitive, a string -/

theorem runs_prim {js pre p post : List Nat} {cap : Nat} {l : List jsmn_Token} {s : Int}
    (hjs : js = pre ++ p ++ post) (hp : ValidPrim p) (ht : Term post)
    (hsup : SupOK l s) (hk : key_blocked l s = false) (hcap : l.length + 1 ≤ cap) :
    Runs js js.length cap l s pre.length
      (bump l s ++ [new_token JSMN_PRIMITIVE (pre.length : Int)
        ((pre.length + p.length : Nat) : Int) s]) s (pre.length + p.length) := by
  obtain ⟨c, rest, rfl, hc⟩ := ht
  have hpa := primAt_of_append pre p rest c hp hc
  rw [← hjs] at hpa
  have hlen := (validPrim_start hp).1
  have h : Runs js js.length cap l s pre.length _ _ _ :=
    runs_step (tokStep_primAt hpa l s hk) hsup (primAt_guard hpa)
      (by simp [bump_length]; omega) (by omega)
  rwa [show pre.length + p.length - 1 + 1 = pre.length + p.length by omega] at h

theorem yields_prim_end {js pre p : List Nat} {cap : Nat} {l : List jsmn_Token} {s : Int}
    (hjs : js = pre ++ p) (hp : ValidPrim p) (hsup : SupOK l s)
    (hk : key_blocked l s = false) :
    Yields js js.length cap l s pre.length (JSMN_ERROR_PART, ⟨⟨some l, cap, s⟩, pre.length⟩) := by
  obtain ⟨hlen, hstart⟩ := validPrim_start hp
  have hjs1 : js = pre ++ p ++ [] := by rw [hjs]; simp
  have hjl : js.length = pre.length + p.length := by rw [hjs]; simp
  apply yields_prim_part hsup (by omega)
  · have := getD_mid hjs1 0 hlen
    rw [Nat.add_zero] at this
    rw [this]; exact hstart
  · intro j hj hjl2
    have := getD_mid hjs1 (j - pre.length) (by omega)
    rw [show pre.length + (j - pre.length) = j by omega] at this
    rw [this]
    exact validPrim_plain hp _ (by omega)
  · exact hk

theorem scanPlain_cases {c : Nat} (h : scanPlain c = true) : c ≠ 0 ∧ c ≠ 34 ∧ c ≠ 92 := by
  simpa [scanPlain, and_assoc] using h

theorem strItems_body {js : List Nat} {b : List Nat} (hb : StrItems scanPlain b) :
    ∀ (pre post : List Nat), js = pre ++ b ++ 34 :: post →
      StringBody js js.length pre.length (pre.length + b.length) := by
  induction hb with
  | nil => intro pre post _; exact StringBody.nil _
  | plain c rest hc _ ih =>
    intro pre post hjs
    obtain ⟨c0, c34, c92⟩ := scanPlain_cases hc
    have hjs1 : js = pre ++ c :: (rest ++ 34 :: post) := by rw [hjs]; simp
    have hb := getD_at hjs1
    have h2 := ih (pre ++ [c]) post (by rw [hjs]; simp)
    rw [List.length_append, List.length_singleton] at h2
    rw [List.length_cons, show pre.length + (rest.length + 1) = pre.length + 1 + rest.length
      by omega]
    exact StringBody.plain _ _ (length_at hjs1) (by rw [hb]; exact c0) (by rw [hb]; exact c34)
      (by rw [hb]; intro h; exact c92 h.1) h2
  | esc e rest he _ ih =>
    intro pre post hjs
    have hjs1 : js = pre ++ [92, e] ++ (rest ++ 34 :: post) := by rw [hjs]; simp
    have hb0 := getD_mid hjs1 0 (by simp)
    have hb1 := getD_mid hjs1 1 (by simp)
    have hl : pre.length + 1 < js.length := by rw [hjs]; simp
    have h2 := ih (pre ++ [92, e]) post (by rw [hjs]; simp)
    rw [List.length_append] at h2
    simp only [List.length_cons, List.length_nil] at h2 ⊢
    rw [show pre.length + (rest.length + 1 + 1) = pre.length + (0 + 1 + 1) + rest.length
      by omega]
    exact StringBody.esc _ _ (by simpa using hb0) hl (by rw [hb1]; simpa using he) h2
  | uesc h1 h2 h3 h4 rest hh1 hh2 hh3 hh4 _ ih =>
    intro pre post hjs
    have hjs1 : js = pre ++ [92, 117, h1, h2, h3, h4] ++ (rest ++ 34 :: post) := by
      rw [hjs]; simp
    have hb0 := getD_mid hjs1 0 (by simp)
    have hb1 := getD_mid hjs1 1 (by simp)
    have hb2 := getD_mid hjs1 2 (by simp)
    have hb3 := getD_mid hjs1 3 (by simp)
    have hb4 := getD_mid hjs1 4 (by simp)
    have hb5 := getD_mid hjs1 5 (by simp)
    have hl : pre.length + 6 < js.length := by rw [hjs]; simp
    have hr := ih (pre ++ [92, 117, h1, h2, h3, h4]) post (by rw [hjs]; simp)
    rw [List.length_append] at hr
    simp only [List.length_cons, List.length_nil] at hr ⊢
    rw [show pre.length + (rest.length + 1 + 1 + 1 + 1 + 1 + 1)
      = pre.length + (0 + 1 + 1 + 1 + 1 + 1 + 1) + rest.length by omega]
    rw [show pre.length + (0 + 1 + 1 + 1 + 1 + 1 + 1) = pre.length + 2 + 4 by omega] at hr ⊢
    refine StringBody.uesc _ _ 4 (by simpa using hb0) (by omega) (by simpa using hb1)
      (le_refl _) ?_ (Or.inl rfl) hr
    intro m hm
    refine ⟨by omega, ?_⟩
    have hm4 : m = 0 ∨ m = 1 ∨ m = 2 ∨ m = 3 := by omega
    rcases hm4 with rfl | rfl | rfl | rfl
    · rw [show pre.length + 2 + 0 = pre.length + 2 by omega, hb2]; simpa using hh1
    · rw [show pre.length + 2 + 1 = pre.length + 3 by omega, hb3]; simpa using hh2
    · rw [show pre.length + 2 + 2 = pre.length + 4 by omega, hb4]; simpa using hh3
    · rw [show pre.length + 2 + 3 = pre.length + 5 by omega, hb5]; simpa using hh4

theorem string_loop_found {js pre b post : List Nat} (hjs : js = pre ++ 34 :: b ++ 34 :: post)
    (hb : ScanStr b) :
    string_loop js js.length (js.length - pre.length + 1) (pre.length + 1) =
      Run.ok (Sum.inr (pre.length + 1 + b.length)) := by
  have hjs1 : js = (pre ++ [34]) ++ b ++ 34 :: post := by rw [hjs]; simp
  have hbody := strItems_body hb (pre ++ [34]) post hjs1
  rw [List.length_append, List.length_singleton] at hbody
  obtain ⟨k, hk⟩ := string_loop_body js js.length hbody (js.length - pre.length + 1) (by omega)
  have hjs2 : js = (pre ++ [34] ++ b) ++ 34 :: post := by rw [hjs]; simp
  have hq := getD_at hjs2
  have hl := length_at hjs2
  simp only [List.length_append, List.length_singleton] at hq hl
  rw [hk, string_loop, if_pos ⟨hl, by rw [hq]; decide⟩, if_pos hq]

theorem runs_str {js pre b post : List Nat} {cap : Nat} {l : List jsmn_Token} {s : Int}
    (hjs : js = pre ++ 34 :: b ++ 34 :: post) (hb : ScanStr b)
    (hsup : SupOK l s) (hs : s ≠ -1) (hcap : l.length + 1 ≤ cap) :
    Runs js js.length cap l s pre.length
      (bump l s ++ [new_token (string_type l s) ((pre.length : Int) + 1)
        ((pre.length + 1 + b.length : Nat) : Int) s]) s (pre.length + b.length + 2) := by
  have hjs1 : js = pre ++ 34 :: (b ++ 34 :: post) := by rw [hjs]; simp
  have hq := getD_at hjs1
  have hstep := TokStep.string (l := l) (pre.length + 1 + b.length) hq hs
    (string_loop_found hjs hb)
  have h : Runs js js.length cap l s pre.length _ _ _ :=
    runs_step hstep hsup ⟨length_at hjs1, by rw [hq]; decide⟩
      (by simp [bump_length]; omega) (by omega)
  rwa [show pre.length + 1 + b.length + 1 = pre.length + b.length + 2 by omega] at h

/-! ## Brackets, colon, comma -/

theorem runs_open {js pre post : List Nat} {c : Nat} {cap : Nat} {l : List jsmn_Token}
    {s : Int} (hjs : js = pre ++ c :: post) (hc : c = 123 ∨ c = 91)
    (hsup : SupOK l s) (hcap : l.length + 1 ≤ cap) :
    Runs js js.length cap l s pre.length
      (bump l s ++ [new_token (bracket_type c) (pre.length : Int) (-1) s])
      (l.length : Int) (pre.length + 1) := by
  have hq := getD_at hjs
  have hstep : TokStep js js.length l s pre.length
      (bump l s ++ [new_token (bracket_type (js.getD pre.length 0)) (pre.length : Int) (-1) s])
      (l.length : Int) pre.length 1 := TokStep.opened (by rw [hq]; exact hc)
  rw [hq] at hstep
  exact runs_step hstep hsup ⟨length_at hjs, by rw [hq]; omega⟩
    (by simp [bump_length]; omega) (le_refl _)

theorem runs_colon {js pre post : List Nat} {cap : Nat} {l : List jsmn_Token}
    {s : Int} (hjs : js = pre ++ 58 :: post)
    (hsup : SupOK l s) (hcap : l.length ≤ cap) :
    Runs js js.length cap l s pre.length l ((l.length : Int) - 1) (pre.length + 1) := by
  have hq := getD_at hjs
  exact runs_step (TokStep.colon hq) hsup ⟨length_at hjs, by rw [hq]; decide⟩ hcap (le_refl _)

theorem runs_comma {js pre post : List Nat} {cap : Nat} {l : List jsmn_Token}
    {s : Int} (hjs : js = pre ++ 44 :: post)
    (hsup : SupOK l s) (hcap : l.length ≤ cap) :
    Runs js js.length cap l s pre.length l (comma_sup l s) (pre.length + 1) := by
  have hq := getD_at hjs
  exact runs_step (TokStep.comma hq) hsup ⟨length_at hjs, by rw [hq]; decide⟩ hcap (le_refl _)

theorem tokAt_mid (L : List jsmn_Token) (c : jsmn_Token) (T : List jsmn_Token) :
    tokAt (L ++ c :: T) (L.length : Int) = some c := by
  rw [tokAt_nat, List.get?_eq_getElem?, List.getElem?_append_right (le_refl _)]
  simp

theorem tokAt_right (L : List jsmn_Token) (c : jsmn_Token) (T : List jsmn_Token) (i : Nat) :
    tokAt (L ++ c :: T) ((L.length + (i + 1) : Nat) : Int) = T.get? i := by
  rw [tokAt_nat, List.get?_eq_getElem?, List.get?_eq_getElem?,
    List.getElem?_append_right (by omega)]
  rw [show L.length + (i + 1) - L.length = i + 1 by omega]
  simp

theorem tokSet_mid (L : List jsmn_Token) (c c1 : jsmn_Token) (T : List jsmn_Token) :
    tokSet (L ++ c :: T) (L.length : Int) c1 = L ++ c1 :: T := by
  unfold tokSet
  simp

/-- The walk of a closing bracket from a token after the open container `c`,
over closed tokens whose parents lead back to `c`, closes `c`. -/
theorem close_walk_sealed (ty : jsmntype_t) (pos : Nat) (sup : Int) (L : List jsmn_Token)
    (c : jsmn_Token) (T : List jsmn_Token) (hc : c.start ≠ -1 ∧ c.end_ = -1)
    (hty : c.type = ty) (hT : Sealed (L.length + 1) (L.length : Int) T) :
    ∀ (i fuel : Nat), i ≤ T.length → i < fuel →
      close_walk ty pos sup fuel (L ++ c :: T) ((L.length + i : Nat) : Int) =
        Run.ok (some (L ++ { c with end_ := (pos : Int) + 1 } :: T, c.parent)) := by
  intro i
  induction i using Nat.strong_induction_on with
  | _ i ih =>
    intro fuel hi hf
    obtain ⟨f, rfl⟩ : ∃ f, fuel = f + 1 := ⟨fuel - 1, by omega⟩
    cases i with
    | zero =>
      rw [close_walk, Nat.add_zero, tokAt_mid]
      simp only
      rw [if_pos hc, if_neg (by rw [hty]; simp), tokSet_mid]
    | succ j =>
      have hj : j < T.length := by omega
      rw [close_walk, tokAt_right, List.get?_eq_getElem?, List.getElem?_eq_getElem hj]
      simp only
      obtain ⟨hopen, hpar⟩ := hT j T[j] (by rw [List.get?_eq_getElem?, List.getElem?_eq_getElem hj])
      have hno : ¬ (T[j].start ≠ -1 ∧ T[j].end_ = -1) := by
        simpa [isOpen] using hopen
      have hp1 : ¬ T[j].parent = -1 := by omega
      rw [if_neg hno, if_neg hp1]
      obtain ⟨m, hm, hmj⟩ : ∃ m : Nat, T[j].parent = ((L.length + m : Nat) : Int) ∧ m ≤ j := by
        rcases hpar with h | ⟨h1, h2⟩
        · exact ⟨0, by rw [h]; simp, by omega⟩
        · refine ⟨(T[j].parent - L.length).toNat, ?_, ?_⟩
          · push_cast; omega
          · omega
      rw [hm]
      exact ih m (by omega) f (by omega) (by omega)

theorem runs_close {js pre post : List Nat} {c : Nat} {cap : Nat} {L T : List jsmn_Token}
    {tok : jsmn_Token} {s : Int} (hjs : js = pre ++ c :: post) (hc : c = 125 ∨ c = 93)
    (hopen : tok.start ≠ -1 ∧ tok.end_ = -1) (hty : tok.type = bracket_type c)
    (hT : Sealed (L.length + 1) (L.length : Int) T)
    (hsup : SupOK (L ++ tok :: T) s) (hcap : (L ++ tok :: T).length ≤ cap) :
    Runs js js.length cap (L ++ tok :: T) s pre.length
      (L ++ { tok with end_ := (pre.length : Int) + 1 } :: T) tok.parent (pre.length + 1) := by
  have hq := getD_at hjs
  have hw := close_walk_sealed (bracket_type c) pre.length s L tok T hopen hty hT T.length
    (L ++ tok :: T).length (le_refl _) (by simp; omega)
  have hidx : (((L ++ tok :: T).length : Nat) : Int) - 1 = ((L.length + T.length : Nat) : Int) := by
    simp only [List.length_append, List.length_cons]; push_cast; omega
  have hstep : TokStep js js.length (L ++ tok :: T) s pre.length
      (L ++ { tok with end_ := (pre.length : Int) + 1 } :: T) tok.parent pre.length 0 := by
    apply TokStep.closed _ _ (by rw [hq]; exact hc) (by simp)
    rw [hq, hidx]
    exact hw
  exact runs_step hstep hsup ⟨length_at hjs, by rw [hq]; omega⟩
    (by simpa using hcap) (le_refl _)

/-! ## Repeated size increments -/

theorem bumps_length (k : Nat) : ∀ (l : List jsmn_Token) (s : Int),
    (bumps k l s).length = l.length := by
  induction k with
  | zero => intro l s; rfl
  | succ k ih => intro l s; rw [bumps, ih, bump_length]

theorem bumps_neg_one (k : Nat) : ∀ (l : List jsmn_Token), bumps k l (-1) = l := by
  induction k with
  | zero => intro l; rfl
  | succ k ih => intro l; rw [bumps, bump_neg_one, ih]

theorem bumps_append (k : Nat) : ∀ (l x : List jsmn_Token) (s : Int), s < l.length →
    bumps k (l ++ x) s = bumps k l s ++ x := by
  induction k with
  | zero => intro l x s _; rfl
  | succ k ih =>
    intro l x s h
    rw [bumps, bumps, bump_append x h, ih _ _ _ (by rw [bump_length]; exact h)]

theorem bumps_succ_right (k : Nat) : ∀ (l : List jsmn_Token) (s : Int),
    bumps (k + 1) l s = bump (bumps k l s) s := by
  induction k with
  | zero => intro l s; rfl
  | succ k ih => intro l s; rw [bumps, ih (bump l s) s]; rfl

theorem bump_mid (L : List jsmn_Token) (c : jsmn_Token) (T : List jsmn_Token) :
    bump (L ++ c :: T) (L.length : Int) = L ++ { c with size := c.size + 1 } :: T := by
  unfold bump
  rw [size_incr_of_tokAt (tokAt_mid L c T), tokSet_mid]

theorem bumps_mid (k : Nat) : ∀ (L : List jsmn_Token) (c : jsmn_Token) (T : List jsmn_Token),
    bumps k (L ++ c :: T) (L.length : Int) = L ++ { c with size := c.size + (k : Int) } :: T := by
  induction k with
  | zero => intro L c T; simp [bumps]
  | succ k ih =>
    intro L c T
    rw [bumps, bump_mid, ih]
    simp only [Nat.cast_add, Nat.cast_one]
    congr 2
    simp only [jsmn_Token.mk.injEq, true_and, and_true]
    omega

/-! ## The tokens of a text are closed and lead back to the superior token -/

theorem closed_token_not_open (ty : jsmntype_t) (a k s : Int) (e : Nat) :
    isOpen (closed_token ty a (e : Int) k s) = false := by
  simp only [isOpen, closed_token, Bool.and_eq_false_imp, decide_eq_true_eq,
    decide_eq_false_iff_not]
  intro _; omega

theorem label_token_not_open (a s : Int) (e : Nat) :
    isOpen (label_token a (e : Int) s) = false := by
  simp only [isOpen, label_token, Bool.and_eq_false_imp, decide_eq_true_eq,
    decide_eq_false_iff_not]
  intro _; omega

theorem sealed_single (n : Nat) (s : Int) (t : jsmn_Token) (h1 : isOpen t = false)
    (h2 : t.parent = s) : Sealed n s [t] := by
  intro i x hx
  cases i with
  | zero =>
    simp only [List.get?_cons_zero, Option.some.injEq] at hx
    subst hx; exact ⟨h1, Or.inl h2⟩
  | succ j => simp at hx

theorem sealed_cons (n : Nat) (s : Int) (t : jsmn_Token) (T : List jsmn_Token)
    (h1 : isOpen t = false) (h2 : t.parent = s) (hT : Sealed (n + 1) (n : Int) T) :
    Sealed n s (t :: T) := by
  intro i x hx
  cases i with
  | zero =>
    simp only [List.get?_cons_zero, Option.some.injEq] at hx
    subst hx; exact ⟨h1, Or.inl h2⟩
  | succ j =>
    simp only [List.get?_cons_succ] at hx
    obtain ⟨ho, hp⟩ := hT j x hx
    refine ⟨ho, Or.inr ?_⟩
    push_cast at hp ⊢
    omega

theorem sealed_append (n : Nat) (s : Int) (T T1 : List jsmn_Token)
    (hT : Sealed n s T) (hT1 : Sealed (n + T.length) s T1) : Sealed n s (T ++ T1) := by
  intro i x hx
  by_cases hi : i < T.length
  · rw [List.get?_eq_getElem?, List.getElem?_append_left hi, ← List.get?_eq_getElem?] at hx
    exact hT i x hx
  · rw [List.get?_eq_getElem?, List.getElem?_append_right (by omega),
      ← List.get?_eq_getElem?] at hx
    obtain ⟨ho, hp⟩ := hT1 _ x hx
    refine ⟨ho, ?_⟩
    rcases hp with hp | hp
    · exact Or.inl hp
    · refine Or.inr ?_
      push_cast at hp ⊢
      omega

theorem gram_sealed {S P : List Nat → Prop} {kind : Kind} {o n : Nat} {s : Int}
    {text : List Nat} {T : List jsmn_Token} {k : Nat}
    (h : Gram S P kind o n s text T k) : Sealed n s T := by
  induction h with
  | prim o n s p _ => exact sealed_single _ _ _ (new_token_not_open _ _ _ _) rfl
  | str o n s b _ => exact sealed_single _ _ _ (new_token_not_open _ _ _ _) rfl
  | arr_empty o n s w _ => exact sealed_single _ _ _ (closed_token_not_open _ _ _ _ _) rfl
  | arr o n s inner T k _ ih => exact sealed_cons _ _ _ _ (closed_token_not_open _ _ _ _ _) rfl ih
  | obj_empty o n s w _ => exact sealed_single _ _ _ (closed_token_not_open _ _ _ _ _) rfl
  | obj o n s inner T k _ ih => exact sealed_cons _ _ _ _ (closed_token_not_open _ _ _ _ _) rfl ih
  | item o n s w1 v w2 T _ _ _ ih => exact ih
  | member o n s w1 b w2 v T _ _ _ _ ih =>
    exact sealed_cons _ _ _ _ (label_token_not_open _ _ _) rfl ih
  | elems_one o n s v T _ ih => exact ih
  | elems_cons o n s v rest T T1 k _ _ ih1 ih2 => exact sealed_append _ _ _ _ ih1 ih2
  | members_one o n s v T _ ih => exact ih
  | members_cons o n s v rest T T1 k _ _ ih1 ih2 => exact sealed_append _ _ _ _ ih1 ih2

theorem sealed_not_open {n : Nat} {s : Int} {T : List jsmn_Token} (h : Sealed n s T) :
    ∀ t ∈ T, isOpen t = false := by
  intro t ht
  obtain ⟨i, hi, rfl⟩ := List.getElem_of_mem ht
  exact (h i T[i] (by rw [List.get?_eq_getElem?, List.getElem?_eq_getElem hi])).1

/-! ## The superior token keeps its type -/

theorem tokAt_bump {l : List jsmn_Token} {i s : Int} {t : jsmn_Token}
    (h : tokAt l i = some t) :
    ∃ t1, tokAt (bump l s) i = some t1 ∧ t1.type = t.type ∧ t1.parent = t.parent ∧
      t1.start = t.start ∧ t1.end_ = t.end_ := by
  obtain ⟨h0, hi⟩ := tokAt_eq_some.1 h
  by_cases hs : (i.toNat : Int) = s
  · refine ⟨{ t with size := t.size + 1 }, ?_, rfl, rfl, rfl, rfl⟩
    rw [tokAt_eq_some]
    refine ⟨h0, ?_⟩
    rw [bump_get?, hi, Option.map_some', if_pos hs]
  · refine ⟨t, ?_, rfl, rfl, rfl, rfl⟩
    rw [tokAt_eq_some]
    refine ⟨h0, ?_⟩
    rw [bump_get?, hi, Option.map_some', if_neg hs]

theorem tokAt_bumps (k : Nat) : ∀ {l : List jsmn_Token} {i s : Int} {t : jsmn_Token},
    tokAt l i = some t →
    ∃ t1, tokAt (bumps k l s) i = some t1 ∧ t1.type = t.type ∧ t1.parent = t.parent ∧
      t1.start = t.start ∧ t1.end_ = t.end_ := by
  induction k with
  | zero => intro l i s t h; exact ⟨t, h, rfl, rfl, rfl, rfl⟩
  | succ k ih =>
    intro l i s t h
    obtain ⟨t1, h1, a1, b1, c1, d1⟩ := tokAt_bump (s := s) h
    obtain ⟨t2, h2, a2, b2, c2, d2⟩ := ih (s := s) h1
    exact ⟨t2, h2, by rw [a2, a1], by rw [b2, b1], by rw [c2, c1], by rw [d2, d1]⟩

theorem tokAt_bumps_append (k : Nat) {l : List jsmn_Token} {i s : Int} {t : jsmn_Token}
    (x : List jsmn_Token) (h : tokAt l i = some t) :
    ∃ t1, tokAt (bumps k l s ++ x) i = some t1 ∧ t1.type = t.type ∧ t1.parent = t.parent ∧
      t1.start = t.start ∧ t1.end_ = t.end_ := by
  obtain ⟨t1, h1, a⟩ := tokAt_bumps k (s := s) h
  refine ⟨t1, ?_, a⟩
  rw [tokAt_append_left x (tokAt_lt h1).2]
  exact h1

theorem supOK_of_tokAt {l : List jsmn_Token} {s : Int} {t : jsmn_Token}
    (h : tokAt l s = some t) : SupOK l s :=
  Or.inr (tokAt_lt h)

theorem supOK_bumps_append {l : List jsmn_Token} {s : Int} (k : Nat) (x : List jsmn_Token)
    (h : SupOK l s) : SupOK (bumps k l s ++ x) s := by
  rcases h with h | ⟨h0, h1⟩
  · exact Or.inl h
  · refine Or.inr ⟨h0, ?_⟩
    rw [List.length_append, bumps_length]
    push_cast
    omega

theorem key_blocked_of_type {l : List jsmn_Token} {s : Int} {t : jsmn_Token}
    (h : tokAt l s = some t) (hty : t.type = JSMN_ARRAY ∨ t.type = JSMN_LABEL) :
    key_blocked l s = false := by
  unfold key_blocked
  rw [h]
  rcases hty with h1 | h1 <;> simp [h1]

theorem string_type_of_type {l : List jsmn_Token} {s : Int} {t : jsmn_Token}
    (h : tokAt l s = some t) (hty : t.type = JSMN_ARRAY ∨ t.type = JSMN_LABEL) :
    string_type l s = JSMN_STRING := by
  unfold string_type
  rw [h]
  rcases hty with h1 | h1 <;> simp [h1]

theorem string_type_object {l : List jsmn_Token} {s : Int} {t : jsmn_Token}
    (h : tokAt l s = some t) (hty : t.type = JSMN_OBJECT) :
    string_type l s = JSMN_LABEL := by
  unfold string_type
  rw [h]
  simp [hty]

theorem comma_sup_container {l : List jsmn_Token} {s : Int} {t : jsmn_Token}
    (h : tokAt l s = some t) (hty : t.type = JSMN_ARRAY ∨ t.type = JSMN_OBJECT) :
    comma_sup l s = s := by
  unfold comma_sup
  rw [h]
  rcases hty with h1 | h1 <;> simp [h1]

theorem comma_sup_label {l : List jsmn_Token} {s : Int} {t : jsmn_Token}
    (h : tokAt l s = some t) (hty : t.type = JSMN_LABEL) :
    comma_sup l s = t.parent := by
  unfold comma_sup
  rw [h]
  simp [hty]

theorem not_isCont_single {t : jsmn_Token} (h1 : t.type ≠ JSMN_OBJECT)
    (h2 : t.type ≠ JSMN_ARRAY) : ¬ IsCont [t] := by
  rintro ⟨x, rest, hx, hty⟩
  simp only [List.cons.injEq] at hx
  obtain ⟨rfl, _⟩ := hx
  rcases hty with h | h
  · exact h1 h
  · exact h2 h

theorem term_cons {c : Nat} (rest : List Nat) (h : isTerminator c = true) : Term (c :: rest) :=
  ⟨c, rest, rfl, h⟩

theorem term_ws_append {w post : List Nat} (hw : Ws w) (hp : post = [] ∨ Term post) :
    (w ++ post = [] ∨ Term (w ++ post)) := by
  cases w with
  | nil => simpa using hp
  | cons c w =>
    exact Or.inr ⟨c, w ++ post, rfl, isSpace_term (hw c (List.mem_cons_self _ _))⟩

/-! ## The main loop on the texts of the grammar -/

theorem ctx_value_leaf {l : List jsmn_Token} {s : Int} {t : jsmn_Token}
    (h1 : t.type ≠ JSMN_OBJECT) (h2 : t.type ≠ JSMN_ARRAY)
    (h : CtxOK Kind.value l s [t]) :
    ∃ x, tokAt l s = some x ∧ (x.type = JSMN_ARRAY ∨ x.type = JSMN_LABEL) := by
  rcases h with h | ⟨_, h⟩
  · exact h
  · exact absurd h (not_isCont_single h1 h2)

theorem runSpec_prim (o n : Nat) (s : Int) (p : List Nat) (hp : ValidPrim p) :
    RunSpec Kind.value o n s p
      [new_token JSMN_PRIMITIVE (o : Int) ((o + p.length : Nat) : Int) s] 1 := by
  intro js pre post l cap hjs hpre hl hctx hpost hcap
  obtain ⟨x, hx, hty⟩ := ctx_value_leaf (by simp [new_token]) (by simp [new_token]) hctx
  have hsup := supOK_of_tokAt hx
  have hk := key_blocked_of_type hx hty
  subst hpre hl
  rcases hpost with hpost | hpost
  · right
    subst hpost
    exact ⟨rfl, fun _ => not_isCont_single (by simp [new_token]) (by simp [new_token]),
      _, yields_prim_end (by simpa using hjs) hp hsup hk⟩
  · left
    exact ⟨s, supOK_bumps_append 1 _ hsup, rfl,
      runs_prim hjs hp hpost hsup hk (by simpa using hcap)⟩

theorem runSpec_str (o n : Nat) (s : Int) (b : List Nat) (hb : ScanStr b) :
    RunSpec Kind.value o n s (34 :: b ++ [34])
      [new_token JSMN_STRING ((o : Int) + 1) ((o + 1 + b.length : Nat) : Int) s] 1 := by
  intro js pre post l cap hjs hpre hl hctx hpost hcap
  obtain ⟨x, hx, hty⟩ := ctx_value_leaf (by simp [new_token]) (by simp [new_token]) hctx
  have hsup := supOK_of_tokAt hx
  have hst := string_type_of_type hx hty
  subst hpre hl
  left
  refine ⟨s, supOK_bumps_append 1 _ hsup, rfl, ?_⟩
  have hjs1 : js = pre ++ 34 :: b ++ 34 :: post := by rw [hjs]; simp
  have h : Runs js js.length cap l s pre.length _ _ _ :=
    runs_str hjs1 hb hsup (by have := (tokAt_lt hx).1; omega) (by simpa using hcap)
  rw [hst] at h
  have hlen : pre.length + (34 :: b ++ [34]).length = pre.length + b.length + 2 := by
    simp only [List.length_append, List.length_cons, List.length_nil]
    omega
  rw [hlen]
  exact h

theorem runs_congr {js : List Nat} {len cap : Nat} {l l1 l2 : List jsmn_Token}
    {sup sup1 sup2 : Int} {pos pos1 pos2 : Nat}
    (h : Runs js len cap l sup pos l1 sup1 pos1) (hl : l1 = l2) (hs : sup1 = sup2)
    (hp : pos1 = pos2) : Runs js len cap l sup pos l2 sup2 pos2 := by
  subst hl hs hp; exact h

theorem runs_chain {js : List Nat} {len cap : Nat} {l l1 l1a l2 : List jsmn_Token}
    {sup sup1 sup1a sup2 : Int} {pos pos1 pos1a pos2 : Nat}
    (h1 : Runs js len cap l sup pos l1 sup1 pos1)
    (h2 : Runs js len cap l1a sup1a pos1a l2 sup2 pos2)
    (hl : l1 = l1a) (hs : sup1 = sup1a) (hp : pos1 = pos1a) :
    Runs js len cap l sup pos l2 sup2 pos2 := by
  subst hl hs hp; exact runs_trans h1 h2

theorem supOK_of_ctx {kind : Kind} {l : List jsmn_Token} {s : Int} {T : List jsmn_Token}
    (h : CtxOK kind l s T) : SupOK l s := by
  cases kind with
  | value =>
    rcases h with ⟨t, ht, _⟩ | ⟨h, _⟩
    · exact supOK_of_tokAt ht
    · exact Or.inl h
  | item =>
    rcases h with ⟨t, ht, _⟩ | ⟨h, _⟩
    · exact supOK_of_tokAt ht
    · exact Or.inl h
  | member => obtain ⟨t, ht, _⟩ := h; exact supOK_of_tokAt ht
  | elems => obtain ⟨t, ht, _⟩ := h; exact supOK_of_tokAt ht
  | members => obtain ⟨t, ht, _⟩ := h; exact supOK_of_tokAt ht

theorem tokAt_bump_last (l : List jsmn_Token) (s : Int) (t : jsmn_Token) :
    tokAt (bump l s ++ [t]) (l.length : Int) = some t := by
  have := tokAt_append_length (bump l s) t
  rwa [bump_length] at this

/-- An empty array or object. -/
theorem runSpec_cont_empty (co cc : Nat) (ty : jsmntype_t)
    (hb : (co = 91 ∧ cc = 93 ∧ ty = JSMN_ARRAY) ∨ (co = 123 ∧ cc = 125 ∧ ty = JSMN_OBJECT))
    (o n : Nat) (s : Int) (w : List Nat) (hw : Ws w) :
    RunSpec Kind.value o n s (co :: w ++ [cc])
      [closed_token ty (o : Int) ((o + w.length + 2 : Nat) : Int) 0 s] 1 := by
  intro js pre post l cap hjs hpre hl hctx hpost hcap
  have hsup := supOK_of_ctx hctx
  subst hpre hl
  simp only [List.length_singleton] at hcap
  left
  refine ⟨s, supOK_bumps_append 1 _ hsup, rfl, ?_⟩
  have hco : co = 123 ∨ co = 91 := by rcases hb with h | h <;> omega
  have hcc : cc = 125 ∨ cc = 93 := by rcases hb with h | h <;> omega
  have hty : bracket_type co = ty ∧ bracket_type cc = ty := by
    rcases hb with ⟨rfl, rfl, rfl⟩ | ⟨rfl, rfl, rfl⟩ <;> exact ⟨rfl, rfl⟩
  have hjs1 : js = pre ++ co :: (w ++ cc :: post) := by rw [hjs]; simp
  have hjs2 : js = (pre ++ [co]) ++ w ++ (cc :: post) := by rw [hjs]; simp
  have hjs3 : js = (pre ++ co :: w) ++ cc :: post := by rw [hjs]; simp
  have h1 : Runs js js.length cap l s pre.length _ _ _ := runs_open hjs1 hco hsup hcap
  have hsup0 : SupOK (bump l s ++ [new_token (bracket_type co) (pre.length : Int) (-1) s])
      (l.length : Int) := by
    refine Or.inr ⟨by omega, ?_⟩
    rw [List.length_append, bump_length, List.length_singleton]
    push_cast; omega
  have hlen0 : (bump l s ++ [new_token (bracket_type co) (pre.length : Int) (-1) s]).length
      = l.length + 1 := by
    rw [List.length_append, bump_length, List.length_singleton]
  have h2 : Runs js js.length cap _ _ _ _ _ _ :=
    runs_ws hsup0 (by rw [hlen0]; omega) w (pre ++ [co]) (cc :: post) hw hjs2
  have hsl : Sealed ((bump l s).length + 1) ((bump l s).length : Int) [] := by
    intro i t ht; simp at ht
  have h3 : Runs js js.length cap
      (bump l s ++ new_token (bracket_type co) (pre.length : Int) (-1) s :: [])
      ((bump l s).length : Int) (pre ++ co :: w).length _ _ _ :=
    runs_close hjs3 hcc ⟨by simp [new_token], rfl⟩ (by rw [hty.2]; exact hty.1) hsl
      (by rw [bump_length]; exact hsup0) (by rw [hlen0]; exact hcap)
  refine runs_congr (runs_chain h1 (runs_chain h2 h3 rfl (by rw [bump_length]) ?_) rfl rfl ?_)
    ?_ rfl ?_
  · simp only [List.length_append, List.length_cons, List.length_nil]
    omega
  · simp only [List.length_append, List.length_cons, List.length_nil]
  · show bump l s ++ _ = bump l s ++ _
    congr 1
    simp only [new_token, closed_token, List.cons.injEq, and_true, jsmn_Token.mk.injEq,
      true_and, hty.1, List.length_append, List.length_cons]
    push_cast
    omega
  · simp only [List.length_append, List.length_cons, List.length_nil]
    omega

/-- An array or object with elements or members. -/
theorem runSpec_cont (co cc : Nat) (ty : jsmntype_t) (kindI : Kind)
    (hb : (co = 91 ∧ cc = 93 ∧ ty = JSMN_ARRAY ∧ kindI = Kind.elems) ∨
      (co = 123 ∧ cc = 125 ∧ ty = JSMN_OBJECT ∧ kindI = Kind.members))
    (o n : Nat) (s : Int) (inner : List Nat) (T : List jsmn_Token) (k : Nat)
    (hseal : Sealed (n + 1) (n : Int) T)
    (ih : RunSpec kindI (o + 1) (n + 1) (n : Int) inner T k) :
    RunSpec Kind.value o n s (co :: inner ++ [cc])
      (closed_token ty (o : Int) ((o + inner.length + 2 : Nat) : Int) (k : Int) s :: T) 1 := by
  intro js pre post l cap hjs hpre hl hctx hpost hcap
  have hsup := supOK_of_ctx hctx
  subst hpre hl
  simp only [List.length_cons] at hcap
  left
  refine ⟨s, supOK_bumps_append 1 _ hsup, rfl, ?_⟩
  have hco : co = 123 ∨ co = 91 := by rcases hb with h | h <;> omega
  have hcc : cc = 125 ∨ cc = 93 := by rcases hb with h | h <;> omega
  have hty : bracket_type co = ty ∧ bracket_type cc = ty := by
    rcases hb with ⟨rfl, rfl, rfl, _⟩ | ⟨rfl, rfl, rfl, _⟩ <;> exact ⟨rfl, rfl⟩
  have hterm : isTerminator cc = true := by
    rcases hcc with rfl | rfl <;> decide
  have hjs1 : js = pre ++ co :: (inner ++ cc :: post) := by rw [hjs]; simp
  have hjs2 : js = (pre ++ [co]) ++ inner ++ (cc :: post) := by rw [hjs]; simp
  have hjs3 : js = (pre ++ co :: inner) ++ cc :: post := by rw [hjs]; simp
  have h1 : Runs js js.length cap l s pre.length _ _ _ :=
    runs_open hjs1 hco hsup (by omega)
  have hlen0 : (bump l s ++ [new_token (bracket_type co) (pre.length : Int) (-1) s]).length
      = l.length + 1 := by
    rw [List.length_append, bump_length, List.length_singleton]
  have hctx0 : CtxOK kindI (bump l s ++ [new_token (bracket_type co) (pre.length : Int) (-1) s])
      (l.length : Int) T := by
    rcases hb with ⟨rfl, rfl, rfl, rfl⟩ | ⟨rfl, rfl, rfl, rfl⟩
    · exact ⟨_, tokAt_bump_last _ _ _, rfl⟩
    · exact ⟨_, tokAt_bump_last _ _ _, rfl⟩
  rcases ih js (pre ++ [co]) (cc :: post) _ cap hjs2 (by simp) hlen0 hctx0
      (Or.inr (term_cons post hterm)) (by omega) with ⟨sup1, hsup1, _, h2⟩ | ⟨hne, _⟩
  swap
  · exact absurd hne (by simp)
  have e2 : bumps k (bump l s ++ [new_token (bracket_type co) (pre.length : Int) (-1) s])
      (l.length : Int) ++ T =
      bump l s ++ { new_token (bracket_type co) (pre.length : Int) (-1) s with
        size := (new_token (bracket_type co) (pre.length : Int) (-1) s).size + (k : Int) } :: T := by
    have := bumps_mid k (bump l s) (new_token (bracket_type co) (pre.length : Int) (-1) s) []
    rw [bump_length] at this
    rw [this]
    simp
  rw [e2] at h2 hsup1
  have hseal1 : Sealed ((bump l s).length + 1) ((bump l s).length : Int) T := by
    rw [bump_length]; exact hseal
  have h3 : Runs js js.length cap _ sup1 (pre ++ co :: inner).length _ _ _ :=
    runs_close hjs3 hcc ⟨by simp [new_token], rfl⟩ (by rw [hty.2]; exact hty.1) hseal1
      hsup1 (by simp only [List.length_append, List.length_cons, bump_length]; omega)
  refine runs_congr (runs_chain h1 (runs_chain h2 h3 rfl rfl ?_) rfl rfl ?_) ?_ rfl ?_
  · simp only [List.length_append, List.length_cons, List.length_nil]
    omega
  · simp only [List.length_append, List.length_cons, List.length_nil]
  · show bump l s ++ _ = bump l s ++ _
    congr 1
    simp only [new_token, closed_token, List.cons.injEq, and_true, jsmn_Token.mk.injEq,
      true_and, hty.1, List.length_append, List.length_cons]
    push_cast
    omega
  · simp only [List.length_append, List.length_cons, List.length_nil]
    omega

/-- A value with white space around it. -/
theorem runSpec_item (o n : Nat) (s : Int) (w1 v w2 : List Nat) (T : List jsmn_Token)
    (hw1 : Ws w1) (hw2 : Ws w2) (ih : RunSpec Kind.value (o + w1.length) n s v T 1) :
    RunSpec Kind.item o n s (w1 ++ v ++ w2) T 1 := by
  intro js pre post l cap hjs hpre hl hctx hpost hcap
  have hsup := supOK_of_ctx hctx
  subst hpre hl
  have hjs1 : js = pre ++ w1 ++ (v ++ w2 ++ post) := by rw [hjs]; simp
  have hjs2 : js = (pre ++ w1) ++ v ++ (w2 ++ post) := by rw [hjs]; simp
  have hjs3 : js = (pre ++ w1 ++ v) ++ w2 ++ post := by rw [hjs]; simp
  have h1 : Runs js js.length cap l s pre.length l s (pre.length + w1.length) :=
    runs_ws hsup (by omega) w1 pre _ hw1 hjs1
  rcases ih js (pre ++ w1) (w2 ++ post) l cap hjs2 (by simp) rfl hctx
      (term_ws_append hw2 hpost) hcap with ⟨sup1, hsup1, hafter, h2⟩ | ⟨hne, hnc, p, hy⟩
  · left
    have h3 : Runs js js.length cap (bumps 1 l s ++ T) sup1 (pre ++ w1 ++ v).length _ _ _ :=
      runs_ws hsup1 (by rw [List.length_append, bumps_length]; exact hcap) w2
        (pre ++ w1 ++ v) post hw2 hjs3
    refine ⟨sup1, hsup1, hafter,
      runs_congr (runs_chain h1 (runs_chain h2 h3 rfl rfl ?_) rfl rfl rfl) rfl rfl ?_⟩
    · simp only [List.length_append]
    · simp only [List.length_append]
      omega
  · right
    obtain ⟨_, hp⟩ := List.append_eq_nil.1 hne
    exact ⟨hp, fun _ => hnc (Or.inl rfl), p, runs_yields h1 hy⟩

/-- A name, a colon and a value. -/
theorem runSpec_member (o n : Nat) (s : Int) (w1 b w2 v : List Nat) (T : List jsmn_Token)
    (hw1 : Ws w1) (hb : ScanStr b) (hw2 : Ws w2)
    (ih : RunSpec Kind.item (o + w1.length + b.length + 2 + w2.length + 1) (n + 1) (n : Int)
      v T 1) :
    RunSpec Kind.member o n s (w1 ++ 34 :: b ++ 34 :: w2 ++ 58 :: v)
      (label_token ((o + w1.length : Nat) + 1 : Int)
        ((o + w1.length + 1 + b.length : Nat) : Int) s :: T) 1 := by
  intro js pre post l cap hjs hpre hl hctx hpost hcap
  obtain ⟨x, hx, hxty⟩ := hctx
  have hsup := supOK_of_tokAt hx
  have hs0 : s ≠ -1 := by have := (tokAt_lt hx).1; omega
  subst hpre hl
  simp only [List.length_cons] at hcap
  have hjs1 : js = pre ++ w1 ++ (34 :: b ++ 34 :: w2 ++ 58 :: v ++ post) := by
    rw [hjs]; simp
  have hjs2 : js = (pre ++ w1) ++ 34 :: b ++ 34 :: (w2 ++ 58 :: v ++ post) := by
    rw [hjs]; simp
  have hjs3 : js = (pre ++ w1 ++ 34 :: b ++ [34]) ++ w2 ++ (58 :: v ++ post) := by
    rw [hjs]; simp
  have hjs4 : js = (pre ++ w1 ++ 34 :: b ++ [34] ++ w2) ++ 58 :: (v ++ post) := by
    rw [hjs]; simp
  have hjs5 : js = (pre ++ w1 ++ 34 :: b ++ [34] ++ w2 ++ [58]) ++ v ++ post := by
    rw [hjs]; simp
  have h1 : Runs js js.length cap l s pre.length l s (pre.length + w1.length) :=
    runs_ws hsup (by omega) w1 pre _ hw1 hjs1
  have h2 : Runs js js.length cap l s (pre ++ w1).length _ _ _ :=
    runs_str hjs2 hb hsup hs0 (by omega)
  rw [string_type_object hx hxty] at h2
  have hlen1 : (bump l s ++ [new_token JSMN_LABEL (((pre ++ w1).length : Nat) + 1 : Int)
      (((pre ++ w1).length + 1 + b.length : Nat) : Int) s]).length = l.length + 1 := by
    rw [List.length_append, bump_length, List.length_singleton]
  have hsup1 : SupOK (bump l s ++ [new_token JSMN_LABEL (((pre ++ w1).length : Nat) + 1 : Int)
      (((pre ++ w1).length + 1 + b.length : Nat) : Int) s]) s := supOK_bumps_append 1 _ hsup
  have h3 : Runs js js.length cap _ s (pre ++ w1 ++ 34 :: b ++ [34]).length _ _ _ :=
    runs_ws hsup1 (by rw [hlen1]; omega) w2 _ _ hw2 hjs3
  have h4 : Runs js js.length cap _ s (pre ++ w1 ++ 34 :: b ++ [34] ++ w2).length _ _ _ :=
    runs_colon hjs4 hsup1 (by rw [hlen1]; omega)
  have h14 := runs_chain h1 (runs_chain h2 (runs_chain h3 h4 rfl rfl
    (by simp only [List.length_append])) rfl rfl
    (by simp only [List.length_append, List.length_cons, List.length_nil]; omega)) rfl rfl
    (by simp only [List.length_append])
  have hctx5 : CtxOK Kind.item (bump l s ++ [new_token JSMN_LABEL
      (((pre ++ w1).length : Nat) + 1 : Int) (((pre ++ w1).length + 1 + b.length : Nat) : Int) s])
      (l.length : Int) T := Or.inl ⟨_, tokAt_bump_last _ _ _, Or.inr rfl⟩
  have e5 : bumps 1 (bump l s ++ [new_token JSMN_LABEL (((pre ++ w1).length : Nat) + 1 : Int)
      (((pre ++ w1).length + 1 + b.length : Nat) : Int) s]) (l.length : Int) ++ T =
      bumps 1 l s ++ (label_token ((pre.length + w1.length : Nat) + 1 : Int)
        ((pre.length + w1.length + 1 + b.length : Nat) : Int) s :: T) := by
    have := bump_mid (bump l s) (new_token JSMN_LABEL (((pre ++ w1).length : Nat) + 1 : Int)
      (((pre ++ w1).length + 1 + b.length : Nat) : Int) s) []
    rw [bump_length] at this
    show bump _ _ ++ T = bump l s ++ _
    rw [this]
    simp [new_token, label_token]
  rcases ih js (pre ++ w1 ++ 34 :: b ++ [34] ++ w2 ++ [58]) post _ cap hjs5
      (by simp only [List.length_append, List.length_cons, List.length_nil]; omega)
      hlen1 hctx5 hpost (by omega) with ⟨sup1, hsup5, hafter, h5⟩ | ⟨hne, _, p, hy⟩
  · left
    have hafter1 : sup1 = (l.length : Int) := hafter
    subst hafter1
    rw [e5] at h5 hsup5
    refine ⟨(l.length : Int), hsup5, ?_, ?_⟩
    · show comma_sup _ _ = s
      have hlab : tokAt (bumps 1 l s ++ (label_token ((pre.length + w1.length : Nat) + 1 : Int)
          ((pre.length + w1.length + 1 + b.length : Nat) : Int) s :: T)) (l.length : Int) =
          some (label_token ((pre.length + w1.length : Nat) + 1 : Int)
            ((pre.length + w1.length + 1 + b.length : Nat) : Int) s) := by
        have := tokAt_mid (bumps 1 l s) (label_token ((pre.length + w1.length : Nat) + 1 : Int)
          ((pre.length + w1.length + 1 + b.length : Nat) : Int) s) T
        rwa [bumps_length] at this
      rw [comma_sup_label hlab rfl]
      rfl
    · refine runs_congr (runs_chain h14 h5 rfl ?_ ?_) rfl rfl ?_
      · rw [hlen1]; push_cast; omega
      · simp only [List.length_append, List.length_cons, List.length_nil]
        omega
      · simp only [List.length_append, List.length_cons, List.length_nil]
        omega
  · right
    refine ⟨hne, ?_, p, ?_⟩
    · intro h; rcases h with h | h <;> cases h
    · refine runs_yields (runs_congr h14 rfl ?_ ?_) hy
      · rw [hlen1]; push_cast; omega
      · simp only [List.length_append, List.length_cons, List.length_nil]
        omega

theorem ctx_seq_container {kindU kindS : Kind}
    (hk : (kindU = Kind.item ∧ kindS = Kind.elems) ∨
      (kindU = Kind.member ∧ kindS = Kind.members))
    {l : List jsmn_Token} {s : Int} {T : List jsmn_Token} (h : CtxOK kindS l s T) :
    ∃ t ty, tokAt l s = some t ∧ t.type = ty ∧ (ty = JSMN_ARRAY ∨ ty = JSMN_OBJECT) ∧
      ∀ (l1 : List jsmn_Token) (T1 : List jsmn_Token),
        (∃ t1, tokAt l1 s = some t1 ∧ t1.type = ty) →
        CtxOK kindS l1 s T1 ∧ CtxOK kindU l1 s T1 := by
  rcases hk with ⟨rfl, rfl⟩ | ⟨rfl, rfl⟩
  · obtain ⟨t, ht, hty⟩ := h
    refine ⟨t, JSMN_ARRAY, ht, hty, Or.inl rfl, ?_⟩
    rintro l1 T1 ⟨t1, h1, h2⟩
    exact ⟨⟨t1, h1, h2⟩, Or.inl ⟨t1, h1, Or.inl h2⟩⟩
  · obtain ⟨t, ht, hty⟩ := h
    refine ⟨t, JSMN_OBJECT, ht, hty, Or.inr rfl, ?_⟩
    rintro l1 T1 ⟨t1, h1, h2⟩
    exact ⟨⟨t1, h1, h2⟩, ⟨t1, h1, h2⟩⟩

theorem supAfter_seq {kindU kindS : Kind}
    (hk : (kindU = Kind.item ∧ kindS = Kind.elems) ∨
      (kindU = Kind.member ∧ kindS = Kind.members))
    {l1 : List jsmn_Token} {s sup1 : Int} (h : SupAfter kindU l1 s sup1) :
    SupAfter kindS l1 s sup1 := by
  rcases hk with ⟨rfl, rfl⟩ | ⟨rfl, rfl⟩ <;> exact h

theorem supAfter_comma {kindU kindS : Kind}
    (hk : (kindU = Kind.item ∧ kindS = Kind.elems) ∨
      (kindU = Kind.member ∧ kindS = Kind.members))
    {l1 : List jsmn_Token} {s sup1 : Int} {t : jsmn_Token}
    (ht : tokAt l1 s = some t) (hty : t.type = JSMN_ARRAY ∨ t.type = JSMN_OBJECT)
    (h : SupAfter kindU l1 s sup1) : comma_sup l1 sup1 = s := by
  rcases hk with ⟨rfl, rfl⟩ | ⟨rfl, rfl⟩
  · have h1 : sup1 = s := h
    rw [h1]
    exact comma_sup_container ht hty
  · exact h

theorem not_value_seq {kindU kindS : Kind}
    (hk : (kindU = Kind.item ∧ kindS = Kind.elems) ∨
      (kindU = Kind.member ∧ kindS = Kind.members)) (P : Prop) :
    kindS = Kind.value ∨ kindS = Kind.item → P := by
  rcases hk with ⟨rfl, rfl⟩ | ⟨rfl, rfl⟩ <;> intro h <;> rcases h with h | h <;> cases h

/-- One element, or one member. -/
theorem runSpec_one (kindU kindS : Kind)
    (hk : (kindU = Kind.item ∧ kindS = Kind.elems) ∨
      (kindU = Kind.member ∧ kindS = Kind.members))
    (o n : Nat) (s : Int) (v : List Nat) (T : List jsmn_Token)
    (ih : RunSpec kindU o n s v T 1) : RunSpec kindS o n s v T 1 := by
  intro js pre post l cap hjs hpre hl hctx hpost hcap
  obtain ⟨t, ty, ht, hty, _, hc⟩ := ctx_seq_container hk hctx
  rcases ih js pre post l cap hjs hpre hl (hc l T ⟨t, ht, hty⟩).2 hpost hcap with
    ⟨sup1, h1, h2, h3⟩ | ⟨h1, _, h3⟩
  · exact Or.inl ⟨sup1, h1, supAfter_seq hk h2, h3⟩
  · exact Or.inr ⟨h1, not_value_seq hk _, h3⟩

/-- An element or member, a comma, and more of them. -/
theorem runSpec_cons (kindU kindS : Kind)
    (hk : (kindU = Kind.item ∧ kindS = Kind.elems) ∨
      (kindU = Kind.member ∧ kindS = Kind.members))
    (o n : Nat) (s : Int) (v rest : List Nat) (T T1 : List jsmn_Token) (k : Nat)
    (ih1 : RunSpec kindU o n s v T 1)
    (ih2 : RunSpec kindS (o + v.length + 1) (n + T.length) s rest T1 k) :
    RunSpec kindS o n s (v ++ 44 :: rest) (T ++ T1) (k + 1) := by
  intro js pre post l cap hjs hpre hl hctx hpost hcap
  obtain ⟨t, ty, ht, hty, htyc, hc⟩ := ctx_seq_container hk hctx
  subst hpre hl
  rw [List.length_append] at hcap
  have hjs1 : js = pre ++ v ++ (44 :: (rest ++ post)) := by rw [hjs]; simp
  have hjs2 : js = (pre ++ v) ++ 44 :: (rest ++ post) := by rw [hjs]; simp
  have hjs3 : js = (pre ++ v ++ [44]) ++ rest ++ post := by rw [hjs]; simp
  rcases ih1 js pre (44 :: (rest ++ post)) l cap hjs1 rfl rfl (hc l T ⟨t, ht, hty⟩).2
      (Or.inr (term_cons _ (by decide))) (by omega) with
    ⟨sup1, hsup1, hafter, h1⟩ | ⟨hne, _⟩
  swap
  · exact absurd hne (by simp)
  obtain ⟨t1, ht1, hty1, _⟩ := tokAt_bumps_append 1 (s := s) T ht
  have hcomma := supAfter_comma hk ht1 (by rw [hty1, hty]; exact htyc) hafter
  have hlen1 : (bumps 1 l s ++ T).length = l.length + T.length := by
    rw [List.length_append, bumps_length]
  have h2 : Runs js js.length cap (bumps 1 l s ++ T) sup1 (pre ++ v).length _ _ _ :=
    runs_comma hjs2 hsup1 (by rw [hlen1]; omega)
  rw [hcomma] at h2
  have e3 : bumps k (bumps 1 l s ++ T) s ++ T1 = bumps (k + 1) l s ++ (T ++ T1) := by
    rw [bumps_append k _ T s (by rw [bumps_length]; exact (tokAt_lt ht).2),
      bumps_succ_right, List.append_assoc]
    congr 1
  rcases ih2 js (pre ++ v ++ [44]) post (bumps 1 l s ++ T) cap hjs3
      (by simp only [List.length_append, List.length_cons, List.length_nil])
      hlen1 (hc _ T1 ⟨t1, ht1, by rw [hty1, hty]⟩).1 hpost (by omega) with
    ⟨sup2, hsup2, hafter2, h3⟩ | ⟨hne, _, p, hy⟩
  · left
    rw [e3] at hsup2 hafter2 h3
    refine ⟨sup2, hsup2, hafter2, runs_congr (runs_chain h1 (runs_chain h2 h3 rfl rfl ?_)
      rfl rfl ?_) rfl rfl ?_⟩
    · simp only [List.length_append]
    · simp only [List.length_append]
    · simp only [List.length_append, List.length_cons]
      omega
  · right
    refine ⟨hne, not_value_seq hk _, p, ?_⟩
    refine runs_yields (runs_congr (runs_chain h1 h2 rfl rfl ?_) rfl rfl ?_) hy
    · simp only [List.length_append]
    · simp only [List.length_append]

/-- The main loop of `jsmn_parse` on a text of the grammar whose string bodies
the string scan walks through and whose primitives the primitive scan
accepts: it appends the tokens of the text. -/
theorem gram_run {S P : List Nat → Prop} (hS : ∀ b, S b → ScanStr b)
    (hP : ∀ p, P p → ValidPrim p) {kind : Kind} {o n : Nat} {s : Int} {text : List Nat}
    {T : List jsmn_Token} {k : Nat} (h : Gram S P kind o n s text T k) :
    RunSpec kind o n s text T k := by
  induction h with
  | prim o n s p hp => exact runSpec_prim o n s p (hP p hp)
  | str o n s b hb => exact runSpec_str o n s b (hS b hb)
  | arr_empty o n s w hw =>
    exact runSpec_cont_empty 91 93 JSMN_ARRAY (Or.inl ⟨rfl, rfl, rfl⟩) o n s w hw
  | arr o n s inner T k hin ih =>
    exact runSpec_cont 91 93 JSMN_ARRAY Kind.elems (Or.inl ⟨rfl, rfl, rfl, rfl⟩) o n s inner T k
      (gram_sealed hin) ih
  | obj_empty o n s w hw =>
    exact runSpec_cont_empty 123 125 JSMN_OBJECT (Or.inr ⟨rfl, rfl, rfl⟩) o n s w hw
  | obj o n s inner T k hin ih =>
    exact runSpec_cont 123 125 JSMN_OBJECT Kind.members (Or.inr ⟨rfl, rfl, rfl, rfl⟩) o n s
      inner T k (gram_sealed hin) ih
  | item o n s w1 v w2 T hw1 hw2 _ ih => exact runSpec_item o n s w1 v w2 T hw1 hw2 ih
  | member o n s w1 b w2 v T hw1 hb hw2 _ ih =>
    exact runSpec_member o n s w1 b w2 v T hw1 (hS b hb) hw2 ih
  | elems_one o n s v T _ ih =>
    exact runSpec_one Kind.item Kind.elems (Or.inl ⟨rfl, rfl⟩) o n s v T ih
  | elems_cons o n s v rest T T1 k _ _ ih1 ih2 =>
    exact runSpec_cons Kind.item Kind.elems (Or.inl ⟨rfl, rfl⟩) o n s v rest T T1 k ih1 ih2
  | members_one o n s v T _ ih =>
    exact runSpec_one Kind.member Kind.members (Or.inr ⟨rfl, rfl⟩) o n s v T ih
  | members_cons o n s v rest T T1 k _ _ ih1 ih2 =>
    exact runSpec_cons Kind.member Kind.members (Or.inr ⟨rfl, rfl⟩) o n s v rest T T1 k ih1 ih2

/-! ## JSON strings and numbers are scanned -/

theorem strItems_mono {f g : Nat → Bool} (hfg : ∀ c, f c = true → g c = true) {b : List Nat}
    (h : StrItems f b) : StrItems g b := by
  induction h with
  | nil => exact StrItems.nil
  | plain c rest hc _ ih => exact StrItems.plain c rest (hfg c hc) ih
  | esc e rest he _ ih => exact StrItems.esc e rest he ih
  | uesc h1 h2 h3 h4 rest a b c d _ ih => exact StrItems.uesc h1 h2 h3 h4 rest a b c d ih

theorem jsonStr_scan {b : List Nat} (h : JsonStr b) : ScanStr b := by
  refine strItems_mono ?_ h
  intro c hc
  simp only [jsonPlain, scanPlain, Bool.and_eq_true, decide_eq_true_eq] at hc ⊢
  omega

theorem isDigit_range {c : Nat} (h : isDigit c = true) : 48 ≤ c ∧ c ≤ 57 := by
  simpa [isDigit] using h

theorem digits_range {d : List Nat} (h : Digits d) : ∀ c ∈ d, 48 ≤ c ∧ c ≤ 57 :=
  fun c hc => isDigit_range (h.2 c hc)

theorem jsonInt_digits {i : List Nat} (h : JsonInt i) : Digits i := by
  rcases h with rfl | h
  · exact ⟨by simp, by intro c hc; simp at hc; subst hc; decide⟩
  · exact h.1

/-- The bytes of a JSON number: digits, `+`, `-`, `.`, `E`, `e`. -/
theorem jsonNumber_bytes {p : List Nat} (h : JsonNumber p) :
    ∀ c ∈ p, (48 ≤ c ∧ c ≤ 57) ∨ c = 43 ∨ c = 45 ∨ c = 46 ∨ c = 69 ∨ c = 101 := by
  obtain ⟨m, i, f, e, hm, hi, hf, he, rfl⟩ := h
  intro c hc
  simp only [List.mem_append] at hc
  rcases hc with ((hc | hc) | hc) | hc
  · rcases hm with rfl | rfl
    · simp at hc
    · simp at hc; omega
  · exact Or.inl (digits_range (jsonInt_digits hi) c hc)
  · rcases hf with rfl | ⟨d, hd, rfl⟩
    · simp at hc
    · simp only [List.mem_cons] at hc
      rcases hc with rfl | hc
      · omega
      · exact Or.inl (digits_range hd c hc)
  · rcases he with rfl | ⟨x, sign, d, hx, hs, hd, rfl⟩
    · simp at hc
    · simp only [List.mem_cons, List.mem_append] at hc
      rcases hc with rfl | hc | hc
      · omega
      · rcases hs with rfl | rfl | rfl
        · simp at hc
        · simp at hc; omega
        · simp at hc; omega
      · exact Or.inl (digits_range hd c hc)

theorem jsonNumber_head {p : List Nat} (h : JsonNumber p) :
    p ≠ [] ∧ isPrimitiveStart (p.headD 0) = true := by
  obtain ⟨m, i, f, e, hm, hi, hf, he, rfl⟩ := h
  have hd := jsonInt_digits hi
  obtain ⟨a, i1, rfl⟩ : ∃ a i1, i = a :: i1 := by
    cases i with
    | nil => exact absurd rfl hd.1
    | cons a i1 => exact ⟨a, i1, rfl⟩
  have ha := digits_range hd a (List.mem_cons_self _ _)
  rcases hm with rfl | rfl
  · refine ⟨by simp, ?_⟩
    simp only [List.nil_append, List.cons_append, List.headD_cons, isPrimitiveStart,
      Bool.or_eq_true, decide_eq_true_eq, Bool.and_eq_true]
    omega
  · exact ⟨by simp, by simp [isPrimitiveStart]⟩

theorem jsonPrim_valid {p : List Nat} (h : JsonPrim p) : ValidPrim p := by
  rcases h with h | rfl | rfl | rfl
  · obtain ⟨h1, h2⟩ := jsonNumber_head h
    refine ⟨h1, h2, ?_⟩
    intro c hc
    have := jsonNumber_bytes h c hc
    omega
  · exact ⟨by decide, by decide, by decide⟩
  · exact ⟨by decide, by decide, by decide⟩
  · exact ⟨by decide, by decide, by decide⟩

/-- The main loop of `jsmn_parse` on a JSON text. -/
theorem json_run {kind : Kind} {o n : Nat} {s : Int} {text : List Nat}
    {T : List jsmn_Token} {k : Nat} (h : Gram JsonStr JsonPrim kind o n s text T k) :
    RunSpec kind o n s text T k :=
  gram_run (fun _ hb => jsonStr_scan hb) (fun _ hp => jsonPrim_valid hp) h

/-! ## The parse of a whole text -/

theorem yields_parse {js : List Nat} {cap : Nat} {r : Int × jsmn_Parser}
    (h : Yields js js.length cap [] (-1) 0 r) :
    jsmn_parse (jsmn_parser_init true cap) js js.length = Run.ok r := by
  obtain ⟨k, hk, h⟩ := h
  rw [jsmn_parse_init]
  have := h (js.length + 1 - k)
  rwa [show js.length + 1 - k + k = js.length + 1 by omega] at this

theorem any_isOpen_false {T : List jsmn_Token} (h : ∀ t ∈ T, isOpen t = false) :
    T.any isOpen = false := by
  rw [List.any_eq_false]
  intro t ht
  rw [h t ht]; decide

/-- A text of one value that is an Object or an Array, with white space around
it, parses into the tokens of the value. -/
theorem parse_text {S P : List Nat → Prop} (hS : ∀ b, S b → ScanStr b)
    (hP : ∀ p, P p → ValidPrim p) {X : List Nat} {T : List jsmn_Token}
    (h : Gram S P Kind.item 0 0 (-1) X T 1) (hroot : IsCont T) (cap : Nat)
    (hcap : T.length ≤ cap) :
    jsmn_parse (jsmn_parser_init true cap) X X.length =
      Run.ok ((T.length : Int), ⟨⟨some (T.map resolve_token), cap, -1⟩, X.length⟩) := by
  apply yields_parse
  rcases gram_run hS hP h X [] [] [] cap (by simp) rfl rfl (Or.inr ⟨rfl, hroot⟩) (Or.inl rfl)
      (by omega) with ⟨sup1, _, hafter, hruns⟩ | ⟨_, hnc, _⟩
  swap
  · exact absurd hroot (hnc (Or.inr rfl))
  have h1 : sup1 = -1 := hafter
  subst h1
  rw [bumps_neg_one, List.nil_append, Nat.zero_add] at hruns
  have hend : Yields X X.length cap T (-1) X.length _ :=
    yields_end T cap (-1) (by intro h; omega) (le_refl _)
  rw [any_isOpen_false (sealed_not_open (gram_sealed h)), if_neg (by simp)] at hend
  exact runs_yields hruns hend

end Jsmn

namespace Jsmn
open jsmntype_t

/-! ## Truncation (C4) -/

theorem gram_item_inv {S P : List Nat → Prop} {o n : Nat} {s : Int} {X : List Nat}
    {T : List jsmn_Token} {k : Nat} (h : Gram S P Kind.item o n s X T k) :
    ∃ w1 v w2, X = w1 ++ v ++ w2 ∧ Ws w1 ∧ Ws w2 ∧
      Gram S P Kind.value (o + w1.length) n s v T 1 := by
  cases h with
  | item _ _ _ w1 v w2 _ hw1 hw2 hv => exact ⟨w1, v, w2, rfl, hw1, hw2, hv⟩

theorem gram_cont_inv {S P : List Nat → Prop} {o n : Nat} {s : Int} {v : List Nat}
    {T : List jsmn_Token} {k : Nat} (h : Gram S P Kind.value o n s v T k) (hc : IsCont T) :
    ∃ co cc ty kindI body,
      ((co = 91 ∧ cc = 93 ∧ ty = JSMN_ARRAY ∧ kindI = Kind.elems) ∨
        (co = 123 ∧ cc = 125 ∧ ty = JSMN_OBJECT ∧ kindI = Kind.members)) ∧
      v = co :: body ++ [cc] ∧
      (Ws body ∨ ∃ Tin kk, Gram S P kindI (o + 1) (n + 1) (n : Int) body Tin kk ∧
        T.length = Tin.length + 1) := by
  cases h with
  | prim _ _ _ p hp =>
    exact absurd hc (not_isCont_single (by simp [new_token]) (by simp [new_token]))
  | str _ _ _ b hb =>
    exact absurd hc (not_isCont_single (by simp [new_token]) (by simp [new_token]))
  | arr_empty _ _ _ w hw =>
    exact ⟨91, 93, JSMN_ARRAY, Kind.elems, w, Or.inl ⟨rfl, rfl, rfl, rfl⟩, rfl, Or.inl hw⟩
  | arr _ _ _ inner Tin kk hin =>
    exact ⟨91, 93, JSMN_ARRAY, Kind.elems, inner, Or.inl ⟨rfl, rfl, rfl, rfl⟩, rfl,
      Or.inr ⟨Tin, kk, hin, by simp⟩⟩
  | obj_empty _ _ _ w hw =>
    exact ⟨123, 125, JSMN_OBJECT, Kind.members, w, Or.inr ⟨rfl, rfl, rfl, rfl⟩, rfl, Or.inl hw⟩
  | obj _ _ _ inner Tin kk hin =>
    exact ⟨123, 125, JSMN_OBJECT, Kind.members, inner, Or.inr ⟨rfl, rfl, rfl, rfl⟩, rfl,
      Or.inr ⟨Tin, kk, hin, by simp⟩⟩

theorem any_isOpen_head (t : jsmn_Token) (T : List jsmn_Token) (h : isOpen t = true) :
    (t :: T).any isOpen = true := by
  rw [List.any_cons, h]; rfl

/-- A text that stops before the closing bracket of its outermost Object or
Array is incomplete. -/
theorem truncated_part {S P : List Nat → Prop} (hS : ∀ b, S b → ScanStr b)
    (hP : ∀ p, P p → ValidPrim p) (co cc : Nat) (ty : jsmntype_t) (kindI : Kind)
    (hb : (co = 91 ∧ cc = 93 ∧ ty = JSMN_ARRAY ∧ kindI = Kind.elems) ∨
      (co = 123 ∧ cc = 125 ∧ ty = JSMN_OBJECT ∧ kindI = Kind.members))
    (w1 body : List Nat) (hw1 : Ws w1) (cap o n : Nat) (ho : o = w1.length) (hn : n = 0)
    (hcap : 1 ≤ cap)
    (hbody : Ws body ∨ ∃ Tin kk, Gram S P kindI (o + 1) (n + 1) (n : Int) body Tin kk ∧
      Tin.length + 1 ≤ cap) :
    ∃ p, jsmn_parse (jsmn_parser_init true cap) (w1 ++ co :: body) (w1 ++ co :: body).length =
      Run.ok (JSMN_ERROR_PART, p) := by
  subst ho hn
  have hco : co = 123 ∨ co = 91 := by rcases hb with h | h <;> omega
  have hty : bracket_type co = ty := by
    rcases hb with ⟨rfl, rfl, rfl, _⟩ | ⟨rfl, rfl, rfl, _⟩ <;> rfl
  generalize hjs : w1 ++ co :: body = js
  have hjs1 : js = [] ++ w1 ++ (co :: body) := by rw [← hjs]; simp
  have hjs2 : js = w1 ++ co :: body := hjs.symm
  have hjs3 : js = (w1 ++ [co]) ++ body ++ [] := by rw [← hjs]; simp
  have hlen : js.length = w1.length + 1 + body.length := by
    rw [← hjs]; simp only [List.length_append, List.length_cons]; omega
  have h1 : Runs js js.length cap [] (-1) ([] : List Nat).length [] (-1) _ :=
    runs_ws (Or.inl rfl) (by simp) w1 [] (co :: body) hw1 hjs1
  have h2 : Runs js js.length cap [] (-1) w1.length _ _ _ :=
    runs_open hjs2 hco (Or.inl rfl) (by simpa using hcap)
  rw [bump_neg_one, List.nil_append] at h2
  have h12 := runs_chain h1 h2 rfl rfl (by simp)
  have hsup0 : SupOK [new_token (bracket_type co) (w1.length : Int) (-1) (-1)]
      ((([] : List jsmn_Token).length : Nat) : Int) := Or.inr ⟨by simp, by simp⟩
  have hopen : isOpen (new_token (bracket_type co) (w1.length : Int) (-1) (-1)) = true := by
    simp [isOpen, new_token]
  suffices h : ∃ p, Yields js js.length cap [] (-1) 0 (JSMN_ERROR_PART, p) by
    obtain ⟨p, hp⟩ := h
    exact ⟨p, yields_parse hp⟩
  rcases hbody with hw | ⟨Tin, kk, hg, hc2⟩
  · have h3 : Runs js js.length cap _ _ (w1 ++ [co]).length _ _ _ :=
      runs_ws hsup0 (by simpa using hcap) body (w1 ++ [co]) [] hw hjs3
    have hend : Yields js js.length cap
        [new_token (bracket_type co) (w1.length : Int) (-1) (-1)]
        ((([] : List jsmn_Token).length : Nat) : Int) js.length _ :=
      yields_end _ cap _ (by intro h; omega) (le_refl _)
    rw [any_isOpen_head _ _ hopen, if_pos rfl] at hend
    rw [show (w1 ++ [co]).length + body.length = js.length by
      rw [hlen, List.length_append, List.length_singleton]] at h3
    exact ⟨_, runs_yields (runs_chain h12 h3 rfl rfl (by simp)) hend⟩
  · have hctx : CtxOK kindI [new_token (bracket_type co) (w1.length : Int) (-1) (-1)]
        ((0 : Nat) : Int) Tin := by
      rcases hb with ⟨rfl, rfl, rfl, rfl⟩ | ⟨rfl, rfl, rfl, rfl⟩
      · exact ⟨_, rfl, rfl⟩
      · exact ⟨_, rfl, rfl⟩
    rcases gram_run hS hP hg js (w1 ++ [co]) []
        [new_token (bracket_type co) (w1.length : Int) (-1) (-1)] cap hjs3 (by simp)
        (by simp) hctx (Or.inl rfl) (by omega) with ⟨sup1, hsup1, _, h3⟩ | ⟨_, _, p, hy⟩
    · have e : bumps kk [new_token (bracket_type co) (w1.length : Int) (-1) (-1)]
          ((0 : Nat) : Int) ++ Tin =
          { new_token (bracket_type co) (w1.length : Int) (-1) (-1) with
            size := (new_token (bracket_type co) (w1.length : Int) (-1) (-1)).size + (kk : Int) }
            :: Tin := by
        have := bumps_mid kk [] (new_token (bracket_type co) (w1.length : Int) (-1) (-1)) []
        simp only [List.nil_append, List.length_nil] at this
        rw [this]
        rfl
      rw [e] at h3
      have hend : Yields js js.length cap
          ({ new_token (bracket_type co) (w1.length : Int) (-1) (-1) with
            size := (new_token (bracket_type co) (w1.length : Int) (-1) (-1)).size + (kk : Int) }
            :: Tin) sup1 js.length _ :=
        yields_end _ cap _ (by intro h; omega) (le_refl _)
      rw [any_isOpen_head _ _ (by simp [isOpen, new_token]), if_pos rfl] at hend
      rw [show w1.length + 1 + body.length = js.length by rw [hlen]] at h3
      exact ⟨_, runs_yields (runs_chain h12 h3 rfl rfl (by simp)) hend⟩
    · refine ⟨p, runs_yields (runs_congr h12 rfl rfl ?_) hy⟩
      simp

theorem isCont_nonempty_text {S P : List Nat → Prop} {o n : Nat} {s : Int} {v : List Nat}
    {T : List jsmn_Token} {k : Nat} (h : Gram S P Kind.value o n s v T k) : T ≠ [] := by
  cases h <;> simp

/-- C4 (as stated) fails: the one-byte text `7` is a JSON text; with its final
byte removed the text is empty, and the parse of the empty text into a fresh
arena does not fail with `JSMN_ERROR_PART`: it succeeds and returns 0, though
the removed byte `7` is not white space. -/
theorem truncation_counterexample :
    JsonText [55] [new_token JSMN_PRIMITIVE 0 1 (-1)] ∧ isSpace 55 = false ∧
    jsmn_parse (jsmn_parser_init true 1) ([55] : List Nat).dropLast
        ([55] : List Nat).dropLast.length = Run.ok (0, ⟨⟨some [], 1, -1⟩, 0⟩) := by
  refine ⟨?_, rfl, rfl⟩
  have hp : JsonPrim [55] :=
    Or.inl ⟨[], [55], [], [], Or.inl rfl,
      Or.inr ⟨⟨by simp, by intro c hc; simp at hc; subst hc; decide⟩, by decide⟩,
      Or.inl rfl, Or.inl rfl, rfl⟩
  exact Gram.item 0 0 (-1) [] [55] [] _ (by intro c hc; simp at hc)
    (by intro c hc; simp at hc) (Gram.prim _ 0 (-1) [55] hp)

end Jsmn

namespace Jsmn
open jsmntype_t

/-! ## The Builder calls in closed form -/

theorem alloc_real (l : List jsmn_Token) (cap : Nat) (s : Int) (n : Nat) (hn : 0 < n)
    (h : l.length + n ≤ cap) :
    jsmn_alloc_token ⟨some l, cap, s⟩ n = some (l.length, l ++ List.replicate n fresh_token) := by
  unfold jsmn_alloc_token jsmn_Factory.toknext
  simp only
  rw [if_neg (by omega)]

theorem prepare_in_object_at {l : List jsmn_Token} {cap : Nat} {s : Int} {t : jsmn_Token}
    (h : tokAt l s = some t) :
    prepare_in_object ⟨some l, cap, s⟩ = Run.ok (decide (t.type = JSMN_OBJECT)) := by
  unfold prepare_in_object
  simp only
  rw [if_pos (by have := (tokAt_lt h).1; omega), h]

theorem prepare_in_object_root (l : List jsmn_Token) (cap : Nat) :
    prepare_in_object ⟨some l, cap, -1⟩ = Run.ok false := by
  unfold prepare_in_object
  simp

theorem tokSet_last (l : List jsmn_Token) (x t : jsmn_Token) :
    tokSet (l ++ [x]) (l.length : Int) t = l ++ [t] :=
  tokSet_append_length l x t

/-- `jsmn_prepare_append` outside an Object: one token, child of the superior
token. -/
theorem prepare_append_plain {l : List jsmn_Token} {cap : Nat} {s : Int}
    (name : Option (List Nat))
    (hs : s = -1 ∨ ∃ t, tokAt l s = some t ∧ t.type ≠ JSMN_OBJECT) (hcap : l.length + 1 ≤ cap) :
    jsmn_prepare_append ⟨some l, cap, s⟩ name =
      Run.ok (some (l.length,
        ⟨some (bump l s ++ [{ fresh_token with parent := s }]), cap, s⟩)) := by
  have hin : prepare_in_object ⟨some l, cap, s⟩ = Run.ok false := by
    rcases hs with rfl | ⟨t, ht, hty⟩
    · exact prepare_in_object_root l cap
    · rw [prepare_in_object_at ht]; simp [hty]
  unfold jsmn_prepare_append
  rw [hin]
  simp only [Bool.false_eq_true, false_and, if_false]
  rw [alloc_real l cap s 1 (by omega) hcap]
  simp only [List.replicate_one]
  rcases hs with rfl | ⟨t, ht, hty⟩
  · simp only [ne_eq, not_true_eq_false, if_false, bump_neg_one]
    rw [if_neg (by decide), tokAt_append_length]
    simp only
    rw [tokSet_last]
  · have hs1 : s ≠ -1 := by have := (tokAt_lt ht).1; omega
    have hsup : SupOK l s := supOK_of_tokAt ht
    rw [if_pos hs1, size_incr_append _ (tokAt_lt ht).2, size_incr_supOK hsup hs1]
    simp only [Option.map_some']
    have hlen : ((bump l s).length : Int) = (l.length : Int) := by rw [bump_length]
    rw [if_neg (by decide), ← hlen, tokAt_append_length]
    simp only
    rw [tokSet_last, if_pos hs1]

/-- `jsmn_prepare_append` inside an Object: a Label with the name and one
token, child of the Label. -/
theorem prepare_append_object {l : List jsmn_Token} {cap : Nat} {s : Int} {t : jsmn_Token}
    (nm : List Nat) (ht : tokAt l s = some t) (hty : t.type = JSMN_OBJECT)
    (hcap : l.length + 2 ≤ cap) :
    jsmn_prepare_append ⟨some l, cap, s⟩ (some nm) =
      Run.ok (some (l.length + 1,
        ⟨some (bump l s ++ [built_label nm s, { fresh_token with parent := (l.length : Int) }]),
          cap, s⟩)) := by
  have hs1 : s ≠ -1 := by have := (tokAt_lt ht).1; omega
  have hsup : SupOK l s := supOK_of_tokAt ht
  unfold jsmn_prepare_append
  rw [prepare_in_object_at ht]
  simp only [hty, decide_True, true_and, if_true]
  rw [if_neg (by simp), alloc_real l cap s 2 (by omega) hcap]
  simp only
  rw [if_pos hs1, size_incr_append _ (tokAt_lt ht).2, size_incr_supOK hsup hs1]
  simp only [Option.map_some', List.replicate]
  have h0 : tokAt (bump l s ++ [fresh_token, fresh_token]) (l.length : Int) =
      some fresh_token := by
    have := tokAt_mid (bump l s) fresh_token [fresh_token]
    rwa [bump_length] at this
  have h1 : tokAt (bump l s ++ [fresh_token, fresh_token]) ((l.length : Int) + 1) =
      some fresh_token := by
    have := tokAt_right (bump l s) fresh_token [fresh_token] 0
    rw [bump_length] at this
    simpa using this
  rw [h0, h1]
  simp only
  congr 4
  have e1 : tokSet (bump l s ++ [fresh_token, fresh_token]) (l.length : Int)
      (built_label nm s) = bump l s ++ [built_label nm s, fresh_token] := by
    have := tokSet_mid (bump l s) fresh_token (built_label nm s) [fresh_token]
    rwa [bump_length] at this
  have e2 : ∀ (a x y : jsmn_Token), tokSet (bump l s ++ [a, x]) ((l.length : Int) + 1) y
      = bump l s ++ [a, y] := by
    intro a x y
    have := tokSet_mid (bump l s ++ [a]) x y []
    simp only [List.length_append, bump_length, List.length_singleton, List.append_assoc,
      List.singleton_append, Nat.cast_add, Nat.cast_one] at this
    exact this
  have e0 :
      ({ type := JSMN_LABEL, data := jsmn_data.str nm, length := (strlen nm : Int),
         start := fresh_token.start, end_ := fresh_token.end_, size := 1, parent := s } :
        jsmn_Token) = built_label nm s := rfl
  rw [e0, e1, e2]

theorem tokAt_bump_append_last (l : List jsmn_Token) (s : Int) (x : jsmn_Token) :
    tokAt (bump l s ++ [x]) (l.length : Int) = some x :=
  tokAt_bump_last l s x

theorem tokSet_bump_last (l : List jsmn_Token) (s : Int) (x y : jsmn_Token) :
    tokSet (bump l s ++ [x]) (l.length : Int) y = bump l s ++ [y] := by
  have := tokSet_append_length (bump l s) x y
  rwa [bump_length] at this

theorem tokAt_bump_last2 (l : List jsmn_Token) (s : Int) (a x : jsmn_Token) :
    tokAt (bump l s ++ [a, x]) (((l.length + 1 : Nat) : Nat) : Int) = some x := by
  have := tokAt_right (bump l s) a [x] 0
  rw [bump_length] at this
  simpa using this

theorem tokSet_bump_last2 (l : List jsmn_Token) (s : Int) (a x y : jsmn_Token) :
    tokSet (bump l s ++ [a, x]) (((l.length + 1 : Nat) : Nat) : Int) y = bump l s ++ [a, y] := by
  have := tokSet_mid (bump l s ++ [a]) x y []
  simp only [List.length_append, bump_length, List.length_singleton, List.append_assoc,
    List.singleton_append] at this
  exact this

/-- A leaf appended outside an Object. -/
theorem append_leaf_plain {l : List jsmn_Token} {cap : Nat} {s : Int} (name : Option (List Nat))
    (v : Leaf) (hs : s = -1 ∨ ∃ t, tokAt l s = some t ∧ t.type ≠ JSMN_OBJECT)
    (hcap : l.length + 1 ≤ cap) :
    run_call ⟨some l, cap, s⟩ (leaf_call name v) =
      Run.ok (((l.length + 1 : Nat) : Int), ⟨some (bump l s ++ [built_leaf s v]), cap, s⟩) := by
  cases v with
  | str v =>
    simp only [leaf_call, run_call, jsmn_append_string, jsmn_append_simple]
    rw [prepare_append_plain name hs hcap]
    simp only
    rw [tokAt_bump_append_last]
    simp only
    rw [tokSet_bump_last]
    simp [jsmn_Factory.toknext, bump_length, built_leaf, data_of, fresh_token]
  | prim v =>
    simp only [leaf_call, run_call, jsmn_append_primitive, jsmn_append_simple]
    rw [prepare_append_plain name hs hcap]
    simp only
    rw [tokAt_bump_append_last]
    simp only
    rw [tokSet_bump_last]
    simp [jsmn_Factory.toknext, bump_length, built_leaf, data_of, fresh_token]

/-- A leaf appended inside an Object. -/
theorem append_leaf_object {l : List jsmn_Token} {cap : Nat} {s : Int} {t : jsmn_Token}
    (nm : List Nat) (v : Leaf) (ht : tokAt l s = some t) (hty : t.type = JSMN_OBJECT)
    (hcap : l.length + 2 ≤ cap) :
    run_call ⟨some l, cap, s⟩ (leaf_call (some nm) v) =
      Run.ok (((l.length + 2 : Nat) : Int),
        ⟨some (bump l s ++ [built_label nm s, built_leaf (l.length : Int) v]), cap, s⟩) := by
  cases v with
  | str v =>
    simp only [leaf_call, run_call, jsmn_append_string, jsmn_append_simple]
    rw [prepare_append_object nm ht hty hcap]
    simp only
    rw [tokAt_bump_last2]
    simp only
    rw [tokSet_bump_last2]
    simp [jsmn_Factory.toknext, bump_length, built_leaf, data_of, fresh_token]
  | prim v =>
    simp only [leaf_call, run_call, jsmn_append_primitive, jsmn_append_simple]
    rw [prepare_append_object nm ht hty hcap]
    simp only
    rw [tokAt_bump_last2]
    simp only
    rw [tokSet_bump_last2]
    simp [jsmn_Factory.toknext, bump_length, built_leaf, data_of, fresh_token]

/-- A container started outside an Object. -/
theorem start_sequence_plain {l : List jsmn_Token} {cap : Nat} {s : Int} (ty : jsmntype_t)
    (name : Option (List Nat))
    (hs : s = -1 ∨ ∃ t, tokAt l s = some t ∧ t.type ≠ JSMN_OBJECT)
    (hcap : l.length + 1 ≤ cap) :
    jsmn_start_sequence ⟨some l, cap, s⟩ ty name =
      Run.ok (((l.length + 1 : Nat) : Int),
        ⟨some (bump l s ++ [built_cont ty 0 s]), cap, (l.length : Int)⟩) := by
  unfold jsmn_start_sequence
  rw [prepare_append_plain name hs hcap]
  simp only
  rw [tokAt_bump_append_last]
  simp only
  rw [tokSet_bump_last]
  simp [jsmn_Factory.toknext, bump_length, built_cont, fresh_token]

/-- A container started inside an Object. -/
theorem start_sequence_object {l : List jsmn_Token} {cap : Nat} {s : Int} {t : jsmn_Token}
    (ty : jsmntype_t) (nm : List Nat) (ht : tokAt l s = some t) (hty : t.type = JSMN_OBJECT)
    (hcap : l.length + 2 ≤ cap) :
    jsmn_start_sequence ⟨some l, cap, s⟩ ty (some nm) =
      Run.ok (((l.length + 2 : Nat) : Int),
        ⟨some (bump l s ++ [built_label nm s, built_cont ty 0 (l.length : Int)]), cap,
          ((l.length + 1 : Nat) : Int)⟩) := by
  unfold jsmn_start_sequence
  rw [prepare_append_object nm ht hty hcap]
  simp only
  rw [tokAt_bump_last2]
  simp only
  rw [tokSet_bump_last2]
  simp [jsmn_Factory.toknext, bump_length, built_cont, fresh_token]

/-- The end of a container that is the value of a Label. -/
theorem end_sequence_label {l : List jsmn_Token} {cap : Nat} {c : Int} {tc tp : jsmn_Token}
    (ty : jsmntype_t) (hc : tokAt l c = some tc) (hty : tc.type = ty)
    (hp : tokAt l tc.parent = some tp) (hpl : tp.type = JSMN_LABEL) :
    jsmn_end_sequence ⟨some l, cap, c⟩ ty =
      Run.ok ((l.length : Int), ⟨some l, cap, tp.parent⟩) := by
  unfold jsmn_end_sequence
  simp only
  rw [if_neg (by have := (tokAt_lt hc).1; omega), hc]
  simp only
  rw [if_neg (by simp [hty]), if_pos (by have := (tokAt_lt hp).1; omega), hp]
  simp only
  rw [if_pos (Or.inl hpl)]
  rfl

/-- The end of a container without parent. -/
theorem end_sequence_root {l : List jsmn_Token} {cap : Nat} {c : Int} {tc : jsmn_Token}
    (ty : jsmntype_t) (hc : tokAt l c = some tc) (hty : tc.type = ty) (hp : tc.parent = -1) :
    jsmn_end_sequence ⟨some l, cap, c⟩ ty =
      Run.ok ((l.length : Int), ⟨some l, cap, -1⟩) := by
  unfold jsmn_end_sequence
  simp only
  rw [if_neg (by have := (tokAt_lt hc).1; omega), hc]
  simp only
  rw [if_neg (by simp [hty]), if_neg (by simp [hp])]
  rfl

/-! ## The Builder calls of a tree -/

theorem run_calls_cons {f f1 : jsmn_Factory} {c : BuilderCall} {r : Int}
    (cs : List BuilderCall) (h : run_call f c = Run.ok (r, f1)) (hr : 0 ≤ r) :
    run_calls (c :: cs) f = run_calls cs f1 := by
  rw [run_calls, h]
  simp only
  rw [if_neg (by omega)]

theorem run_calls_append {f f1 : jsmn_Factory} : ∀ (a b : List BuilderCall),
    run_calls a f = Run.ok (some f1) → run_calls (a ++ b) f = run_calls b f1 := by
  intro a
  induction a generalizing f with
  | nil =>
    intro b h
    simp only [run_calls, Run.ok.injEq, Option.some.injEq] at h
    subst h; rfl
  | cons c cs ih =>
    intro b h
    rw [List.cons_append, run_calls]
    rw [run_calls] at h
    cases hc : run_call f c with
    | fuel => rw [hc] at h; simp at h
    | bounds => rw [hc] at h; simp at h
    | ok x =>
      obtain ⟨r, f2⟩ := x
      rw [hc] at h
      simp only at h ⊢
      by_cases hr : r < 0
      · rw [if_pos hr] at h; simp at h
      · rw [if_neg hr] at h ⊢
        exact ih b h

theorem bumps_last2 (k : Nat) (l : List jsmn_Token) (s : Int) (a c : jsmn_Token) :
    bumps k (bump l s ++ [a, c]) ((l.length + 1 : Nat) : Int) =
      bump l s ++ [a, { c with size := c.size + (k : Int) }] := by
  have := bumps_mid k (bump l s ++ [a]) c []
  simp only [List.length_append, bump_length, List.length_singleton, List.append_assoc,
    List.singleton_append] at this
  exact this

theorem tokAt_keep {l : List jsmn_Token} {s : Int} {t : jsmn_Token} (k : Nat)
    (x : List jsmn_Token) (h : tokAt l s = some t) :
    ∃ t1, tokAt (bumps k l s ++ x) s = some t1 ∧ t1.type = t.type :=
  let ⟨t1, h1, h2, _⟩ := tokAt_bumps_append k (s := s) x h
  ⟨t1, h1, h2⟩

/-- The calls that append the elements of an Array. -/
theorem run_elems : ∀ (vs : List Leaf) (l : List jsmn_Token) (cap : Nat) (s : Int)
    (t : jsmn_Token), tokAt l s = some t → t.type = JSMN_ARRAY → l.length + vs.length ≤ cap →
    run_calls (elems_calls vs) ⟨some l, cap, s⟩ =
      Run.ok (some ⟨some (bumps vs.length l s ++ vs.map (built_leaf s)), cap, s⟩) := by
  intro vs
  induction vs with
  | nil => intro l cap s t _ _ _; simp [elems_calls, run_calls, bumps]
  | cons v vs ih =>
    intro l cap s t ht hty hcap
    simp only [List.length_cons] at hcap
    have h1 : run_call ⟨some l, cap, s⟩ (leaf_call none v) = _ :=
      append_leaf_plain none v (Or.inr ⟨t, ht, by rw [hty]; decide⟩) (by omega)
    have hstep : run_calls (elems_calls (v :: vs)) ⟨some l, cap, s⟩ =
        run_calls (elems_calls vs) ⟨some (bump l s ++ [built_leaf s v]), cap, s⟩ :=
      run_calls_cons _ h1 (by omega)
    obtain ⟨t1, ht1, hty1⟩ := tokAt_keep 1 [built_leaf s v] ht
    have ht2 : tokAt (bump l s ++ [built_leaf s v]) s = some t1 := ht1
    rw [hstep, ih _ cap s t1 ht2 (by rw [hty1, hty])
      (by simp only [List.length_append, bump_length, List.length_singleton]; omega)]
    have e : bumps vs.length (bump l s ++ [built_leaf s v]) s ++ vs.map (built_leaf s) =
        bumps (vs.length + 1) l s ++ (v :: vs).map (built_leaf s) := by
      rw [bumps_append _ _ _ _ (by rw [bump_length]; exact (tokAt_lt ht).2)]
      simp [bumps]
    rw [e]
    rfl

theorem tokAt_bump_mid2 (l : List jsmn_Token) (s : Int) (a c : jsmn_Token)
    (X : List jsmn_Token) :
    tokAt (bump l s ++ a :: c :: X) (l.length : Int) = some a ∧
    tokAt (bump l s ++ a :: c :: X) ((l.length + 1 : Nat) : Int) = some c := by
  constructor
  · have := tokAt_mid (bump l s) a (c :: X)
    rwa [bump_length] at this
  · have := tokAt_right (bump l s) a (c :: X) 0
    rw [bump_length] at this
    simpa using this

theorem tokAt_keep1 {l : List jsmn_Token} {s : Int} {t : jsmn_Token}
    (x : List jsmn_Token) (h : tokAt l s = some t) :
    ∃ t1, tokAt (bump l s ++ x) s = some t1 ∧ t1.type = t.type :=
  tokAt_keep 1 x h

/-- The calls that append the members of an Object. -/
theorem run_members : ∀ (ms : Members) (l : List jsmn_Token) (cap : Nat) (s : Int)
    (t : jsmn_Token), tokAt l s = some t → t.type = JSMN_OBJECT →
    l.length + members_size ms ≤ cap →
    run_calls (members_calls ms) ⟨some l, cap, s⟩ =
      Run.ok (some ⟨some (bumps (members_count ms) l s ++ built_members l.length s ms),
        cap, s⟩) := by
  intro ms
  induction ms with
  | nil => intro l cap s t _ _ _; simp [members_calls, run_calls, bumps, members_count,
      built_members]
  | leaf name v rest ih =>
    intro l cap s t ht hty hcap
    simp only [members_size] at hcap
    have h1 : run_call ⟨some l, cap, s⟩ (leaf_call (some name) v) = _ :=
      append_leaf_object name v ht hty (by omega)
    have hstep : run_calls (members_calls (Members.leaf name v rest)) ⟨some l, cap, s⟩ =
        run_calls (members_calls rest)
          ⟨some (bump l s ++ [built_label name s, built_leaf (l.length : Int) v]), cap, s⟩ :=
      run_calls_cons _ h1 (by omega)
    obtain ⟨t1, ht1, hty1⟩ := tokAt_keep 1 [built_label name s, built_leaf (l.length : Int) v] ht
    have ht2 : tokAt (bump l s ++ [built_label name s, built_leaf (l.length : Int) v]) s
        = some t1 := ht1
    have hlen : (bump l s ++ [built_label name s, built_leaf (l.length : Int) v]).length
        = l.length + 2 := by
      simp only [List.length_append, bump_length, List.length_cons, List.length_nil]
    rw [hstep, ih _ cap s t1 ht2 (by rw [hty1, hty]) (by rw [hlen]; omega), hlen]
    rw [bumps_append _ _ _ _ (by rw [bump_length]; exact (tokAt_lt ht).2)]
    simp [bumps, members_count, built_members]
  | arr name vs rest ih =>
    intro l cap s t ht hty hcap
    simp only [members_size] at hcap
    have h1 : run_call ⟨some l, cap, s⟩ (BuilderCall.start_array (some name)) = _ :=
      start_sequence_object JSMN_ARRAY name ht hty (by omega)
    have hstep : run_calls (members_calls (Members.arr name vs rest)) ⟨some l, cap, s⟩ =
        run_calls (elems_calls vs ++ BuilderCall.end_array :: members_calls rest)
          ⟨some (bump l s ++ [built_label name s, built_cont JSMN_ARRAY 0 (l.length : Int)]),
            cap, ((l.length + 1 : Nat) : Int)⟩ :=
      run_calls_cons _ h1 (by omega)
    have hlen1 : (bump l s ++ [built_label name s,
        built_cont JSMN_ARRAY 0 (l.length : Int)]).length = l.length + 2 := by
      simp only [List.length_append, bump_length, List.length_cons, List.length_nil]
    have hin := run_elems vs _ cap ((l.length + 1 : Nat) : Int) _
      (tokAt_bump_mid2 l s (built_label name s) (built_cont JSMN_ARRAY 0 (l.length : Int)) []).2
      rfl (by rw [hlen1]; omega)
    rw [bumps_last2] at hin
    have e1 : ({ built_cont JSMN_ARRAY 0 (l.length : Int) with
        size := (built_cont JSMN_ARRAY 0 (l.length : Int)).size + (vs.length : Int) } : jsmn_Token)
        = built_cont JSMN_ARRAY (vs.length : Int) (l.length : Int) := by
      simp [built_cont]
    rw [e1] at hin
    rw [hstep, run_calls_append _ _ hin]
    have hl2 : bump l s ++ [built_label name s,
          built_cont JSMN_ARRAY (vs.length : Int) (l.length : Int)] ++
          vs.map (built_leaf ((l.length + 1 : Nat) : Int)) =
        bump l s ++ built_label name s ::
          built_cont JSMN_ARRAY (vs.length : Int) (l.length : Int) ::
          vs.map (built_leaf ((l.length + 1 : Nat) : Int)) := by simp
    rw [hl2]
    obtain ⟨ha, hc⟩ := tokAt_bump_mid2 l s (built_label name s)
      (built_cont JSMN_ARRAY (vs.length : Int) (l.length : Int))
      (vs.map (built_leaf ((l.length + 1 : Nat) : Int)))
    have h2 : run_call ⟨some (bump l s ++ built_label name s ::
          built_cont JSMN_ARRAY (vs.length : Int) (l.length : Int) ::
          vs.map (built_leaf ((l.length + 1 : Nat) : Int))), cap,
          ((l.length + 1 : Nat) : Int)⟩ BuilderCall.end_array = _ :=
      end_sequence_label JSMN_ARRAY hc rfl ha rfl
    rw [run_calls_cons _ h2 (by omega)]
    obtain ⟨t1, ht1, hty1⟩ := tokAt_keep1 (built_label name s ::
          built_cont JSMN_ARRAY (vs.length : Int) (l.length : Int) ::
          vs.map (built_leaf ((l.length + 1 : Nat) : Int))) ht
    have hlen2 : (bump l s ++ built_label name s ::
          built_cont JSMN_ARRAY (vs.length : Int) (l.length : Int) ::
          vs.map (built_leaf ((l.length + 1 : Nat) : Int))).length
        = l.length + 2 + vs.length := by
      simp only [List.length_append, bump_length, List.length_cons, List.length_map]
      omega
    have hs : (built_label name s).parent = s := rfl
    rw [hs, ih _ cap s t1 ht1 (by rw [hty1, hty]) (by rw [hlen2]; omega), hlen2]
    rw [bumps_append _ _ _ _ (by rw [bump_length]; exact (tokAt_lt ht).2)]
    simp [bumps, members_count, built_members]
  | obj name inner rest ih1 ih2 =>
    intro l cap s t ht hty hcap
    simp only [members_size] at hcap
    have h1 : run_call ⟨some l, cap, s⟩ (BuilderCall.start_object (some name)) = _ :=
      start_sequence_object JSMN_OBJECT name ht hty (by omega)
    have hstep : run_calls (members_calls (Members.obj name inner rest)) ⟨some l, cap, s⟩ =
        run_calls (members_calls inner ++ BuilderCall.end_object :: members_calls rest)
          ⟨some (bump l s ++ [built_label name s, built_cont JSMN_OBJECT 0 (l.length : Int)]),
            cap, ((l.length + 1 : Nat) : Int)⟩ :=
      run_calls_cons _ h1 (by omega)
    have hlen1 : (bump l s ++ [built_label name s,
        built_cont JSMN_OBJECT 0 (l.length : Int)]).length = l.length + 2 := by
      simp only [List.length_append, bump_length, List.length_cons, List.length_nil]
    have hin := ih1 _ cap ((l.length + 1 : Nat) : Int) _
      (tokAt_bump_mid2 l s (built_label name s) (built_cont JSMN_OBJECT 0 (l.length : Int)) []).2
      rfl (by rw [hlen1]; omega)
    rw [bumps_last2, hlen1] at hin
    have e1 : ({ built_cont JSMN_OBJECT 0 (l.length : Int) with
        size := (built_cont JSMN_OBJECT 0 (l.length : Int)).size + (members_count inner : Int) } :
        jsmn_Token) = built_cont JSMN_OBJECT (members_count inner : Int) (l.length : Int) := by
      simp [built_cont]
    rw [e1] at hin
    rw [hstep, run_calls_append _ _ hin]
    have hl2 : bump l s ++ [built_label name s,
          built_cont JSMN_OBJECT (members_count inner : Int) (l.length : Int)] ++
          built_members (l.length + 2) ((l.length + 1 : Nat) : Int) inner =
        bump l s ++ built_label name s ::
          built_cont JSMN_OBJECT (members_count inner : Int) (l.length : Int) ::
          built_members (l.length + 2) ((l.length + 1 : Nat) : Int) inner := by simp
    rw [hl2]
    obtain ⟨ha, hc⟩ := tokAt_bump_mid2 l s (built_label name s)
      (built_cont JSMN_OBJECT (members_count inner : Int) (l.length : Int))
      (built_members (l.length + 2) ((l.length + 1 : Nat) : Int) inner)
    have h2 : run_call ⟨some (bump l s ++ built_label name s ::
          built_cont JSMN_OBJECT (members_count inner : Int) (l.length : Int) ::
          built_members (l.length + 2) ((l.length + 1 : Nat) : Int) inner), cap,
          ((l.length + 1 : Nat) : Int)⟩ BuilderCall.end_object = _ :=
      end_sequence_label JSMN_OBJECT hc rfl ha rfl
    rw [run_calls_cons _ h2 (by omega)]
    obtain ⟨t1, ht1, hty1⟩ := tokAt_keep1 (built_label name s ::
          built_cont JSMN_OBJECT (members_count inner : Int) (l.length : Int) ::
          built_members (l.length + 2) ((l.length + 1 : Nat) : Int) inner) ht
    have hsz : ∀ (ms : Members) (n : Nat) (p : Int),
        (built_members n p ms).length = members_size ms := by
      intro ms
      induction ms with
      | nil => intro n p; rfl
      | leaf _ _ _ ih => intro n p; simp [built_members, members_size, ih]; omega
      | arr _ _ _ ih => intro n p; simp [built_members, members_size, ih]; omega
      | obj _ _ _ ih1 ih2 => intro n p; simp [built_members, members_size, ih1, ih2]; omega
    have hlen2 : (bump l s ++ built_label name s ::
          built_cont JSMN_OBJECT (members_count inner : Int) (l.length : Int) ::
          built_members (l.length + 2) ((l.length + 1 : Nat) : Int) inner).length
        = l.length + 2 + members_size inner := by
      simp only [List.length_append, bump_length, List.length_cons, hsz]
      omega
    have hs : (built_label name s).parent = s := rfl
    rw [hs, ih2 _ cap s t1 ht1 (by rw [hty1, hty]) (by rw [hlen2]; omega), hlen2]
    rw [bumps_append _ _ _ _ (by rw [bump_length]; exact (tokAt_lt ht).2)]
    simp [bumps, members_count, built_members]

/-! ## The serializer on the tokens of a tree -/

theorem built_members_length : ∀ (ms : Members) (n : Nat) (p : Int),
    (built_members n p ms).length = members_size ms := by
  intro ms
  induction ms with
  | nil => intro n p; rfl
  | leaf _ _ _ ih => intro n p; simp [built_members, members_size, ih]; omega
  | arr _ _ _ ih => intro n p; simp [built_members, members_size, ih]; omega
  | obj _ _ _ ih1 ih2 => intro n p; simp [built_members, members_size, ih1, ih2]; omega

theorem seg_cons {B : List jsmn_Token} {i : Nat} {x : jsmn_Token} {X : List jsmn_Token}
    (h : Seg B i (x :: X)) : tokAt B (i : Int) = some x ∧ Seg B (i + 1) X := by
  obtain ⟨L, R, rfl, rfl⟩ := h
  constructor
  · rw [List.append_assoc, List.cons_append]
    exact tokAt_mid L x (X ++ R)
  · exact ⟨L ++ [x], R, by simp, by simp⟩

theorem seg_append {B : List jsmn_Token} {i : Nat} {X Y : List jsmn_Token}
    (h : Seg B i (X ++ Y)) : Seg B i X ∧ Seg B (i + X.length) Y := by
  obtain ⟨L, R, rfl, rfl⟩ := h
  exact ⟨⟨L, Y ++ R, by simp, rfl⟩, ⟨L ++ X, R, by simp, by simp⟩⟩

theorem strItems_no_nul {f : Nat → Bool} (hf : ∀ c, f c = true → c ≠ 0) {b : List Nat}
    (h : StrItems f b) : ∀ c ∈ b, c ≠ 0 := by
  induction h with
  | nil => intro c hc; simp at hc
  | plain c rest hc _ ih =>
    intro x hx
    rcases List.mem_cons.1 hx with rfl | hx
    · exact hf _ hc
    · exact ih x hx
  | esc e rest he _ ih =>
    intro x hx
    simp only [List.mem_cons] at hx
    rcases hx with rfl | rfl | hx
    · decide
    · intro h0; subst h0; simp [isEscaped] at he
    · exact ih x hx
  | uesc h1 h2 h3 h4 rest a b c d _ ih =>
    intro x hx
    simp only [List.mem_cons] at hx
    rcases hx with rfl | rfl | rfl | rfl | rfl | rfl | hx
    · decide
    · decide
    · exact isHex_ne_zero a
    · exact isHex_ne_zero b
    · exact isHex_ne_zero c
    · exact isHex_ne_zero d
    · exact ih x hx

theorem strlen_eq_length {v : List Nat} (h : ∀ c ∈ v, c ≠ 0) : strlen v = v.length := by
  unfold strlen
  rw [List.takeWhile_eq_self_iff.2]
  intro c hc
  simpa using h c hc

theorem scanStr_strlen {v : List Nat} (h : ScanStr v) : strlen v = v.length :=
  strlen_eq_length (strItems_no_nul (fun _ hc => (scanPlain_cases hc).1) h)

theorem validPrim_strlen {v : List Nat} (h : ValidPrim v) : strlen v = v.length :=
  strlen_eq_length (fun c hc => by have := h.2.2 c hc; omega)

theorem leaf_strlen {v : Leaf} (h : leaf_ok v) :
    match v with
    | Leaf.str x => strlen x = x.length
    | Leaf.prim x => strlen x = x.length := by
  cases v with
  | str x => exact scanStr_strlen h
  | prim x => exact validPrim_strlen h

theorem token_bytes_str (js : List Nat) (t : jsmn_Token) (v : List Nat)
    (hd : t.data = jsmn_data.str v) (hl : t.length = (v.length : Int)) :
    token_bytes js t = v := by
  unfold token_bytes
  rw [hd]
  simp [hl]

theorem jsmn_dump_prim {js : List Nat} {B : List jsmn_Token} {q : Int} {tok : jsmn_Token}
    (fuel : Nat) (h : tokAt B q = some tok) (hty : tok.type = JSMN_PRIMITIVE) :
    jsmn_dump js B (fuel + 1) q = Run.ok ([token_bytes js tok], 1) := by
  rw [jsmn_dump, h]
  simp only
  rw [if_pos hty]

theorem jsmn_dump_quoted {js : List Nat} {B : List jsmn_Token} {q : Int} {tok : jsmn_Token}
    (fuel : Nat) (h : tokAt B q = some tok)
    (hty : tok.type = JSMN_LABEL ∨ tok.type = JSMN_STRING) :
    jsmn_dump js B (fuel + 1) q =
      Run.ok ([[34]] ++ (if tok.length > 0 then [token_bytes js tok] else []) ++
        [if tok.type = JSMN_LABEL then [34, 58] else [34]], 1) := by
  rw [jsmn_dump, h]
  simp only
  rw [if_neg (by rcases hty with h1 | h1 <;> rw [h1] <;> decide), if_pos hty]

theorem jsmn_dump_object {js : List Nat} {B : List jsmn_Token} {q : Int} {tok : jsmn_Token}
    (fuel : Nat) (h : tokAt B q = some tok) (hty : tok.type = JSMN_OBJECT) :
    jsmn_dump js B (fuel + 1) q =
      match dump_object_loop (fun u => jsmn_dump js B fuel u) q tok.size tok.size.toNat 0 0 with
      | Run.fuel => Run.fuel
      | Run.bounds => Run.bounds
      | Run.ok (out, j) => Run.ok ([[123]] ++ out ++ [[125]], j + 1) := by
  rw [jsmn_dump, h]
  simp only
  rw [if_neg (by rw [hty]; decide), if_neg (by rw [hty]; decide), if_pos hty]
  try rfl

theorem jsmn_dump_array {js : List Nat} {B : List jsmn_Token} {q : Int} {tok : jsmn_Token}
    (fuel : Nat) (h : tokAt B q = some tok) (hty : tok.type = JSMN_ARRAY) :
    jsmn_dump js B (fuel + 1) q =
      match dump_array_loop (fun u => jsmn_dump js B fuel u) q tok.size tok.size.toNat 0 0 with
      | Run.fuel => Run.fuel
      | Run.bounds => Run.bounds
      | Run.ok (out, j) => Run.ok ([[91]] ++ out ++ [[93]], j + 1) := by
  rw [jsmn_dump, h]
  simp only
  rw [if_neg (by rw [hty]; decide), if_neg (by rw [hty]; decide),
    if_neg (by rw [hty]; decide), if_pos hty]
  try rfl

theorem quoted_flatten (x : List Nat) (tail : List Nat) :
    ([[34]] ++ (if (x.length : Int) > 0 then [x] else []) ++ [tail]).flatten =
      34 :: x ++ tail := by
  by_cases hx : (x.length : Int) > 0
  · rw [if_pos hx]; simp
  · rw [if_neg hx]
    have : x = [] := by
      cases x with
      | nil => rfl
      | cons a b => simp at hx
    subst this
    simp

/-- The serializer on a leaf token of the Builder. -/
theorem dump_leaf (js : List Nat) (B : List jsmn_Token) (fuel : Nat) (q : Int) (p : Int)
    (v : Leaf) (hv : leaf_ok v) (h : tokAt B q = some (built_leaf p v)) :
    ∃ out, jsmn_dump js B (fuel + 1) q = Run.ok (out, 1) ∧ out.flatten = leaf_text v := by
  cases v with
  | str x =>
    have hl : strlen x = x.length := scanStr_strlen hv
    refine ⟨_, jsmn_dump_quoted fuel h (Or.inr rfl), ?_⟩
    rw [token_bytes_str js _ x rfl (by simp [built_leaf, hl])]
    have e : (built_leaf p (Leaf.str x)).length = (x.length : Int) := by simp [built_leaf, hl]
    have eT : (if (built_leaf p (Leaf.str x)).type = JSMN_LABEL then [34, 58] else [34])
        = ([34] : List Nat) := by simp [built_leaf]
    rw [e, eT]
    exact quoted_flatten x [34]
  | prim x =>
    have hl : strlen x = x.length := validPrim_strlen hv
    refine ⟨_, jsmn_dump_prim fuel h rfl, ?_⟩
    rw [token_bytes_str js _ x rfl (by simp [built_leaf, hl])]
    simp [leaf_text]

/-- The serializer on a Label token of the Builder. -/
theorem dump_label (js : List Nat) (B : List jsmn_Token) (fuel : Nat) (q : Int) (p : Int)
    (name : List Nat) (hv : ScanStr name) (h : tokAt B q = some (built_label name p)) :
    ∃ out, jsmn_dump js B (fuel + 1) q = Run.ok (out, 1) ∧
      out.flatten = 34 :: name ++ [34, 58] := by
  have hl : strlen name = name.length := scanStr_strlen hv
  refine ⟨_, jsmn_dump_quoted fuel h (Or.inl rfl), ?_⟩
  rw [token_bytes_str js _ name rfl (by simp [built_label, hl])]
  have e : (built_label name p).length = (name.length : Int) := by simp [built_label, hl]
  have eT : (if (built_label name p).type = JSMN_LABEL then [34, 58] else [34])
      = ([34, 58] : List Nat) := by simp [built_label]
  rw [e, eT]
  exact quoted_flatten name [34, 58]

theorem elems_text_cons (v : Leaf) (vs : List Leaf) :
    elems_text (v :: vs) = leaf_text v ++ ((if vs = [] then [] else [44]) ++ elems_text vs) := by
  cases vs with
  | nil => simp [elems_text]
  | cons w ws => simp [elems_text]

theorem members_sep_eq (rest : Members) :
    members_sep rest = if members_count rest = 0 then [] else [44] := by
  cases rest <;> simp [members_sep, members_count]

/-- The loop of the serializer over the elements of an Array of the Builder. -/
theorem dump_elems (js : List Nat) (B : List jsmn_Token) (f : Nat) (p : Int) :
    ∀ (vs : List Leaf) (t size i j : Int) (q : Nat),
      t + 1 + j = (q : Int) → Seg B q (vs.map (built_leaf p)) → (∀ v ∈ vs, leaf_ok v) →
      size - i = (vs.length : Int) →
      ∃ out, dump_array_loop (fun u => jsmn_dump js B (f + 1) u) t size vs.length i j =
          Run.ok (out, j + (vs.length : Int)) ∧ out.flatten = elems_text vs := by
  intro vs
  induction vs with
  | nil =>
    intro t size i j q _ _ _ _
    exact ⟨[], by simp [dump_array_loop], rfl⟩
  | cons v vs ih =>
    intro t size i j q hq hseg hv hsize
    rw [List.map_cons] at hseg
    obtain ⟨h0, hseg1⟩ := seg_cons hseg
    rw [List.length_cons] at hsize
    obtain ⟨o1, hd1, hf1⟩ := dump_leaf js B f (t + 1 + j) p v (hv v (List.mem_cons_self _ _))
      (by rw [hq]; exact h0)
    obtain ⟨o3, hd3, hf3⟩ := ih t size (i + 1) (j + 1) (q + 1) (by push_cast; omega) hseg1
      (fun x hx => hv x (List.mem_cons_of_mem _ hx)) (by push_cast at hsize; omega)
    refine ⟨o1 ++ (if i < size - 1 then [[44]] else []) ++ o3, ?_, ?_⟩
    · rw [List.length_cons, dump_array_loop, hd1]
      simp only [hd3, Run.ok.injEq, Prod.mk.injEq, true_and]
      push_cast
      omega
    · rw [List.flatten_append, List.flatten_append, hf1, hf3, elems_text_cons,
        List.append_assoc]
      congr 2
      by_cases hvs : vs = []
      · subst hvs
        rw [if_neg (by simp at hsize; omega)]
        simp
      · have : 0 < vs.length := List.length_pos.2 hvs
        rw [if_pos (by push_cast at hsize; omega), if_neg hvs]
        simp

/-- The serializer on an Array token of the Builder and its elements. -/
theorem dump_array_token (js : List Nat) (B : List jsmn_Token) (f : Nat) (p p2 : Int)
    (vs : List Leaf) (q : Nat)
    (hseg : Seg B q (built_cont JSMN_ARRAY (vs.length : Int) p :: vs.map (built_leaf p2)))
    (hv : ∀ v ∈ vs, leaf_ok v) :
    ∃ out, jsmn_dump js B (f + 1 + 1) (q : Int) = Run.ok (out, (vs.length : Int) + 1) ∧
      out.flatten = 91 :: elems_text vs ++ [93] := by
  obtain ⟨h0, hseg1⟩ := seg_cons hseg
  obtain ⟨o, hd, hf⟩ := dump_elems js B f p2 vs (q : Int) (vs.length : Int) 0 0 (q + 1)
    (by push_cast; omega) hseg1 hv (by omega)
  refine ⟨[[91]] ++ o ++ [[93]], ?_, ?_⟩
  · rw [jsmn_dump_array (f + 1) h0 rfl]
    have e : (built_cont JSMN_ARRAY (vs.length : Int) p).size = (vs.length : Int) := rfl
    rw [e, Int.toNat_ofNat, hd]
    simp
  · simp [hf]

/-- The loop of the serializer over the members of an Object of the Builder. -/
theorem dump_members (js : List Nat) (B : List jsmn_Token) :
    ∀ (ms : Members) (fuel : Nat) (t size i j : Int) (q n : Nat) (s : Int),
      members_size ms ≤ fuel → t + 1 + j = (q : Int) → Seg B q (built_members n s ms) →
      members_ok ms → size - i = (members_count ms : Int) →
      ∃ out, dump_object_loop (fun u => jsmn_dump js B fuel u) t size (members_count ms) i j =
          Run.ok (out, j + (members_size ms : Int)) ∧ out.flatten = members_text ms := by
  intro ms
  induction ms with
  | nil =>
    intro fuel t size i j q n s _ _ _ _ _
    exact ⟨[], by simp [dump_object_loop, members_count, members_size], rfl⟩
  | leaf name v rest ih =>
    intro fuel t size i j q n s hfuel hq hseg hok hsize
    simp only [members_size] at hfuel
    obtain ⟨f, rfl⟩ : ∃ f, fuel = f + 1 := ⟨fuel - 1, by omega⟩
    simp only [built_members] at hseg
    obtain ⟨h0, hseg1⟩ := seg_cons hseg
    obtain ⟨h1, hseg2⟩ := seg_cons hseg1
    obtain ⟨hn, hv, hrest⟩ := hok
    simp only [members_count] at hsize
    obtain ⟨o1, hd1, hf1⟩ := dump_label js B f (t + 1 + j) s name hn (by rw [hq]; exact h0)
    obtain ⟨o2, hd2, hf2⟩ := dump_leaf js B f (t + 1 + (j + 1)) (n : Int) v hv
      (by rw [show t + 1 + (j + 1) = ((q + 1 : Nat) : Int) by push_cast; omega]; exact h1)
    obtain ⟨o3, hd3, hf3⟩ := ih (f + 1) t size (i + 1) (j + 1 + 1) (q + 1 + 1) (n + 2) s
      (by omega) (by push_cast; omega) hseg2 hrest (by push_cast at hsize; omega)
    refine ⟨o1 ++ o2 ++ (if i < size - 1 then [[44]] else []) ++ o3, ?_, ?_⟩
    · rw [members_count, dump_object_loop, hd1]
      simp only [hd2, hd3, Run.ok.injEq, Prod.mk.injEq, true_and, members_size]
      push_cast
      omega
    · simp only [List.flatten_append, hf1, hf2, hf3, members_text, members_sep_eq]
      by_cases hc : members_count rest = 0
      · rw [if_pos hc, if_neg (by push_cast at hsize; omega)]
        simp
      · rw [if_neg hc, if_pos (by push_cast at hsize; omega)]
        simp
  | arr name vs rest ih =>
    intro fuel t size i j q n s hfuel hq hseg hok hsize
    simp only [members_size] at hfuel
    obtain ⟨f, rfl⟩ : ∃ f, fuel = f + 1 + 1 := ⟨fuel - 2, by omega⟩
    simp only [built_members] at hseg
    obtain ⟨h0, hseg1⟩ := seg_cons hseg
    rw [← List.cons_append] at hseg1
    obtain ⟨hseg2, hseg3⟩ := seg_append hseg1
    obtain ⟨hn, hv, hrest⟩ := hok
    simp only [members_count] at hsize
    obtain ⟨o1, hd1, hf1⟩ := dump_label js B (f + 1) (t + 1 + j) s name hn
      (by rw [hq]; exact h0)
    obtain ⟨o2, hd2, hf2⟩ := dump_array_token js B f (n : Int) ((n + 1 : Nat) : Int) vs (q + 1)
      hseg2 hv
    rw [show ((q + 1 : Nat) : Int) = t + 1 + (j + 1) by push_cast; omega] at hd2
    simp only [List.length_cons, List.length_map] at hseg3
    obtain ⟨o3, hd3, hf3⟩ := ih (f + 1 + 1) t size (i + 1) (j + 1 + ((vs.length : Int) + 1))
      (q + 1 + (vs.length + 1)) (n + 2 + vs.length) s
      (by omega) (by push_cast; omega) hseg3 hrest (by push_cast at hsize; omega)
    refine ⟨o1 ++ o2 ++ (if i < size - 1 then [[44]] else []) ++ o3, ?_, ?_⟩
    · rw [members_count, dump_object_loop, hd1]
      simp only [hd2, hd3, Run.ok.injEq, Prod.mk.injEq, true_and, members_size]
      push_cast
      omega
    · simp only [List.flatten_append, hf1, hf2, hf3, members_text, members_sep_eq]
      by_cases hc : members_count rest = 0
      · rw [if_pos hc, if_neg (by push_cast at hsize; omega)]
        simp
      · rw [if_neg hc, if_pos (by push_cast at hsize; omega)]
        simp
  | obj name inner rest ih1 ih2 =>
    intro fuel t size i j q n s hfuel hq hseg hok hsize
    simp only [members_size] at hfuel
    obtain ⟨f, rfl⟩ : ∃ f, fuel = f + 1 := ⟨fuel - 1, by omega⟩
    simp only [built_members] at hseg
    obtain ⟨h0, hseg1⟩ := seg_cons hseg
    obtain ⟨h1, hseg1a⟩ := seg_cons hseg1
    obtain ⟨hseg2, hseg3⟩ := seg_append hseg1a
    obtain ⟨hn, hin, hrest⟩ := hok
    simp only [members_count] at hsize
    obtain ⟨o1, hd1, hf1⟩ := dump_label js B f (t + 1 + j) s name hn (by rw [hq]; exact h0)
    obtain ⟨oi, hdi, hfi⟩ := ih1 f ((q + 1 : Nat) : Int) (members_count inner : Int) 0 0
      (q + 1 + 1) (n + 2) ((n + 1 : Nat) : Int) (by omega) (by push_cast; omega) hseg2 hin
      (by omega)
    have hd2 : jsmn_dump js B (f + 1) (t + 1 + (j + 1)) =
        Run.ok ([[123]] ++ oi ++ [[125]], (members_size inner : Int) + 1) := by
      rw [show t + 1 + (j + 1) = ((q + 1 : Nat) : Int) by push_cast; omega,
        jsmn_dump_object f h1 rfl]
      have e : (built_cont JSMN_OBJECT (members_count inner : Int) (n : Int)).size
          = (members_count inner : Int) := rfl
      rw [e, Int.toNat_ofNat, hdi]
      simp
    rw [built_members_length] at hseg3
    obtain ⟨o3, hd3, hf3⟩ := ih2 (f + 1) t size (i + 1)
      (j + 1 + ((members_size inner : Int) + 1))
      (q + 1 + 1 + members_size inner) (n + 2 + members_size inner) s
      (by omega) (by push_cast; omega) hseg3 hrest (by push_cast at hsize; omega)
    refine ⟨o1 ++ ([[123]] ++ oi ++ [[125]]) ++ (if i < size - 1 then [[44]] else []) ++ o3,
      ?_, ?_⟩
    · rw [members_count, dump_object_loop, hd1]
      simp only [hd2, hd3, Run.ok.injEq, Prod.mk.injEq, true_and, members_size]
      push_cast
      omega
    · simp only [List.flatten_append, hf1, hfi, hf3, members_text, members_sep_eq]
      by_cases hc : members_count rest = 0
      · rw [if_pos hc, if_neg (by push_cast at hsize; omega)]
        simp
      · rw [if_neg hc, if_pos (by push_cast at hsize; omega)]
        simp

/-! ## The text of a tree is a text of the grammar -/

theorem ws_nil : Ws [] := by
  intro c hc; simp at hc

theorem gram_cast {S P : List Nat → Prop} {kind : Kind} {o n : Nat} {s : Int}
    {text text1 : List Nat} {T : List jsmn_Token} {k : Nat}
    (h : Gram S P kind o n s text T k) (ht : text = text1) : Gram S P kind o n s text1 T k := by
  subst ht; exact h

theorem gram_item_plain {S P : List Nat → Prop} {o n : Nat} {s : Int}
    {text : List Nat} {T : List jsmn_Token}
    (h : Gram S P Kind.value o n s text T 1) : Gram S P Kind.item o n s text T 1 :=
  gram_cast (Gram.item o n s [] text [] T ws_nil ws_nil h) (by simp)

/-- A leaf as a value. -/
theorem val_leaf (n : Nat) (s : Int) (v : Leaf) (hv : leaf_ok v) (o : Nat) :
    ∃ T, Gram ScanStr ValidPrim Kind.value o n s (leaf_text v) T 1 ∧
      T.map shape = [shape (built_leaf s v)] := by
  cases v with
  | str x => exact ⟨_, Gram.str o n s x hv, rfl⟩
  | prim x => exact ⟨_, Gram.prim o n s x hv, rfl⟩

/-- The elements of an Array. -/
theorem gram_elems : ∀ (vs : List Leaf), vs ≠ [] → (∀ v ∈ vs, leaf_ok v) →
    ∀ (o n : Nat) (s : Int), ∃ T,
      Gram ScanStr ValidPrim Kind.elems o n s (elems_text vs) T vs.length ∧
      T.map shape = vs.map (fun v => shape (built_leaf s v)) := by
  intro vs
  induction vs with
  | nil => intro h; exact absurd rfl h
  | cons v vs ih =>
    intro _ hv o n s
    obtain ⟨T, hT, hsh⟩ := val_leaf n s v (hv v (List.mem_cons_self _ _)) o
    have hlen : T.length = 1 := by
      have := congrArg List.length hsh
      simpa using this
    cases vs with
    | nil =>
      exact ⟨T, Gram.elems_one o n s _ T (gram_item_plain hT), by simpa using hsh⟩
    | cons w ws =>
      obtain ⟨T1, hT1, hsh1⟩ := ih (by simp) (fun x hx => hv x (List.mem_cons_of_mem _ hx))
        (o + (leaf_text v).length + 1) (n + T.length) s
      refine ⟨T ++ T1, Gram.elems_cons o n s _ _ T T1 _ (gram_item_plain hT) hT1, ?_⟩
      rw [List.map_append, hsh, hsh1]
      rfl

/-- An Array of leaves as a value. -/
theorem val_arr (n : Nat) (s : Int) (vs : List Leaf) (hv : ∀ v ∈ vs, leaf_ok v) (o : Nat) :
    ∃ T, Gram ScanStr ValidPrim Kind.value o n s (91 :: elems_text vs ++ [93]) T 1 ∧
      T.map shape = shape (built_cont JSMN_ARRAY (vs.length : Int) s) ::
        vs.map (fun v => shape (built_leaf (n : Int) v)) := by
  by_cases hvs : vs = []
  · subst hvs
    exact ⟨_, Gram.arr_empty o n s [] ws_nil, rfl⟩
  · obtain ⟨T, hT, hsh⟩ := gram_elems vs hvs hv (o + 1) (n + 1) (n : Int)
    refine ⟨_, Gram.arr o n s _ T _ hT, ?_⟩
    rw [List.map_cons, hsh]
    rfl

/-- An Object as a value, given its members. -/
theorem val_obj (n : Nat) (s : Int) (inner : Members) (Sh : List (jsmntype_t × Int × Int))
    (hin : (inner = Members.nil ∧ Sh = []) ∨ ∀ o, ∃ T,
      Gram ScanStr ValidPrim Kind.members o (n + 1) (n : Int) (members_text inner) T
        (members_count inner) ∧ T.map shape = Sh) (o : Nat) :
    ∃ T, Gram ScanStr ValidPrim Kind.value o n s (123 :: members_text inner ++ [125]) T 1 ∧
      T.map shape = shape (built_cont JSMN_OBJECT (members_count inner : Int) s) :: Sh := by
  rcases hin with ⟨rfl, rfl⟩ | hin
  · exact ⟨_, Gram.obj_empty o n s [] ws_nil, rfl⟩
  · obtain ⟨T, hT, hsh⟩ := hin (o + 1)
    refine ⟨_, Gram.obj o n s _ T _ hT, ?_⟩
    rw [List.map_cons, hsh]
    rfl

/-- A name and a value as a member. -/
theorem gram_member_plain {S P : List Nat → Prop} (o n : Nat) (s : Int)
    (name vtext : List Nat) (Sh : List (jsmntype_t × Int × Int)) (hn : S name)
    (hv : ∀ o1, ∃ T, Gram S P Kind.value o1 (n + 1) (n : Int) vtext T 1 ∧ T.map shape = Sh) :
    ∃ T, Gram S P Kind.member o n s (34 :: name ++ 34 :: 58 :: vtext) T 1 ∧
      T.map shape = (JSMN_LABEL, 1, s) :: Sh := by
  obtain ⟨T, hT, hsh⟩ := hv (o + ([] : List Nat).length + name.length + 2 +
    ([] : List Nat).length + 1)
  refine ⟨_, gram_cast (Gram.member o n s [] name [] vtext T ws_nil hn ws_nil
    (gram_item_plain hT)) (by simp), ?_⟩
  rw [List.map_cons, hsh]
  rfl

/-- One member and the members after it. -/
theorem gram_members_step (o n : Nat) (s : Int) (mtext : List Nat) (rest : Members)
    (Sh : List (jsmntype_t × Int × Int))
    (hm : ∀ o1, ∃ T, Gram ScanStr ValidPrim Kind.member o1 n s mtext T 1 ∧ T.map shape = Sh)
    (hrest : rest ≠ Members.nil → ∀ (o1 : Nat), ∃ T,
      Gram ScanStr ValidPrim Kind.members o1 (n + Sh.length) s (members_text rest) T
        (members_count rest) ∧
      T.map shape = (built_members (n + Sh.length) s rest).map shape) :
    ∃ T, Gram ScanStr ValidPrim Kind.members o n s
        (mtext ++ (members_sep rest ++ members_text rest)) T (members_count rest + 1) ∧
      T.map shape = Sh ++ (built_members (n + Sh.length) s rest).map shape := by
  obtain ⟨T, hT, hsh⟩ := hm o
  have hlen : T.length = Sh.length := by
    have := congrArg List.length hsh
    simpa using this
  by_cases hr : rest = Members.nil
  · subst hr
    refine ⟨T, gram_cast (Gram.members_one o n s _ T hT) (by simp [members_sep, members_text]),
      ?_⟩
    simp [built_members, hsh]
  · obtain ⟨T1, hT1, hsh1⟩ := hrest hr (o + mtext.length + 1)
    rw [← hlen] at hT1
    refine ⟨T ++ T1, gram_cast (Gram.members_cons o n s mtext _ T T1 _ hT hT1) ?_, ?_⟩
    · have : members_sep rest = [44] := by
        cases rest with
        | nil => exact absurd rfl hr
        | leaf _ _ _ => rfl
        | arr _ _ _ => rfl
        | obj _ _ _ => rfl
      rw [this]
      simp
    · rw [List.map_append, hsh, hsh1]

/-- The members of an Object. -/
theorem gram_members : ∀ (ms : Members), ms ≠ Members.nil → members_ok ms →
    ∀ (n : Nat) (s : Int) (o : Nat), ∃ T,
      Gram ScanStr ValidPrim Kind.members o n s (members_text ms) T (members_count ms) ∧
      T.map shape = (built_members n s ms).map shape := by
  intro ms
  induction ms with
  | nil => intro h; exact absurd rfl h
  | leaf name v rest ih =>
    intro _ hok n s o
    obtain ⟨hn, hv, hrest⟩ := hok
    obtain ⟨T, hT, hsh⟩ := gram_members_step o n s (34 :: name ++ 34 :: 58 :: leaf_text v) rest
      ((JSMN_LABEL, 1, s) :: [shape (built_leaf (n : Int) v)])
      (fun o1 => gram_member_plain o1 n s name (leaf_text v) _ hn
        (val_leaf (n + 1) (n : Int) v hv))
      (fun hr o1 => ih hr hrest _ s o1)
    refine ⟨T, gram_cast hT (by simp [members_text]), ?_⟩
    rw [hsh]
    simp [built_members, shape, built_label]
  | arr name vs rest ih =>
    intro _ hok n s o
    obtain ⟨hn, hv, hrest⟩ := hok
    obtain ⟨T, hT, hsh⟩ := gram_members_step o n s
      (34 :: name ++ 34 :: 58 :: (91 :: elems_text vs ++ [93])) rest
      ((JSMN_LABEL, 1, s) :: shape (built_cont JSMN_ARRAY (vs.length : Int) (n : Int)) ::
        vs.map (fun v => shape (built_leaf ((n + 1 : Nat) : Int) v)))
      (fun o1 => gram_member_plain o1 n s name _ _ hn (val_arr (n + 1) (n : Int) vs hv))
      (fun hr o1 => ih hr hrest _ s o1)
    refine ⟨T, gram_cast hT (by simp [members_text]), ?_⟩
    rw [hsh]
    simp only [List.length_cons, List.length_map]
    rw [show n + (vs.length + 1 + 1) = n + 2 + vs.length by omega]
    simp only [built_members, List.map_cons, List.map_append, List.map_map, List.cons_append]
    rfl
  | obj name inner rest ih1 ih2 =>
    intro _ hok n s o
    obtain ⟨hn, hin, hrest⟩ := hok
    have hval : ∀ o1, ∃ T, Gram ScanStr ValidPrim Kind.value o1 (n + 1) (n : Int)
        (123 :: members_text inner ++ [125]) T 1 ∧
        T.map shape = shape (built_cont JSMN_OBJECT (members_count inner : Int) (n : Int)) ::
          (built_members (n + 1 + 1) ((n + 1 : Nat) : Int) inner).map shape := by
      intro o1
      by_cases hi : inner = Members.nil
      · subst hi
        exact val_obj (n + 1) (n : Int) Members.nil _ (Or.inl ⟨rfl, rfl⟩) o1
      · exact val_obj (n + 1) (n : Int) inner _
          (Or.inr (fun o2 => ih1 hi hin (n + 1 + 1) ((n + 1 : Nat) : Int) o2)) o1
    obtain ⟨T, hT, hsh⟩ := gram_members_step o n s
      (34 :: name ++ 34 :: 58 :: (123 :: members_text inner ++ [125])) rest
      ((JSMN_LABEL, 1, s) :: shape (built_cont JSMN_OBJECT (members_count inner : Int) (n : Int)) ::
        (built_members (n + 1 + 1) ((n + 1 : Nat) : Int) inner).map shape)
      (fun o1 => gram_member_plain o1 n s name _ _ hn hval)
      (fun hr o1 => ih2 hr hrest _ s o1)
    refine ⟨T, gram_cast hT (by simp [members_text]), ?_⟩
    rw [hsh]
    simp only [List.length_cons, List.length_map, built_members_length]
    rw [show n + (members_size inner + 1 + 1) = n + 2 + members_size inner by omega]
    simp only [built_members, List.map_cons, List.map_append, List.cons_append]
    rfl

theorem shape_resolve (t : jsmn_Token) : shape (resolve_token t) = shape t := by
  unfold shape
  rw [resolve_token_type, resolve_token_size, resolve_token_parent]

theorem map_shape_resolve (T : List jsmn_Token) :
    (T.map resolve_token).map shape = T.map shape := by
  rw [List.map_map]
  congr 1
  funext t
  exact shape_resolve t

/-- The text of a tree is a text of one Object or Array, and its tokens have
the shape of the tokens the Builder makes. -/
theorem gram_tree (r : Tree) (hok : tree_ok r) :
    ∃ T, Gram ScanStr ValidPrim Kind.item 0 0 (-1) (tree_text r) T 1 ∧ IsCont T ∧
      T.map shape = (built_tree r).map shape := by
  cases r with
  | obj ms =>
    have hval : ∃ T, Gram ScanStr ValidPrim Kind.value 0 0 (-1)
        (123 :: members_text ms ++ [125]) T 1 ∧
        T.map shape = shape (built_cont JSMN_OBJECT (members_count ms : Int) (-1)) ::
          (built_members (0 + 1) ((0 : Nat) : Int) ms).map shape := by
      by_cases hi : ms = Members.nil
      · subst hi
        exact val_obj 0 (-1) Members.nil _ (Or.inl ⟨rfl, rfl⟩) 0
      · exact val_obj 0 (-1) ms _
          (Or.inr (fun o2 => gram_members ms hi hok (0 + 1) ((0 : Nat) : Int) o2)) 0
    obtain ⟨T, hT, hsh⟩ := hval
    refine ⟨T, gram_item_plain hT, ?_, by rw [hsh]; rfl⟩
    cases T with
    | nil => simp at hsh
    | cons t T1 =>
      refine ⟨t, T1, rfl, Or.inl ?_⟩
      simp only [List.map_cons, List.cons.injEq] at hsh
      have := congrArg Prod.fst hsh.1
      exact this
  | arr vs =>
    obtain ⟨T, hT, hsh⟩ := val_arr 0 (-1) vs hok 0
    refine ⟨T, gram_item_plain hT, ?_, by rw [hsh]; simp [built_tree]⟩
    cases T with
    | nil => simp at hsh
    | cons t T1 =>
      refine ⟨t, T1, rfl, Or.inr ?_⟩
      simp only [List.map_cons, List.cons.injEq] at hsh
      have := congrArg Prod.fst hsh.1
      exact this

theorem built_tree_length (r : Tree) : (built_tree r).length = tree_size r := by
  cases r with
  | obj ms => simp [built_tree, tree_size, built_members_length]; omega
  | arr vs => simp [built_tree, tree_size]; omega

/-- The Builder calls of a tree on a fresh arena. -/
theorem run_tree (r : Tree) (cap : Nat) (hcap : tree_size r ≤ cap) :
    run_calls (tree_calls r) (jsmn_factory_init true cap) =
      Run.ok (some ⟨some (built_tree r), cap, -1⟩) := by
  have hinit : jsmn_factory_init true cap = ⟨some [], cap, -1⟩ := rfl
  rw [hinit]
  cases r with
  | obj ms =>
    simp only [tree_size] at hcap
    have h1 : run_call ⟨some [], cap, -1⟩ (BuilderCall.start_object none) = _ :=
      start_sequence_plain JSMN_OBJECT none (Or.inl rfl) (by simp; omega)
    rw [tree_calls, run_calls_cons _ h1 (by simp)]
    rw [bump_neg_one, List.nil_append]
    have hin := run_members ms [built_cont JSMN_OBJECT 0 (-1)] cap
      (((([] : List jsmn_Token).length : Nat)) : Int) _ rfl rfl (by simp; omega)
    have e : bumps (members_count ms) [built_cont JSMN_OBJECT 0 (-1)]
        (((([] : List jsmn_Token).length : Nat)) : Int) =
        [{ built_cont JSMN_OBJECT 0 (-1) with
           size := (built_cont JSMN_OBJECT 0 (-1)).size + (members_count ms : Int) }] :=
      bumps_mid (members_count ms) [] (built_cont JSMN_OBJECT 0 (-1)) []
    rw [e] at hin
    rw [run_calls_append _ _ hin]
    have h2 : ∀ (c : jsmn_Token) (X : List jsmn_Token), c.type = JSMN_OBJECT →
        c.parent = -1 →
        run_call ⟨some ([c] ++ X), cap, (((([] : List jsmn_Token).length : Nat)) : Int)⟩
          BuilderCall.end_object =
          Run.ok ((([c] ++ X).length : Int), ⟨some ([c] ++ X), cap, -1⟩) := by
      intro c X hc1 hc2
      exact end_sequence_root JSMN_OBJECT (show tokAt ([c] ++ X) (((([] : List jsmn_Token).length : Nat)) : Int) = some c from rfl) hc1 hc2
    rw [run_calls_cons _ (h2 _ _ rfl rfl) (by omega)]
    simp [run_calls, built_tree, built_cont]
  | arr vs =>
    simp only [tree_size] at hcap
    have h1 : run_call ⟨some [], cap, -1⟩ (BuilderCall.start_array none) = _ :=
      start_sequence_plain JSMN_ARRAY none (Or.inl rfl) (by simp; omega)
    rw [tree_calls, run_calls_cons _ h1 (by simp)]
    rw [bump_neg_one, List.nil_append]
    have hin := run_elems vs [built_cont JSMN_ARRAY 0 (-1)] cap
      (((([] : List jsmn_Token).length : Nat)) : Int) _ rfl rfl (by simp; omega)
    have e : bumps vs.length [built_cont JSMN_ARRAY 0 (-1)]
        (((([] : List jsmn_Token).length : Nat)) : Int) =
        [{ built_cont JSMN_ARRAY 0 (-1) with
           size := (built_cont JSMN_ARRAY 0 (-1)).size + (vs.length : Int) }] :=
      bumps_mid vs.length [] (built_cont JSMN_ARRAY 0 (-1)) []
    rw [e] at hin
    rw [run_calls_append _ _ hin]
    have h2 : ∀ (c : jsmn_Token) (X : List jsmn_Token), c.type = JSMN_ARRAY →
        c.parent = -1 →
        run_call ⟨some ([c] ++ X), cap, (((([] : List jsmn_Token).length : Nat)) : Int)⟩
          BuilderCall.end_array =
          Run.ok ((([c] ++ X).length : Int), ⟨some ([c] ++ X), cap, -1⟩) := by
      intro c X hc1 hc2
      exact end_sequence_root JSMN_ARRAY (show tokAt ([c] ++ X) (((([] : List jsmn_Token).length : Nat)) : Int) = some c from rfl) hc1 hc2
    rw [run_calls_cons _ (h2 _ _ rfl rfl) (by omega)]
    simp [run_calls, built_tree, built_cont]

/-- The serializer on the tokens of a tree. -/
theorem dump_tree (js : List Nat) (r : Tree) (hok : tree_ok r) (fuel : Nat)
    (hfuel : tree_size r < fuel) :
    ∃ out, jsmn_dump js (built_tree r) fuel 0 = Run.ok (out, (tree_size r : Int)) ∧
      out.flatten = tree_text r := by
  cases r with
  | obj ms =>
    simp only [tree_size] at hfuel
    obtain ⟨f, rfl⟩ : ∃ f, fuel = f + 1 := ⟨fuel - 1, by omega⟩
    have hseg : Seg (built_tree (Tree.obj ms)) 1 (built_members 1 ((0 : Nat) : Int) ms) :=
      ⟨[built_cont JSMN_OBJECT (members_count ms : Int) (-1)], [], by simp [built_tree], rfl⟩
    obtain ⟨o, hd, hf⟩ := dump_members js (built_tree (Tree.obj ms)) ms f 0
      (members_count ms : Int) 0 0 1 1 ((0 : Nat) : Int) (by omega) (by simp) hseg hok (by simp)
    refine ⟨[[123]] ++ o ++ [[125]], ?_, ?_⟩
    · have h0 : tokAt (built_tree (Tree.obj ms)) 0 =
          some (built_cont JSMN_OBJECT (members_count ms : Int) (-1)) := rfl
      rw [jsmn_dump_object f h0 rfl]
      have e : (built_cont JSMN_OBJECT (members_count ms : Int) (-1)).size
          = (members_count ms : Int) := rfl
      rw [e, Int.toNat_ofNat, hd]
      simp [tree_size]
      omega
    · simp [hf, tree_text]
  | arr vs =>
    simp only [tree_size] at hfuel
    obtain ⟨f, rfl⟩ : ∃ f, fuel = f + 1 + 1 := ⟨fuel - 2, by omega⟩
    have hseg : Seg (built_tree (Tree.arr vs)) 0
        (built_cont JSMN_ARRAY (vs.length : Int) (-1) :: vs.map (built_leaf ((0 : Nat) : Int))) :=
      ⟨[], [], by simp [built_tree], rfl⟩
    obtain ⟨o, hd, hf⟩ := dump_array_token js _ f (-1) ((0 : Nat) : Int) vs 0 hseg hok
    refine ⟨o, ?_, by rw [hf]; rfl⟩
    rw [show ((0 : Nat) : Int) = 0 by rfl] at hd
    rw [hd]
    simp [tree_size]
    omega

end Jsmn

namespace Jsmn
open jsmntype_t

/-! ## Every outcome of a Builder call -/

theorem alloc_none (l : List jsmn_Token) (cap : Nat) (s : Int) (n : Nat) (hn : 0 < n)
    (h : cap < l.length + n) : jsmn_alloc_token ⟨some l, cap, s⟩ n = none := by
  unfold jsmn_alloc_token jsmn_Factory.toknext
  simp only
  rw [if_pos (by omega)]

theorem in_object_true {l : List jsmn_Token} {c : Int} (h : in_object l c = true) :
    ∃ t, tokAt l c = some t ∧ t.type = JSMN_OBJECT := by
  unfold in_object at h
  cases ht : tokAt l c with
  | none => rw [ht] at h; simp at h
  | some t =>
    rw [ht] at h
    exact ⟨t, rfl, by simpa using h⟩

theorem in_object_false {l : List jsmn_Token} {c : Int} (hsup : SupOK l c)
    (h : in_object l c = false) :
    c = -1 ∨ ∃ t, tokAt l c = some t ∧ t.type ≠ JSMN_OBJECT := by
  rcases hsup with h1 | ⟨h0, h1⟩
  · exact Or.inl h1
  · right
    obtain ⟨t, ht⟩ := tokAt_isSome h0 h1
    refine ⟨t, ht, ?_⟩
    unfold in_object at h
    rw [ht] at h
    simpa using h

theorem in_object_of_tokAt {l : List jsmn_Token} {c : Int} {t : jsmn_Token}
    (h : tokAt l c = some t) : in_object l c = decide (t.type = JSMN_OBJECT) := by
  unfold in_object
  rw [h]

theorem prepare_in_object_eq {l : List jsmn_Token} {c : Int} (cap : Nat) (hsup : SupOK l c) :
    prepare_in_object ⟨some l, cap, c⟩ = Run.ok (in_object l c) := by
  rcases hsup with h1 | ⟨h0, h1⟩
  · subst h1
    rw [prepare_in_object_root]
    unfold in_object
    rw [tokAt_neg (by omega)]
  · obtain ⟨t, ht⟩ := tokAt_isSome h0 h1
    rw [prepare_in_object_at ht, in_object_of_tokAt ht]

/-- `jsmn_prepare_append` returns NULL and changes nothing when the name is
missing inside an Object or the slots do not suffice. -/
theorem prepare_append_none {l : List jsmn_Token} {cap : Nat} {c : Int}
    (name : Option (List Nat)) (hsup : SupOK l c)
    (h : (in_object l c = true ∧ name = none) ∨ cap < l.length + slots_needed l c) :
    jsmn_prepare_append ⟨some l, cap, c⟩ name = Run.ok none := by
  unfold jsmn_prepare_append
  rw [prepare_in_object_eq cap hsup]
  simp only
  by_cases ha : in_object l c = true ∧ name = none
  · rw [if_pos ha]
  · rw [if_neg ha]
    have hb : cap < l.length + slots_needed l c := by
      rcases h with h | h
      · exact absurd h ha
      · exact h
    rw [alloc_none l cap c _ (by split <;> omega) (by
      unfold slots_needed at hb
      exact hb)]

/-- An append call outside an Object. -/
theorem append_simple_plain {l : List jsmn_Token} {cap : Nat} {c : Int} (ty : jsmntype_t)
    (name value : Option (List Nat))
    (hs : c = -1 ∨ ∃ t, tokAt l c = some t ∧ t.type ≠ JSMN_OBJECT)
    (hcap : l.length + 1 ≤ cap) :
    jsmn_append_simple ⟨some l, cap, c⟩ ty name value =
      Run.ok (((l.length + 1 : Nat) : Int),
        ⟨some (bump l c ++ [simple_token ty value c]), cap, c⟩) := by
  unfold jsmn_append_simple
  rw [prepare_append_plain name hs hcap]
  simp only
  rw [tokAt_bump_append_last]
  simp only
  rw [tokSet_bump_last]
  cases value <;>
    simp [jsmn_Factory.toknext, bump_length, simple_token, data_of, fresh_token]

/-- An append call inside an Object. -/
theorem append_simple_object {l : List jsmn_Token} {cap : Nat} {c : Int} {t : jsmn_Token}
    (ty : jsmntype_t) (nm : List Nat) (value : Option (List Nat))
    (ht : tokAt l c = some t) (hty : t.type = JSMN_OBJECT) (hcap : l.length + 2 ≤ cap) :
    jsmn_append_simple ⟨some l, cap, c⟩ ty (some nm) value =
      Run.ok (((l.length + 2 : Nat) : Int),
        ⟨some (bump l c ++ [built_label nm c, simple_token ty value (l.length : Int)]),
          cap, c⟩) := by
  unfold jsmn_append_simple
  rw [prepare_append_object nm ht hty hcap]
  simp only
  rw [tokAt_bump_last2]
  simp only
  rw [tokSet_bump_last2]
  cases value <;>
    simp [jsmn_Factory.toknext, bump_length, simple_token, data_of, fresh_token]

theorem append_simple_fail {l : List jsmn_Token} {cap : Nat} {c : Int} (ty : jsmntype_t)
    (name value : Option (List Nat)) (hsup : SupOK l c)
    (h : (in_object l c = true ∧ name = none) ∨ cap < l.length + slots_needed l c) :
    jsmn_append_simple ⟨some l, cap, c⟩ ty name value =
      Run.ok (JSMN_ERROR_FACTORY, ⟨some l, cap, c⟩) := by
  unfold jsmn_append_simple
  rw [prepare_append_none name hsup h]

theorem start_sequence_fail {l : List jsmn_Token} {cap : Nat} {c : Int} (ty : jsmntype_t)
    (name : Option (List Nat)) (hsup : SupOK l c)
    (h : (in_object l c = true ∧ name = none) ∨ cap < l.length + slots_needed l c) :
    jsmn_start_sequence ⟨some l, cap, c⟩ ty name =
      Run.ok (JSMN_ERROR_FACTORY, ⟨some l, cap, c⟩) := by
  unfold jsmn_start_sequence
  rw [prepare_append_none name hsup h]

theorem run_call_start {factory : jsmn_Factory} {call : BuilderCall} {ty : jsmntype_t}
    {name : Option (List Nat)} (h : call_start call = some (ty, name)) :
    run_call factory call = jsmn_start_sequence factory ty name := by
  cases call <;> simp only [call_start, Option.some.injEq, Prod.mk.injEq] at h <;>
    first
    | (obtain ⟨rfl, rfl⟩ := h; rfl)
    | exact absurd h (by simp)

theorem run_call_simple {factory : jsmn_Factory} {call : BuilderCall} {ty : jsmntype_t}
    {name value : Option (List Nat)} (h : call_simple call = some (ty, name, value)) :
    run_call factory call = jsmn_append_simple factory ty name value := by
  cases call <;> simp only [call_simple, Option.some.injEq, Prod.mk.injEq] at h <;>
    first
    | (obtain ⟨rfl, rfl, rfl⟩ := h; rfl)
    | exact absurd h (by simp)

theorem run_call_end {factory : jsmn_Factory} {call : BuilderCall} {ty : jsmntype_t}
    (h : call_end call = some ty) :
    run_call factory call = jsmn_end_sequence factory ty := by
  cases call <;> simp only [call_end, Option.some.injEq] at h <;>
    first
    | (subst h; rfl)
    | exact absurd h (by simp)

theorem call_kind (call : BuilderCall) :
    (∃ ty name, call_start call = some (ty, name) ∧ call_name call = name ∧
      is_producer call = true ∧ (ty = JSMN_OBJECT ∨ ty = JSMN_ARRAY)) ∨
    (∃ ty name value, call_simple call = some (ty, name, value) ∧ call_name call = name ∧
      is_producer call = true ∧ (ty = JSMN_STRING ∨ ty = JSMN_PRIMITIVE)) ∨
    (∃ ty, call_end call = some ty ∧ is_producer call = false) := by
  cases call with
  | start_object name => exact Or.inl ⟨_, _, rfl, rfl, rfl, Or.inl rfl⟩
  | end_object => exact Or.inr (Or.inr ⟨_, rfl, rfl⟩)
  | start_array name => exact Or.inl ⟨_, _, rfl, rfl, rfl, Or.inr rfl⟩
  | end_array => exact Or.inr (Or.inr ⟨_, rfl, rfl⟩)
  | append_string name value => exact Or.inr (Or.inl ⟨_, _, _, rfl, rfl, rfl, Or.inl rfl⟩)
  | append_primitive name value => exact Or.inr (Or.inl ⟨_, _, _, rfl, rfl, rfl, Or.inr rfl⟩)

theorem slots_needed_true {l : List jsmn_Token} {c : Int} (h : in_object l c = true) :
    slots_needed l c = 2 := by
  unfold slots_needed; rw [if_pos h]

theorem slots_needed_false {l : List jsmn_Token} {c : Int} (h : in_object l c = false) :
    slots_needed l c = 1 := by
  unfold slots_needed; rw [if_neg (by simp [h])]

/-- A start or append call: it fails, with `JSMN_ERROR_FACTORY` and without
any change, exactly when the name is missing inside an Object or the slots do
not suffice; otherwise it appends its tokens and returns the new `toknext`. -/
theorem producer_cases (l : List jsmn_Token) (cap : Nat) (c : Int) (call : BuilderCall)
    (hprod : is_producer call = true) (hsup : SupOK l c) :
    (((in_object l c = true ∧ call_name call = none) ∨ cap < l.length + slots_needed l c) ∧
      run_call ⟨some l, cap, c⟩ call = Run.ok (JSMN_ERROR_FACTORY, ⟨some l, cap, c⟩)) ∨
    (¬ ((in_object l c = true ∧ call_name call = none) ∨ cap < l.length + slots_needed l c) ∧
      ∃ l1 c1, run_call ⟨some l, cap, c⟩ call = Run.ok ((l1.length : Int), ⟨some l1, cap, c1⟩) ∧
        BuildStep l cap c call (l1.length : Int) l1 c1 ∧
        l1.length = l.length + slots_needed l c) := by
  by_cases hf : (in_object l c = true ∧ call_name call = none) ∨
      cap < l.length + slots_needed l c
  · left
    refine ⟨hf, ?_⟩
    rcases call_kind call with ⟨ty, name, h1, h2, _, _⟩ | ⟨ty, name, value, h1, h2, _, _⟩ |
      ⟨ty, h1, h2⟩
    · rw [run_call_start h1]
      rw [h2] at hf
      exact start_sequence_fail ty name hsup hf
    · rw [run_call_simple h1]
      rw [h2] at hf
      exact append_simple_fail ty name value hsup hf
    · rw [hprod] at h2; simp at h2
  · right
    refine ⟨hf, ?_⟩
    simp only [not_or, not_and, not_lt] at hf
    obtain ⟨hname, hcap⟩ := hf
    by_cases hin : in_object l c = true
    · obtain ⟨t, ht, hty⟩ := in_object_true hin
      rw [slots_needed_true hin] at hcap ⊢
      have hnm := hname hin
      obtain ⟨nm, hnm1⟩ := Option.ne_none_iff_exists'.1 hnm
      rcases call_kind call with ⟨ty, name, h1, h2, _, _⟩ | ⟨ty, name, value, h1, h2, _, _⟩ |
        ⟨ty, h1, h2⟩
      · rw [h2] at hnm1
        subst hnm1
        have hb : BuildStep l cap c call _ _ _ := BuildStep.start_named call ty nm h1 hin
        refine ⟨bump l c ++ [built_label nm c, built_cont ty 0 (l.length : Int)],
          ((l.length + 1 : Nat) : Int), ?_, ?_, ?_⟩
        · rw [run_call_start h1, start_sequence_object ty nm ht hty hcap]
          simp [bump_length]
        · simpa [bump_length] using hb
        · simp [bump_length]
      · rw [h2] at hnm1
        subst hnm1
        have hb : BuildStep l cap c call _ _ _ := BuildStep.append_named call ty nm value h1 hin
        refine ⟨bump l c ++ [built_label nm c, simple_token ty value (l.length : Int)], c,
          ?_, ?_, ?_⟩
        · rw [run_call_simple h1, append_simple_object ty nm value ht hty hcap]
          simp [bump_length]
        · simpa [bump_length] using hb
        · simp [bump_length]
      · rw [hprod] at h2; simp at h2
    · have hin0 : in_object l c = false := by simpa using hin
      have hs := in_object_false hsup hin0
      rw [slots_needed_false hin0] at hcap ⊢
      rcases call_kind call with ⟨ty, name, h1, h2, _, _⟩ | ⟨ty, name, value, h1, h2, _, _⟩ |
        ⟨ty, h1, h2⟩
      · have hb : BuildStep l cap c call _ _ _ := BuildStep.start call ty name h1 hin0
        refine ⟨bump l c ++ [built_cont ty 0 c], (l.length : Int), ?_, ?_, ?_⟩
        · rw [run_call_start h1, start_sequence_plain ty name hs hcap]
          simp [bump_length]
        · simpa [bump_length] using hb
        · simp [bump_length]
      · have hb : BuildStep l cap c call _ _ _ := BuildStep.append call ty name value h1 hin0
        refine ⟨bump l c ++ [simple_token ty value c], c, ?_, ?_, ?_⟩
        · rw [run_call_simple h1, append_simple_plain ty name value hs hcap]
          simp [bump_length]
        · simpa [bump_length] using hb
        · simp [bump_length]
      · rw [hprod] at h2; simp at h2

/-- An end call: it fails without any change, or it moves the superior
token. -/
theorem end_cases (l : List jsmn_Token) (cap : Nat) (c : Int) (call : BuilderCall)
    (ty : jsmntype_t) (h : call_end call = some ty) (hsup : SupOK l c) (hp : ParentsOK l) :
    run_call ⟨some l, cap, c⟩ call = Run.ok (JSMN_ERROR_FACTORY, ⟨some l, cap, c⟩) ∨
    ∃ c1, run_call ⟨some l, cap, c⟩ call = Run.ok ((l.length : Int), ⟨some l, cap, c1⟩) ∧
      BuildStep l cap c call (l.length : Int) l c1 := by
  rw [run_call_end h]
  rcases hsup with h1 | ⟨h0, h1⟩
  · left
    subst h1
    unfold jsmn_end_sequence
    simp
  · obtain ⟨tc, htc⟩ := tokAt_isSome h0 h1
    by_cases hty : tc.type = ty
    · by_cases hpar : tc.parent = -1
      · right
        exact ⟨-1, end_sequence_root ty htc hty hpar, BuildStep.end_root call ty tc h htc hty hpar⟩
      · have hpp := hp c.toNat tc (tokAt_eq_some.1 htc).2
        rcases hpp with hpp | ⟨ha, hb⟩
        · exact absurd hpp hpar
        · obtain ⟨tp, htp⟩ := tokAt_isSome (l := l) ha (by omega)
          by_cases hk : tp.type = JSMN_LABEL ∨ tp.type = JSMN_ARRAY
          · right
            refine ⟨tp.parent, ?_, BuildStep.end_up call ty tc tp h htc hty htp hk⟩
            unfold jsmn_end_sequence
            simp only
            rw [if_neg (by omega), htc]
            simp only
            rw [if_neg (by simp [hty]), if_pos hpar, htp]
            simp only
            rw [if_pos hk]
            rfl
          · left
            unfold jsmn_end_sequence
            simp only
            rw [if_neg (by omega), htc]
            simp only
            rw [if_neg (by simp [hty]), if_pos hpar, htp]
            simp only
            rw [if_neg hk]
    · left
      unfold jsmn_end_sequence
      simp only
      rw [if_neg (by omega), htc]
      simp only
      rw [if_pos hty]

/-- Every Builder call returns, and does one of the steps of `BuildStep`. -/
theorem run_call_step (l : List jsmn_Token) (cap : Nat) (c : Int) (call : BuilderCall)
    (hsup : SupOK l c) (hp : ParentsOK l) :
    ∃ r l1 c1, run_call ⟨some l, cap, c⟩ call = Run.ok (r, ⟨some l1, cap, c1⟩) ∧
      BuildStep l cap c call r l1 c1 ∧ (r < 0 → l1 = l ∧ c1 = c) ∧
      (0 ≤ r → r = (l1.length : Int)) := by
  by_cases hprod : is_producer call = true
  · rcases producer_cases l cap c call hprod hsup with ⟨_, h⟩ | ⟨_, l1, c1, h, hb, _⟩
    · exact ⟨_, _, _, h, BuildStep.failed call, fun _ => ⟨rfl, rfl⟩,
        fun h0 => absurd h0 (by decide)⟩
    · exact ⟨_, _, _, h, hb, fun h0 => absurd h0 (by omega), fun _ => rfl⟩
  · rcases call_kind call with ⟨ty, name, _, _, h2, _⟩ | ⟨ty, name, value, _, _, h2, _⟩ |
      ⟨ty, h1, _⟩
    · exact absurd h2 hprod
    · exact absurd h2 hprod
    · rcases end_cases l cap c call ty h1 hsup hp with h | ⟨c1, h, hb⟩
      · exact ⟨_, _, _, h, BuildStep.failed call, fun _ => ⟨rfl, rfl⟩,
          fun h0 => absurd h0 (by decide)⟩
      · exact ⟨_, _, _, h, hb, fun h0 => absurd h0 (by omega), fun _ => rfl⟩

/-! ## Back pointers along Builder calls -/

theorem parentsOK_append_single {l : List jsmn_Token} {x : jsmn_Token} (hp : ParentsOK l)
    (hx : x.parent = -1 ∨ (0 ≤ x.parent ∧ x.parent < l.length)) : ParentsOK (l ++ [x]) := by
  intro i t h
  rcases get?_append_single h with h | ⟨hi, ht⟩
  · exact hp i t h
  · subst ht
    rw [hi]
    exact hx

theorem parentsOK_bump_two {l : List jsmn_Token} {c : Int} {a x : jsmn_Token}
    (hp : ParentsOK l) (hsup : SupOK l c) (ha : a.parent = c) (hx : x.parent = (l.length : Int)) :
    ParentsOK (bump l c ++ [a, x]) := by
  have h1 : ParentsOK (bump l c ++ [a]) := parentsOK_bump_append hp ha hsup
  have h2 := parentsOK_append_single (x := x) h1 (Or.inr ⟨by omega, by
    simp [bump_length, hx]⟩)
  simpa using h2

theorem buildStep_inv {l l1 : List jsmn_Token} {cap : Nat} {c c1 : Int} {call : BuilderCall}
    {r : Int} (h : BuildStep l cap c call r l1 c1) (hsup : SupOK l c) (hp : ParentsOK l) :
    SupOK l1 c1 ∧ ParentsOK l1 := by
  cases h with
  | failed => exact ⟨hsup, hp⟩
  | append ty name value h1 h2 =>
    refine ⟨?_, parentsOK_bump_append hp rfl hsup⟩
    have := supOK_append [simple_token ty value c] hsup
    rcases this with h | ⟨h0, h3⟩
    · exact Or.inl h
    · exact Or.inr ⟨h0, by simpa [bump_length] using h3⟩
  | append_named ty nm value h1 h2 =>
    refine ⟨?_, parentsOK_bump_two hp hsup rfl rfl⟩
    rcases hsup with h | ⟨h0, h3⟩
    · exact Or.inl h
    · exact Or.inr ⟨h0, by simp [bump_length]; omega⟩
  | start ty name h1 h2 =>
    exact ⟨Or.inr ⟨by omega, by simp [bump_length]⟩, parentsOK_bump_append hp rfl hsup⟩
  | start_named ty nm h1 h2 =>
    exact ⟨Or.inr ⟨by omega, by simp [bump_length]⟩, parentsOK_bump_two hp hsup rfl rfl⟩
  | end_root ty tc h1 h2 h3 h4 => exact ⟨Or.inl rfl, hp⟩
  | end_up ty tc tp h1 h2 h3 h4 h5 =>
    exact ⟨supOK_parent hp (tokAt_eq_some.1 h4).2, hp⟩

/-- What holds of the token array and the superior token at the start and is
kept by every step of a Builder call holds after every sequence of Builder
calls, and every call returns. -/
theorem run_all_reach (I : List jsmn_Token → Int → Prop) (cap : Nat)
    (hstep : ∀ l c call r l1 c1, SupOK l c → ParentsOK l → I l c →
      BuildStep l cap c call r l1 c1 → I l1 c1) :
    ∀ (cs : List BuilderCall) (l : List jsmn_Token) (c : Int),
      SupOK l c → ParentsOK l → I l c →
      ∃ rs l1 c1, run_all cs ⟨some l, cap, c⟩ = Run.ok (rs, ⟨some l1, cap, c1⟩) ∧
        rs.length = cs.length ∧ SupOK l1 c1 ∧ ParentsOK l1 ∧ I l1 c1 := by
  intro cs
  induction cs with
  | nil => intro l c hsup hp hI; exact ⟨[], l, c, rfl, rfl, hsup, hp, hI⟩
  | cons call cs ih =>
    intro l c hsup hp hI
    obtain ⟨r, l1, c1, hr, hb, _, _⟩ := run_call_step l cap c call hsup hp
    obtain ⟨hsup1, hp1⟩ := buildStep_inv hb hsup hp
    obtain ⟨rs, l2, c2, hrs, hlen, hsup2, hp2, hI2⟩ :=
      ih l1 c1 hsup1 hp1 (hstep _ _ _ _ _ _ hsup hp hI hb)
    refine ⟨r :: rs, l2, c2, ?_, by simp [hlen], hsup2, hp2, hI2⟩
    rw [run_all, hr]
    simp only
    rw [hrs]

end Jsmn

namespace Jsmn
open jsmntype_t

/-! ## Counting children -/

theorem children_append (l x : List jsmn_Token) (i : Int) :
    children (l ++ x) i = children l i + children x i := by
  unfold children
  exact List.countP_append _ _ _

theorem children_single (x : jsmn_Token) (i : Int) :
    children [x] i = if x.parent = i then 1 else 0 := by
  unfold children
  by_cases h : x.parent = i
  · simp [List.countP_cons, h]
  · simp [List.countP_cons, h]

theorem children_eq_of_map {l l1 : List jsmn_Token}
    (h : l1.map (fun t => t.parent) = l.map (fun t => t.parent)) (i : Int) :
    children l1 i = children l i := by
  have e : ∀ l : List jsmn_Token, children l i =
      (l.map (fun t => t.parent)).countP (fun p => decide (p = i)) := by
    intro l
    unfold children
    rw [List.countP_map]
    rfl
  rw [e, e, h]

theorem bump_map_parent (l : List jsmn_Token) (c : Int) :
    (bump l c).map (fun t => t.parent) = l.map (fun t => t.parent) := by
  apply List.ext_get?
  intro i
  have hb := bump_get? l c i
  simp only [List.get?_eq_getElem?] at hb ⊢
  rw [List.getElem?_map, List.getElem?_map, hb]
  cases l[i]? with
  | none => rfl
  | some t =>
    simp only [Option.map_some', Option.some.injEq]
    split <;> rfl

theorem children_bump (l : List jsmn_Token) (c i : Int) :
    children (bump l c) i = children l i :=
  children_eq_of_map (bump_map_parent l c) i

theorem children_ge {l : List jsmn_Token} (hp : ParentsOK l) {i : Int}
    (hi : (l.length : Int) ≤ i) : children l i = 0 := by
  unfold children
  rw [List.countP_eq_zero]
  intro t ht
  obtain ⟨n, hn⟩ := List.get?_of_mem ht
  have hlt := (List.get?_eq_some.1 hn).1
  rcases hp n t hn with h | ⟨_, h⟩
  · simp; omega
  · simp; omega

theorem sizesOK_nil : SizesOK [] := by
  intro i t h; simp at h

theorem sizesOK_bump_append {l : List jsmn_Token} {c : Int} {x : jsmn_Token}
    (hs : SizesOK l) (hp : ParentsOK l) (hsup : SupOK l c) (hx : x.parent = c)
    (hx0 : x.size = 0) : SizesOK (bump l c ++ [x]) := by
  intro i t h
  rw [children_append, children_bump, children_single, hx]
  rcases get?_append_single h with h | ⟨hi, ht⟩
  · rw [bump_get?] at h
    cases hl : l.get? i with
    | none => rw [hl] at h; simp at h
    | some t0 =>
      rw [hl] at h
      simp only [Option.map_some', Option.some.injEq] at h
      have h0 := hs i t0 hl
      rw [← h]
      by_cases hic : (i : Int) = c
      · rw [if_pos hic, if_pos hic.symm]
        simp only [h0]
        push_cast
        rfl
      · rw [if_neg hic, if_neg (fun e => hic e.symm), h0]
        simp
  · subst ht
    rw [hi, bump_length, children_ge hp (le_refl _), hx0]
    have := supOK_lt hsup
    rw [if_neg (by omega)]
    simp

theorem sizesOK_of_map {l l1 : List jsmn_Token}
    (h : l1.map (fun t => (t.size, t.parent)) = l.map (fun t => (t.size, t.parent)))
    (hs : SizesOK l) : SizesOK l1 := by
  have hpar : l1.map (fun t => t.parent) = l.map (fun t => t.parent) := by
    have := congrArg (List.map Prod.snd) h
    simpa [List.map_map, Function.comp] using this
  intro i t1 h1
  rw [children_eq_of_map hpar]
  have e := congrArg (fun m => m[i]?) h
  simp only [List.get?_eq_getElem?] at h1
  simp only [List.getElem?_map, h1, Option.map_some'] at e
  cases hl : l[i]? with
  | none => rw [hl] at e; simp at e
  | some t =>
    rw [hl] at e
    simp only [Option.map_some', Option.some.injEq, Prod.mk.injEq] at e
    rw [e.1]
    exact hs i t (by simpa using hl)

theorem map_set_same {α β : Type} (f : α → β) (l : List α) (j : Nat) (t x : α)
    (hj : l.get? j = some t) (hx : f x = f t) : (l.set j x).map f = l.map f := by
  apply List.ext_get?
  intro i
  simp only [List.get?_eq_getElem?] at hj ⊢
  rw [List.getElem?_map, List.getElem?_map, List.getElem?_set]
  by_cases hji : j = i
  · subst hji
    rw [if_pos rfl, hj]
    split
    · simp [hx]
    · rename_i hlt
      have := (List.getElem?_eq_some.1 hj).1
      omega
  · rw [if_neg hji]

theorem sizesOK_set {l : List jsmn_Token} {j : Nat} {t x : jsmn_Token}
    (hs : SizesOK l) (hj : l.get? j = some t) (hx1 : x.size = t.size)
    (hx2 : x.parent = t.parent) : SizesOK (l.set j x) :=
  sizesOK_of_map (map_set_same _ l j t x hj (by simp [hx1, hx2])) hs

theorem sizesOK_resolve {l : List jsmn_Token} (hs : SizesOK l) :
    SizesOK (l.map resolve_token) := by
  apply sizesOK_of_map _ hs
  rw [List.map_map]
  apply List.map_congr_left
  intro t _
  simp only [Function.comp]
  unfold resolve_token
  split <;> rfl

theorem sizesOK_bump_two {l : List jsmn_Token} {c : Int} {a x : jsmn_Token}
    (hs : SizesOK l) (hp : ParentsOK l) (hsup : SupOK l c) (ha : a.parent = c)
    (ha1 : a.size = 1) (hx : x.parent = (l.length : Int)) (hx0 : x.size = 0) :
    SizesOK (bump l c ++ [a, x]) := by
  have h1 : SizesOK (bump l c ++ [{ a with size := 0 }]) :=
    sizesOK_bump_append hs hp hsup ha rfl
  have hp1 : ParentsOK (bump l c ++ [{ a with size := 0 }]) :=
    parentsOK_bump_append hp ha hsup
  have hsup1 : SupOK (bump l c ++ [{ a with size := 0 }]) (l.length : Int) :=
    Or.inr ⟨by omega, by simp [bump_length]⟩
  have h2 := sizesOK_bump_append (x := x) h1 hp1 hsup1 hx hx0
  have e : bump (bump l c ++ [{ a with size := 0 }]) (l.length : Int) = bump l c ++ [a] := by
    have := bump_mid (bump l c) { a with size := 0 } []
    rw [bump_length] at this
    rw [this]
    congr 2
    cases a
    simp only at ha1
    simp [ha1]
  rw [e] at h2
  simpa using h2

theorem buildStep_sizes {l l1 : List jsmn_Token} {cap : Nat} {c c1 : Int} {call : BuilderCall}
    {r : Int} (h : BuildStep l cap c call r l1 c1) (hsup : SupOK l c) (hp : ParentsOK l)
    (hs : SizesOK l) : SizesOK l1 := by
  cases h with
  | failed => exact hs
  | append ty name value h1 h2 => exact sizesOK_bump_append hs hp hsup rfl rfl
  | append_named ty nm value h1 h2 => exact sizesOK_bump_two hs hp hsup rfl rfl rfl rfl
  | start ty name h1 h2 => exact sizesOK_bump_append hs hp hsup rfl rfl
  | start_named ty nm h1 h2 => exact sizesOK_bump_two hs hp hsup rfl rfl rfl rfl
  | end_root ty tc h1 h2 h3 h4 => exact hs
  | end_up ty tc tp h1 h2 h3 h4 h5 => exact hs

theorem tokStep_sizes {js : List Nat} {len : Nat} {l l1 : List jsmn_Token}
    {sup sup1 : Int} {pos pos1 : Nat} {d : Int}
    (h : TokStep js len l sup pos l1 sup1 pos1 d) (hsup : SupOK l sup) (hp : ParentsOK l)
    (hs : SizesOK l) : SizesOK l1 := by
  cases h with
  | opened h1 => exact sizesOK_bump_append hs hp hsup rfl rfl
  | closed l1 sup1 h2 hlen hw =>
    rcases close_walk_some _ _ _ _ _ _ _ _ hw with
      ⟨ha, hb, hc⟩ | ⟨j, t, hj, hs1, he, hty, hl1, hs2⟩
    · subst ha; exact hs
    · subst hl1
      exact sizesOK_set hs hj rfl rfl
  | string q h3 hs1 hq => exact sizesOK_bump_append hs hp hsup rfl rfl
  | primitive q h7 hk hq => exact sizesOK_bump_append hs hp hsup rfl rfl
  | space h4 => exact hs
  | colon h5 => exact hs
  | comma h6 => exact hs

/-! ## The parse returns -/

theorem parse_loop_ne_fuel (js : List Nat) (len : Nat) :
    ∀ (fuel : Nat) (l : List jsmn_Token) (cap : Nat) (sup : Int) (pos : Nat),
      SupOK l sup → ParentsOK l → len - pos < fuel →
      parse_loop js len fuel ⟨⟨some l, cap, sup⟩, pos⟩ (l.length : Int) ≠ Run.fuel := by
  intro fuel
  induction fuel with
  | zero => intro l cap sup pos _ _ h; omega
  | succ n ih =>
    intro l cap sup pos hsup hp hfuel
    rw [parse_loop]
    simp only
    by_cases hg : pos < len ∧ js.getD pos 0 ≠ 0
    · rw [if_pos hg]
      cases hs : parse_step js len ⟨⟨some l, cap, sup⟩, pos⟩ (l.length : Int) with
      | fuel => exact absurd hs (parse_step_real_ne_fuel hsup hp)
      | bounds => simp
      | ok s =>
        cases s with
        | ret r2 p2 => simp
        | next p2 c2 =>
          obtain ⟨l2, sup2, hf, ht⟩ := parse_step_next_real js len rfl hsup hs
          obtain ⟨hsup2, hp2, hd, hlen2, hpos⟩ := tokStep_inv ht hsup hp
          obtain ⟨f2, pos2⟩ := p2
          simp only at hf ht hpos ⊢
          subst hf
          have hc2 : c2 = (l2.length : Int) := by omega
          subst hc2
          exact ih _ _ _ _ hsup2 hp2 (by omega)
    · rw [if_neg hg, parse_final_real]
      split_ifs <;> simp

theorem jsmn_parse_ne_fuel (cap : Nat) (js : List Nat) (len : Nat) :
    jsmn_parse (jsmn_parser_init true cap) js len ≠ Run.fuel := by
  rw [jsmn_parse_init]
  exact parse_loop_ne_fuel js len _ _ _ _ _ (Or.inl rfl) parentsOK_nil (by omega)

theorem parentsOK_resolve {l : List jsmn_Token} (hp : ParentsOK l) :
    ParentsOK (l.map resolve_token) := by
  intro i t h
  simp only [List.get?_eq_getElem?, List.getElem?_map] at h
  cases hl : l[i]? with
  | none => rw [hl] at h; simp at h
  | some t0 =>
    rw [hl] at h
    simp only [Option.map_some', Option.some.injEq] at h
    have := hp i t0 (by simpa using hl)
    rw [← h]
    unfold resolve_token
    split <;> exact this

/-- What holds of the token array and the superior token along the main loop
holds of the state a real `jsmn_parse` from a fresh arena returns with. -/
theorem jsmn_parse_reach (js : List Nat) (len cap : Nat)
    (I : List jsmn_Token → Prop) (h0 : I [])
    (hstep : ∀ l sup pos l1 sup1 pos1 d, SupOK l sup → ParentsOK l → I l →
      TokStep js len l sup pos l1 sup1 pos1 d → I l1)
    (hres : ∀ l, I l → I (l.map resolve_token))
    {r : Int} {p : jsmn_Parser}
    (h : jsmn_parse (jsmn_parser_init true cap) js len = Run.ok (r, p)) :
    ∃ l, p.factory.toks = some l ∧ SupOK l p.factory.toksuper ∧ ParentsOK l ∧ I l := by
  rw [jsmn_parse_init] at h
  obtain ⟨l1, sup1, pos1, hsup1, hp1, hI1, hcase⟩ :=
    parse_loop_real_reach js len (fun l _ _ => I l)
      (fun l sup pos l1 sup1 pos1 d _ _ hs hp hI ht => hstep l sup pos l1 sup1 pos1 d hs hp hI ht)
      _ _ _ _ _ _ _ (Or.inl rfl) parentsOK_nil h0 h
  rcases hcase with ⟨_, hp⟩ | ⟨_, _, _, hp⟩
  · subst hp
    exact ⟨l1, rfl, hsup1, hp1, hI1⟩
  · subst hp
    refine ⟨_, rfl, ?_, parentsOK_resolve hp1, hres _ hI1⟩
    rcases hsup1 with h | ⟨ha, hb⟩
    · exact Or.inl h
    · exact Or.inr ⟨ha, by simpa using hb⟩

end Jsmn

namespace Jsmn
open jsmntype_t

/-! ## The Builder calls: postcondition, failure, error code (C12, C14, C15) -/

theorem prepare_append_some {f : jsmn_Factory} {name : Option (List Nat)}
    {x : Nat × jsmn_Factory} (h : jsmn_prepare_append f name = Run.ok (some x)) :
    ∃ l, f.toks = some l ∧ SupOK l f.toksuper := by
  obtain ⟨toks, cap, c⟩ := f
  cases toks with
  | none =>
    unfold jsmn_prepare_append prepare_in_object jsmn_alloc_token at h
    simp only at h
    by_cases hc : c = -1
    · simp [hc] at h
    · simp [hc] at h
  | some l =>
    refine ⟨l, rfl, ?_⟩
    by_cases hc : c = -1
    · exact Or.inl hc
    · right
      cases ht : tokAt l c with
      | none =>
        unfold jsmn_prepare_append prepare_in_object at h
        simp [hc, ht] at h
      | some t => exact tokAt_lt ht

theorem producer_ok_real {f f1 : jsmn_Factory} {call : BuilderCall} {r : Int}
    (hprod : is_producer call = true) (h : run_call f call = Run.ok (r, f1)) (hr : 0 ≤ r) :
    ∃ l, f.toks = some l ∧ SupOK l f.toksuper := by
  rcases call_kind call with ⟨ty, name, h1, _, _, _⟩ | ⟨ty, name, value, h1, _, _, _⟩ |
    ⟨ty, _, h2⟩
  · rw [run_call_start h1] at h
    unfold jsmn_start_sequence at h
    cases hpa : jsmn_prepare_append f name with
    | fuel => rw [hpa] at h; simp at h
    | bounds => rw [hpa] at h; simp at h
    | ok x =>
      cases x with
      | none =>
        rw [hpa] at h
        simp only [Run.ok.injEq, Prod.mk.injEq] at h
        have := h.1
        unfold JSMN_ERROR_FACTORY at this
        omega
      | some x => exact prepare_append_some hpa
  · rw [run_call_simple h1] at h
    unfold jsmn_append_simple at h
    cases hpa : jsmn_prepare_append f name with
    | fuel => rw [hpa] at h; simp at h
    | bounds => rw [hpa] at h; simp at h
    | ok x =>
      cases x with
      | none =>
        rw [hpa] at h
        simp only [Run.ok.injEq, Prod.mk.injEq] at h
        have := h.1
        unfold JSMN_ERROR_FACTORY at this
        omega
      | some x => exact prepare_append_some hpa
  · rw [hprod] at h2; simp at h2

theorem get?_bump_append {l : List jsmn_Token} {c : Int} (x : List jsmn_Token) {i : Nat}
    {t : jsmn_Token} (h : l.get? i = some t) :
    (bump l c ++ x).get? i =
      some (if (i : Int) = c then { t with size := t.size + 1 } else t) := by
  have hlt := (List.get?_eq_some.1 h).1
  have hb := bump_get? l c i
  rw [h] at hb
  simp only [List.get?_eq_getElem?] at hb ⊢
  rw [List.getElem?_append_left (by rw [bump_length]; exact hlt), hb]
  rfl

theorem get?_bump_at (l : List jsmn_Token) (c : Int) (a : jsmn_Token) (x : List jsmn_Token) :
    (bump l c ++ a :: x).get? l.length = some a := by
  simp only [List.get?_eq_getElem?]
  rw [List.getElem?_append_right (by rw [bump_length]), bump_length]
  simp

theorem get?_bump_next (l : List jsmn_Token) (c : Int) (a b : jsmn_Token)
    (x : List jsmn_Token) : (bump l c ++ a :: b :: x).get? (l.length + 1) = some b := by
  simp only [List.get?_eq_getElem?]
  rw [List.getElem?_append_right (by rw [bump_length]; omega), bump_length]
  simp

/-- C12. Postcondition of a successful `jsmn_start_object` / `jsmn_start_array`
(`call_start call = some (ty, name)`: the call is `jsmn_start_object(name)` with
`ty = JSMN_OBJECT` or `jsmn_start_array(name)` with `ty = JSMN_ARRAY`).  With
`l` the allocated tokens before the call (`toknext = l.length`) and
`f.toksuper` the open container: the storage is real, the capacity is kept,
the return value is the new `toknext`; every token allocated before keeps all
its fields, except that the size of the open container (when there is one)
grows by exactly one; when the open container is an Object exactly two tokens
are appended, a Label at index `toknext` (data = name, length = strlen(name),
size 1, parent the open container) and the new container at `toknext + 1`
(requested type, size 0, parent `toknext`), which becomes the open container;
otherwise exactly one container token is appended at `toknext` (requested
type, size 0, parent the old open container, the name is not used), which
becomes the open container. -/
theorem start_postcondition (f f1 : jsmn_Factory) (call : BuilderCall) (ty : jsmntype_t)
    (name : Option (List Nat)) (r : Int)
    (hcall : call_start call = some (ty, name))
    (h : run_call f call = Run.ok (r, f1)) (hr : 0 ≤ r) :
    ∃ l l1, f.toks = some l ∧ f1.toks = some l1 ∧ f1.tokslen = f.tokslen ∧
      r = (l1.length : Int) ∧
      (∀ i t, l.get? i = some t →
        l1.get? i =
          some (if (i : Int) = f.toksuper then { t with size := t.size + 1 } else t)) ∧
      ((in_object l f.toksuper = true ∧ ∃ nm, name = some nm ∧
          l1.length = l.length + 2 ∧
          l1.get? l.length = some (built_label nm f.toksuper) ∧
          l1.get? (l.length + 1) = some (built_cont ty 0 (l.length : Int)) ∧
          f1.toksuper = ((l.length + 1 : Nat) : Int)) ∨
       (in_object l f.toksuper = false ∧
          l1.length = l.length + 1 ∧
          l1.get? l.length = some (built_cont ty 0 f.toksuper) ∧
          f1.toksuper = (l.length : Int))) := by
  have hprod : is_producer call = true := by
    cases call <;> simp [call_start] at hcall <;> rfl
  have hname : call_name call = name := by
    cases call <;> simp [call_start] at hcall <;> simp [call_name, hcall]
  obtain ⟨l, hl, hsup⟩ := producer_ok_real hprod h hr
  obtain ⟨toks, cap, c⟩ := f
  simp only at hl hsup
  subst hl
  rcases producer_cases l cap c call hprod hsup with ⟨_, hfail⟩ | ⟨hno, _⟩
  · rw [hfail] at h
    simp only [Run.ok.injEq, Prod.mk.injEq] at h
    have := h.1
    unfold JSMN_ERROR_FACTORY at this
    omega
  · simp only [not_or, not_and, not_lt] at hno
    obtain ⟨hnm, hcap⟩ := hno
    rw [run_call_start hcall] at h
    by_cases hin : in_object l c = true
    · obtain ⟨t, ht, hty⟩ := in_object_true hin
      rw [slots_needed_true hin] at hcap
      obtain ⟨nm, hnm1⟩ := Option.ne_none_iff_exists'.1 (hnm hin)
      rw [hname] at hnm1
      subst hnm1
      rw [start_sequence_object ty nm ht hty hcap] at h
      simp only [Run.ok.injEq, Prod.mk.injEq] at h
      obtain ⟨hr1, hf1⟩ := h
      subst hf1
      refine ⟨l, _, rfl, rfl, rfl, ?_, fun i t hi => get?_bump_append _ hi, Or.inl ⟨hin, nm, rfl,
        ?_, get?_bump_at l c _ _, get?_bump_next l c _ _ _, rfl⟩⟩
      · rw [← hr1]; simp [bump_length]
      · simp [bump_length]
    · have hin0 : in_object l c = false := by simpa using hin
      rw [slots_needed_false hin0] at hcap
      rw [start_sequence_plain ty name (in_object_false hsup hin0) hcap] at h
      simp only [Run.ok.injEq, Prod.mk.injEq] at h
      obtain ⟨hr1, hf1⟩ := h
      subst hf1
      refine ⟨l, _, rfl, rfl, rfl, ?_, fun i t hi => get?_bump_append _ hi, Or.inr ⟨hin0,
        ?_, get?_bump_at l c _ _, rfl⟩⟩
      · rw [← hr1]; simp [bump_length]
      · simp [bump_length]

/-- Witness of C12: `jsmn_start_array("a")` inside the Object that is token 0
of an arena of capacity 3. -/
theorem start_postcondition_witness :
    ∃ l l1, (⟨some [built_cont JSMN_OBJECT 0 (-1)], 3, 0⟩ : jsmn_Factory).toks = some l ∧
      (⟨some [built_cont JSMN_OBJECT 1 (-1), built_label [97] 0, built_cont JSMN_ARRAY 0 1],
          3, 2⟩ : jsmn_Factory).toks = some l1 ∧
      (3 : Nat) = 3 ∧ (3 : Int) = (l1.length : Int) ∧
      (∀ i t, l.get? i = some t →
        l1.get? i = some (if (i : Int) = 0 then { t with size := t.size + 1 } else t)) ∧
      ((in_object l 0 = true ∧ ∃ nm, some [97] = some nm ∧
          l1.length = l.length + 2 ∧
          l1.get? l.length = some (built_label nm 0) ∧
          l1.get? (l.length + 1) = some (built_cont JSMN_ARRAY 0 (l.length : Int)) ∧
          (2 : Int) = ((l.length + 1 : Nat) : Int)) ∨
       (in_object l 0 = false ∧
          l1.length = l.length + 1 ∧
          l1.get? l.length = some (built_cont JSMN_ARRAY 0 0) ∧
          (2 : Int) = (l.length : Int))) :=
  start_postcondition ⟨some [built_cont JSMN_OBJECT 0 (-1)], 3, 0⟩
    ⟨some [built_cont JSMN_OBJECT 1 (-1), built_label [97] 0, built_cont JSMN_ARRAY 0 1], 3, 2⟩
    (BuilderCall.start_array (some [97])) JSMN_ARRAY (some [97]) 3 rfl rfl (by decide)

/-- C14. Failure condition and atomicity of the start and append calls
(`jsmn_start_object`, `jsmn_start_array`, `jsmn_append_string`,
`jsmn_append_primitive`) on an arena with the allocated tokens `l`, capacity
`cap` and open container `c` (unset or an allocated token): the call returns;
it returns an error exactly when (a) the open container is an Object and the
name is absent, or (b) the arena has fewer free slots than the call needs (2
inside an Object, otherwise 1); in case (a) the error is
`JSMN_ERROR_FACTORY`; and whenever it returns an error, `toknext`, the open
container and every token are unchanged. -/
theorem producer_failure (l : List jsmn_Token) (cap : Nat) (c : Int) (call : BuilderCall)
    (hprod : is_producer call = true) (hsup : SupOK l c) :
    ∃ r f1, run_call ⟨some l, cap, c⟩ call = Run.ok (r, f1) ∧
      (r < 0 ↔ ((in_object l c = true ∧ call_name call = none) ∨
        cap - l.length < slots_needed l c)) ∧
      (in_object l c = true ∧ call_name call = none → r = JSMN_ERROR_FACTORY) ∧
      (r < 0 → f1 = ⟨some l, cap, c⟩) := by
  have hsl : 1 ≤ slots_needed l c := by unfold slots_needed; split <;> omega
  rcases producer_cases l cap c call hprod hsup with ⟨hc, hfail⟩ | ⟨hno, l1, c1, hok, _, _⟩
  · refine ⟨_, _, hfail, ⟨fun _ => ?_, fun _ => by decide⟩, fun _ => rfl, fun _ => rfl⟩
    rcases hc with hc | hc
    · exact Or.inl hc
    · exact Or.inr (by omega)
  · refine ⟨_, _, hok, ⟨fun h => absurd h (by omega), fun h => ?_⟩, fun h => ?_,
      fun h => absurd h (by omega)⟩
    · exfalso
      apply hno
      rcases h with h | h
      · exact Or.inl h
      · exact Or.inr (by omega)
    · exact absurd (Or.inl h) hno

/-- Witness of C14: `jsmn_append_string(NULL, "v")` inside the Object that is
token 0. -/
theorem producer_failure_witness :
    ∃ r f1, run_call ⟨some [built_cont JSMN_OBJECT 0 (-1)], 3, 0⟩
        (BuilderCall.append_string none (some [118])) = Run.ok (r, f1) ∧
      (r < 0 ↔ ((in_object [built_cont JSMN_OBJECT 0 (-1)] 0 = true ∧
          call_name (BuilderCall.append_string none (some [118])) = none) ∨
        3 - [built_cont JSMN_OBJECT 0 (-1)].length <
          slots_needed [built_cont JSMN_OBJECT 0 (-1)] 0)) ∧
      (in_object [built_cont JSMN_OBJECT 0 (-1)] 0 = true ∧
        call_name (BuilderCall.append_string none (some [118])) = none →
          r = JSMN_ERROR_FACTORY) ∧
      (r < 0 → f1 = ⟨some [built_cont JSMN_OBJECT 0 (-1)], 3, 0⟩) :=
  producer_failure [built_cont JSMN_OBJECT 0 (-1)] 3 0
    (BuilderCall.append_string none (some [118])) rfl (Or.inr ⟨by decide, by decide⟩)

/-- C15 (as stated) fails: on a fresh arena of capacity 0 the call
`jsmn_append_string("k", "v")` has a valid name and too few free slots
(`toknext + 1 > capacity`); it returns `JSMN_ERROR_FACTORY`, which is not
`JSMN_ERROR_NOMEM`. -/
theorem capacity_error_counterexample :
    call_name (BuilderCall.append_string (some [107]) (some [118])) = some [107] ∧
    (0 : Nat) - ([] : List jsmn_Token).length < slots_needed [] (-1) ∧
    run_call (jsmn_factory_init true 0) (BuilderCall.append_string (some [107]) (some [118])) =
      Run.ok (JSMN_ERROR_FACTORY, jsmn_factory_init true 0) ∧
    JSMN_ERROR_FACTORY ≠ JSMN_ERROR_NOMEM := by
  refine ⟨rfl, by decide, rfl, by decide⟩

/-- C15 (amended). When a start or append call (`jsmn_start_object`,
`jsmn_start_array`, `jsmn_append_string`, `jsmn_append_primitive`) is called
with a valid name but the arena has fewer free slots than the call needs
(`toknext + n > capacity`, `n = 2` inside an Object, else 1), the call fails
with `JSMN_ERROR_FACTORY`, the code it also returns for a missing name (which
is not the case here), and leaves the arena as it was. -/
theorem capacity_error_amended (l : List jsmn_Token) (cap : Nat) (c : Int)
    (call : BuilderCall) (nm : List Nat) (hprod : is_producer call = true)
    (hsup : SupOK l c) (hname : call_name call = some nm)
    (hcap : l.length + slots_needed l c > cap) :
    run_call ⟨some l, cap, c⟩ call = Run.ok (JSMN_ERROR_FACTORY, ⟨some l, cap, c⟩) ∧
      ¬ (in_object l c = true ∧ call_name call = none) := by
  refine ⟨?_, fun h => ?_⟩
  · rcases producer_cases l cap c call hprod hsup with ⟨_, hfail⟩ | ⟨hno, _⟩
    · exact hfail
    · exact absurd (Or.inr hcap) hno
  · rw [hname] at h
    exact absurd h.2 (by simp)

/-- Witness of C15 (amended): `jsmn_start_object("k")` inside the Object that
is token 0 of an arena of capacity 2. -/
theorem capacity_error_amended_witness :
    run_call ⟨some [built_cont JSMN_OBJECT 0 (-1)], 2, 0⟩
        (BuilderCall.start_object (some [107])) =
      Run.ok (JSMN_ERROR_FACTORY, ⟨some [built_cont JSMN_OBJECT 0 (-1)], 2, 0⟩) ∧
      ¬ (in_object [built_cont JSMN_OBJECT 0 (-1)] 0 = true ∧
        call_name (BuilderCall.start_object (some [107])) = none) :=
  capacity_error_amended [built_cont JSMN_OBJECT 0 (-1)] 2 0
    (BuilderCall.start_object (some [107])) [107] rfl (Or.inr ⟨by decide, by decide⟩) rfl
    (by decide)

/-! ## Ending a container inside an Array (C13) -/

/-- C13: the code at the sequence `jsmn_start_array(NULL)`,
`jsmn_start_object(NULL)`, `jsmn_end_object()`, `jsmn_end_array()` on a fresh
arena of capacity 2.  After `jsmn_end_object()` the open container is -1 (the
parent of the Array), not token 0 (the Array that encloses the Object just
closed), and `jsmn_end_array()` then fails with `JSMN_ERROR_FACTORY`. -/
theorem end_inside_array_eval :
    run_all [BuilderCall.start_array none, BuilderCall.start_object none,
        BuilderCall.end_object] (jsmn_factory_init true 2) =
      Run.ok ([1, 2, 2],
        ⟨some [built_cont JSMN_ARRAY 1 (-1), built_cont JSMN_OBJECT 0 0], 2, -1⟩) ∧
    run_all [BuilderCall.start_array none, BuilderCall.start_object none,
        BuilderCall.end_object, BuilderCall.end_array] (jsmn_factory_init true 2) =
      Run.ok ([1, 2, 2, JSMN_ERROR_FACTORY],
        ⟨some [built_cont JSMN_ARRAY 1 (-1), built_cont JSMN_OBJECT 0 0], 2, -1⟩) := by
  refine ⟨rfl, rfl⟩

end Jsmn

namespace Jsmn
open jsmntype_t

/-! ## Invariants of the arena (C16, C17) -/

/-- C16. Back-pointer invariant.  After every sequence of Builder calls on a
fresh arena (every call returns, whatever it returns), and after a real
`jsmn_parse` from a fresh arena whatever its outcome (the parse never runs
out of its loop bound), every allocated token `i` has `parent = -1` or
`0 ≤ parent < i`, and the superior token (`toksuper`) is -1 or the index of an
allocated token. -/
theorem back_pointer_invariant :
    (∀ (cs : List BuilderCall) (cap : Nat), ∃ rs l c,
      run_all cs (jsmn_factory_init true cap) = Run.ok (rs, ⟨some l, cap, c⟩) ∧
      (∀ (i : Nat) (t : jsmn_Token), l.get? i = some t →
        t.parent = -1 ∨ (0 ≤ t.parent ∧ t.parent < i)) ∧
      (c = -1 ∨ (0 ≤ c ∧ c < l.length))) ∧
    (∀ (js : List Nat) (len cap : Nat),
      jsmn_parse (jsmn_parser_init true cap) js len ≠ Run.fuel ∧
      ∀ r p, jsmn_parse (jsmn_parser_init true cap) js len = Run.ok (r, p) →
        ∃ l, p.factory.toks = some l ∧
          (∀ (i : Nat) (t : jsmn_Token), l.get? i = some t →
            t.parent = -1 ∨ (0 ≤ t.parent ∧ t.parent < i)) ∧
          (p.factory.toksuper = -1 ∨
            (0 ≤ p.factory.toksuper ∧ p.factory.toksuper < l.length))) := by
  constructor
  · intro cs cap
    obtain ⟨rs, l, c, h, _, hsup, hp, _⟩ :=
      run_all_reach (fun _ _ => True) cap (fun _ _ _ _ _ _ _ _ _ _ => trivial) cs [] (-1)
        (Or.inl rfl) parentsOK_nil trivial
    exact ⟨rs, l, c, h, hp, hsup⟩
  · intro js len cap
    refine ⟨jsmn_parse_ne_fuel cap js len, fun r p h => ?_⟩
    obtain ⟨l, hl, hsup, hp, _⟩ :=
      jsmn_parse_reach js len cap (fun _ => True) trivial
        (fun _ _ _ _ _ _ _ _ _ _ _ => trivial) (fun _ _ => trivial) h
    exact ⟨l, hl, hp, hsup⟩

/-- Witness of C16: the Builder calls `jsmn_start_object(NULL)`,
`jsmn_append_string("k", "v")` and the parse of `[1]`. -/
theorem back_pointer_invariant_witness :
    (∃ rs l c,
      run_all [BuilderCall.start_object none,
          BuilderCall.append_string (some [107]) (some [118])] (jsmn_factory_init true 3) =
        Run.ok (rs, ⟨some l, 3, c⟩) ∧
      (∀ (i : Nat) (t : jsmn_Token), l.get? i = some t →
        t.parent = -1 ∨ (0 ≤ t.parent ∧ t.parent < i)) ∧
      (c = -1 ∨ (0 ≤ c ∧ c < l.length))) ∧
    (∃ l, (⟨⟨some [closed_token JSMN_ARRAY 0 3 1 (-1),
          resolve_token (new_token JSMN_PRIMITIVE 1 2 0)], 2, -1⟩, 3⟩ : jsmn_Parser).factory.toks =
        some l ∧
      (∀ (i : Nat) (t : jsmn_Token), l.get? i = some t →
        t.parent = -1 ∨ (0 ≤ t.parent ∧ t.parent < i)) ∧
      ((-1 : Int) = -1 ∨ (0 ≤ (-1 : Int) ∧ (-1 : Int) < l.length))) :=
  ⟨back_pointer_invariant.1 _ 3,
    (back_pointer_invariant.2 [91, 49, 93] 3 2).2 2
      ⟨⟨some [closed_token JSMN_ARRAY 0 3 1 (-1),
        resolve_token (new_token JSMN_PRIMITIVE 1 2 0)], 2, -1⟩, 3⟩ rfl⟩

/-- C17. Size counts children.  After every sequence of Builder calls on a
fresh arena (every call returns, whatever it returns), and after a real
`jsmn_parse` from a fresh arena whatever its outcome (success or any error;
the parse never runs out of its loop bound), the size field of every
allocated token `i` equals the number of allocated tokens whose parent field
is `i`. -/
theorem size_counts_children :
    (∀ (cs : List BuilderCall) (cap : Nat), ∃ rs l c,
      run_all cs (jsmn_factory_init true cap) = Run.ok (rs, ⟨some l, cap, c⟩) ∧
      ∀ (i : Nat) (t : jsmn_Token), l.get? i = some t →
        t.size = (children l (i : Int) : Int)) ∧
    (∀ (js : List Nat) (len cap : Nat),
      jsmn_parse (jsmn_parser_init true cap) js len ≠ Run.fuel ∧
      ∀ r p, jsmn_parse (jsmn_parser_init true cap) js len = Run.ok (r, p) →
        ∃ l, p.factory.toks = some l ∧
          ∀ (i : Nat) (t : jsmn_Token), l.get? i = some t →
            t.size = (children l (i : Int) : Int)) := by
  constructor
  · intro cs cap
    obtain ⟨rs, l, c, h, _, _, _, hs⟩ :=
      run_all_reach (fun l _ => SizesOK l) cap
        (fun _ _ _ _ _ _ hsup hp hs hb => buildStep_sizes hb hsup hp hs) cs [] (-1)
        (Or.inl rfl) parentsOK_nil sizesOK_nil
    exact ⟨rs, l, c, h, hs⟩
  · intro js len cap
    refine ⟨jsmn_parse_ne_fuel cap js len, fun r p h => ?_⟩
    obtain ⟨l, hl, _, _, hs⟩ :=
      jsmn_parse_reach js len cap SizesOK sizesOK_nil
        (fun _ _ _ _ _ _ _ hsup hp hs ht => tokStep_sizes ht hsup hp hs)
        (fun _ hs => sizesOK_resolve hs) h
    exact ⟨l, hl, hs⟩

/-- Witness of C17: the Builder calls `jsmn_start_object(NULL)`,
`jsmn_append_string("k", "v")` and the parse of `[1]`. -/
theorem size_counts_children_witness :
    (∃ rs l c,
      run_all [BuilderCall.start_object none,
          BuilderCall.append_string (some [107]) (some [118])] (jsmn_factory_init true 3) =
        Run.ok (rs, ⟨some l, 3, c⟩) ∧
      ∀ (i : Nat) (t : jsmn_Token), l.get? i = some t →
        t.size = (children l (i : Int) : Int)) ∧
    (∃ l, (⟨⟨some [closed_token JSMN_ARRAY 0 3 1 (-1),
          resolve_token (new_token JSMN_PRIMITIVE 1 2 0)], 2, -1⟩, 3⟩ : jsmn_Parser).factory.toks =
        some l ∧
      ∀ (i : Nat) (t : jsmn_Token), l.get? i = some t →
        t.size = (children l (i : Int) : Int)) :=
  ⟨size_counts_children.1 _ 3,
    (size_counts_children.2 [91, 49, 93] 3 2).2 2
      ⟨⟨some [closed_token JSMN_ARRAY 0 3 1 (-1),
        resolve_token (new_token JSMN_PRIMITIVE 1 2 0)], 2, -1⟩, 3⟩ rfl⟩

end Jsmn

namespace Jsmn
open jsmntype_t

/-! ## A flat object: Builder calls and text (C11) -/

theorem run_all_cons {f f1 f2 : jsmn_Factory} {c : BuilderCall} {r : Int}
    {cs : List BuilderCall} {rs : List Int}
    (h : run_call f c = Run.ok (r, f1)) (h2 : run_all cs f1 = Run.ok (rs, f2)) :
    run_all (c :: cs) f = Run.ok (r :: rs, f2) := by
  rw [run_all, h]
  simp only
  rw [h2]

theorem run_all_append : ∀ (a b : List BuilderCall) (f f1 f2 : jsmn_Factory)
    (ra rb : List Int), run_all a f = Run.ok (ra, f1) → run_all b f1 = Run.ok (rb, f2) →
    run_all (a ++ b) f = Run.ok (ra ++ rb, f2) := by
  intro a
  induction a with
  | nil =>
    intro b f f1 f2 ra rb h1 h2
    simp only [run_all, Run.ok.injEq, Prod.mk.injEq] at h1
    obtain ⟨rfl, rfl⟩ := h1
    exact h2
  | cons c cs ih =>
    intro b f f1 f2 ra rb h1 h2
    rw [run_all] at h1
    cases hc : run_call f c with
    | fuel => rw [hc] at h1; simp at h1
    | bounds => rw [hc] at h1; simp at h1
    | ok x =>
      obtain ⟨r, f3⟩ := x
      rw [hc] at h1
      simp only at h1
      cases hcs : run_all cs f3 with
      | fuel => rw [hcs] at h1; simp at h1
      | bounds => rw [hcs] at h1; simp at h1
      | ok y =>
        obtain ⟨rs, f4⟩ := y
        rw [hcs] at h1
        simp only [Run.ok.injEq, Prod.mk.injEq] at h1
        obtain ⟨rfl, rfl⟩ := h1
        rw [List.cons_append, List.cons_append]
        exact run_all_cons hc (ih b f3 f4 f2 rs rb hcs h2)

/-- The append calls of a flat object, inside the Object that is token 0. -/
theorem flat_appends : ∀ (kvs : List (List Nat × List Nat)) (l : List jsmn_Token) (cap : Nat)
    (t : jsmn_Token), tokAt l 0 = some t → t.type = JSMN_OBJECT →
    l.length + 2 * kvs.length ≤ cap →
    ∃ rs, run_all (kvs.map (fun kv => BuilderCall.append_string (some kv.1) (some kv.2)))
        ⟨some l, cap, 0⟩ =
      Run.ok (rs, ⟨some (bumps kvs.length l 0 ++ flat_tokens l.length kvs), cap, 0⟩) ∧
      ∀ r ∈ rs, (0 : Int) ≤ r := by
  intro kvs
  induction kvs with
  | nil =>
    intro l cap t _ _ _
    exact ⟨[], by simp [run_all, bumps, flat_tokens], by simp⟩
  | cons kv rest ih =>
    intro l cap t ht hty hcap
    simp only [List.length_cons] at hcap
    have h1 : run_call ⟨some l, cap, 0⟩ (BuilderCall.append_string (some kv.1) (some kv.2)) =
        Run.ok (((l.length + 2 : Nat) : Int),
          ⟨some (bump l 0 ++ [built_label kv.1 0,
            simple_token JSMN_STRING (some kv.2) (l.length : Int)]), cap, 0⟩) :=
      append_simple_object JSMN_STRING kv.1 (some kv.2) ht hty (by omega)
    obtain ⟨t1, ht1, hty1⟩ := tokAt_keep1 [built_label kv.1 0,
      simple_token JSMN_STRING (some kv.2) (l.length : Int)] ht
    obtain ⟨rs, hrs, hpos⟩ := ih _ cap t1 ht1 (by rw [hty1, hty])
      (by simp only [List.length_append, bump_length, List.length_cons, List.length_nil]; omega)
    refine ⟨((l.length + 2 : Nat) : Int) :: rs, ?_, ?_⟩
    · rw [List.map_cons]
      rw [run_all_cons h1 hrs]
      have e : bumps rest.length (bump l 0 ++ [built_label kv.1 0,
            simple_token JSMN_STRING (some kv.2) (l.length : Int)]) 0 ++
          flat_tokens (bump l 0 ++ [built_label kv.1 0,
            simple_token JSMN_STRING (some kv.2) (l.length : Int)]).length rest =
          bumps (rest.length + 1) l 0 ++ flat_tokens l.length (kv :: rest) := by
        rw [bumps_append _ _ _ _ (by rw [bump_length]; exact (tokAt_lt ht).2)]
        simp [bumps, flat_tokens, bump_length]
      rw [e]
      rfl
    · intro r hr
      rcases List.mem_cons.1 hr with h | h
      · rw [h]; omega
      · exact hpos r h

theorem token_bytes_c_string (js : List Nat) (t : jsmn_Token) (v : List Nat)
    (hd : t.data = jsmn_data.str v) (hl : t.length = (strlen v : Int)) :
    token_bytes js t = c_string v := by
  unfold token_bytes c_string
  rw [hd]
  simp [hl]

theorem c_string_nil {x : List Nat} (h : ¬ (strlen x : Int) > 0) : c_string x = [] := by
  unfold c_string
  have : strlen x = 0 := by omega
  rw [this]
  rfl

theorem quoted_flatten_c (x : List Nat) (tail : List Nat) :
    ([[34]] ++ (if (strlen x : Int) > 0 then [c_string x] else []) ++ [tail]).flatten =
      34 :: c_string x ++ tail := by
  by_cases hx : (strlen x : Int) > 0
  · rw [if_pos hx]; simp
  · rw [if_neg hx, c_string_nil hx]
    simp

theorem flat_members_cons (kv : List Nat × List Nat) (rest : List (List Nat × List Nat)) :
    flat_members (kv :: rest) =
      flat_member kv ++ ((if rest = [] then [] else [44]) ++ flat_members rest) := by
  cases rest with
  | nil => simp [flat_members]
  | cons a b => simp [flat_members]

/-- The loop of the serializer over the pairs of a flat object. -/
theorem dump_flat (js : List Nat) (B : List jsmn_Token) :
    ∀ (kvs : List (List Nat × List Nat)) (fuel : Nat) (t size i j : Int) (q n : Nat),
      1 ≤ fuel → t + 1 + j = (q : Int) → Seg B q (flat_tokens n kvs) →
      size - i = (kvs.length : Int) →
      ∃ out, dump_object_loop (fun u => jsmn_dump js B fuel u) t size kvs.length i j =
          Run.ok (out, j + ((2 * kvs.length : Nat) : Int)) ∧ out.flatten = flat_members kvs := by
  intro kvs
  induction kvs with
  | nil =>
    intro fuel t size i j q n _ _ _ _
    exact ⟨[], by simp [dump_object_loop], rfl⟩
  | cons kv rest ih =>
    intro fuel t size i j q n hfuel hq hseg hsize
    obtain ⟨f, rfl⟩ : ∃ f, fuel = f + 1 := ⟨fuel - 1, by omega⟩
    simp only [flat_tokens] at hseg
    obtain ⟨h0, hseg1⟩ := seg_cons hseg
    obtain ⟨h1, hseg2⟩ := seg_cons hseg1
    simp only [List.length_cons] at hsize
    have hd1 : jsmn_dump js B (f + 1) (t + 1 + j) =
        Run.ok ([[34]] ++ (if (strlen kv.1 : Int) > 0 then [c_string kv.1] else []) ++
          [[34, 58]], 1) := by
      rw [hq, jsmn_dump_quoted f h0 (Or.inl rfl),
        token_bytes_c_string js _ kv.1 rfl rfl]
      rfl
    have hd2 : jsmn_dump js B (f + 1) (t + 1 + (j + 1)) =
        Run.ok ([[34]] ++ (if (strlen kv.2 : Int) > 0 then [c_string kv.2] else []) ++
          [[34]], 1) := by
      rw [show t + 1 + (j + 1) = ((q + 1 : Nat) : Int) by push_cast; omega,
        jsmn_dump_quoted f h1 (Or.inr rfl), token_bytes_c_string js _ kv.2 rfl rfl]
      rfl
    obtain ⟨o3, hd3, hf3⟩ := ih (f + 1) t size (i + 1) (j + 1 + 1) (q + 1 + 1) (n + 2)
      (by omega) (by push_cast; omega) hseg2 (by push_cast at hsize; omega)
    refine ⟨([[34]] ++ (if (strlen kv.1 : Int) > 0 then [c_string kv.1] else []) ++
        [[34, 58]]) ++ ([[34]] ++ (if (strlen kv.2 : Int) > 0 then [c_string kv.2] else []) ++
        [[34]]) ++ (if i < size - 1 then [[44]] else []) ++ o3, ?_, ?_⟩
    · rw [List.length_cons, dump_object_loop, hd1]
      simp only [hd2, hd3, Run.ok.injEq, Prod.mk.injEq, true_and]
      push_cast
      omega
    · have e1 := quoted_flatten_c kv.1 [34, 58]
      have e2 := quoted_flatten_c kv.2 [34]
      rw [List.flatten_append, List.flatten_append, List.flatten_append, e1, e2, hf3,
        flat_members_cons]
      by_cases hc : rest = []
      · subst hc
        rw [if_neg (by simp at hsize; omega), if_pos rfl]
        simp [flat_member]
      · have hpos : 0 < rest.length := List.length_pos.2 hc
        rw [if_neg hc, if_pos (by push_cast at hsize; omega)]
        simp [flat_member]

/-- C11. Builder-to-text for a flat object.  For every list of pairs of a
present name and a present value (C strings: the bytes at the pointer up to
the first NUL), on a fresh arena of capacity at least `2k + 1` the calls
`jsmn_start_object(NULL)`, `jsmn_append_string(n_i, v_i)` in order,
`jsmn_end_object()` all succeed, the last returning `2k + 1`; and `jsmn_dump`
on token 0 hands the sink fragments whose concatenation is exactly
`{"n1":"v1",...,"nk":"vk"}` and returns `2k + 1`. -/
theorem flat_object_text (kvs : List (List Nat × List Nat)) (cap fuel : Nat) (js : List Nat)
    (hcap : 2 * kvs.length + 1 ≤ cap) (hfuel : 2 ≤ fuel) :
    ∃ rs B out,
      run_all (flat_calls kvs) (jsmn_factory_init true cap) = Run.ok (rs, ⟨some B, cap, -1⟩) ∧
      (∀ r ∈ rs, (0 : Int) ≤ r) ∧ rs.length = kvs.length + 2 ∧
      rs.getLast? = some ((2 * kvs.length + 1 : Nat) : Int) ∧
      jsmn_dump js B fuel 0 = Run.ok (out, ((2 * kvs.length + 1 : Nat) : Int)) ∧
      out.flatten = flat_text kvs := by
  have h1 : run_call (jsmn_factory_init true cap) (BuilderCall.start_object none) =
      Run.ok (1, ⟨some [built_cont JSMN_OBJECT 0 (-1)], cap, 0⟩) := by
    have h0 : jsmn_start_sequence ⟨some [], cap, -1⟩ JSMN_OBJECT none = _ :=
      start_sequence_plain JSMN_OBJECT none (Or.inl rfl) (by simp; omega)
    simpa [bump_neg_one] using h0
  obtain ⟨rs, hrs, hpos⟩ := flat_appends kvs [built_cont JSMN_OBJECT 0 (-1)] cap
    (built_cont JSMN_OBJECT 0 (-1)) rfl rfl (by simp; omega)
  have eB : bumps kvs.length [built_cont JSMN_OBJECT 0 (-1)] 0 ++
      flat_tokens [built_cont JSMN_OBJECT 0 (-1)].length kvs =
      built_cont JSMN_OBJECT (kvs.length : Int) (-1) :: flat_tokens 1 kvs := by
    have := bumps_mid kvs.length [] (built_cont JSMN_OBJECT 0 (-1)) []
    simp only [List.nil_append, List.length_nil, Nat.cast_zero] at this
    rw [this]
    simp [built_cont]
  rw [eB] at hrs
  have hlen : ∀ (kvs : List (List Nat × List Nat)) (n : Nat),
      (flat_tokens n kvs).length = 2 * kvs.length := by
    intro kvs
    induction kvs with
    | nil => intro n; rfl
    | cons kv rest ih => intro n; simp only [flat_tokens, List.length_cons, ih]; omega
  have h3 : run_call ⟨some (built_cont JSMN_OBJECT (kvs.length : Int) (-1) ::
        flat_tokens 1 kvs), cap, 0⟩ BuilderCall.end_object =
      Run.ok (((2 * kvs.length + 1 : Nat) : Int),
        ⟨some (built_cont JSMN_OBJECT (kvs.length : Int) (-1) :: flat_tokens 1 kvs),
          cap, -1⟩) := by
    have h0 : jsmn_end_sequence ⟨some (built_cont JSMN_OBJECT (kvs.length : Int) (-1) ::
        flat_tokens 1 kvs), cap, 0⟩ JSMN_OBJECT = _ :=
      end_sequence_root JSMN_OBJECT
        (show tokAt (built_cont JSMN_OBJECT (kvs.length : Int) (-1) :: flat_tokens 1 kvs) 0 =
          some (built_cont JSMN_OBJECT (kvs.length : Int) (-1)) from rfl) rfl rfl
    rw [List.length_cons, hlen] at h0
    exact h0
  have hall := run_all_cons h1 (run_all_append _ [BuilderCall.end_object] _ _ _ _ _ hrs
    (run_all_cons h3 rfl))
  obtain ⟨f, rfl⟩ : ∃ f, fuel = f + 1 := ⟨fuel - 1, by omega⟩
  obtain ⟨out, hd, hf⟩ := dump_flat js
    (built_cont JSMN_OBJECT (kvs.length : Int) (-1) :: flat_tokens 1 kvs) kvs f 0
    (kvs.length : Int) 0 0 1 1 (by omega) (by simp)
    ⟨[built_cont JSMN_OBJECT (kvs.length : Int) (-1)], [], by simp, rfl⟩ (by simp)
  refine ⟨_, _, [[123]] ++ out ++ [[125]], hall, ?_, ?_, ?_, ?_, ?_⟩
  · intro r hr
    rcases List.mem_cons.1 hr with h | h
    · rw [h]; decide
    · rcases List.mem_append.1 h with h | h
      · exact hpos r h
      · simp only [List.mem_singleton] at h
        rw [h]; omega
  · have hl : rs.length = kvs.length := by
      obtain ⟨rs2, _, _, h2, hlen2, _⟩ := run_all_reach (fun _ _ => True) cap
        (fun _ _ _ _ _ _ _ _ _ _ => trivial)
        (kvs.map (fun kv => BuilderCall.append_string (some kv.1) (some kv.2)))
        [built_cont JSMN_OBJECT 0 (-1)] 0 (Or.inr ⟨by omega, by simp⟩)
        (by
          intro i t h
          cases i with
          | zero =>
            simp only [List.get?_cons_zero, Option.some.injEq] at h
            rw [← h]; exact Or.inl rfl
          | succ i => simp at h) trivial
      rw [hrs] at h2
      simp only [Run.ok.injEq, Prod.mk.injEq] at h2
      rw [h2.1, hlen2]
      simp
    simp [hl]
  · rw [← List.cons_append, List.getLast?_append]
    rfl
  · have ht0 : tokAt (built_cont JSMN_OBJECT (kvs.length : Int) (-1) :: flat_tokens 1 kvs) 0 =
        some (built_cont JSMN_OBJECT (kvs.length : Int) (-1)) := rfl
    rw [jsmn_dump_object f ht0 rfl]
    have e : (built_cont JSMN_OBJECT (kvs.length : Int) (-1)).size = (kvs.length : Int) := rfl
    rw [e, Int.toNat_ofNat, hd]
    simp only [Run.ok.injEq, Prod.mk.injEq, true_and]
    push_cast
    omega
  · simp [flat_text, hf]

/-- Witness of C11: `k = 1` with the pair `"k"`, `"v"` gives `{"k":"v"}`. -/
theorem flat_object_text_witness :
    ∃ rs B out,
      run_all (flat_calls [([107], [118])]) (jsmn_factory_init true 3) =
        Run.ok (rs, ⟨some B, 3, -1⟩) ∧
      (∀ r ∈ rs, (0 : Int) ≤ r) ∧ rs.length = 1 + 2 ∧
      rs.getLast? = some ((2 * 1 + 1 : Nat) : Int) ∧
      jsmn_dump [] B 2 0 = Run.ok (out, ((2 * 1 + 1 : Nat) : Int)) ∧
      out.flatten = [123, 34, 107, 34, 58, 34, 118, 34, 125] :=
  flat_object_text [([107], [118])] 3 2 [] (by decide) (by decide)

end Jsmn

namespace Jsmn
open jsmntype_t

/-! ## A closing bracket without an open container (C19) -/

theorem yields_parse_len {js : List Nat} {len cap : Nat} {r : Int × jsmn_Parser}
    (h : Yields js len cap [] (-1) 0 r) :
    jsmn_parse (jsmn_parser_init true cap) js len = Run.ok r := by
  obtain ⟨k, hk, h⟩ := h
  rw [jsmn_parse_init]
  have := h (len + 1 - k)
  rwa [show len + 1 - k + k = len + 1 by omega] at this

/-- The states the main loop comes to: the superior token and the back
pointers are in range, and the loop runs from the fresh state to them. -/
theorem reaches_inv {js : List Nat} {len cap : Nat} {l : List jsmn_Token} {sup : Int}
    {pos : Nat} (h : Reaches js len cap l sup pos) :
    SupOK l sup ∧ ParentsOK l ∧ Runs js len cap [] (-1) 0 l sup pos := by
  induction h with
  | start => exact ⟨Or.inl rfl, parentsOK_nil, runs_refl _ _ _ _ _ _⟩
  | step l sup pos l1 sup1 pos1 count1 _ hlt h0 hstep ih =>
    obtain ⟨hsup, hp, hruns⟩ := ih
    obtain ⟨l2, sup2, hf, ht⟩ := parse_step_next_real js len rfl hsup hstep
    simp only [jsmn_Factory.mk.injEq, Option.some.injEq, true_and] at hf
    obtain ⟨rfl, rfl⟩ := hf
    simp only at ht
    obtain ⟨hsup1, hp1, _, hlen1, hpos⟩ := tokStep_inv ht hsup hp
    refine ⟨hsup1, hp1, runs_trans hruns ⟨1, by omega, fun fuel => ?_⟩⟩
    rw [parse_loop]
    simp only
    rw [if_pos ⟨hlt, h0⟩, hstep]
    simp only
    rw [show count1 = (l1.length : Int) by omega]

theorem isOpen_false {t : jsmn_Token} (h : isOpen t = false) :
    ¬ (t.start ≠ -1 ∧ t.end_ = -1) := by
  unfold isOpen at h
  intro ⟨h1, h2⟩
  simp [h1, h2] at h

/-- The walk of a closing bracket over a parent chain without an open
container: it ends in `return JSMN_ERROR_INVAL` when the superior token is
unset or the last token of the chain is not of the type of the bracket. -/
theorem close_walk_none (ty : jsmntype_t) (pos : Nat) (sup : Int) (l : List jsmn_Token)
    (hp : ParentsOK l) :
    ∀ (fuel : Nat) (i : Int), 0 ≤ i → i < l.length → i < fuel →
      (∀ t ∈ parent_chain l fuel i, isOpen t = false) →
      (sup = -1 ∨ ∀ t, (parent_chain l fuel i).getLast? = some t → t.type ≠ ty) →
      close_walk ty pos sup fuel l i = Run.ok none := by
  intro fuel
  induction fuel with
  | zero => intro i h0 _ h; omega
  | succ n ih =>
    intro i h0 h1 h2 hopen hlast
    obtain ⟨t, ht⟩ := tokAt_isSome h0 h1
    rw [close_walk, ht]
    simp only
    rw [parent_chain, ht] at hopen hlast
    simp only at hopen hlast
    by_cases hpar : t.parent = -1
    · rw [if_pos hpar] at hopen hlast
      rw [if_neg (isOpen_false (hopen t (List.mem_singleton.2 rfl))), if_pos hpar]
      rw [if_pos]
      rcases hlast with h | h
      · exact Or.inr h
      · exact Or.inl (h t rfl)
    · rw [if_neg hpar] at hopen hlast
      rw [if_neg (isOpen_false (hopen t (List.mem_cons_self _ _))), if_neg hpar]
      have hpp := hp i.toNat t (tokAt_eq_some.1 ht).2
      rcases hpp with hpp | ⟨ha, hb⟩
      · exact absurd hpp hpar
      · have hne : parent_chain l n t.parent ≠ [] := by
          obtain ⟨m, rfl⟩ : ∃ m, n = m + 1 := ⟨n - 1, by omega⟩
          obtain ⟨tp, htp⟩ := tokAt_isSome (l := l) ha (by omega)
          rw [parent_chain, htp]
          simp only
          split <;> simp
        refine ih t.parent ha (by omega) (by omega)
          (fun x hx => hopen x (List.mem_cons_of_mem _ hx)) ?_
        rcases hlast with h | h
        · exact Or.inl h
        · right
          intro x hx
          apply h x
          rw [List.getLast?_cons]
          rw [hx]
          rfl

/-- C19 (as stated) fails: in the parse of `[]:]` on a fresh arena of capacity
1 the main loop comes to offset 3 with the closed Array as only token and
superior token 0 (set by the colon); the byte read is `]`; no token on the
parent chain from the last token is an open container; and the parse does not
fail with `JSMN_ERROR_INVAL`: it skips the bracket and returns 1. -/
theorem unmatched_closer_counterexample :
    Reaches [91, 93, 58, 93] 4 1 [closed_token JSMN_ARRAY 0 2 0 (-1)] 0 3 ∧
    ([91, 93, 58, 93] : List Nat).getD 3 0 = 93 ∧
    (∀ t ∈ parent_chain [closed_token JSMN_ARRAY 0 2 0 (-1)] 1 0, isOpen t = false) ∧
    jsmn_parse (jsmn_parser_init true 1) [91, 93, 58, 93] 4 =
      Run.ok (1, ⟨⟨some [closed_token JSMN_ARRAY 0 2 0 (-1)], 1, 0⟩, 4⟩) := by
  refine ⟨?_, rfl, ?_, rfl⟩
  · have h1 : Reaches [91, 93, 58, 93] 4 1 [new_token JSMN_ARRAY 0 (-1) (-1)] 0 (0 + 1) :=
      Reaches.step [] (-1) 0 _ _ _ 1 Reaches.start (by decide) (by decide) rfl
    have h2 : Reaches [91, 93, 58, 93] 4 1 [closed_token JSMN_ARRAY 0 2 0 (-1)] (-1) (1 + 1) :=
      Reaches.step _ _ _ _ _ _ 1 h1 (by decide) (by decide) rfl
    exact Reaches.step _ _ _ _ _ _ 1 h2 (by decide) (by decide) rfl
  · intro t ht
    have e : parent_chain [closed_token JSMN_ARRAY 0 2 0 (-1)] 1 0 =
        [closed_token JSMN_ARRAY 0 2 0 (-1)] := rfl
    rw [e] at ht
    rw [List.mem_singleton.1 ht]
    rfl

/-- C19 (amended). During a real `jsmn_parse` from a fresh arena, whenever the
main loop reads a `}` or `]` and either no token has been allocated yet, or no
token on the parent chain from the most recently allocated token is an open
container (`start != -1` and `end == -1`) and, in addition, the superior token
is unset or the last token of that chain (the one without parent) is not of
the type of the bracket, the parse fails with `JSMN_ERROR_INVAL`, at that
offset and with the tokens as they were. -/
theorem unmatched_closer_amended (js : List Nat) (len cap : Nat) (l : List jsmn_Token)
    (sup : Int) (pos : Nat) (hreach : Reaches js len cap l sup pos) (hpos : pos < len)
    (hc : js.getD pos 0 = 125 ∨ js.getD pos 0 = 93)
    (hcond : l = [] ∨
      ((∀ t ∈ parent_chain l l.length ((l.length : Int) - 1), isOpen t = false) ∧
        (sup = -1 ∨ ∀ t, (parent_chain l l.length ((l.length : Int) - 1)).getLast? = some t →
          t.type ≠ bracket_type (js.getD pos 0)))) :
    jsmn_parse (jsmn_parser_init true cap) js len =
      Run.ok (JSMN_ERROR_INVAL, ⟨⟨some l, cap, sup⟩, pos⟩) := by
  obtain ⟨hsup, hp, hruns⟩ := reaches_inv hreach
  apply yields_parse_len
  apply runs_yields hruns
  apply yields_ret ⟨hpos, by omega⟩
  have h1 : ¬ (js.getD pos 0 = 123 ∨ js.getD pos 0 = 91) := by omega
  unfold parse_step
  simp only
  rw [if_neg h1, if_pos hc, step_close_real rfl hc]
  by_cases hlen : l.length < 1
  · rw [if_pos hlen]
  · rw [if_neg hlen]
    rcases hcond with h | ⟨hopen, hlast⟩
    · subst h; simp at hlen
    · rw [close_walk_none _ pos sup l hp l.length ((l.length : Int) - 1) (by omega) (by omega)
        (by omega) hopen hlast]

/-- Witness of C19 (amended): the second `]` of `[]]`, read with the closed
Array as only token and no superior token. -/
theorem unmatched_closer_amended_witness :
    jsmn_parse (jsmn_parser_init true 1) [91, 93, 93] 3 =
      Run.ok (JSMN_ERROR_INVAL, ⟨⟨some [closed_token JSMN_ARRAY 0 2 0 (-1)], 1, -1⟩, 2⟩) :=
  unmatched_closer_amended [91, 93, 93] 3 1 [closed_token JSMN_ARRAY 0 2 0 (-1)] (-1) 2
    (Reaches.step [new_token JSMN_ARRAY 0 (-1) (-1)] 0 1 _ _ 1 1
      (Reaches.step [] (-1) 0 _ _ 0 1 Reaches.start (by decide) (by decide) rfl)
      (by decide) (by decide) rfl)
    (by decide) (Or.inr rfl)
    (Or.inr ⟨fun t ht => by
      have e : parent_chain [closed_token JSMN_ARRAY 0 2 0 (-1)] 1 0 =
          [closed_token JSMN_ARRAY 0 2 0 (-1)] := rfl
      have ht1 : t ∈ [closed_token JSMN_ARRAY 0 2 0 (-1)] := e ▸ ht
      rw [List.mem_singleton.1 ht1]
      rfl, Or.inl rfl⟩)

end Jsmn

namespace Jsmn
open jsmntype_t

/-! ## A string outside every container (C20) -/

/-- C20: the code at the text `"a"` (3 bytes) on a fresh arena of capacity 1.
The string scan finds the closing quote, allocates token 0 and then reads
`toks[toksuper].type` with `toksuper = -1`: the index is not in
`0 .. toknext - 1`, and the embedding of `jsmn_parse_string`, and with it of
`jsmn_parse`, takes its out-of-range branch. -/
theorem string_at_root_out_of_range :
    (jsmn_parser_init true 1).factory.toksuper = -1 ∧
    jsmn_alloc_token (jsmn_parser_init true 1).factory 1 = some (0, [fresh_token]) ∧
    tokAt [fresh_token] (-1) = none ∧
    jsmn_parse_string (jsmn_parser_init true 1) [34, 97, 34] 3 = Run.bounds ∧
    jsmn_parse (jsmn_parser_init true 1) [34, 97, 34] 3 = Run.bounds := by
  refine ⟨rfl, rfl, rfl, rfl, rfl⟩

end Jsmn

namespace Jsmn
open jsmntype_t

/-! ## Label tokens -/

theorem bump_map_type_parent (l : List jsmn_Token) (c : Int) :
    (bump l c).map (fun t => (t.type, t.parent)) = l.map (fun t => (t.type, t.parent)) := by
  apply List.ext_get?
  intro i
  have hb := bump_get? l c i
  simp only [List.get?_eq_getElem?] at hb ⊢
  rw [List.getElem?_map, List.getElem?_map, hb]
  cases l[i]? with
  | none => rfl
  | some t =>
    simp only [Option.map_some', Option.some.injEq]
    split <;> rfl

theorem call_start_type {call : BuilderCall} {ty : jsmntype_t} {name : Option (List Nat)}
    (h : call_start call = some (ty, name)) : ty = JSMN_OBJECT ∨ ty = JSMN_ARRAY := by
  cases call <;> simp [call_start] at h
  · exact Or.inl h.1.symm
  · exact Or.inr h.1.symm

theorem call_simple_type {call : BuilderCall} {ty : jsmntype_t}
    {name value : Option (List Nat)}
    (h : call_simple call = some (ty, name, value)) :
    ty = JSMN_STRING ∨ ty = JSMN_PRIMITIVE := by
  cases call <;> simp [call_simple] at h
  · exact Or.inl h.1.symm
  · exact Or.inr h.1.symm

theorem bump_map_type (l : List jsmn_Token) (c : Int) :
    (bump l c).map (fun t => t.type) = l.map (fun t => t.type) := by
  have := congrArg (List.map Prod.fst) (bump_map_type_parent l c)
  simpa [List.map_map, Function.comp] using this

end Jsmn

namespace Jsmn
open jsmntype_t

/-! ## The Label invariant (C18) -/

/-- The Builder calls `jsmn_start_object(NULL)`, `jsmn_start_array("a")`,
`jsmn_start_object(NULL)`, `jsmn_end_object()`, `jsmn_append_string(NULL, "x")`
all succeed; the end of the Object inside the Array leaves the Label (token 1)
as superior token, and the String becomes a second child of the Label. -/
theorem label_second_child_eval :
    run_all [BuilderCall.start_object none, BuilderCall.start_array (some [97]),
        BuilderCall.start_object none, BuilderCall.end_object,
        BuilderCall.append_string none (some [120])] (jsmn_factory_init true 5) =
      Run.ok ([1, 3, 4, 4, 5],
        ⟨some [built_cont JSMN_OBJECT 1 (-1),
          { built_label [97] 0 with size := 2 },
          built_cont JSMN_ARRAY 1 1, built_cont JSMN_OBJECT 0 2,
          simple_token JSMN_STRING (some [120]) 1], 5, 1⟩) := rfl

end Jsmn

namespace Jsmn
open jsmntype_t

/-! ## Document order and returned count (C21, C22) -/

theorem bump_map_start (l : List jsmn_Token) (c : Int) :
    (bump l c).map (fun t => t.start) = l.map (fun t => t.start) := by
  apply List.ext_get?
  intro i
  have hb := bump_get? l c i
  simp only [List.get?_eq_getElem?] at hb ⊢
  rw [List.getElem?_map, List.getElem?_map, hb]
  cases l[i]? with
  | none => rfl
  | some t =>
    simp only [Option.map_some', Option.some.injEq]
    split <;> rfl

theorem resolve_map_start (l : List jsmn_Token) :
    (l.map resolve_token).map (fun t => t.start) = l.map (fun t => t.start) := by
  rw [List.map_map]
  apply List.map_congr_left
  intro t _
  simp only [Function.comp]
  unfold resolve_token
  split <;> rfl

/-- The start offsets are below `pos`, not negative, and strictly increasing:
kept when a token that starts at `s ≥ pos` is appended and the offset moves
beyond `s`. -/
theorem starts_append {l : List jsmn_Token} {c : Int} {x : jsmn_Token} {pos pos1 : Nat}
    (h : (∀ s ∈ l.map (fun t => t.start), 0 ≤ s ∧ s < (pos : Int)) ∧
      (l.map (fun t => t.start)).Pairwise (fun a b => a < b))
    (hx1 : (pos : Int) ≤ x.start) (hx2 : x.start < (pos1 : Int)) :
    (∀ s ∈ (bump l c ++ [x]).map (fun t => t.start), 0 ≤ s ∧ s < (pos1 : Int)) ∧
      ((bump l c ++ [x]).map (fun t => t.start)).Pairwise (fun a b => a < b) := by
  rw [List.map_append, bump_map_start]
  constructor
  · intro s hs
    rcases List.mem_append.1 hs with hs | hs
    · have := h.1 s hs
      omega
    · simp only [List.map_cons, List.map_nil, List.mem_singleton] at hs
      subst hs
      omega
  · rw [List.pairwise_append]
    refine ⟨h.2, by simp, ?_⟩
    intro a ha b hb
    simp only [List.map_cons, List.map_nil, List.mem_singleton] at hb
    subst hb
    have := h.1 a ha
    omega

theorem starts_mono {l : List jsmn_Token} {pos pos1 : Nat}
    (h : (∀ s ∈ l.map (fun t => t.start), 0 ≤ s ∧ s < (pos : Int)) ∧
      (l.map (fun t => t.start)).Pairwise (fun a b => a < b))
    (hpos : pos ≤ pos1) :
    (∀ s ∈ l.map (fun t => t.start), 0 ≤ s ∧ s < (pos1 : Int)) ∧
      (l.map (fun t => t.start)).Pairwise (fun a b => a < b) := by
  refine ⟨fun s hs => ?_, h.2⟩
  have := h.1 s hs
  omega

theorem tokStep_starts {js : List Nat} {len : Nat} {l l1 : List jsmn_Token}
    {sup sup1 : Int} {pos pos1 : Nat} {d : Int}
    (ht : TokStep js len l sup pos l1 sup1 pos1 d)
    (h : (∀ s ∈ l.map (fun t => t.start), 0 ≤ s ∧ s < (pos : Int)) ∧
      (l.map (fun t => t.start)).Pairwise (fun a b => a < b)) :
    (∀ s ∈ l1.map (fun t => t.start), 0 ≤ s ∧ s < ((pos1 + 1 : Nat) : Int)) ∧
      (l1.map (fun t => t.start)).Pairwise (fun a b => a < b) := by
  cases ht with
  | opened h1 =>
    exact starts_append h (by simp [new_token]) (by simp [new_token])
  | closed l1 sup1 h2 hlen hw =>
    rcases close_walk_some _ _ _ _ _ _ _ _ hw with
      ⟨ha, hb, hc⟩ | ⟨j, t, hj, hs1, he, hty, hl1, hs2⟩
    · subst ha
      exact starts_mono h (by omega)
    · subst hl1
      have e := map_set_same (fun t : jsmn_Token => t.start) l j t
        { t with end_ := (pos : Int) + 1 } hj rfl
      rw [e]
      exact starts_mono h (by omega)
  | string q h3 hs1 hq =>
    obtain ⟨hq1, _, _⟩ := string_loop_inr _ _ _ _ _ hq
    exact starts_append h (by simp [new_token]) (by simp [new_token]; omega)
  | primitive q h7 hk hq =>
    obtain ⟨hq1, _, hq3, _⟩ := primitive_loop_inr _ _ _ _ _ hq
    have hne : pos ≠ q := by
      intro he; subst he
      rw [isPrimitiveStart_not_terminator h7] at hq3
      simp at hq3
    exact starts_append h (by simp [new_token]) (by simp [new_token]; omega)
  | space h4 => exact starts_mono h (by omega)
  | colon h5 => exact starts_mono h (by omega)
  | comma h6 => exact starts_mono h (by omega)

/-- C21. Document order.  After a real `jsmn_parse` from offset 0 on a fresh
arena, whatever its outcome (the parse never runs out of its loop bound), every
allocated token has `start ≥ 0`, and the start offsets strictly increase with
the token index. -/
theorem document_order (js : List Nat) (len cap : Nat) :
    jsmn_parse (jsmn_parser_init true cap) js len ≠ Run.fuel ∧
    ∀ r p, jsmn_parse (jsmn_parser_init true cap) js len = Run.ok (r, p) →
      ∃ l, p.factory.toks = some l ∧
        (∀ (i : Nat) (t : jsmn_Token), l.get? i = some t → 0 ≤ t.start) ∧
        (∀ (i j : Nat) (ti tj : jsmn_Token), i < j → l.get? i = some ti →
          l.get? j = some tj → ti.start < tj.start) := by
  refine ⟨jsmn_parse_ne_fuel cap js len, fun r p h => ?_⟩
  rw [jsmn_parse_init] at h
  obtain ⟨l1, sup1, pos1, _, _, hI, hcase⟩ :=
    parse_loop_real_reach js len
      (fun l _ pos => (∀ s ∈ l.map (fun t => t.start), 0 ≤ s ∧ s < (pos : Int)) ∧
        (l.map (fun t => t.start)).Pairwise (fun a b => a < b))
      (fun l sup pos l1 sup1 pos1 d _ _ _ _ hI ht => tokStep_starts ht hI)
      _ _ _ _ _ _ _ (Or.inl rfl) parentsOK_nil ⟨by simp, by simp⟩ h
  have key : ∀ l : List jsmn_Token,
      l.map (fun t => t.start) = l1.map (fun t => t.start) →
      (∀ (i : Nat) (t : jsmn_Token), l.get? i = some t → 0 ≤ t.start) ∧
      (∀ (i j : Nat) (ti tj : jsmn_Token), i < j → l.get? i = some ti →
        l.get? j = some tj → ti.start < tj.start) := by
    intro l hl
    rw [← hl] at hI
    constructor
    · intro i t hi
      exact (hI.1 t.start (List.mem_map.2 ⟨t, List.get?_mem hi, rfl⟩)).1
    · intro i j ti tj hij hi hj
      have hp := hI.2
      rw [List.pairwise_iff_getElem] at hp
      simp only [List.get?_eq_getElem?] at hi hj
      obtain ⟨hi1, hi2⟩ := List.getElem?_eq_some.1 hi
      obtain ⟨hj1, hj2⟩ := List.getElem?_eq_some.1 hj
      have := hp i j (by simpa using hi1) (by simpa using hj1) hij
      simpa [hi2, hj2] using this
  rcases hcase with ⟨_, hp⟩ | ⟨_, _, _, hp⟩
  · subst hp
    exact ⟨l1, rfl, key l1 rfl⟩
  · subst hp
    exact ⟨_, rfl, key _ (resolve_map_start l1)⟩

/-- Witness of C21: the parse of `[1]`. -/
theorem document_order_witness :
    ∃ l, (⟨⟨some [closed_token JSMN_ARRAY 0 3 1 (-1),
          resolve_token (new_token JSMN_PRIMITIVE 1 2 0)], 2, -1⟩, 3⟩ : jsmn_Parser).factory.toks =
        some l ∧
      (∀ (i : Nat) (t : jsmn_Token), l.get? i = some t → 0 ≤ t.start) ∧
      (∀ (i j : Nat) (ti tj : jsmn_Token), i < j → l.get? i = some ti →
        l.get? j = some tj → ti.start < tj.start) :=
  (document_order [91, 49, 93] 3 2).2 2
    ⟨⟨some [closed_token JSMN_ARRAY 0 3 1 (-1),
      resolve_token (new_token JSMN_PRIMITIVE 1 2 0)], 2, -1⟩, 3⟩ rfl

/-- C22. Returned count is the allocation count.  For every text and
capacity, when a real `jsmn_parse` from offset 0 on a fresh arena succeeds
(its return value is not negative), the return value equals `toknext` after
the call and is at most the capacity of the arena, which the call leaves as it
was. -/
theorem returned_count (js : List Nat) (len cap : Nat) (r : Int) (p : jsmn_Parser)
    (h : jsmn_parse (jsmn_parser_init true cap) js len = Run.ok (r, p)) (hr : 0 ≤ r) :
    r = (p.factory.toknext : Int) ∧ p.factory.toknext ≤ p.factory.tokslen ∧
      p.factory.tokslen = cap := by
  rw [jsmn_parse_init] at h
  obtain ⟨_, h2, _, h4⟩ := parse_loop_cap js len _ _ _ _ _ _ _ (Or.inl rfl) parentsOK_nil h hr
  have hcap : p.factory.tokslen = cap := by
    obtain ⟨l1, sup1, pos1, _, _, _, hcase⟩ :=
      parse_loop_real_reach js len (fun _ _ _ => True) (fun _ _ _ _ _ _ _ _ _ _ _ _ _ => trivial)
        _ _ _ _ _ _ _ (Or.inl rfl) parentsOK_nil trivial h
    rcases hcase with ⟨_, hp⟩ | ⟨_, _, _, hp⟩ <;> rw [hp]
  refine ⟨h2.symm, ?_, hcap⟩
  rw [hcap]
  by_contra hlt
  obtain ⟨p2, hp2⟩ := h4 cap (by omega) (by simp)
  rw [hp2] at h
  simp only [Run.ok.injEq, Prod.mk.injEq] at h
  have := h.1
  unfold JSMN_ERROR_NOMEM at this
  omega

/-- Witness of C22: the parse of `[1]` into an arena of capacity 5. -/
theorem returned_count_witness :
    (2 : Int) = ((⟨⟨some [closed_token JSMN_ARRAY 0 3 1 (-1),
        resolve_token (new_token JSMN_PRIMITIVE 1 2 0)], 5, -1⟩, 3⟩ :
          jsmn_Parser).factory.toknext : Int) ∧
      (⟨⟨some [closed_token JSMN_ARRAY 0 3 1 (-1),
        resolve_token (new_token JSMN_PRIMITIVE 1 2 0)], 5, -1⟩, 3⟩ :
          jsmn_Parser).factory.toknext ≤ 5 ∧ (5 : Nat) = 5 :=
  returned_count [91, 49, 93] 3 5 2
    ⟨⟨some [closed_token JSMN_ARRAY 0 3 1 (-1),
      resolve_token (new_token JSMN_PRIMITIVE 1 2 0)], 5, -1⟩, 3⟩ rfl (by decide)

end Jsmn

namespace Jsmn
open jsmntype_t

/-! ## Truncation of a text whose value is a number, a literal or a string -/

theorem gram_value_inv {S P : List Nat → Prop} {o n : Nat} {s : Int} {v : List Nat}
    {T : List jsmn_Token} {k : Nat} (h : Gram S P Kind.value o n s v T k) :
    IsCont T ∨
    (P v ∧ T = [new_token JSMN_PRIMITIVE (o : Int) ((o + v.length : Nat) : Int) s]) ∨
    ∃ b, S b ∧ v = 34 :: b ++ [34] ∧
      T = [new_token JSMN_STRING ((o : Int) + 1) ((o + 1 + b.length : Nat) : Int) s] := by
  cases h with
  | prim _ _ _ p hp => exact Or.inr (Or.inl ⟨hp, rfl⟩)
  | str _ _ _ b hb => exact Or.inr (Or.inr ⟨b, hb, rfl, rfl⟩)
  | arr_empty _ _ _ w hw => exact Or.inl ⟨_, _, rfl, Or.inr rfl⟩
  | arr _ _ _ inner T k h => exact Or.inl ⟨_, _, rfl, Or.inr rfl⟩
  | obj_empty _ _ _ w hw => exact Or.inl ⟨_, _, rfl, Or.inl rfl⟩
  | obj _ _ _ inner T k h => exact Or.inl ⟨_, _, rfl, Or.inl rfl⟩

theorem validPrim_dropLast {p : List Nat} (h : ValidPrim p) (hne : p.dropLast ≠ []) :
    ValidPrim p.dropLast := by
  obtain ⟨_, hstart, hall⟩ := h
  refine ⟨hne, ?_, fun b hb => hall b (List.mem_of_mem_dropLast hb)⟩
  cases p with
  | nil => exact absurd rfl hne
  | cons a q =>
    cases q with
    | nil => exact absurd rfl hne
    | cons a2 q2 => exact hstart

theorem key_blocked_neg_one (l : List jsmn_Token) : key_blocked l (-1) = false := by
  unfold key_blocked
  rw [tokAt_neg (by omega)]

/-- A text of white space only parses into no token. -/
theorem parse_blank (w : List Nat) (cap : Nat) (hw : Ws w) :
    jsmn_parse (jsmn_parser_init true cap) w w.length =
      Run.ok (0, ⟨⟨some [], cap, -1⟩, w.length⟩) := by
  apply yields_parse
  have h1 : Runs w w.length cap [] (-1) ([] : List Nat).length [] (-1)
      (([] : List Nat).length + w.length) :=
    runs_ws (Or.inl rfl) (by simp) w [] [] hw (by simp)
  simp only [List.length_nil, Nat.zero_add] at h1
  have hend : Yields w w.length cap [] (-1) w.length _ :=
    yields_end [] cap (-1) (by intro h; omega) (le_refl _)
  exact runs_yields h1 hend

/-- A text that ends inside or just after a number or literal at the root is
incomplete. -/
theorem parse_prim_part (w1 p : List Nat) (cap : Nat) (hw1 : Ws w1) (hp : ValidPrim p) :
    ∃ q, jsmn_parse (jsmn_parser_init true cap) (w1 ++ p) (w1 ++ p).length =
      Run.ok (JSMN_ERROR_PART, q) := by
  generalize hjs : w1 ++ p = js
  have hjs1 : js = [] ++ w1 ++ p := by rw [← hjs]; simp
  have h1 : Runs js js.length cap [] (-1) ([] : List Nat).length [] (-1)
      (([] : List Nat).length + w1.length) :=
    runs_ws (Or.inl rfl) (by simp) w1 [] p hw1 hjs1
  simp only [List.length_nil, Nat.zero_add] at h1
  have h2 : Yields js js.length cap [] (-1) w1.length _ :=
    yields_prim_end hjs.symm hp (Or.inl rfl) (key_blocked_neg_one _)
  exact ⟨_, yields_parse (runs_yields h1 h2)⟩

/-- A number or literal at the root with white space after it parses into one
Primitive token. -/
theorem parse_prim_text (w1 p w2 : List Nat) (cap : Nat) (hw1 : Ws w1) (hp : ValidPrim p)
    (hw2 : Ws w2) (hne : w2 ≠ []) (hcap : 1 ≤ cap) :
    jsmn_parse (jsmn_parser_init true cap) (w1 ++ p ++ w2) (w1 ++ p ++ w2).length =
      Run.ok (1, ⟨⟨some ([new_token JSMN_PRIMITIVE (w1.length : Int)
        ((w1.length + p.length : Nat) : Int) (-1)].map resolve_token), cap, -1⟩,
        (w1 ++ p ++ w2).length⟩) := by
  generalize hjs : w1 ++ p ++ w2 = js
  have hjs1 : js = [] ++ w1 ++ (p ++ w2) := by rw [← hjs]; simp
  have hjs3 : js = (w1 ++ p) ++ w2 ++ [] := by rw [← hjs]; simp
  have hlen : js.length = w1.length + p.length + w2.length := by
    rw [← hjs]; simp only [List.length_append]
  have hterm : Term w2 := by
    cases w2 with
    | nil => exact absurd rfl hne
    | cons c rest => exact ⟨c, rest, rfl, isSpace_term (hw2 c (List.mem_cons_self _ _))⟩
  apply yields_parse
  have h1 : Runs js js.length cap [] (-1) ([] : List Nat).length [] (-1)
      (([] : List Nat).length + w1.length) :=
    runs_ws (Or.inl rfl) (by simp) w1 [] _ hw1 hjs1
  simp only [List.length_nil, Nat.zero_add] at h1
  have h2 : Runs js js.length cap [] (-1) w1.length _ _ _ :=
    runs_prim hjs.symm hp hterm (Or.inl rfl) (key_blocked_neg_one _) (by simpa using hcap)
  rw [bump_neg_one, List.nil_append] at h2
  have h3 : Runs js js.length cap
      [new_token JSMN_PRIMITIVE (w1.length : Int) ((w1.length + p.length : Nat) : Int) (-1)]
      (-1) (w1 ++ p).length _ _ _ :=
    runs_ws (Or.inl rfl) (by simpa using hcap) w2 (w1 ++ p) [] hw2 hjs3
  rw [List.length_append, show w1.length + p.length + w2.length = js.length by omega] at h3
  have hend : Yields js js.length cap
      [new_token JSMN_PRIMITIVE (w1.length : Int) ((w1.length + p.length : Nat) : Int) (-1)]
      (-1) js.length _ :=
    yields_end _ cap (-1) (by intro h; omega) (le_refl _)
  rw [show ([new_token JSMN_PRIMITIVE (w1.length : Int)
      ((w1.length + p.length : Nat) : Int) (-1)] : List jsmn_Token).any isOpen = false from by
        simp only [List.any_cons, List.any_nil, Bool.or_false, isOpen, new_token,
          Bool.and_eq_false_imp, decide_eq_true_eq, decide_eq_false_iff_not]
        intro _; omega, if_neg (by simp)] at hend
  exact runs_yields (runs_trans h1 (runs_trans h2 h3)) hend

/-- The string scan walks through a complete string body, whatever follows. -/
theorem strItems_walk {js : List Nat} {b : List Nat} (hb : StrItems scanPlain b) :
    ∀ (pre post : List Nat), js = pre ++ b ++ post →
      StringBody js js.length pre.length (pre.length + b.length) := by
  induction hb with
  | nil => intro pre post _; exact StringBody.nil _
  | plain c rest hc _ ih =>
    intro pre post hjs
    obtain ⟨c0, c34, c92⟩ := scanPlain_cases hc
    have hjs1 : js = pre ++ c :: (rest ++ post) := by rw [hjs]; simp
    have hb := getD_at hjs1
    have h2 := ih (pre ++ [c]) post (by rw [hjs]; simp)
    rw [List.length_append, List.length_singleton] at h2
    rw [List.length_cons, show pre.length + (rest.length + 1) = pre.length + 1 + rest.length
      by omega]
    exact StringBody.plain _ _ (length_at hjs1) (by rw [hb]; exact c0) (by rw [hb]; exact c34)
      (by rw [hb]; intro h; exact c92 h.1) h2
  | esc e rest he _ ih =>
    intro pre post hjs
    have hjs1 : js = pre ++ [92, e] ++ (rest ++ post) := by rw [hjs]; simp
    have hb0 := getD_mid hjs1 0 (by simp)
    have hb1 := getD_mid hjs1 1 (by simp)
    have hl : pre.length + 1 < js.length := by
      rw [hjs]; simp only [List.length_append, List.length_cons]; omega
    have h2 := ih (pre ++ [92, e]) post (by rw [hjs]; simp)
    rw [List.length_append] at h2
    simp only [List.length_cons, List.length_nil] at h2 ⊢
    rw [show pre.length + (rest.length + 1 + 1) = pre.length + (0 + 1 + 1) + rest.length
      by omega]
    exact StringBody.esc _ _ (by simpa using hb0) hl (by rw [hb1]; simpa using he) h2
  | uesc h1 h2 h3 h4 rest hh1 hh2 hh3 hh4 _ ih =>
    intro pre post hjs
    have hjs1 : js = pre ++ [92, 117, h1, h2, h3, h4] ++ (rest ++ post) := by
      rw [hjs]; simp
    have hb0 := getD_mid hjs1 0 (by simp)
    have hb1 := getD_mid hjs1 1 (by simp)
    have hb2 := getD_mid hjs1 2 (by simp)
    have hb3 := getD_mid hjs1 3 (by simp)
    have hb4 := getD_mid hjs1 4 (by simp)
    have hb5 := getD_mid hjs1 5 (by simp)
    have hl : pre.length + 5 < js.length := by
      rw [hjs]; simp only [List.length_append, List.length_cons]; omega
    have hr := ih (pre ++ [92, 117, h1, h2, h3, h4]) post (by rw [hjs]; simp)
    rw [List.length_append] at hr
    simp only [List.length_cons, List.length_nil] at hr ⊢
    rw [show pre.length + (rest.length + 1 + 1 + 1 + 1 + 1 + 1)
      = pre.length + (0 + 1 + 1 + 1 + 1 + 1 + 1) + rest.length by omega]
    rw [show pre.length + (0 + 1 + 1 + 1 + 1 + 1 + 1) = pre.length + 2 + 4 by omega] at hr ⊢
    refine StringBody.uesc _ _ 4 (by simpa using hb0) (by omega) (by simpa using hb1)
      (le_refl _) ?_ (Or.inl rfl) hr
    intro m hm
    refine ⟨by omega, ?_⟩
    have hm4 : m = 0 ∨ m = 1 ∨ m = 2 ∨ m = 3 := by omega
    rcases hm4 with rfl | rfl | rfl | rfl
    · rw [show pre.length + 2 + 0 = pre.length + 2 by omega, hb2]; simpa using hh1
    · rw [show pre.length + 2 + 1 = pre.length + 3 by omega, hb3]; simpa using hh2
    · rw [show pre.length + 2 + 2 = pre.length + 4 by omega, hb4]; simpa using hh3
    · rw [show pre.length + 2 + 3 = pre.length + 5 by omega, hb5]; simpa using hh4

/-- A text that ends before the closing quote of a string is incomplete. -/
theorem parse_string_part (w1 b : List Nat) (cap : Nat) (hw1 : Ws w1) (hb : ScanStr b) :
    ∃ q, jsmn_parse (jsmn_parser_init true cap) (w1 ++ 34 :: b) (w1 ++ 34 :: b).length =
      Run.ok (JSMN_ERROR_PART, q) := by
  generalize hjs : w1 ++ 34 :: b = js
  have hjs1 : js = [] ++ w1 ++ (34 :: b) := by rw [← hjs]; simp
  have hjs2 : js = (w1 ++ [34]) ++ b ++ [] := by rw [← hjs]; simp
  have hjs3 : js = w1 ++ 34 :: b := hjs.symm
  have hlen : js.length = w1.length + 1 + b.length := by
    rw [← hjs]; simp only [List.length_append, List.length_cons]; omega
  have h1 : Runs js js.length cap [] (-1) ([] : List Nat).length [] (-1)
      (([] : List Nat).length + w1.length) :=
    runs_ws (Or.inl rfl) (by simp) w1 [] _ hw1 hjs1
  simp only [List.length_nil, Nat.zero_add] at h1
  have hbody := strItems_walk hb (w1 ++ [34]) [] hjs2
  rw [List.length_append, List.length_singleton] at hbody
  obtain ⟨k, hk⟩ := string_loop_body js js.length hbody (js.length - w1.length + 1) (by omega)
  have hloop : string_loop js js.length (js.length - w1.length + 1) (w1.length + 1) =
      Run.ok (Sum.inl JSMN_ERROR_PART) := by
    rw [hk, string_loop, if_neg (by intro h; omega)]
  have h34 := getD_at hjs3
  have hstep : parse_step js js.length ⟨⟨some [], cap, -1⟩, w1.length⟩
      ((([] : List jsmn_Token).length : Nat) : Int) =
      Run.ok (Step.ret JSMN_ERROR_PART ⟨⟨some [], cap, -1⟩, w1.length⟩) := by
    unfold parse_step
    simp only
    have c1 : ¬ (js.getD w1.length 0 = 123 ∨ js.getD w1.length 0 = 91) := by omega
    have c2 : ¬ (js.getD w1.length 0 = 125 ∨ js.getD w1.length 0 = 93) := by omega
    rw [if_neg c1, if_neg c2, if_pos h34, step_string_real rfl (Or.inl rfl)]
    simp only [hloop]
    rw [if_pos (by decide)]
  have h2 : Yields js js.length cap [] (-1) w1.length _ :=
    yields_ret ⟨length_at hjs3, by omega⟩ hstep
  exact ⟨_, yields_parse (runs_yields h1 h2)⟩

theorem jsonPrim_single {d : Nat} (h : JsonPrim [d]) : isDigit d = true := by
  rcases h with h | h | h | h
  · obtain ⟨m, i, f, e, hm, hi, hf, he, heq⟩ := h
    have hd := jsonInt_digits hi
    have hlen := congrArg List.length heq
    simp only [List.length_append, List.length_cons, List.length_nil] at hlen
    have hi1 : 0 < i.length := List.length_pos.2 hd.1
    have hm0 : m = [] := List.eq_nil_of_length_eq_zero (by omega)
    subst hm0
    cases i with
    | nil => exact absurd rfl hd.1
    | cons a i1 =>
      simp only [List.nil_append, List.cons_append, List.cons.injEq] at heq
      rw [heq.1]
      exact hd.2 a (List.mem_cons_self _ _)
  · simp at h
  · simp at h
  · simp at h

/-- C4 (amended). For every JSON text `X` (RFC 8259) with tokens `T` that does
not have white space after a string at its root, and every fresh arena of
capacity at least the number of these tokens: the parse of `X` with its final
byte removed fails with `JSMN_ERROR_PART`; or the removed byte is white space
after the value and the parse still returns the count `|T|` and leaves the same
tokens as the parse of `X`; or `X` is one digit after optional white space, and
the parse of what is left, white space only, returns 0 and leaves no token. -/
theorem truncation_amended (X : List Nat) (T : List jsmn_Token) (cap : Nat)
    (hX : JsonText X T)
    (hstr : IsStr T → ∀ c, X.getLast? = some c → isSpace c = false)
    (hcap : T.length ≤ cap) :
    (∃ p, jsmn_parse (jsmn_parser_init true cap) X.dropLast X.dropLast.length =
      Run.ok (JSMN_ERROR_PART, p)) ∨
    (∃ c, X.getLast? = some c ∧ isSpace c = true ∧
      jsmn_parse (jsmn_parser_init true cap) X X.length =
        Run.ok ((T.length : Int), ⟨⟨some (T.map resolve_token), cap, -1⟩, X.length⟩) ∧
      jsmn_parse (jsmn_parser_init true cap) X.dropLast X.dropLast.length =
        Run.ok ((T.length : Int),
          ⟨⟨some (T.map resolve_token), cap, -1⟩, X.dropLast.length⟩)) ∨
    (∃ d, X.getLast? = some d ∧ isDigit d = true ∧ Ws X.dropLast ∧
      jsmn_parse (jsmn_parser_init true cap) X.dropLast X.dropLast.length =
        Run.ok (0, ⟨⟨some [], cap, -1⟩, X.dropLast.length⟩)) := by
  have hS : ∀ b, JsonStr b → ScanStr b := fun _ hb => jsonStr_scan hb
  have hP : ∀ p, JsonPrim p → ValidPrim p := fun _ hp => jsonPrim_valid hp
  obtain ⟨w1, v, w2, rfl, hw1, hw2, hv⟩ := gram_item_inv hX
  rcases gram_value_inv hv with hroot | ⟨hp, hT⟩ | ⟨b, hb, hvb, hT⟩
  · have hfull := parse_text hS hP hX hroot cap hcap
    rcases List.eq_nil_or_concat w2 with rfl | ⟨w2a, c, hw2c⟩
    · left
      obtain ⟨co, cc, ty, kindI, body, hbr, rfl, hbody⟩ := gram_cont_inv hv hroot
      have hdl : (w1 ++ (co :: body ++ [cc]) ++ []).dropLast = w1 ++ co :: body := by
        rw [List.append_nil, show w1 ++ (co :: body ++ [cc]) = (w1 ++ co :: body) ++ [cc] by simp,
          List.dropLast_concat]
      rw [hdl]
      refine truncated_part hS hP co cc ty kindI hbr w1 body hw1 cap _ 0 (Nat.zero_add _) rfl
        ?_ ?_
      · obtain ⟨t, rest, rfl, _⟩ := hroot
        simp only [List.length_cons] at hcap
        omega
      · rcases hbody with hw | ⟨Tin, kk, hg, hlen⟩
        · exact Or.inl hw
        · exact Or.inr ⟨Tin, kk, hg, by omega⟩
    · right; left
      rw [List.concat_eq_append] at hw2c
      subst hw2c
      have hc : isSpace c = true := hw2 c (by simp)
      have hw2a : Ws w2a := fun x hx => hw2 x (by simp [hx])
      have hdl : (w1 ++ v ++ (w2a ++ [c])).dropLast = w1 ++ v ++ w2a := by
        rw [← List.append_assoc, List.dropLast_concat]
      refine ⟨c, ?_, hc, hfull, ?_⟩
      · rw [← List.append_assoc, List.getLast?_concat]
      · rw [hdl]
        exact parse_text hS hP (Gram.item 0 0 (-1) w1 v w2a T hw1 hw2a hv) hroot cap hcap
  · subst hT
    have hvp := hP v hp
    simp only [List.length_singleton] at hcap
    rcases List.eq_nil_or_concat w2 with rfl | ⟨w2a, c, hw2c⟩
    · rw [List.append_nil]
      by_cases hd : v.dropLast = []
      · right; right
        obtain ⟨d, rfl⟩ : ∃ d, v = [d] := by
          cases v with
          | nil => exact absurd rfl hvp.1
          | cons a q =>
            cases q with
            | nil => exact ⟨a, rfl⟩
            | cons a2 q2 => simp at hd
        have hdl : (w1 ++ [d]).dropLast = w1 := List.dropLast_concat
        rw [hdl]
        exact ⟨d, List.getLast?_concat _, jsonPrim_single hp, hw1, parse_blank w1 cap hw1⟩
      · left
        have hdl : (w1 ++ v).dropLast = w1 ++ v.dropLast :=
          List.dropLast_append_of_ne_nil _ hvp.1
        rw [hdl]
        exact parse_prim_part w1 v.dropLast cap hw1 (validPrim_dropLast hvp hd)
    · rw [List.concat_eq_append] at hw2c
      subst hw2c
      have hc : isSpace c = true := hw2 c (by simp)
      have hw2a : Ws w2a := fun x hx => hw2 x (by simp [hx])
      have hdl : (w1 ++ v ++ (w2a ++ [c])).dropLast = w1 ++ v ++ w2a := by
        rw [← List.append_assoc, List.dropLast_concat]
      rw [hdl]
      by_cases ha : w2a = []
      · left
        subst ha
        rw [List.append_nil]
        exact parse_prim_part w1 v cap hw1 hvp
      · right; left
        refine ⟨c, ?_, hc, ?_, ?_⟩
        · rw [← List.append_assoc, List.getLast?_concat]
        · have h := parse_prim_text w1 v (w2a ++ [c]) cap hw1 hvp hw2 (by simp) hcap
          simpa using h
        · have h := parse_prim_text w1 v w2a cap hw1 hvp hw2a ha hcap
          simpa using h
  · subst hT hvb
    have hst : IsStr [new_token JSMN_STRING (((0 + w1.length : Nat) : Int) + 1)
        ((0 + w1.length + 1 + b.length : Nat) : Int) (-1)] := ⟨_, _, rfl, rfl⟩
    rcases List.eq_nil_or_concat w2 with rfl | ⟨w2a, c, hw2c⟩
    · left
      have hdl : (w1 ++ (34 :: b ++ [34]) ++ []).dropLast = w1 ++ 34 :: b := by
        rw [List.append_nil, show w1 ++ (34 :: b ++ [34]) = (w1 ++ 34 :: b) ++ [34] by simp,
          List.dropLast_concat]
      rw [hdl]
      exact parse_string_part w1 b cap hw1 (hS b hb)
    · exfalso
      rw [List.concat_eq_append] at hw2c
      subst hw2c
      have hc : isSpace c = true := hw2 c (by simp)
      have := hstr hst c (by rw [← List.append_assoc, List.getLast?_concat])
      rw [hc] at this
      exact absurd this (by decide)

/-- Witness of C4 (amended): the text `12`, which leaves `1`. -/
theorem truncation_amended_witness :
    JsonText [49, 50] [new_token JSMN_PRIMITIVE 0 2 (-1)] ∧
    ((∃ p, jsmn_parse (jsmn_parser_init true 1) ([49, 50] : List Nat).dropLast
        ([49, 50] : List Nat).dropLast.length = Run.ok (JSMN_ERROR_PART, p)) ∨
    (∃ c, ([49, 50] : List Nat).getLast? = some c ∧ isSpace c = true ∧
      jsmn_parse (jsmn_parser_init true 1) [49, 50] ([49, 50] : List Nat).length =
        Run.ok ((([new_token JSMN_PRIMITIVE 0 2 (-1)] : List jsmn_Token).length : Int),
          ⟨⟨some (([new_token JSMN_PRIMITIVE 0 2 (-1)] : List jsmn_Token).map resolve_token),
            1, -1⟩, ([49, 50] : List Nat).length⟩) ∧
      jsmn_parse (jsmn_parser_init true 1) ([49, 50] : List Nat).dropLast
          ([49, 50] : List Nat).dropLast.length =
        Run.ok ((([new_token JSMN_PRIMITIVE 0 2 (-1)] : List jsmn_Token).length : Int),
          ⟨⟨some (([new_token JSMN_PRIMITIVE 0 2 (-1)] : List jsmn_Token).map resolve_token),
            1, -1⟩, ([49, 50] : List Nat).dropLast.length⟩)) ∨
    (∃ d, ([49, 50] : List Nat).getLast? = some d ∧ isDigit d = true ∧
      Ws ([49, 50] : List Nat).dropLast ∧
      jsmn_parse (jsmn_parser_init true 1) ([49, 50] : List Nat).dropLast
          ([49, 50] : List Nat).dropLast.length =
        Run.ok (0, ⟨⟨some [], 1, -1⟩, ([49, 50] : List Nat).dropLast.length⟩))) :=
  have hX : JsonText [49, 50] [new_token JSMN_PRIMITIVE 0 2 (-1)] :=
    Gram.item 0 0 (-1) [] [49, 50] [] _ (by intro c hc; simp at hc)
      (by intro c hc; simp at hc)
      (Gram.prim 0 0 (-1) [49, 50]
        (Or.inl ⟨[], [49, 50], [], [], Or.inl rfl,
          Or.inr ⟨⟨by simp, by intro c hc; simp at hc; rcases hc with rfl | rfl <;> decide⟩,
            by decide⟩,
          Or.inl rfl, Or.inl rfl, rfl⟩))
  ⟨hX, truncation_amended [49, 50] [new_token JSMN_PRIMITIVE 0 2 (-1)] 1 hX
    (fun _ c hc => by
      have e : c = 50 := by simpa using hc.symm
      rw [e]; decide)
    (by decide)⟩

end Jsmn

namespace Jsmn
open jsmntype_t

/-! ## The layout of a token tree: its text is a text of the grammar -/

theorem layout_count_pos {kind : Kind} {n : Nat} {s : Int} {V : List jsmn_Token}
    {X : List Nat} {k : Nat} (h : Layout kind n s V X k) : 1 ≤ k := by
  cases h <;> omega

theorem layout_cast {kind : Kind} {n n1 : Nat} {s : Int} {V V1 : List jsmn_Token}
    {X X1 : List Nat} {k : Nat} (h : Layout kind n s V X k) (hn : n = n1) (hV : V = V1)
    (hX : X = X1) : Layout kind n1 s V1 X1 k := by
  subst hn hV hX; exact h

theorem map_shape_length {T V : List jsmn_Token} (h : T.map shape = V.map shape) :
    T.length = V.length := by
  have := congrArg List.length h
  simpa using this

/-- The text of a layout is a text of the grammar, and its tokens have the
types, sizes and parents of the layout. -/
theorem layout_gram {kind : Kind} {n : Nat} {s : Int} {V : List jsmn_Token}
    {X : List Nat} {k : Nat} (h : Layout kind n s V X k) :
    (∀ t ∈ V, LeafOK t) → ∀ o, ∃ T, Gram ScanStr ValidPrim kind o n s X T k ∧
      T.map shape = V.map shape := by
  induction h with
  | prim n s t hty hsz hpar =>
    intro hl o
    refine ⟨_, Gram.prim o n s _ ((hl t (List.mem_singleton.2 rfl)).1 hty), ?_⟩
    simp only [List.map_cons, List.map_nil, shape, new_token, hty, hsz, hpar]
  | str n s t hty hsz hpar =>
    intro hl o
    refine ⟨_, Gram.str o n s _ ((hl t (List.mem_singleton.2 rfl)).2 (Or.inl hty)), ?_⟩
    simp only [List.map_cons, List.map_nil, shape, new_token, hty, hsz, hpar]
  | arr_empty n s t hty hsz hpar =>
    intro _ o
    refine ⟨_, Gram.arr_empty o n s [] ws_nil, ?_⟩
    simp only [List.map_cons, List.map_nil, shape, closed_token, hty, hsz, hpar]
  | arr n s t V X k hty hsz hpar _ ih =>
    intro hl o
    obtain ⟨T, hT, hsh⟩ := ih (fun x hx => hl x (List.mem_cons_of_mem _ hx)) (o + 1)
    refine ⟨_, Gram.arr o n s X T k hT, ?_⟩
    simp only [List.map_cons, shape, closed_token, hty, hsz, hpar, hsh]
  | obj_empty n s t hty hsz hpar =>
    intro _ o
    refine ⟨_, Gram.obj_empty o n s [] ws_nil, ?_⟩
    simp only [List.map_cons, List.map_nil, shape, closed_token, hty, hsz, hpar]
  | obj n s t V X k hty hsz hpar _ ih =>
    intro hl o
    obtain ⟨T, hT, hsh⟩ := ih (fun x hx => hl x (List.mem_cons_of_mem _ hx)) (o + 1)
    refine ⟨_, Gram.obj o n s X T k hT, ?_⟩
    simp only [List.map_cons, shape, closed_token, hty, hsz, hpar, hsh]
  | member n s lab V X hty hsz hpar _ ih =>
    intro hl o
    obtain ⟨T, hT, hsh⟩ := gram_member_plain (P := ValidPrim) o n s (token_bytes [] lab) X
      (V.map shape) ((hl lab (List.mem_cons_self _ _)).2 (Or.inr hty))
      (ih (fun x hx => hl x (List.mem_cons_of_mem _ hx)))
    refine ⟨T, hT, ?_⟩
    rw [hsh]
    simp only [List.map_cons, shape, hty, hsz, hpar]
  | elems_one n s V X _ ih =>
    intro hl o
    obtain ⟨T, hT, hsh⟩ := ih hl o
    exact ⟨T, Gram.elems_one o n s X T (gram_item_plain hT), hsh⟩
  | elems_cons n s V X V1 X1 k _ _ ih1 ih2 =>
    intro hl o
    obtain ⟨T, hT, hsh⟩ := ih1 (fun x hx => hl x (List.mem_append_left _ hx)) o
    obtain ⟨T1, hT1, hsh1⟩ := ih2 (fun x hx => hl x (List.mem_append_right _ hx))
      (o + X.length + 1)
    rw [← map_shape_length hsh] at hT1
    exact ⟨T ++ T1, Gram.elems_cons o n s X X1 T T1 k (gram_item_plain hT) hT1,
      by rw [List.map_append, List.map_append, hsh, hsh1]⟩
  | members_one n s V X _ ih =>
    intro hl o
    obtain ⟨T, hT, hsh⟩ := ih hl o
    exact ⟨T, Gram.members_one o n s X T hT, hsh⟩
  | members_cons n s V X V1 X1 k _ _ ih1 ih2 =>
    intro hl o
    obtain ⟨T, hT, hsh⟩ := ih1 (fun x hx => hl x (List.mem_append_left _ hx)) o
    obtain ⟨T1, hT1, hsh1⟩ := ih2 (fun x hx => hl x (List.mem_append_right _ hx))
      (o + X.length + 1)
    rw [← map_shape_length hsh] at hT1
    exact ⟨T ++ T1, Gram.members_cons o n s X X1 T T1 k hT hT1,
      by rw [List.map_append, List.map_append, hsh, hsh1]⟩

theorem token_bytes_nil (js : List Nat) (t : jsmn_Token) (h : ¬ t.length > 0) :
    token_bytes js t = [] := by
  unfold token_bytes
  have h0 : t.length.toNat = 0 := by omega
  cases t.data <;> simp [h0]

theorem quoted_bytes_flatten (js : List Nat) (t : jsmn_Token) (tail : List Nat) :
    ([[34]] ++ (if t.length > 0 then [token_bytes js t] else []) ++ [tail]).flatten =
      34 :: token_bytes js t ++ tail := by
  by_cases hx : t.length > 0
  · rw [if_pos hx]; simp
  · rw [if_neg hx, token_bytes_nil js t hx]
    simp

/-- The serializer on the tokens of a layout. -/
theorem layout_dump {kind : Kind} {n : Nat} {s : Int} {V : List jsmn_Token}
    {X : List Nat} {k : Nat} (h : Layout kind n s V X k) : DumpSpec kind n V X k := by
  induction h with
  | prim n s t hty hsz hpar =>
    intro B fuel hseg hfuel
    obtain ⟨f, rfl⟩ : ∃ f, fuel = f + 1 := ⟨fuel - 1, by omega⟩
    obtain ⟨h0, _⟩ := seg_cons hseg
    exact ⟨_, jsmn_dump_prim f h0 hty, by simp⟩
  | str n s t hty hsz hpar =>
    intro B fuel hseg hfuel
    obtain ⟨f, rfl⟩ : ∃ f, fuel = f + 1 := ⟨fuel - 1, by omega⟩
    obtain ⟨h0, _⟩ := seg_cons hseg
    refine ⟨_, jsmn_dump_quoted f h0 (Or.inr hty), ?_⟩
    have e : (if t.type = JSMN_LABEL then [34, 58] else [34]) = ([34] : List Nat) :=
      if_neg (by rw [hty]; decide)
    rw [e]
    exact quoted_bytes_flatten [] t [34]
  | arr_empty n s t hty hsz hpar =>
    intro B fuel hseg hfuel
    obtain ⟨f, rfl⟩ : ∃ f, fuel = f + 1 := ⟨fuel - 1, by omega⟩
    obtain ⟨h0, _⟩ := seg_cons hseg
    refine ⟨[[91]] ++ [] ++ [[93]], ?_, by simp⟩
    rw [jsmn_dump_array f h0 hty, hsz]
    rfl
  | arr n s t V X k hty hsz hpar _ ih =>
    intro B fuel hseg hfuel
    obtain ⟨f, rfl⟩ : ∃ f, fuel = f + 1 := ⟨fuel - 1, by omega⟩
    obtain ⟨h0, hseg1⟩ := seg_cons hseg
    rw [List.length_cons] at hfuel
    obtain ⟨out, hd, hf⟩ := ih B f hseg1 (by omega) (n : Int) (k : Int) 0 0
      (by push_cast; omega) (by omega)
    refine ⟨[[91]] ++ out ++ [[93]], ?_, ?_⟩
    · rw [jsmn_dump_array f h0 hty, hsz, Int.toNat_ofNat, hd]
      simp only [Run.ok.injEq, Prod.mk.injEq, true_and, List.length_cons]
      push_cast
      omega
    · simp [hf]
  | obj_empty n s t hty hsz hpar =>
    intro B fuel hseg hfuel
    obtain ⟨f, rfl⟩ : ∃ f, fuel = f + 1 := ⟨fuel - 1, by omega⟩
    obtain ⟨h0, _⟩ := seg_cons hseg
    refine ⟨[[123]] ++ [] ++ [[125]], ?_, by simp⟩
    rw [jsmn_dump_object f h0 hty, hsz]
    rfl
  | obj n s t V X k hty hsz hpar _ ih =>
    intro B fuel hseg hfuel
    obtain ⟨f, rfl⟩ : ∃ f, fuel = f + 1 := ⟨fuel - 1, by omega⟩
    obtain ⟨h0, hseg1⟩ := seg_cons hseg
    rw [List.length_cons] at hfuel
    obtain ⟨out, hd, hf⟩ := ih B f hseg1 (by omega) (n : Int) (k : Int) 0 0
      (by push_cast; omega) (by omega)
    refine ⟨[[123]] ++ out ++ [[125]], ?_, ?_⟩
    · rw [jsmn_dump_object f h0 hty, hsz, Int.toNat_ofNat, hd]
      simp only [Run.ok.injEq, Prod.mk.injEq, true_and, List.length_cons]
      push_cast
      omega
    · simp [hf]
  | member n s lab V X hty hsz hpar _ ih =>
    intro B fuel hseg hfuel
    obtain ⟨f, rfl⟩ : ∃ f, fuel = f + 1 := ⟨fuel - 1, by omega⟩
    obtain ⟨h0, hseg1⟩ := seg_cons hseg
    rw [List.length_cons] at hfuel
    obtain ⟨out2, hd2, hf2⟩ := ih B (f + 1) hseg1 (by omega)
    refine ⟨_, out2, (V.length : Int), jsmn_dump_quoted f h0 (Or.inl hty), ?_, ?_, ?_⟩
    · rw [← hd2]; push_cast; rfl
    · rw [List.length_cons]; push_cast; omega
    · have e : (if lab.type = JSMN_LABEL then [34, 58] else [34]) = ([34, 58] : List Nat) :=
        if_pos hty
      rw [List.flatten_append, hf2, e, quoted_bytes_flatten [] lab [34, 58]]
      simp
  | elems_one n s V X _ ih =>
    intro B fuel hseg hfuel t size i j hq hsize
    obtain ⟨out1, hd1, hf1⟩ := ih B fuel hseg hfuel
    refine ⟨out1 ++ (if i < size - 1 then [[44]] else []) ++ [], ?_, ?_⟩
    · rw [dump_array_loop, hq, hd1]
      simp only [dump_array_loop]
    · rw [if_neg (by omega)]
      simpa using hf1
  | elems_cons n s V X V1 X1 k _ h2 ih1 ih2 =>
    intro B fuel hseg hfuel t size i j hq hsize
    obtain ⟨hsegV, hsegV1⟩ := seg_append hseg
    rw [List.length_append] at hfuel
    have hk := layout_count_pos h2
    obtain ⟨out1, hd1, hf1⟩ := ih1 B fuel hsegV (by omega)
    obtain ⟨out3, hd3, hf3⟩ := ih2 B fuel hsegV1 (by omega) t size (i + 1)
      (j + (V.length : Int)) (by push_cast; omega) (by push_cast at hsize; omega)
    refine ⟨out1 ++ (if i < size - 1 then [[44]] else []) ++ out3, ?_, ?_⟩
    · rw [dump_array_loop, hq, hd1]
      simp only [hd3, Run.ok.injEq, Prod.mk.injEq, true_and, List.length_append]
      push_cast
      omega
    · rw [if_pos (by push_cast at hsize; omega)]
      simp [hf1, hf3]
  | members_one n s V X _ ih =>
    intro B fuel hseg hfuel t size i j hq hsize
    obtain ⟨out1, out2, r2, hd1, hd2, hr, hf⟩ := ih B fuel hseg hfuel
    refine ⟨out1 ++ out2 ++ (if i < size - 1 then [[44]] else []) ++ [], ?_, ?_⟩
    · rw [dump_object_loop, hq, hd1]
      simp only
      rw [show (n : Int) + 1 = t + 1 + (j + 1) by omega] at hd2
      rw [hd2]
      simp only [dump_object_loop, Run.ok.injEq, Prod.mk.injEq, true_and]
      omega
    · rw [if_neg (by omega)]
      simpa using hf
  | members_cons n s V X V1 X1 k _ h2 ih1 ih2 =>
    intro B fuel hseg hfuel t size i j hq hsize
    obtain ⟨hsegV, hsegV1⟩ := seg_append hseg
    rw [List.length_append] at hfuel
    have hk := layout_count_pos h2
    obtain ⟨out1, out2, r2, hd1, hd2, hr, hf⟩ := ih1 B fuel hsegV (by omega)
    obtain ⟨out3, hd3, hf3⟩ := ih2 B fuel hsegV1 (by omega) t size (i + 1)
      (j + (V.length : Int)) (by push_cast; omega) (by push_cast at hsize; omega)
    refine ⟨out1 ++ out2 ++ (if i < size - 1 then [[44]] else []) ++ out3, ?_, ?_⟩
    · rw [dump_object_loop, hq, hd1]
      simp only
      rw [show (n : Int) + 1 = t + 1 + (j + 1) by omega] at hd2
      rw [hd2]
      simp only
      rw [show j + 1 + r2 = j + (V.length : Int) by omega, hd3]
      simp only [Run.ok.injEq, Prod.mk.injEq, true_and, List.length_append]
      push_cast
      omega
    · rw [if_pos (by push_cast at hsize; omega)]
      rw [List.flatten_append, List.flatten_append, hf, hf3]
      simp

/-! ## The arena of the Builder after successful calls -/

theorem layout_value_head {n : Nat} {s : Int} {V : List jsmn_Token} {X : List Nat} {k : Nat}
    (h : Layout Kind.value n s V X k) : ∃ t rest, V = t :: rest ∧ t.parent = s := by
  cases h with
  | prim _ _ t _ _ hp => exact ⟨t, [], rfl, hp⟩
  | str _ _ t _ _ hp => exact ⟨t, [], rfl, hp⟩
  | arr_empty _ _ t _ _ hp => exact ⟨t, [], rfl, hp⟩
  | arr _ _ t V _ _ _ _ hp _ => exact ⟨t, V, rfl, hp⟩
  | obj_empty _ _ t _ _ hp => exact ⟨t, [], rfl, hp⟩
  | obj _ _ t V _ _ _ _ hp _ => exact ⟨t, V, rfl, hp⟩

theorem layout_snoc {kind : Kind} {n : Nat} {s : Int} {K : List jsmn_Token} {Y : List Nat}
    {k : Nat} (h : Layout kind n s K Y k) :
    (kind = Kind.elems → ∀ V X, Layout Kind.value (n + K.length) s V X 1 →
      Layout Kind.elems n s (K ++ V) (Y ++ 44 :: X) (k + 1)) ∧
    (kind = Kind.members → ∀ V X, Layout Kind.member (n + K.length) s V X 1 →
      Layout Kind.members n s (K ++ V) (Y ++ 44 :: X) (k + 1)) := by
  induction h with
  | prim => exact ⟨fun h => (by cases h), fun h => (by cases h)⟩
  | str => exact ⟨fun h => (by cases h), fun h => (by cases h)⟩
  | arr_empty => exact ⟨fun h => (by cases h), fun h => (by cases h)⟩
  | arr => exact ⟨fun h => (by cases h), fun h => (by cases h)⟩
  | obj_empty => exact ⟨fun h => (by cases h), fun h => (by cases h)⟩
  | obj => exact ⟨fun h => (by cases h), fun h => (by cases h)⟩
  | member => exact ⟨fun h => (by cases h), fun h => (by cases h)⟩
  | elems_one n s V0 X0 h0 _ =>
    refine ⟨fun _ V X hv => ?_, fun h => (by cases h)⟩
    exact Layout.elems_cons n s V0 X0 V X 1 h0 (Layout.elems_one _ s V X hv)
  | elems_cons n s V0 X0 V1 X1 k h0 _ _ ih2 =>
    refine ⟨fun _ V X hv => ?_, fun h => (by cases h)⟩
    have h2 := ih2.1 rfl V X
      (layout_cast hv (by rw [List.length_append]; omega) rfl rfl)
    exact layout_cast (Layout.elems_cons n s V0 X0 (V1 ++ V) (X1 ++ 44 :: X) (k + 1) h0 h2)
      rfl (by simp) (by simp)
  | members_one n s V0 X0 h0 _ =>
    refine ⟨fun h => (by cases h), fun _ V X hv => ?_⟩
    exact Layout.members_cons n s V0 X0 V X 1 h0 (Layout.members_one _ s V X hv)
  | members_cons n s V0 X0 V1 X1 k h0 _ _ ih2 =>
    refine ⟨fun h => (by cases h), fun _ V X hv => ?_⟩
    have h2 := ih2.2 rfl V X
      (layout_cast hv (by rw [List.length_append]; omega) rfl rfl)
    exact layout_cast (Layout.members_cons n s V0 X0 (V1 ++ V) (X1 ++ 44 :: X) (k + 1) h0 h2)
      rfl (by simp) (by simp)

theorem kids_snoc_elem {n : Nat} {s : Int} {K V : List jsmn_Token} {X : List Nat} {k : Nat}
    (hK : Kids Kind.elems n s K k) (hv : Layout Kind.value (n + K.length) s V X 1) :
    Kids Kind.elems n s (K ++ V) (k + 1) := by
  rcases hK with ⟨rfl, rfl⟩ | ⟨Y, hY⟩
  · exact Or.inr ⟨X, Layout.elems_one n s _ X (layout_cast hv (by simp) (by simp) rfl)⟩
  · exact Or.inr ⟨_, (layout_snoc hY).1 rfl V X hv⟩

theorem kids_snoc_member {n : Nat} {s : Int} {K V : List jsmn_Token} {X : List Nat} {k : Nat}
    (hK : Kids Kind.members n s K k) (hv : Layout Kind.member (n + K.length) s V X 1) :
    Kids Kind.members n s (K ++ V) (k + 1) := by
  rcases hK with ⟨rfl, rfl⟩ | ⟨Y, hY⟩
  · exact Or.inr ⟨X, Layout.members_one n s _ X (layout_cast hv (by simp) (by simp) rfl)⟩
  · exact Or.inr ⟨_, (layout_snoc hY).2 rfl V X hv⟩

/-- A container with its children is a value. -/
theorem layout_of_kids {n : Nat} {tc : jsmn_Token} {K : List jsmn_Token} {k : Nat}
    (hsz : tc.size = (k : Int))
    (hK : (tc.type = JSMN_ARRAY ∧ Kids Kind.elems (n + 1) (n : Int) K k) ∨
      (tc.type = JSMN_OBJECT ∧ Kids Kind.members (n + 1) (n : Int) K k)) :
    ∃ X, Layout Kind.value n tc.parent (tc :: K) X 1 := by
  rcases hK with ⟨hty, ⟨rfl, rfl⟩ | ⟨Y, hY⟩⟩ | ⟨hty, ⟨rfl, rfl⟩ | ⟨Y, hY⟩⟩
  · exact ⟨_, Layout.arr_empty n _ tc hty (by simpa using hsz) rfl⟩
  · exact ⟨_, Layout.arr n _ tc K Y k hty hsz rfl hY⟩
  · exact ⟨_, Layout.obj_empty n _ tc hty (by simpa using hsz) rfl⟩
  · exact ⟨_, Layout.obj n _ tc K Y k hty hsz rfl hY⟩

/-- A complete value in the place the frames leave open: the container around
it takes further children, or the root is complete, or the superior token is
the Label of the value. -/
theorem frames_fill {pre : List jsmn_Token} {s : Int} {V : List jsmn_Token} {X : List Nat}
    (hf : Frames pre s) (hv : Layout Kind.value pre.length s V X 1) :
    OpenAt (pre ++ V) s ∨ FilledAt (pre ++ V) s := by
  cases hf with
  | root => exact Or.inr ⟨[], V, X, rfl, Frames.root, hv, Or.inl rfl⟩
  | arr pre0 t K k hf0 hty hsz hK =>
    left
    refine ⟨pre0, t, K ++ V, k + 1, by simp, rfl, hf0, hsz, Or.inl ⟨hty, ?_⟩⟩
    exact kids_snoc_elem hK (layout_cast hv (by simp; omega) rfl rfl)
  | obj pre0 t K k lab hf0 hty hsz hK hlty hlsz hlpar =>
    right
    refine ⟨_, V, X, rfl, Frames.obj pre0 t K k lab hf0 hty hsz hK hlty hlsz hlpar, hv,
      Or.inr ⟨lab, ?_, hlty, by omega⟩⟩
    have := tokAt_mid (pre0 ++ t :: K) lab V
    rw [show (pre0 ++ t :: K).length = pre0.length + 1 + K.length by simp; omega] at this
    rw [← this]
    congr 1
    simp

/-- The frames and a complete value in their open place make one value at
index 0. -/
theorem frames_close {pre : List jsmn_Token} {s : Int} (hf : Frames pre s) :
    ∀ (V : List jsmn_Token) (X : List Nat), Layout Kind.value pre.length s V X 1 →
      ∃ X1, Layout Kind.value 0 (-1) (pre ++ V) X1 1 := by
  induction hf with
  | root => intro V X hv; exact ⟨X, hv⟩
  | arr pre0 t K k hf0 hty hsz hK ih =>
    intro V X hv
    have hK1 := kids_snoc_elem hK (layout_cast hv (by simp; omega) rfl rfl)
    obtain ⟨X0, h0⟩ := layout_of_kids hsz (Or.inl ⟨hty, hK1⟩)
    obtain ⟨X1, h1⟩ := ih _ X0 h0
    exact ⟨X1, layout_cast h1 rfl (by simp) rfl⟩
  | obj pre0 t K k lab hf0 hty hsz hK hlty hlsz hlpar ih =>
    intro V X hv
    have hm : Layout Kind.member (pre0.length + 1 + K.length) (pre0.length : Int) (lab :: V) _ 1 :=
      Layout.member _ _ lab V X hlty hlsz hlpar
        (layout_cast hv (by simp; omega) rfl rfl)
    have hK1 := kids_snoc_member hK hm
    obtain ⟨X0, h0⟩ := layout_of_kids hsz (Or.inr ⟨hty, hK1⟩)
    obtain ⟨X1, h1⟩ := ih _ X0 h0
    exact ⟨X1, layout_cast h1 rfl (by simp) rfl⟩

theorem bump_cons_type {t t1 : jsmn_Token} {rest rest1 : List jsmn_Token} {c : Int}
    (h : bump (t :: rest) c = t1 :: rest1) : t1.type = t.type := by
  have := bump_map_type (t :: rest) c
  rw [h] at this
  simp only [List.map_cons, List.cons.injEq] at this
  exact this.1

theorem bump_ne_nil {l : List jsmn_Token} (c : Int) (h : l ≠ []) : bump l c ≠ [] := by
  intro h0
  have := bump_length l c
  rw [h0] at this
  exact h (List.eq_nil_of_length_eq_zero this.symm)

theorem bump_mem {l : List jsmn_Token} (c : Int) {t : jsmn_Token} (h : t ∈ l) :
    ∃ t1, t1 ∈ bump l c ∧ t1.type = t.type ∧ t.size ≤ t1.size := by
  obtain ⟨i, hi⟩ := List.get?_of_mem h
  have hb := bump_get? l c i
  rw [hi] at hb
  simp only [Option.map_some'] at hb
  refine ⟨_, List.get?_mem hb, ?_, ?_⟩
  · split <;> rfl
  · split
    · simp
    · exact le_refl _

/-- A broken arena stays broken. -/
theorem broken_grow {l : List jsmn_Token} (c : Int) (x : List jsmn_Token) (h : Broken l) :
    Broken (bump l c ++ x) := by
  rcases h with ⟨hne, hnc⟩ | h2 | ⟨t, ht, hty, hsz⟩
  · left
    refine ⟨by simp [bump_ne_nil c hne], ?_⟩
    rintro ⟨t1, rest1, h1, hty1⟩
    cases l with
    | nil => exact hne rfl
    | cons t rest =>
      cases hb : bump (t :: rest) c with
      | nil => exact bump_ne_nil c hne hb
      | cons tb restb =>
        rw [hb, List.cons_append, List.cons.injEq] at h1
        have e := bump_cons_type hb
        rw [h1.1] at e
        exact hnc ⟨t, rest, rfl, by rw [← e]; exact hty1⟩
  · right; left
    rw [children_append, children_bump]
    omega
  · right; right
    obtain ⟨t1, hm, hty1, hsz1⟩ := bump_mem c ht
    exact ⟨t1, List.mem_append_left _ hm, by rw [hty1]; exact hty, by omega⟩

theorem children_cons (t : jsmn_Token) (rest : List jsmn_Token) (i : Int) :
    children (t :: rest) i = children [t] i + children rest i :=
  children_append [t] rest i

/-- A further token under a complete root or under a Label breaks the tree. -/
theorem filled_grow {l : List jsmn_Token} {c : Int} (h : FilledAt l c) (x : jsmn_Token)
    (hx : x.parent = c) (xs : List jsmn_Token) : Broken (bump l c ++ x :: xs) := by
  obtain ⟨pre, V, X, rfl, hf, hv, hc | ⟨lab, hlab, hlty, hlsz⟩⟩ := h
  · right; left
    subst hc
    obtain ⟨t, rest, rfl, htp⟩ := layout_value_head hv
    rw [children_append, children_bump, children_append, children_cons t rest,
      children_cons x xs, children_single, children_single, if_pos htp, if_pos hx]
    omega
  · right; right
    obtain ⟨h0, hi⟩ := tokAt_eq_some.1 hlab
    have hb := bump_get? (pre ++ V) c c.toNat
    rw [hi] at hb
    simp only [Option.map_some'] at hb
    rw [if_pos (by omega)] at hb
    exact ⟨_, List.mem_append_left _ (List.get?_mem hb), hlty, by simp; omega⟩

theorem openAt_add_elem {l : List jsmn_Token} {c : Int} (h : OpenAt l c)
    (hin : in_object l c = false) {W : List jsmn_Token} {X : List Nat}
    (hW : Layout Kind.value l.length c W X 1) : OpenAt (bump l c ++ W) c := by
  obtain ⟨pre, tc, K, k, rfl, rfl, hf, hsz, hK⟩ := h
  rw [in_object_of_tokAt (tokAt_mid pre tc K)] at hin
  have hno : tc.type ≠ JSMN_OBJECT := by simpa using hin
  rcases hK with ⟨hty, hK⟩ | ⟨hty, _⟩
  swap
  · exact absurd hty hno
  refine ⟨pre, { tc with size := tc.size + 1 }, K ++ W, k + 1, ?_, rfl, hf, ?_,
    Or.inl ⟨hty, kids_snoc_elem hK (layout_cast hW (by simp; omega) rfl rfl)⟩⟩
  · rw [bump_mid]; simp
  · simp only [hsz]; push_cast; rfl

theorem openAt_add_member {l : List jsmn_Token} {c : Int} (h : OpenAt l c)
    (hin : in_object l c = true) {W : List jsmn_Token} {X : List Nat}
    (hW : Layout Kind.member l.length c W X 1) : OpenAt (bump l c ++ W) c := by
  obtain ⟨pre, tc, K, k, rfl, rfl, hf, hsz, hK⟩ := h
  rw [in_object_of_tokAt (tokAt_mid pre tc K)] at hin
  have hno : tc.type = JSMN_OBJECT := by simpa using hin
  rcases hK with ⟨hty, _⟩ | ⟨hty, hK⟩
  · rw [hno] at hty; cases hty
  refine ⟨pre, { tc with size := tc.size + 1 }, K ++ W, k + 1, ?_, rfl, hf, ?_,
    Or.inr ⟨hty, kids_snoc_member hK (layout_cast hW (by simp; omega) rfl rfl)⟩⟩
  · rw [bump_mid]; simp
  · simp only [hsz]; push_cast; rfl

theorem openAt_start_elem {l : List jsmn_Token} {c : Int} (h : OpenAt l c)
    (hin : in_object l c = false) (t : jsmn_Token)
    (hty : t.type = JSMN_OBJECT ∨ t.type = JSMN_ARRAY) (hsz : t.size = 0) (hpar : t.parent = c) :
    OpenAt (bump l c ++ [t]) (l.length : Int) := by
  obtain ⟨pre, tc, K, k, rfl, rfl, hf, hsz0, hK⟩ := h
  rw [in_object_of_tokAt (tokAt_mid pre tc K)] at hin
  have hno : tc.type ≠ JSMN_OBJECT := by simpa using hin
  rcases hK with ⟨hty0, hK⟩ | ⟨hty0, _⟩
  swap
  · exact absurd hty0 hno
  have hfr : Frames (pre ++ { tc with size := tc.size + 1 } :: K) (pre.length : Int) :=
    Frames.arr pre { tc with size := tc.size + 1 } K k hf hty0
      (by simp only [hsz0]; push_cast; rfl) hK
  refine ⟨pre ++ { tc with size := tc.size + 1 } :: K, t, [], 0, ?_, ?_, ?_, by simpa using hsz, ?_⟩
  · rw [bump_mid]
  · simp
  · rw [hpar]; exact hfr
  · rcases hty with h1 | h1
    · exact Or.inr ⟨h1, Or.inl ⟨rfl, rfl⟩⟩
    · exact Or.inl ⟨h1, Or.inl ⟨rfl, rfl⟩⟩

theorem openAt_start_member {l : List jsmn_Token} {c : Int} (h : OpenAt l c)
    (hin : in_object l c = true) (lab t : jsmn_Token)
    (hlty : lab.type = JSMN_LABEL) (hlsz : lab.size = 1) (hlpar : lab.parent = c)
    (hty : t.type = JSMN_OBJECT ∨ t.type = JSMN_ARRAY) (hsz : t.size = 0)
    (hpar : t.parent = (l.length : Int)) :
    OpenAt (bump l c ++ [lab, t]) ((l.length + 1 : Nat) : Int) := by
  obtain ⟨pre, tc, K, k, rfl, rfl, hf, hsz0, hK⟩ := h
  rw [in_object_of_tokAt (tokAt_mid pre tc K)] at hin
  have hno : tc.type = JSMN_OBJECT := by simpa using hin
  rcases hK with ⟨hty0, _⟩ | ⟨hty0, hK⟩
  · rw [hno] at hty0; cases hty0
  have hfr := Frames.obj pre { tc with size := tc.size + 1 } K k lab hf hty0
      (by simp only [hsz0]; push_cast; rfl) hK hlty hlsz hlpar
  refine ⟨pre ++ { tc with size := tc.size + 1 } :: (K ++ [lab]), t, [], 0, ?_, ?_, ?_,
    by simpa using hsz, ?_⟩
  · rw [bump_mid]; simp
  · simp; omega
  · rw [hpar]
    have e : ((pre ++ tc :: K).length : Int) = ((pre.length + 1 + K.length : Nat) : Int) := by
      simp; omega
    rw [e]; exact hfr
  · rcases hty with h1 | h1
    · exact Or.inr ⟨h1, Or.inl ⟨rfl, rfl⟩⟩
    · exact Or.inl ⟨h1, Or.inl ⟨rfl, rfl⟩⟩

/-- The end of the open container: the root is complete, or the superior token
becomes the parent of the Label or Array above it. -/
theorem openAt_end {l : List jsmn_Token} {c : Int} (h : OpenAt l c) {tc : jsmn_Token}
    (h1 : tokAt l c = some tc) :
    (tc.parent = -1 → FilledAt l (-1)) ∧
    (∀ tp, tokAt l tc.parent = some tp → OpenAt l tp.parent ∨ FilledAt l tp.parent) := by
  obtain ⟨pre, tc0, K, k, rfl, rfl, hf, hsz, hK⟩ := h
  rw [tokAt_mid] at h1
  obtain rfl : tc0 = tc := Option.some.inj h1
  obtain ⟨X, hv⟩ := layout_of_kids (n := pre.length) hsz hK
  generalize hs : tc0.parent = s at hf hv
  cases hf with
  | root =>
    refine ⟨fun _ => ⟨[], tc0 :: K, X, rfl, Frames.root, hv, Or.inl rfl⟩, ?_⟩
    intro tp htp
    rw [tokAt_neg (by omega)] at htp
    cases htp
  | arr pre0 t0 K0 k0 hf0 hty0 hsz0 hK0 =>
    refine ⟨fun h => by omega, ?_⟩
    intro tp htp
    have e : (pre0 ++ t0 :: K0) ++ tc0 :: K = pre0 ++ t0 :: (K0 ++ tc0 :: K) := by simp
    rw [e, tokAt_mid] at htp
    obtain rfl : t0 = tp := Option.some.inj htp
    have hK1 := kids_snoc_elem hK0 (layout_cast hv (by simp; omega) rfl rfl)
    obtain ⟨X0, h0⟩ := layout_of_kids hsz0 (Or.inl ⟨hty0, hK1⟩)
    have := frames_fill hf0 h0
    rw [e]
    exact this
  | obj pre0 t0 K0 k0 lab hf0 hty0 hsz0 hK0 hlty hlsz hlpar =>
    refine ⟨fun h => by omega, ?_⟩
    intro tp htp
    have e : (pre0 ++ t0 :: (K0 ++ [lab])) ++ tc0 :: K =
        (pre0 ++ t0 :: K0) ++ lab :: (tc0 :: K) := by simp
    have e2 : ((pre0.length + 1 + K0.length : Nat) : Int) = ((pre0 ++ t0 :: K0).length : Int) := by
      simp; omega
    rw [e, e2, tokAt_mid] at htp
    obtain rfl : lab = tp := Option.some.inj htp
    left
    have hm : Layout Kind.member (pre0.length + 1 + K0.length) (pre0.length : Int)
        (lab :: tc0 :: K) _ 1 :=
      Layout.member _ _ lab (tc0 :: K) X hlty hlsz hlpar
        (layout_cast hv (by simp; omega) rfl rfl)
    refine ⟨pre0, t0, K0 ++ lab :: tc0 :: K, k0 + 1, by simp, hlpar, hf0, hsz0,
      Or.inr ⟨hty0, kids_snoc_member hK0 hm⟩⟩

theorem call_end_type {call : BuilderCall} {ty : jsmntype_t} (h : call_end call = some ty) :
    ty = JSMN_OBJECT ∨ ty = JSMN_ARRAY := by
  cases call <;> simp [call_end] at h
  · exact Or.inl h.symm
  · exact Or.inr h.symm

theorem filledAt_tok {l : List jsmn_Token} {c : Int} (h : FilledAt l c) {tc : jsmn_Token}
    (h1 : tokAt l c = some tc) : tc.type = JSMN_LABEL := by
  obtain ⟨pre, V, X, rfl, hf, hv, hc | ⟨lab, hlab, hlty, _⟩⟩ := h
  · subst hc
    rw [tokAt_neg (by omega)] at h1
    cases h1
  · rw [hlab] at h1
    obtain rfl : lab = tc := Option.some.inj h1
    exact hlty

theorem filledAt_not_object {l : List jsmn_Token} {c : Int} (h : FilledAt l c) :
    in_object l c = false := by
  cases ht : tokAt l c with
  | none => unfold in_object; rw [ht]
  | some tc =>
    rw [in_object_of_tokAt ht, filledAt_tok h ht]
    decide

/-- A successful Builder call keeps the arena built. -/
theorem built_step {l l1 : List jsmn_Token} {cap : Nat} {c c1 : Int} {call : BuilderCall}
    {r : Int} (hb : BuildStep l cap c call r l1 c1) (hr : 0 ≤ r) (h : Built l c) :
    Built l1 c1 := by
  cases hb with
  | failed => exact absurd hr (by decide)
  | append ty name value h1 h2 =>
    have hty := call_simple_type h1
    have hleaf : ∀ n, ∃ X, Layout Kind.value n c [simple_token ty value c] X 1 := by
      intro n
      rcases hty with rfl | rfl
      · exact ⟨_, Layout.str n c _ rfl rfl rfl⟩
      · exact ⟨_, Layout.prim n c _ rfl rfl rfl⟩
    rcases h with ⟨rfl, rfl⟩ | ho | hf | hbr
    · right; right; right; left
      rw [bump_neg_one, List.nil_append]
      refine ⟨by simp, ?_⟩
      rintro ⟨t, rest, ht, htc⟩
      simp only [List.cons.injEq] at ht
      rw [← ht.1] at htc
      rcases hty with rfl | rfl <;> rcases htc with h | h <;> cases h
    · obtain ⟨X, hX⟩ := hleaf l.length
      exact Or.inr (Or.inl (openAt_add_elem ho h2 hX))
    · exact Or.inr (Or.inr (Or.inr (filled_grow hf _ rfl [])))
    · exact Or.inr (Or.inr (Or.inr (broken_grow c _ hbr)))
  | append_named ty nm value h1 h2 =>
    have hty := call_simple_type h1
    rcases h with ⟨rfl, rfl⟩ | ho | hf | hbr
    · exact absurd h2 (by decide)
    · have hv : ∃ X, Layout Kind.value (l.length + 1) (l.length : Int)
          [simple_token ty value (l.length : Int)] X 1 := by
        rcases hty with rfl | rfl
        · exact ⟨_, Layout.str _ _ _ rfl rfl rfl⟩
        · exact ⟨_, Layout.prim _ _ _ rfl rfl rfl⟩
      obtain ⟨X, hX⟩ := hv
      exact Or.inr (Or.inl (openAt_add_member ho h2
        (Layout.member l.length c (built_label nm c) _ X rfl rfl rfl hX)))
    · rw [filledAt_not_object hf] at h2
      cases h2
    · exact Or.inr (Or.inr (Or.inr (broken_grow c _ hbr)))
  | start ty name h1 h2 =>
    have hty := call_start_type h1
    rcases h with ⟨rfl, rfl⟩ | ho | hf | hbr
    · right; left
      rw [bump_neg_one, List.nil_append]
      refine ⟨[], built_cont ty 0 (-1), [], 0, rfl, rfl, Frames.root, rfl, ?_⟩
      rcases hty with rfl | rfl
      · exact Or.inr ⟨rfl, Or.inl ⟨rfl, rfl⟩⟩
      · exact Or.inl ⟨rfl, Or.inl ⟨rfl, rfl⟩⟩
    · exact Or.inr (Or.inl (openAt_start_elem ho h2 _ hty rfl rfl))
    · exact Or.inr (Or.inr (Or.inr (filled_grow hf _ rfl [])))
    · exact Or.inr (Or.inr (Or.inr (broken_grow c _ hbr)))
  | start_named ty nm h1 h2 =>
    have hty := call_start_type h1
    rcases h with ⟨rfl, rfl⟩ | ho | hf | hbr
    · exact absurd h2 (by decide)
    · exact Or.inr (Or.inl (openAt_start_member ho h2 _ _ rfl rfl rfl hty rfl rfl))
    · rw [filledAt_not_object hf] at h2
      cases h2
    · exact Or.inr (Or.inr (Or.inr (broken_grow c _ hbr)))
  | end_root ty tc h1 h2 h3 h4 =>
    rcases h with ⟨rfl, rfl⟩ | ho | hf | hbr
    · rw [tokAt_neg (by omega)] at h2
      cases h2
    · exact Or.inr (Or.inr (Or.inl ((openAt_end ho h2).1 h4)))
    · have := filledAt_tok hf h2
      rw [h3] at this
      rcases call_end_type h1 with h | h <;> rw [h] at this <;> cases this
    · exact Or.inr (Or.inr (Or.inr hbr))
  | end_up ty tc tp h1 h2 h3 h4 h5 =>
    rcases h with ⟨rfl, rfl⟩ | ho | hf | hbr
    · rw [tokAt_neg (by omega)] at h2
      cases h2
    · rcases (openAt_end ho h2).2 tp h4 with h | h
      · exact Or.inr (Or.inl h)
      · exact Or.inr (Or.inr (Or.inl h))
    · have := filledAt_tok hf h2
      rw [h3] at this
      rcases call_end_type h1 with h | h <;> rw [h] at this <;> cases this
    · exact Or.inr (Or.inr (Or.inr hbr))

end Jsmn

namespace Jsmn
open jsmntype_t

/-! ## Round trip (C5) -/

/-- The arena after a sequence of successful Builder calls is built. -/
theorem run_calls_built (cap : Nat) : ∀ (cs : List BuilderCall) (l : List jsmn_Token) (c : Int),
    SupOK l c → ParentsOK l → Built l c →
    ∀ f, run_calls cs ⟨some l, cap, c⟩ = Run.ok (some f) →
      ∃ B c1, f = ⟨some B, cap, c1⟩ ∧ Built B c1 := by
  intro cs
  induction cs with
  | nil =>
    intro l c _ _ hb f hf
    simp only [run_calls, Run.ok.injEq, Option.some.injEq] at hf
    exact ⟨l, c, hf.symm, hb⟩
  | cons call cs ih =>
    intro l c hsup hp hb f hf
    obtain ⟨r, l1, c1, hrun, hstep, _, _⟩ := run_call_step l cap c call hsup hp
    rw [run_calls, hrun] at hf
    simp only at hf
    by_cases hr : r < 0
    · rw [if_pos hr] at hf
      cases hf
    · rw [if_neg hr] at hf
      obtain ⟨hsup1, hp1⟩ := buildStep_inv hstep hsup hp
      exact ih l1 c1 hsup1 hp1 (built_step hstep (by omega) hb) f hf

/-- A built arena that is one tree under a container at index 0 is the layout
of a value. -/
theorem built_layout {B : List jsmn_Token} {c : Int} (h : Built B c) (hroot : IsCont B)
    (hone : children B (-1) = 1) (hlab : LabelSizes B) :
    ∃ X, Layout Kind.value 0 (-1) B X 1 := by
  rcases h with ⟨rfl, _⟩ | ⟨pre, tc, K, k, rfl, _, hf, hsz, hK⟩ | ⟨pre, V, X, rfl, hf, hv, _⟩ |
    ⟨hne, hnc⟩ | h2 | ⟨t, ht, hty, hsz⟩
  · obtain ⟨t, rest, h, _⟩ := hroot
    cases h
  · obtain ⟨X, hv⟩ := layout_of_kids (n := pre.length) hsz hK
    exact frames_close hf _ X hv
  · exact frames_close hf V X hv
  · exact absurd hroot hnc
  · omega
  · obtain ⟨i, hi⟩ := List.get?_of_mem ht
    have := hlab i t hi hty
    omega

theorem isCont_of_shape {T B : List jsmn_Token} (h : T.map shape = B.map shape)
    (hB : IsCont B) : IsCont T := by
  obtain ⟨t, rest, rfl, hty⟩ := hB
  cases T with
  | nil => simp at h
  | cons t1 rest1 =>
    simp only [List.map_cons, List.cons.injEq, shape, Prod.mk.injEq] at h
    exact ⟨t1, rest1, rfl, by rw [h.1.1]; exact hty⟩

/-- C5 (amended). Take any sequence of Builder calls that all succeed on a
fresh arena, and let `B` be the tokens it leaves.  If token 0 is an Object or
an Array and the only token without parent, every Label has size 1, the bytes
of every Primitive are a primitive the scan accepts and the bytes of every
String and Label are a string body the scan walks through, then `jsmn_dump` on
token 0 returns the number of tokens, and the parse of the emitted text into a
fresh arena with room for the tokens succeeds, returns the same number of
tokens and gives tokens with, index by index, the same type, size and
parent. -/
theorem round_trip_amended (cs : List BuilderCall) (cap : Nat) (B : List jsmn_Token) (c : Int)
    (cap2 fuel : Nat)
    (hrun : run_calls cs (jsmn_factory_init true cap) = Run.ok (some ⟨some B, cap, c⟩))
    (hroot : IsCont B) (hone : children B (-1) = 1) (hlab : LabelSizes B)
    (hleaf : ∀ t ∈ B, LeafOK t) (hcap2 : B.length ≤ cap2) (hfuel : B.length < fuel) :
    ∃ (out : List (List Nat)) (T : List jsmn_Token),
      jsmn_dump [] B fuel 0 = Run.ok (out, (B.length : Int)) ∧
      jsmn_parse (jsmn_parser_init true cap2) out.flatten out.flatten.length =
        Run.ok ((B.length : Int), ⟨⟨some T, cap2, -1⟩, out.flatten.length⟩) ∧
      T.map shape = B.map shape := by
  obtain ⟨B1, c1, hf, hb⟩ := run_calls_built cap cs [] (-1) (Or.inl rfl)
    (by intro i t hi; simp at hi) (Or.inl ⟨rfl, rfl⟩) _ hrun
  simp only [jsmn_Factory.mk.injEq, Option.some.injEq, true_and] at hf
  obtain ⟨rfl, rfl⟩ := hf
  obtain ⟨X, hX⟩ := built_layout hb hroot hone hlab
  obtain ⟨out, hd, hfl⟩ := layout_dump hX B fuel ⟨[], [], by simp, rfl⟩ hfuel
  obtain ⟨T, hT, hsh⟩ := layout_gram hX hleaf 0
  have hlen := map_shape_length hsh
  have hp := parse_text (fun _ h => h) (fun _ h => h) (gram_item_plain hT)
    (isCont_of_shape hsh hroot) cap2 (by rw [hlen]; exact hcap2)
  refine ⟨out, T.map resolve_token, by simpa using hd, ?_, ?_⟩
  · rw [hfl, ← hlen]; exact hp
  · rw [map_shape_resolve]; exact hsh

/-- C5 (as stated) fails.  On a fresh arena each of these sequences of Builder
calls succeeds, and the round trip of the tokens it leaves fails:
`jsmn_append_primitive(NULL, "1")` leaves one Primitive, `jsmn_dump` on token 0
emits `1`, and the parse fails with `JSMN_ERROR_PART`;
`jsmn_start_object(NULL)`, `jsmn_end_object()` twice leaves two Objects,
`jsmn_dump` on token 0 emits `{}` and returns 1, and the parse returns 1, not 2;
`jsmn_start_array(NULL)`, `jsmn_append_string(NULL, "\"")` leaves two tokens,
`jsmn_dump` emits `["""]`, and the parse fails with `JSMN_ERROR_PART`;
`jsmn_start_array(NULL)`, `jsmn_append_primitive(NULL, "x")` leaves two tokens,
`jsmn_dump` emits `[x]`, and the parse fails with `JSMN_ERROR_INVAL`;
`jsmn_start_object(NULL)`, `jsmn_start_array("k")`, `jsmn_start_array(NULL)`,
`jsmn_end_array()`, `jsmn_append_string(NULL, "x")` leaves five tokens, the
Label with size 2, `jsmn_dump` on token 0 emits `{"k":[[]]}` and returns 4, and
the parse returns 4, not 5. -/
theorem round_trip_counterexample :
    (run_calls [BuilderCall.append_primitive none (some [49])] (jsmn_factory_init true 1) =
        Run.ok (some ⟨some [built_leaf (-1) (Leaf.prim [49])], 1, -1⟩) ∧
      jsmn_dump [] [built_leaf (-1) (Leaf.prim [49])] 2 0 = Run.ok ([[49]], 1) ∧
      jsmn_parse (jsmn_parser_init true 1) [49] 1 =
        Run.ok (JSMN_ERROR_PART, ⟨⟨some [], 1, -1⟩, 0⟩)) ∧
    (run_calls [BuilderCall.start_object none, BuilderCall.end_object,
          BuilderCall.start_object none, BuilderCall.end_object] (jsmn_factory_init true 2) =
        Run.ok (some ⟨some [built_cont JSMN_OBJECT 0 (-1), built_cont JSMN_OBJECT 0 (-1)],
          2, -1⟩) ∧
      jsmn_dump [] [built_cont JSMN_OBJECT 0 (-1), built_cont JSMN_OBJECT 0 (-1)] 3 0 =
        Run.ok ([[123], [125]], 1) ∧
      jsmn_parse (jsmn_parser_init true 2) [123, 125] 2 =
        Run.ok (1, ⟨⟨some [closed_token JSMN_OBJECT 0 2 0 (-1)], 2, -1⟩, 2⟩)) ∧
    (run_calls [BuilderCall.start_array none, BuilderCall.append_string none (some [34])]
          (jsmn_factory_init true 2) =
        Run.ok (some ⟨some [built_cont JSMN_ARRAY 1 (-1),
          simple_token JSMN_STRING (some [34]) 0], 2, 0⟩) ∧
      jsmn_dump [] [built_cont JSMN_ARRAY 1 (-1), simple_token JSMN_STRING (some [34]) 0] 3 0 =
        Run.ok ([[91], [34], [34], [34], [93]], 2) ∧
      ∃ p, jsmn_parse (jsmn_parser_init true 2) [91, 34, 34, 34, 93] 5 =
        Run.ok (JSMN_ERROR_PART, p)) ∧
    (run_calls [BuilderCall.start_array none, BuilderCall.append_primitive none (some [120])]
          (jsmn_factory_init true 2) =
        Run.ok (some ⟨some [built_cont JSMN_ARRAY 1 (-1),
          simple_token JSMN_PRIMITIVE (some [120]) 0], 2, 0⟩) ∧
      jsmn_dump [] [built_cont JSMN_ARRAY 1 (-1),
          simple_token JSMN_PRIMITIVE (some [120]) 0] 3 0 =
        Run.ok ([[91], [120], [93]], 2) ∧
      ∃ p, jsmn_parse (jsmn_parser_init true 2) [91, 120, 93] 3 =
        Run.ok (JSMN_ERROR_INVAL, p)) ∧
    (run_calls [BuilderCall.start_object none, BuilderCall.start_array (some [107]),
          BuilderCall.start_array none, BuilderCall.end_array,
          BuilderCall.append_string none (some [120])] (jsmn_factory_init true 5) =
        Run.ok (some ⟨some [built_cont JSMN_OBJECT 1 (-1),
          { built_label [107] 0 with size := 2 }, built_cont JSMN_ARRAY 1 1,
          built_cont JSMN_ARRAY 0 2, simple_token JSMN_STRING (some [120]) 1], 5, 1⟩) ∧
      jsmn_dump [] [built_cont JSMN_OBJECT 1 (-1),
          { built_label [107] 0 with size := 2 }, built_cont JSMN_ARRAY 1 1,
          built_cont JSMN_ARRAY 0 2, simple_token JSMN_STRING (some [120]) 1] 6 0 =
        Run.ok ([[123], [34], [107], [34, 58], [91], [91], [93], [93], [125]], 4) ∧
      ∃ p, jsmn_parse (jsmn_parser_init true 5) [123, 34, 107, 34, 58, 91, 91, 93, 93, 125] 10 =
        Run.ok (4, p)) := by
  refine ⟨⟨rfl, rfl, rfl⟩, ⟨rfl, rfl, rfl⟩, ⟨rfl, rfl, _, rfl⟩, ⟨rfl, rfl, _, rfl⟩,
    ⟨rfl, rfl, _, rfl⟩⟩

/-- Witness of C5 (amended): `jsmn_start_object("r")` (a name at the root),
`jsmn_append_string("k", NULL)`, the Object not ended; the text is
`{"k":""}`. -/
theorem round_trip_amended_witness :
    ∃ (out : List (List Nat)) (T : List jsmn_Token),
      jsmn_dump [] [built_cont JSMN_OBJECT 1 (-1), built_label [107] 0,
          simple_token JSMN_STRING none 1] 4 0 =
        Run.ok (out, (([built_cont JSMN_OBJECT 1 (-1), built_label [107] 0,
          simple_token JSMN_STRING none 1] : List jsmn_Token).length : Int)) ∧
      jsmn_parse (jsmn_parser_init true 3) out.flatten out.flatten.length =
        Run.ok ((([built_cont JSMN_OBJECT 1 (-1), built_label [107] 0,
          simple_token JSMN_STRING none 1] : List jsmn_Token).length : Int),
          ⟨⟨some T, 3, -1⟩, out.flatten.length⟩) ∧
      T.map shape = ([built_cont JSMN_OBJECT 1 (-1), built_label [107] 0,
          simple_token JSMN_STRING none 1] : List jsmn_Token).map shape :=
  round_trip_amended
    [BuilderCall.start_object (some [114]), BuilderCall.append_string (some [107]) none] 3
    [built_cont JSMN_OBJECT 1 (-1), built_label [107] 0, simple_token JSMN_STRING none 1] 0 3 4
    rfl ⟨_, _, rfl, Or.inl rfl⟩ rfl
    (by
      intro i t hi hty
      have hm := List.get?_mem hi
      simp only [List.mem_cons, List.mem_singleton, List.not_mem_nil, or_false] at hm
      rcases hm with rfl | rfl | rfl
      · exact absurd hty (by decide)
      · rfl
      · exact absurd hty (by decide))
    (by
      intro t ht
      simp only [List.mem_cons, List.mem_singleton, List.not_mem_nil, or_false] at ht
      rcases ht with rfl | rfl | rfl
      · exact ⟨fun h => absurd h (by decide), fun h => absurd h (by decide)⟩
      · exact ⟨fun h => absurd h (by decide),
          fun _ => StrItems.plain 107 [] (by decide) StrItems.nil⟩
      · exact ⟨fun h => absurd h (by decide), fun _ => StrItems.nil⟩)
    (by decide) (by decide)

end Jsmn

